import Mathlib

/-!
AIOS kernel heap (Kernel/OSMemory.c): shallow embedding and verification.

The heap of AIOS is a byte arena that holds a chain of block headers
(`tOSMem_t`), addressed by their offset from `gpOSMemBegin`.

Modelling decisions, all visible in the definitions below:

* Addresses and offsets are natural numbers.  `OS_NULL` is address 0.
* The target is a 32-bit machine (`OSMEM_ALIGN_ADDR` casts a pointer to
  `uOS32_t`): `int`, `size_t` and pointer differences are computed modulo
  `2 ^ 32`, and a value stored in a `uOSMemSize_t` is reduced modulo
  `2 ^ 16` or `2 ^ 32`, as the type is chosen in OSMemory.h.
* Memory is a map from an address to the header stored there.  Two headers
  of a well formed heap never share a byte, so a write to one header leaves
  the others as they were.  Headers that share bytes arise after an
  `OSMemCalloc` whose byte count overflows; for such heaps the functions are
  given a second time, on bytes, in the namespace `Bytewise`.
* The two loops of `OSMemMalloc` take a fuel argument and return `none`
  when it runs out; `some r` means that the C function returns `r`.
* `OS_ENTER_CRITICAL` and `OS_EXIT_CRITICAL` are not modelled: every
  function below is one atomic step.
-/

namespace AIOS

/-! ## Configuration (OSType.h, OSMemory.h, the top of OSMemory.c) -/

/-- Build configuration of the heap: the preprocessor constants and the two
facts about the target that the C code depends on (the size of a header and
the address of the arena). -/
structure Config where
  /-- Macro `OSMEM_ALIGNMENT` (OSType.h: `FITBYTE_ALIGNMENT`, or 4). -/
  OSMEM_ALIGNMENT : Nat
  /-- Macro `OSTOTAL_HEAP_SIZE` (OSType.h: `SETOS_TOTAL_HEAP_SIZE`, or 512);
  OSMemory.h names it `OSMEM_SIZE`. -/
  OSTOTAL_HEAP_SIZE : Nat
  /-- Macro `MIN_SIZE` (OSMemory.c: 16 unless overridden). -/
  MIN_SIZE : Nat
  /-- Value of `sizeof(tOSMem_t)` on the target. -/
  sizeof_tOSMem : Nat
  /-- Address of the arena, `OSRAM_HEAP_POINTER` (the array `OSRamHeap`). -/
  OSRAM_HEAP_POINTER : Nat

/-- The null pointer `OS_NULL`. -/
def OS_NULL : Nat := 0

/-- Macro `OSMEM_SIZE` of OSMemory.h. -/
def OSMEM_SIZE (cfg : Config) : Nat := cfg.OSTOTAL_HEAP_SIZE

/-- Number of bits of `uOSMemSize_t`: OSMemory.h picks `uOS32_t` when
`OSMEM_SIZE > 64000L` and `uOS16_t` otherwise. -/
def uOSMemSize_bits (cfg : Config) : Nat :=
  if OSMEM_SIZE cfg > 64000 then 32 else 16

/-- Conversion of an integer value to `uOSMemSize_t` (assignment or cast). -/
def uOSMemSize_t (cfg : Config) (x : Nat) : Nat := x % 2 ^ uOSMemSize_bits cfg

/-- Macro `OSMEM_ALIGN_SIZE(size)`:
`(((size) + OSMEM_ALIGNMENT - 1) & ~(OSMEM_ALIGNMENT-1))`, computed in 32-bit
arithmetic; `2 ^ 32 - 1 - m` is the 32-bit complement of `m`. -/
def OSMEM_ALIGN_SIZE (cfg : Config) (size : Nat) : Nat :=
  ((size + cfg.OSMEM_ALIGNMENT - 1) % 2 ^ 32) &&& (2 ^ 32 - 1 - (cfg.OSMEM_ALIGNMENT - 1))

/-- Macro `OSMEM_ALIGN_ADDR(addr)`: the same rounding, applied to an address
cast to `uOS32_t`. -/
def OSMEM_ALIGN_ADDR (cfg : Config) (addr : Nat) : Nat :=
  ((addr + cfg.OSMEM_ALIGNMENT - 1) % 2 ^ 32) &&& (2 ^ 32 - 1 - (cfg.OSMEM_ALIGNMENT - 1))

/-- Macro `OSMIN_SIZE_ALIGNED`. -/
def OSMIN_SIZE_ALIGNED (cfg : Config) : Nat := OSMEM_ALIGN_SIZE cfg cfg.MIN_SIZE

/-- Macro `SIZEOF_OSMEM_ALIGNED`. -/
def SIZEOF_OSMEM_ALIGNED (cfg : Config) : Nat := OSMEM_ALIGN_SIZE cfg cfg.sizeof_tOSMem

/-- Macro `OSMEM_SIZE_ALIGNED`. -/
def OSMEM_SIZE_ALIGNED (cfg : Config) : Nat := OSMEM_ALIGN_SIZE cfg (OSMEM_SIZE cfg)

/-- Number of bytes of the array `OSRamHeap`:
`OSMEM_SIZE_ALIGNED + (2U*SIZEOF_OSMEM_ALIGNED) + OSMEM_ALIGNMENT`. -/
def OSRamHeap_size (cfg : Config) : Nat :=
  OSMEM_SIZE_ALIGNED cfg + 2 * SIZEOF_OSMEM_ALIGNED cfg + cfg.OSMEM_ALIGNMENT

/-- Subtraction of 32-bit unsigned values (`size_t`, pointer difference). -/
def sub32 (a b : Nat) : Nat := (a + 2 ^ 32 - b % 2 ^ 32) % 2 ^ 32

/-- What a sound build configuration satisfies: the alignment is a power of
two, the header and the minimum block are not empty, rounding a configured
size up does not wrap around, the heap has room for one block, every offset
fits `uOSMemSize_t`, the arena does not start at address 0 and lies inside
the 32-bit address space, and the sum of a payload size, a header size and the
minimum block size (lines 298 and 389) does not overflow. -/
def Config.WF (cfg : Config) : Prop :=
  cfg.OSMEM_ALIGNMENT ∈ (List.range 32).map (fun k => 2 ^ k) ∧
  0 < cfg.sizeof_tOSMem ∧
  cfg.sizeof_tOSMem ≤ SIZEOF_OSMEM_ALIGNED cfg ∧
  0 < cfg.MIN_SIZE ∧
  cfg.MIN_SIZE ≤ OSMIN_SIZE_ALIGNED cfg ∧
  SIZEOF_OSMEM_ALIGNED cfg + OSMIN_SIZE_ALIGNED cfg ≤ OSMEM_SIZE_ALIGNED cfg ∧
  OSMEM_SIZE cfg ≤ OSMEM_SIZE_ALIGNED cfg ∧
  OSMEM_SIZE_ALIGNED cfg < 2 ^ uOSMemSize_bits cfg ∧
  0 < cfg.OSRAM_HEAP_POINTER ∧
  cfg.OSRAM_HEAP_POINTER + OSRamHeap_size cfg ≤ 2 ^ 32 ∧
  OSMEM_SIZE_ALIGNED cfg + OSMIN_SIZE_ALIGNED cfg < 2 ^ 32

instance (cfg : Config) : Decidable cfg.WF := by
  unfold Config.WF; infer_instance

/-! ## Heap state -/

/-- Block header `struct _tOSMem`. -/
structure tOSMem where
  /-- Offset of the next header. -/
  NextMem : Nat
  /-- Offset of the previous header. -/
  PrevMem : Nat
  /-- Flag: 1 when the block is used, 0 when it is free. -/
  Used : Nat
deriving DecidableEq, Repr

/-- The three static pointers of OSMemory.c and the headers held in memory,
each under the address it is stored at. -/
structure Heap where
  /-- Static `gpOSMemBegin`: the aligned start of the arena. -/
  gpOSMemBegin : Nat
  /-- Static `gpOSMemEnd`: address of the end header. -/
  gpOSMemEnd : Nat
  /-- Static `gpOSMemLFree`: address of the lowest free header. -/
  gpOSMemLFree : Nat
  /-- Header read at each address. -/
  mem : Nat → tOSMem

/-- Store `p->NextMem = v`. -/
def Heap.setNextMem (s : Heap) (p v : Nat) : Heap :=
  { s with mem := fun a => if a = p then { s.mem p with NextMem := v } else s.mem a }

/-- Store `p->PrevMem = v`. -/
def Heap.setPrevMem (s : Heap) (p v : Nat) : Heap :=
  { s with mem := fun a => if a = p then { s.mem p with PrevMem := v } else s.mem a }

/-- Store `p->Used = v`. -/
def Heap.setUsed (s : Heap) (p v : Nat) : Heap :=
  { s with mem := fun a => if a = p then { s.mem p with Used := v } else s.mem a }

/-- Assignment `gpOSMemLFree = p`. -/
def Heap.setLFree (s : Heap) (p : Nat) : Heap :=
  { s with gpOSMemLFree := p }

/-- Expression `(uOSMemSize_t)((uOS8_t *)p - gpOSMemBegin)`: the offset of the
address `p`. -/
def offsetOf (cfg : Config) (s : Heap) (p : Nat) : Nat :=
  uOSMemSize_t cfg (sub32 p s.gpOSMemBegin)

/-- State at program start: the statics are `OS_NULL` and memory is zero. -/
def startState : Heap :=
  { gpOSMemBegin := OS_NULL, gpOSMemEnd := OS_NULL, gpOSMemLFree := OS_NULL,
    mem := fun _ => ⟨0, 0, 0⟩ }

/-! ## The functions of OSMemory.c -/

/-- Function `OSMemCombine(ptOSMem)` (OSMemory.c lines 100-136). -/
def OSMemCombine (cfg : Config) (s : Heap) (ptOSMem : Nat) : Heap :=
  if (s.mem ptOSMem).Used = 1 then s
  else
    -- Combine forward
    let ptNextOSMem := s.gpOSMemBegin + (s.mem ptOSMem).NextMem
    let s1 :=
      if ptOSMem ≠ ptNextOSMem ∧ (s.mem ptNextOSMem).Used = 0 ∧ ptNextOSMem ≠ s.gpOSMemEnd then
        let sa := if s.gpOSMemLFree = ptNextOSMem then s.setLFree ptOSMem else s
        let sb := sa.setNextMem ptOSMem (sa.mem ptNextOSMem).NextMem
        sb.setPrevMem (sb.gpOSMemBegin + (sb.mem ptNextOSMem).NextMem) (offsetOf cfg sb ptOSMem)
      else s
    -- Combine backward
    let ptPrevOSMem := s1.gpOSMemBegin + (s1.mem ptOSMem).PrevMem
    if ptPrevOSMem ≠ ptOSMem ∧ (s1.mem ptPrevOSMem).Used = 0 then
      let sa := if s1.gpOSMemLFree = ptOSMem then s1.setLFree ptPrevOSMem else s1
      let sb := sa.setNextMem ptPrevOSMem (sa.mem ptOSMem).NextMem
      sb.setPrevMem (sb.gpOSMemBegin + (sb.mem ptOSMem).NextMem) (offsetOf cfg sb ptPrevOSMem)
    else s1

/-- Function `OSMemInit()` (OSMemory.c lines 145-166). -/
def OSMemInit (cfg : Config) (s : Heap) : Heap :=
  let s1 := { s with gpOSMemBegin := OSMEM_ALIGN_ADDR cfg cfg.OSRAM_HEAP_POINTER }
  let ptOSMemTemp := s1.gpOSMemBegin
  let s2 := s1.setNextMem ptOSMemTemp (uOSMemSize_t cfg (OSMEM_SIZE_ALIGNED cfg))
  let s3 := s2.setPrevMem ptOSMemTemp 0
  let s4 := s3.setUsed ptOSMemTemp 0
  let s5 := { s4 with gpOSMemEnd := s4.gpOSMemBegin + OSMEM_SIZE_ALIGNED cfg }
  let s6 := s5.setUsed s5.gpOSMemEnd 1
  let s7 := s6.setNextMem s6.gpOSMemEnd (uOSMemSize_t cfg (OSMEM_SIZE_ALIGNED cfg))
  let s8 := s7.setPrevMem s7.gpOSMemEnd (uOSMemSize_t cfg (OSMEM_SIZE_ALIGNED cfg))
  s8.setLFree s8.gpOSMemBegin

/-- Function `OSMemFree(pMem)` (OSMemory.c lines 176-211). -/
def OSMemFree (cfg : Config) (s : Heap) (pMem : Nat) : Heap :=
  if pMem = OS_NULL then s
  else if pMem < s.gpOSMemBegin ∨ pMem ≥ s.gpOSMemEnd then s
  else
    let ptOSMemTemp := pMem - SIZEOF_OSMEM_ALIGNED cfg
    if (s.mem ptOSMemTemp).Used = 1 then
      let s1 := s.setUsed ptOSMemTemp 0
      let s2 := if ptOSMemTemp < s1.gpOSMemLFree then s1.setLFree ptOSMemTemp else s1
      OSMemCombine cfg s2 ptOSMemTemp
    else s

/-- Function `OSMemTrim(pMem, newsize)` (OSMemory.c lines 224-330): the new
state and the returned pointer. -/
def OSMemTrim (cfg : Config) (s : Heap) (pMem newsize : Nat) : Heap × Nat :=
  let newsize1 := uOSMemSize_t cfg (OSMEM_ALIGN_SIZE cfg newsize)
  let newsize := if newsize1 < OSMIN_SIZE_ALIGNED cfg then OSMIN_SIZE_ALIGNED cfg else newsize1
  if newsize > OSMEM_SIZE_ALIGNED cfg then (s, OS_NULL)
  else if pMem < s.gpOSMemBegin ∨ pMem ≥ s.gpOSMemEnd then (s, pMem)
  else
    let ptOSMemTemp := pMem - SIZEOF_OSMEM_ALIGNED cfg
    let ptr := offsetOf cfg s ptOSMemTemp
    let size := uOSMemSize_t cfg
      (sub32 (sub32 (s.mem ptOSMemTemp).NextMem ptr) (SIZEOF_OSMEM_ALIGNED cfg))
    if newsize > size then (s, OS_NULL)
    else if newsize = size then (s, pMem)
    else
      let ptOSMemTemp2 := s.gpOSMemBegin + (s.mem ptOSMemTemp).NextMem
      if (s.mem ptOSMemTemp2).Used = 0 then
        let NextMem := (s.mem ptOSMemTemp2).NextMem
        let ptr2 := uOSMemSize_t cfg (ptr + SIZEOF_OSMEM_ALIGNED cfg + newsize)
        let s1 := if s.gpOSMemLFree = ptOSMemTemp2 then s.setLFree (s.gpOSMemBegin + ptr2) else s
        let ptOSMemTemp2 := s1.gpOSMemBegin + ptr2
        let s2 := s1.setUsed ptOSMemTemp2 0
        let s3 := s2.setNextMem ptOSMemTemp2 NextMem
        let s4 := s3.setPrevMem ptOSMemTemp2 ptr
        let s5 := s4.setNextMem ptOSMemTemp ptr2
        let s6 :=
          if (s5.mem ptOSMemTemp2).NextMem ≠ OSMEM_SIZE_ALIGNED cfg then
            s5.setPrevMem (s5.gpOSMemBegin + (s5.mem ptOSMemTemp2).NextMem) ptr2
          else s5
        (s6, pMem)
      else if (newsize + SIZEOF_OSMEM_ALIGNED cfg + OSMIN_SIZE_ALIGNED cfg) % 2 ^ 32 ≤ size then
        let ptr2 := uOSMemSize_t cfg (ptr + SIZEOF_OSMEM_ALIGNED cfg + newsize)
        let ptOSMemTemp2 := s.gpOSMemBegin + ptr2
        let s1 := if ptOSMemTemp2 < s.gpOSMemLFree then s.setLFree ptOSMemTemp2 else s
        let s2 := s1.setUsed ptOSMemTemp2 0
        let s3 := s2.setNextMem ptOSMemTemp2 (s2.mem ptOSMemTemp).NextMem
        let s4 := s3.setPrevMem ptOSMemTemp2 ptr
        let s5 := s4.setNextMem ptOSMemTemp ptr2
        let s6 :=
          if (s5.mem ptOSMemTemp2).NextMem ≠ OSMEM_SIZE_ALIGNED cfg then
            s5.setPrevMem (s5.gpOSMemBegin + (s5.mem ptOSMemTemp2).NextMem) ptr2
          else s5
        (s6, pMem)
      else (s, pMem)

/-- Inner loop of `OSMemMalloc` (lines 426-429):
`while (gpOSMemLFree->Used && gpOSMemLFree != gpOSMemEnd)` move
`gpOSMemLFree` to the next header. -/
def OSMemMalloc_lfree : Nat → Heap → Option Heap
  | 0, _ => none
  | fuel + 1, s =>
    if (s.mem s.gpOSMemLFree).Used ≠ 0 ∧ s.gpOSMemLFree ≠ s.gpOSMemEnd then
      OSMemMalloc_lfree fuel (s.setLFree (s.gpOSMemBegin + (s.mem s.gpOSMemLFree).NextMem))
    else some s

/-- Body of the scan loop of `OSMemMalloc` once the block at offset `ptr` has
passed the test of line 384 (lines 389-421): split the block, or take it
whole. -/
def OSMemMalloc_take (cfg : Config) (s : Heap) (ptr size : Nat) : Heap :=
  let ptOSMemTemp := s.gpOSMemBegin + ptr
  if sub32 (s.mem ptOSMemTemp).NextMem (ptr + SIZEOF_OSMEM_ALIGNED cfg) ≥
      (size + SIZEOF_OSMEM_ALIGNED cfg + OSMIN_SIZE_ALIGNED cfg) % 2 ^ 32 then
    let ptr2 := uOSMemSize_t cfg (ptr + SIZEOF_OSMEM_ALIGNED cfg + size)
    let ptOSMemTemp2 := s.gpOSMemBegin + ptr2
    let s1 := s.setUsed ptOSMemTemp2 0
    let s2 := s1.setNextMem ptOSMemTemp2 (s1.mem ptOSMemTemp).NextMem
    let s3 := s2.setPrevMem ptOSMemTemp2 ptr
    let s4 := s3.setNextMem ptOSMemTemp ptr2
    let s5 := s4.setUsed ptOSMemTemp 1
    if (s5.mem ptOSMemTemp2).NextMem ≠ OSMEM_SIZE_ALIGNED cfg then
      s5.setPrevMem (s5.gpOSMemBegin + (s5.mem ptOSMemTemp2).NextMem) ptr2
    else s5
  else
    s.setUsed ptOSMemTemp 1

/-- Scan loop of `OSMemMalloc` (lines 379-434), entered with the loop variable
`ptr`: the new state and the value of `pResult` at the end of the loop. -/
def OSMemMalloc_scan (cfg : Config) (size : Nat) : Nat → Heap → Nat → Option (Heap × Nat)
  | 0, _, _ => none
  | fuel + 1, s, ptr =>
    if ptr < OSMEM_SIZE_ALIGNED cfg - size then
      let ptOSMemTemp := s.gpOSMemBegin + ptr
      if (s.mem ptOSMemTemp).Used = 0 ∧
          sub32 (s.mem ptOSMemTemp).NextMem (ptr + SIZEOF_OSMEM_ALIGNED cfg) ≥ size then
        let s1 := OSMemMalloc_take cfg s ptr size
        if ptOSMemTemp = s1.gpOSMemLFree then
          match OSMemMalloc_lfree fuel s1 with
          | none => none
          | some s2 => some (s2, ptOSMemTemp + SIZEOF_OSMEM_ALIGNED cfg)
        else some (s1, ptOSMemTemp + SIZEOF_OSMEM_ALIGNED cfg)
      else OSMemMalloc_scan cfg size fuel s (s.mem ptOSMemTemp).NextMem
    else some (s, OS_NULL)

/-- Function `OSMemMalloc(size)` (OSMemory.c lines 340-439): the new state and
the returned pointer, or `none` when a loop has not ended within `fuel`
iterations. -/
def OSMemMalloc (cfg : Config) (fuel : Nat) (s : Heap) (size : Nat) : Option (Heap × Nat) :=
  let s0 := if s.gpOSMemEnd = OS_NULL then OSMemInit cfg s else s
  if s0.gpOSMemEnd = OS_NULL then some (s0, OS_NULL)
  else if size = 0 then some (s0, OS_NULL)
  else
    let size1 := uOSMemSize_t cfg (OSMEM_ALIGN_SIZE cfg size)
    let size2 := if size1 < OSMIN_SIZE_ALIGNED cfg then OSMIN_SIZE_ALIGNED cfg else size1
    if size2 > OSMEM_SIZE_ALIGNED cfg then some (s0, OS_NULL)
    else OSMemMalloc_scan cfg size2 fuel s0 (offsetOf cfg s0 s0.gpOSMemLFree)

/-- Library call `memset(p, 0, len)` as the headers see it: a header whose
`sizeof(tOSMem_t)` bytes all lie in the zeroed range reads as zero afterwards.
A header that the range covers only in part is left as it was; the range of a
call that stays inside the payload of its block covers no byte of a header of
the chain. -/
def memset_zero (cfg : Config) (s : Heap) (p len : Nat) : Heap :=
  { s with mem := fun a =>
      if p ≤ a ∧ a + cfg.sizeof_tOSMem ≤ p + len then ⟨0, 0, 0⟩ else s.mem a }

/-- Function `OSMemCalloc(count, size)` (OSMemory.c lines 451-463).  The
product `count * size` is converted to `uOSMemSize_t` for `OSMemMalloc` and to
`size_t` for `memset`. -/
def OSMemCalloc (cfg : Config) (fuel : Nat) (s : Heap) (count size : Nat) :
    Option (Heap × Nat) :=
  match OSMemMalloc cfg fuel s (uOSMemSize_t cfg (count * size)) with
  | none => none
  | some (s1, pMem) =>
    if pMem ≠ OS_NULL then some (memset_zero cfg s1 pMem ((count * size) % 2 ^ 32), pMem)
    else some (s1, pMem)

/-! ## Configurations used in the examples -/

/-- Default build: OSType.h gives alignment 4 and a heap of 512 bytes,
OSMemory.c a minimum block of 16; `uOSMemSize_t` is `uOS16_t`, so a header
has 2 + 2 + 1 bytes and one byte of padding. -/
def defaultConfig : Config :=
  { OSMEM_ALIGNMENT := 4, OSTOTAL_HEAP_SIZE := 512, MIN_SIZE := 16, sizeof_tOSMem := 6,
    OSRAM_HEAP_POINTER := 4096 }

/-- Sizing of the scenario of the specification: alignment 4, header size 8,
minimum block 16, heap capacity 64. -/
def smallConfig : Config :=
  { OSMEM_ALIGNMENT := 4, OSTOTAL_HEAP_SIZE := 64, MIN_SIZE := 16, sizeof_tOSMem := 6,
    OSRAM_HEAP_POINTER := 4096 }

/-! ## Vocabulary of the properties -/

/-- Field `NextMem` of the header at offset `o`. -/
def nextOf (s : Heap) (o : Nat) : Nat := (s.mem (s.gpOSMemBegin + o)).NextMem

/-- Field `PrevMem` of the header at offset `o`. -/
def prevOf (s : Heap) (o : Nat) : Nat := (s.mem (s.gpOSMemBegin + o)).PrevMem

/-- Field `Used` of the header at offset `o`. -/
def usedOf (s : Heap) (o : Nat) : Nat := (s.mem (s.gpOSMemBegin + o)).Used

/-- Payload capacity of the block at offset `o`:
`NextMem - offset - SIZEOF_OSMEM_ALIGNED`. -/
def capacityOf (cfg : Config) (s : Heap) (o : Nat) : Nat :=
  nextOf s o - o - SIZEOF_OSMEM_ALIGNED cfg

/-- Offsets met when `NextMem` is followed from offset 0; the walk stops at
the end header, whose offset is `OSMEM_SIZE_ALIGNED`. -/
inductive InChain (cfg : Config) (s : Heap) : Nat → Prop
  | first : InChain cfg s 0
  | step {o : Nat} : InChain cfg s o → o ≠ OSMEM_SIZE_ALIGNED cfg → InChain cfg s (nextOf s o)

/-- Blocks of the chain: the offsets of the walk other than the end header. -/
def IsBlock (cfg : Config) (s : Heap) (o : Nat) : Prop :=
  InChain cfg s o ∧ o ≠ OSMEM_SIZE_ALIGNED cfg

/-- Walk of the chain written out: `ChainFrom cfg s prev o l` holds when `l`
lists the offsets of the blocks from `o` up to the end header, each block
lies strictly below its `NextMem`, no `NextMem` passes the end header, and
each `PrevMem` is the offset of the block before (`prev` for the first). -/
def ChainFrom (cfg : Config) (s : Heap) : Nat → Nat → List Nat → Prop
  | _, o, [] => o = OSMEM_SIZE_ALIGNED cfg
  | prev, o, b :: l =>
    b = o ∧ o < OSMEM_SIZE_ALIGNED cfg ∧ o < nextOf s o ∧
    nextOf s o ≤ OSMEM_SIZE_ALIGNED cfg ∧ prevOf s o = prev ∧
    ChainFrom cfg s o (nextOf s o) l

/-- Chain invariant: the blocks from offset 0 tile the heap up to the end
header and are linked both ways. -/
def ChainInvariant (cfg : Config) (s : Heap) : Prop :=
  ∃ l : List Nat, ChainFrom cfg s 0 0 l

/-- No free block of the chain is followed by a free header. -/
def NoAdjacentFree (cfg : Config) (s : Heap) : Prop :=
  ∀ o, IsBlock cfg s o → usedOf s o = 0 → usedOf s (nextOf s o) ≠ 0

/-- The static `gpOSMemLFree` points at the free block of the chain with the
smallest offset, or at the end header when the chain has no free block. -/
def LowestFree (cfg : Config) (s : Heap) : Prop :=
  ∃ lf, s.gpOSMemLFree = s.gpOSMemBegin + lf ∧
    ((IsBlock cfg s lf ∧ usedOf s lf = 0 ∧
        ∀ o, IsBlock cfg s o → usedOf s o = 0 → lf ≤ o) ∨
     (lf = OSMEM_SIZE_ALIGNED cfg ∧ ∀ o, IsBlock cfg s o → usedOf s o ≠ 0))

/-- Pointers that `OSMemFree` and `OSMemTrim` leave alone: null, below
`gpOSMemBegin`, or at or above `gpOSMemEnd`. -/
def Ignored (s : Heap) (p : Nat) : Prop :=
  p = OS_NULL ∨ p < s.gpOSMemBegin ∨ p ≥ s.gpOSMemEnd

/-- Heap states that call sequences produce from the state after
`OSMemInit`, each with the set of live pointers: those returned by
`OSMemMalloc` or `OSMemCalloc` and not freed since.  `OSMemFree` and
`OSMemTrim` are called on live or ignored pointers only, and `OSMemCalloc`
with arguments that `callocArgs` admits. -/
inductive Reachable (cfg : Config) (callocArgs : Nat → Nat → Prop) : Heap → Set Nat → Prop
  | init (s0 : Heap) : Reachable cfg callocArgs (OSMemInit cfg s0) ∅
  | malloc {s : Heap} {L : Set Nat} (fuel size : Nat) {t : Heap} {p : Nat} :
      Reachable cfg callocArgs s L →
      OSMemMalloc cfg fuel s size = some (t, p) →
      Reachable cfg callocArgs t (if p = OS_NULL then L else insert p L)
  | calloc {s : Heap} {L : Set Nat} (fuel count size : Nat) {t : Heap} {p : Nat} :
      Reachable cfg callocArgs s L →
      callocArgs count size →
      OSMemCalloc cfg fuel s count size = some (t, p) →
      Reachable cfg callocArgs t (if p = OS_NULL then L else insert p L)
  | free {s : Heap} {L : Set Nat} (p : Nat) :
      Reachable cfg callocArgs s L → p ∈ L →
      Reachable cfg callocArgs (OSMemFree cfg s p) (L \ {p})
  | free_ignored {s : Heap} {L : Set Nat} (p : Nat) :
      Reachable cfg callocArgs s L → Ignored s p →
      Reachable cfg callocArgs (OSMemFree cfg s p) L
  | trim {s : Heap} {L : Set Nat} (p newsize : Nat) :
      Reachable cfg callocArgs s L → p ∈ L →
      Reachable cfg callocArgs (OSMemTrim cfg s p newsize).1 L
  | trim_ignored {s : Heap} {L : Set Nat} (p newsize : Nat) :
      Reachable cfg callocArgs s L → Ignored s p →
      Reachable cfg callocArgs (OSMemTrim cfg s p newsize).1 L

/-- Any arguments of `OSMemCalloc`. -/
def anyCallocArgs : Nat → Nat → Prop := fun _ _ => True

/-- Arguments of `OSMemCalloc` whose byte count neither overflows
`uOSMemSize_t` nor wraps around when it is rounded up to the alignment. -/
def callocFits (cfg : Config) : Nat → Nat → Prop :=
  fun count size => count * size + cfg.OSMEM_ALIGNMENT ≤ 2 ^ uOSMemSize_bits cfg

/-- Invariant of the links, stated over the set `B` of block offsets: the
blocks of `B` tile the heap from offset 0 to the end header, each with room
for a header and a payload of the minimum size, and `PrevMem` inverts
`NextMem`. -/
structure ChainW (cfg : Config) (s : Heap) (B : Nat → Prop) : Prop where
  hbegin : s.gpOSMemBegin = OSMEM_ALIGN_ADDR cfg cfg.OSRAM_HEAP_POINTER
  hend : s.gpOSMemEnd = s.gpOSMemBegin + OSMEM_SIZE_ALIGNED cfg
  zero_mem : B 0
  next_ge : ∀ o, B o → o + SIZEOF_OSMEM_ALIGNED cfg + OSMIN_SIZE_ALIGNED cfg ≤ nextOf s o
  next_le : ∀ o, B o → nextOf s o ≤ OSMEM_SIZE_ALIGNED cfg
  next_mem : ∀ o, B o → nextOf s o = OSMEM_SIZE_ALIGNED cfg ∨ B (nextOf s o)
  sep : ∀ o x, B o → B x → o < x → nextOf s o ≤ x
  prev_zero : prevOf s 0 = 0
  prev_mem : ∀ o, B o → o ≠ 0 → B (prevOf s o) ∧ nextOf s (prevOf s o) = o
  sent_next : nextOf s (OSMEM_SIZE_ALIGNED cfg) = OSMEM_SIZE_ALIGNED cfg

/-- Invariant of the flags: `Used` is 0 or 1, the end header is used, and a
free block is followed by a used header.  The blocks listed in `Ex` are
exempt from the last rule: `OSMemFree` breaks it for the block it frees and
for the block before, and `OSMemCombine` restores it. -/
structure UsedW (cfg : Config) (s : Heap) (B : Nat → Prop) (Ex : Nat → Prop) : Prop where
  used01 : ∀ o, B o → usedOf s o = 0 ∨ usedOf s o = 1
  noadj : ∀ o, B o → ¬ Ex o → usedOf s o = 0 → nextOf s o ≠ OSMEM_SIZE_ALIGNED cfg →
    usedOf s (nextOf s o) = 1
  sent_used : usedOf s (OSMEM_SIZE_ALIGNED cfg) = 1

/-- Invariant of `gpOSMemLFree`: it points at a free block or at the end
header, and every block below it is used. -/
structure LFreeW (cfg : Config) (s : Heap) (B : Nat → Prop) : Prop where
  lfree_ok : s.gpOSMemLFree = s.gpOSMemEnd ∨
    ∃ o, B o ∧ usedOf s o = 0 ∧ s.gpOSMemLFree = s.gpOSMemBegin + o
  lfree_min : ∀ o, B o → s.gpOSMemBegin + o < s.gpOSMemLFree → usedOf s o = 1

/-- Invariant of the heap with the exemptions `Ex`. -/
structure InvW (cfg : Config) (s : Heap) (B : Nat → Prop) (Ex : Nat → Prop) : Prop where
  chain : ChainW cfg s B
  used : UsedW cfg s B Ex
  lfree : LFreeW cfg s B

/-- Invariant of the heap between two calls: no block is exempt. -/
def Inv (cfg : Config) (s : Heap) (B : Nat → Prop) : Prop := InvW cfg s B (fun _ => False)

/-- One merge of `OSMemCombine`: the block whose header is at address `x`
absorbs the block after it (lines 115-120 with `x = ptOSMem`, lines 128-133
with `x = ptPrevOSMem`). -/
def mergeNext (cfg : Config) (s : Heap) (x : Nat) : Heap :=
  let n := s.gpOSMemBegin + (s.mem x).NextMem
  let sa := if s.gpOSMemLFree = n then s.setLFree x else s
  let sb := sa.setNextMem x (sa.mem n).NextMem
  sb.setPrevMem (sb.gpOSMemBegin + (sb.mem n).NextMem) (offsetOf cfg sb x)

/-- Live pointers are the payload addresses of the used blocks. -/
def LiveIs (cfg : Config) (s : Heap) (B : Nat → Prop) (L : Set Nat) : Prop :=
  ∀ p, p ∈ L ↔ ∃ o, B o ∧ usedOf s o = 1 ∧ p = s.gpOSMemBegin + o + SIZEOF_OSMEM_ALIGNED cfg

/-- First step of `OSMemFree` on the block at offset `o` (lines 199-205): the
block is marked free and `gpOSMemLFree` is lowered to it. -/
def freeMark (s : Heap) (o : Nat) : Heap :=
  let s1 := s.setUsed (s.gpOSMemBegin + o) 0
  if s.gpOSMemBegin + o < s1.gpOSMemLFree then s1.setLFree (s.gpOSMemBegin + o) else s1

/-- Forward half of `OSMemCombine` on the block at offset `o`. -/
def freeFwd (cfg : Config) (s : Heap) (o : Nat) : Heap :=
  if nextOf s o ≠ OSMEM_SIZE_ALIGNED cfg ∧ usedOf s (nextOf s o) = 0 then
    mergeNext cfg s (s.gpOSMemBegin + o)
  else s

/-- Backward half of `OSMemCombine` on the block at offset `o`. -/
def freeBwd (cfg : Config) (s : Heap) (o : Nat) : Heap :=
  if o ≠ 0 ∧ usedOf s (prevOf s o) = 0 then mergeNext cfg s (s.gpOSMemBegin + prevOf s o)
  else s

/-- Offsets of the blocks after `OSMemFree` on the used block `o` of a heap
with the blocks `B`: the successor of `o` goes when it is free, and `o` itself
goes when its predecessor is free. -/
def freeBlocks (cfg : Config) (s : Heap) (B : Nat → Prop) (o : Nat) : Nat → Prop :=
  fun a => B a ∧
    ¬ ((nextOf s o ≠ OSMEM_SIZE_ALIGNED cfg ∧ usedOf s (nextOf s o) = 0) ∧ a = nextOf s o) ∧
    ¬ ((o ≠ 0 ∧ usedOf s (prevOf s o) = 0) ∧ a = o)

/-- Size that `OSMemMalloc` and `OSMemTrim` work with: the request rounded up
to the alignment, converted to `uOSMemSize_t`, and raised to
`OSMIN_SIZE_ALIGNED` (lines 361-367 and 231-237). -/
def roundedSize (cfg : Config) (size : Nat) : Nat :=
  if uOSMemSize_t cfg (OSMEM_ALIGN_SIZE cfg size) < OSMIN_SIZE_ALIGNED cfg then
    OSMIN_SIZE_ALIGNED cfg
  else uOSMemSize_t cfg (OSMEM_ALIGN_SIZE cfg size)

/-- Test of line 389 and of line 298: the block at offset `o` has room for a
payload of `sz` bytes, one more header and a payload of the minimum size. -/
def Splits (cfg : Config) (s : Heap) (o sz : Nat) : Prop :=
  o + SIZEOF_OSMEM_ALIGNED cfg + sz + SIZEOF_OSMEM_ALIGNED cfg + OSMIN_SIZE_ALIGNED cfg
    ≤ nextOf s o

instance (cfg : Config) (s : Heap) (o sz : Nat) : Decidable (Splits cfg s o sz) := by
  unfold Splits; infer_instance

/-- Offsets of the blocks after the block `o` has been cut, when it splits,
at `sz` bytes of payload. -/
def splitBlocks (cfg : Config) (s : Heap) (B : Nat → Prop) (o sz : Nat) : Nat → Prop :=
  fun a => B a ∨ (Splits cfg s o sz ∧ a = o + SIZEOF_OSMEM_ALIGNED cfg + sz)

/-- Test of line 384: the block at offset `o` is free and its payload holds
`sz` bytes. -/
def Fits (cfg : Config) (s : Heap) (o sz : Nat) : Prop :=
  usedOf s o = 0 ∧ o + SIZEOF_OSMEM_ALIGNED cfg + sz ≤ nextOf s o

/-- Outcome of `OSMemMalloc(size)` on a heap `s` with the blocks `B`: either
null is returned and the heap is as before, the request being 0, or too large,
or fitting no block; or the first block that fits is taken, its payload
address is returned and the invariant holds with the blocks after the cut. -/
def MallocPost (cfg : Config) (s : Heap) (B : Nat → Prop) (size : Nat) (s' : Heap) (p : Nat) :
    Prop :=
  (p = OS_NULL ∧ s' = s ∧
    (size = 0 ∨ OSMEM_SIZE_ALIGNED cfg < roundedSize cfg size ∨
      ∀ a, B a → ¬ Fits cfg s a (roundedSize cfg size))) ∨
  (size ≠ 0 ∧ ∃ o, B o ∧ Fits cfg s o (roundedSize cfg size) ∧
    (∀ a, B a → a < o → ¬ Fits cfg s a (roundedSize cfg size)) ∧
    p = s.gpOSMemBegin + o + SIZEOF_OSMEM_ALIGNED cfg ∧
    Inv cfg s' (splitBlocks cfg s B o (roundedSize cfg size)) ∧
    s'.gpOSMemBegin = s.gpOSMemBegin ∧ s'.gpOSMemEnd = s.gpOSMemEnd ∧
    s'.mem = (OSMemMalloc_take cfg s o (roundedSize cfg size)).mem)

/-- First branch of `OSMemTrim` (lines 272-295) on the block at offset `ptr`
with the new payload size `newsize`: the free header after the block moves
down to the end of the shrunk payload. -/
def trimMove (cfg : Config) (s : Heap) (ptr newsize : Nat) : Heap :=
  let ptOSMemTemp := s.gpOSMemBegin + ptr
  let ptOSMemTemp2 := s.gpOSMemBegin + (s.mem ptOSMemTemp).NextMem
  let NextMem := (s.mem ptOSMemTemp2).NextMem
  let ptr2 := uOSMemSize_t cfg (ptr + SIZEOF_OSMEM_ALIGNED cfg + newsize)
  let s1 := if s.gpOSMemLFree = ptOSMemTemp2 then s.setLFree (s.gpOSMemBegin + ptr2) else s
  let ptOSMemTemp2 := s1.gpOSMemBegin + ptr2
  let s2 := s1.setUsed ptOSMemTemp2 0
  let s3 := s2.setNextMem ptOSMemTemp2 NextMem
  let s4 := s3.setPrevMem ptOSMemTemp2 ptr
  let s5 := s4.setNextMem ptOSMemTemp ptr2
  if (s5.mem ptOSMemTemp2).NextMem ≠ OSMEM_SIZE_ALIGNED cfg then
    s5.setPrevMem (s5.gpOSMemBegin + (s5.mem ptOSMemTemp2).NextMem) ptr2
  else s5

/-- Second branch of `OSMemTrim` (lines 304-317) on the block at offset `ptr`
with the new payload size `newsize`: a free header is put at the end of the
shrunk payload. -/
def trimSplit (cfg : Config) (s : Heap) (ptr newsize : Nat) : Heap :=
  let ptOSMemTemp := s.gpOSMemBegin + ptr
  let ptr2 := uOSMemSize_t cfg (ptr + SIZEOF_OSMEM_ALIGNED cfg + newsize)
  let ptOSMemTemp2 := s.gpOSMemBegin + ptr2
  let s1 := if ptOSMemTemp2 < s.gpOSMemLFree then s.setLFree ptOSMemTemp2 else s
  let s2 := s1.setUsed ptOSMemTemp2 0
  let s3 := s2.setNextMem ptOSMemTemp2 (s2.mem ptOSMemTemp).NextMem
  let s4 := s3.setPrevMem ptOSMemTemp2 ptr
  let s5 := s4.setNextMem ptOSMemTemp ptr2
  if (s5.mem ptOSMemTemp2).NextMem ≠ OSMEM_SIZE_ALIGNED cfg then
    s5.setPrevMem (s5.gpOSMemBegin + (s5.mem ptOSMemTemp2).NextMem) ptr2
  else s5

/-- Offsets of the blocks after `OSMemTrim` has shrunk the used block `o` of
a heap with the blocks `B` to a payload of `sz` bytes. -/
def trimBlocks (cfg : Config) (s : Heap) (B : Nat → Prop) (o sz : Nat) : Nat → Prop :=
  fun a =>
    if sz < capacityOf cfg s o then
      if usedOf s (nextOf s o) = 0 then
        (B a ∧ a ≠ nextOf s o) ∨ a = o + SIZEOF_OSMEM_ALIGNED cfg + sz
      else if sz + SIZEOF_OSMEM_ALIGNED cfg + OSMIN_SIZE_ALIGNED cfg ≤ capacityOf cfg s o then
        B a ∨ a = o + SIZEOF_OSMEM_ALIGNED cfg + sz
      else B a
    else B a

/-! ## Concrete runs -/

/-- Result of a call that returns: the new state and the pointer (the state
at program start and `OS_NULL` stand in when the fuel has run out). -/
def returned (r : Option (Heap × Nat)) : Heap × Nat := r.getD (startState, OS_NULL)

/-- Default build, after `OSMemInit`. -/
def run0 : Heap := OSMemInit defaultConfig startState

/-- Default build: `OSMemInit`, then `OSMemCalloc(257, 256)`. -/
def runA : Heap × Nat := returned (OSMemCalloc defaultConfig 8 run0 257 256)

/-- Default build: `OSMemInit`, then `a = OSMemMalloc(16)`. -/
def runB1 : Heap × Nat := returned (OSMemMalloc defaultConfig 8 run0 16)

/-- Default build, continued: `c = OSMemMalloc(16)`. -/
def runB2 : Heap × Nat := returned (OSMemMalloc defaultConfig 8 runB1.1 16)

/-- Default build, continued: `OSMemFree(a)`. -/
def runB3 : Heap := OSMemFree defaultConfig runB2.1 runB1.2

/-- Default build, continued: `OSMemCalloc(257, 256)`. -/
def runB4 : Heap × Nat := returned (OSMemCalloc defaultConfig 8 runB3 257 256)

/-- Default build: `OSMemInit`, then `a = OSMemMalloc(256)`. -/
def runC1 : Heap × Nat := returned (OSMemMalloc defaultConfig 8 run0 256)

/-- Default build, continued: `b = OSMemMalloc(16)`. -/
def runC2 : Heap × Nat := returned (OSMemMalloc defaultConfig 8 runC1.1 16)

/-- Default build, continued: `OSMemFree(a)`. -/
def runC3 : Heap := OSMemFree defaultConfig runC2.1 runC1.2

/-- Default build, continued: `OSMemCalloc(257, 256)`. -/
def runC4 : Heap × Nat := returned (OSMemCalloc defaultConfig 8 runC3 257 256)

/-- Postcondition of `OSMemMalloc(n)` on the heap `s`: the call returns, and
a pointer other than null that it returns is the payload address of a block
of the chain that was free before the call, is used after it, and then has a
payload capacity of at least `n` bytes. -/
def AllocationPost (cfg : Config) (s : Heap) (n : Nat) : Prop :=
  (∃ fuel r, OSMemMalloc cfg fuel s n = some r) ∧
  ∀ fuel s' p, OSMemMalloc cfg fuel s n = some (s', p) → p ≠ OS_NULL →
    ∃ o, IsBlock cfg s o ∧ usedOf s o = 0 ∧
      p = s.gpOSMemBegin + o + SIZEOF_OSMEM_ALIGNED cfg ∧
      s'.gpOSMemBegin = s.gpOSMemBegin ∧
      IsBlock cfg s' o ∧ usedOf s' o = 1 ∧ n ≤ capacityOf cfg s' o

/-- Small build (the sizing of the scenario of the specification):
`OSMemInit`, then `OSMemMalloc(10)`. -/
def runS1 : Heap × Nat := returned (OSMemMalloc smallConfig 8 (OSMemInit smallConfig startState) 10)

/-- Default build: `OSMemInit`, then `OSMemMalloc(65535)`. -/
def runD1 : Heap × Nat := returned (OSMemMalloc defaultConfig 8 run0 65535)

/-- Calls of `OSMemFree` on the pointers of `ps`, from left to right. -/
def freeAll (cfg : Config) (s : Heap) (ps : List Nat) : Heap :=
  ps.foldl (OSMemFree cfg) s

/-- Offset of the header of the block whose payload is at address `p`:
`pMem - SIZEOF_OSMEM_ALIGNED` as `OSMemFree` computes it, taken from
`gpOSMemBegin`. -/
def headerOf (cfg : Config) (s : Heap) (p : Nat) : Nat :=
  offsetOf cfg s (p - SIZEOF_OSMEM_ALIGNED cfg)

/-- Run of address-adjacent blocks, given by their payload addresses in
increasing order: the `NextMem` of each block is the header of the block of
the next pointer. -/
def AdjacentRun (cfg : Config) (s : Heap) (ps : List Nat) : Prop :=
  List.Chain' (fun p q => nextOf s (headerOf cfg s p) = headerOf cfg s q) ps

/-- Two heaps have the same chain: the same block offsets, and on each block
the same `NextMem` and the same `Used`. -/
def SameChain (cfg : Config) (s1 s2 : Heap) : Prop :=
  ∀ o, (IsBlock cfg s1 o ↔ IsBlock cfg s2 o) ∧
    (IsBlock cfg s1 o → nextOf s1 o = nextOf s2 o ∧ usedOf s1 o = usedOf s2 o)

/-- The blocks that the pointers `ps` designate in the heap `s` lie inside one
free block of the chain of the heap `t`. -/
def InsideOneFree (cfg : Config) (s t : Heap) (ps : List Nat) : Prop :=
  ∃ a, IsBlock cfg t a ∧ usedOf t a = 0 ∧
    ∀ p ∈ ps, a ≤ headerOf cfg s p ∧ nextOf s (headerOf cfg s p) ≤ nextOf t a

/-- Blocks that are free once the blocks of `Q` have been freed in the heap
`s0`. -/
def freeAfter (s0 : Heap) (Q : Nat → Prop) (a : Nat) : Prop :=
  usedOf s0 a = 0 ∨ Q a

/-- Offsets of the blocks once the blocks of `Q` have been freed in the heap
`s0` with the blocks `B0`: a block that is then free and comes after a free
block has been merged into it. -/
def mergedBlocks (s0 : Heap) (B0 : Nat → Prop) (Q : Nat → Prop) : Nat → Prop :=
  fun a => B0 a ∧ (a = 0 ∨ ¬ freeAfter s0 Q a ∨ ¬ freeAfter s0 Q (prevOf s0 a))

/-- Heap `s` reached from the heap `s0` with the blocks `B0` by freeing the
blocks of `Q`. -/
structure FreedW (cfg : Config) (s0 : Heap) (B0 : Nat → Prop) (Q : Nat → Prop) (s : Heap) :
    Prop where
  inv : Inv cfg s (mergedBlocks s0 B0 Q)
  used_in : ∀ a, Q a → usedOf s a = 0
  used_out : ∀ a, ¬ Q a → usedOf s a = usedOf s0 a

/-- State of the default build after OSMemInit, a = OSMemMalloc(16),
c = OSMemMalloc(16), OSMemFree(a), OSMemCalloc(257, 256) and then
OSMemFree on the two live pointers, lowest first. -/
def runB5 : Heap := freeAll defaultConfig runB4.1 [4128, 4152]

/-- State of the default build after OSMemInit, a = OSMemMalloc(256) and
OSMemTrim(a, 65535). -/
def runT1 : Heap × Nat := OSMemTrim defaultConfig runC1.1 4104 65535

/-- State of the small build after OSMemInit, a = OSMemMalloc(10),
OSMemMalloc(40) and OSMemFree(a). -/
def runS3 : Heap := OSMemFree smallConfig (returned (OSMemMalloc smallConfig 8 runS1.1 40)).1 4104

/-- Postcondition of `OSMemInit`: one free block from offset 0 to the end
header, the end header used and linked to itself, and `gpOSMemLFree` at
offset 0. -/
def InitPost (cfg : Config) (t : Heap) : Prop :=
  nextOf t 0 = OSMEM_SIZE_ALIGNED cfg ∧ prevOf t 0 = 0 ∧ usedOf t 0 = 0 ∧
  usedOf t (OSMEM_SIZE_ALIGNED cfg) = 1 ∧
  nextOf t (OSMEM_SIZE_ALIGNED cfg) = OSMEM_SIZE_ALIGNED cfg ∧
  prevOf t (OSMEM_SIZE_ALIGNED cfg) = OSMEM_SIZE_ALIGNED cfg ∧
  t.gpOSMemLFree = t.gpOSMemBegin + 0 ∧
  t.gpOSMemEnd = t.gpOSMemBegin + OSMEM_SIZE_ALIGNED cfg ∧
  capacityOf cfg t 0 = OSMEM_SIZE_ALIGNED cfg - SIZEOF_OSMEM_ALIGNED cfg

instance (cfg : Config) (t : Heap) : Decidable (InitPost cfg t) := by
  unfold InitPost; infer_instance

/-- Alignment invariant, stated over a set `R` of header offsets: the
offsets of `R` are multiples of the alignment and fit `uOSMemSize_t`, the
links stored in the headers of `R` lead to headers of `R`, and `gpOSMemLFree`
and the headers of the live pointers are in `R`.  Nothing is asked of the
memory outside the headers of `R`, and nothing of the `Used` flags. -/
structure AlignW (cfg : Config) (s : Heap) (R : Nat → Prop) (L : Set Nat) : Prop where
  hbegin : s.gpOSMemBegin = OSMEM_ALIGN_ADDR cfg cfg.OSRAM_HEAP_POINTER
  hend : s.gpOSMemEnd = s.gpOSMemBegin + OSMEM_SIZE_ALIGNED cfg
  zero_mem : R 0
  dvd : ∀ a, R a → cfg.OSMEM_ALIGNMENT ∣ a
  lt : ∀ a, R a → a < 2 ^ uOSMemSize_bits cfg
  next_mem : ∀ a, R a → R (nextOf s a)
  prev_mem : ∀ a, R a → R (prevOf s a)
  lfree : ∃ k, R k ∧ s.gpOSMemLFree = s.gpOSMemBegin + k
  live : ∀ p, p ∈ L → ∃ k, R k ∧ p = s.gpOSMemBegin + k + SIZEOF_OSMEM_ALIGNED cfg

/-- The links stored in the headers of `X` lead to headers of `R`. -/
def Closed (R X : Nat → Prop) (s : Heap) : Prop :=
  ∀ a, X a → R (nextOf s a) ∧ R (prevOf s a)

/-- One merge of `OSMemCombine` in any heap: the header at address `x`
takes the `NextMem` of the header at address `n`, which it absorbs (lines
115-120 with `x = ptOSMem` and `n = ptNextOSMem`, lines 128-133 with
`x = ptPrevOSMem` and `n = ptOSMem`). -/
def mergeAt (cfg : Config) (s : Heap) (x n : Nat) : Heap :=
  let sa := if s.gpOSMemLFree = n then s.setLFree x else s
  let sb := sa.setNextMem x (sa.mem n).NextMem
  sb.setPrevMem (sb.gpOSMemBegin + (sb.mem n).NextMem) (offsetOf cfg sb x)

/-- Forward half of `OSMemCombine` (lines 111-121) in any heap. -/
def combineFwd (cfg : Config) (s : Heap) (x : Nat) : Heap :=
  if x ≠ s.gpOSMemBegin + (s.mem x).NextMem ∧
      (s.mem (s.gpOSMemBegin + (s.mem x).NextMem)).Used = 0 ∧
      s.gpOSMemBegin + (s.mem x).NextMem ≠ s.gpOSMemEnd then
    mergeAt cfg s x (s.gpOSMemBegin + (s.mem x).NextMem)
  else s

/-- Backward half of `OSMemCombine` (lines 123-134) in any heap. -/
def combineBwd (cfg : Config) (s : Heap) (x : Nat) : Heap :=
  if s.gpOSMemBegin + (s.mem x).PrevMem ≠ x ∧
      (s.mem (s.gpOSMemBegin + (s.mem x).PrevMem)).Used = 0 then
    mergeAt cfg s (s.gpOSMemBegin + (s.mem x).PrevMem) x
  else s

/-- Postcondition of a shrinking `OSMemTrim(p, newsize)`: the call returns
`p`, and the block of `p` keeps its header offset and `Used = 1`, with a
payload capacity of at least `newsize` and at most the one it had. -/
def ShrinkPost (cfg : Config) (s : Heap) (p newsize : Nat) : Prop :=
  (OSMemTrim cfg s p newsize).2 = p ∧
  (OSMemTrim cfg s p newsize).1.gpOSMemBegin = s.gpOSMemBegin ∧
  IsBlock cfg (OSMemTrim cfg s p newsize).1 (headerOf cfg s p) ∧
  usedOf (OSMemTrim cfg s p newsize).1 (headerOf cfg s p) = 1 ∧
  newsize ≤ capacityOf cfg (OSMemTrim cfg s p newsize).1 (headerOf cfg s p) ∧
  capacityOf cfg (OSMemTrim cfg s p newsize).1 (headerOf cfg s p)
    ≤ capacityOf cfg s (headerOf cfg s p)

/-- Postcondition of `OSMemCalloc(count, size)`: when it returns a pointer
`p` other than null, `OSMemMalloc(count * size)` returns `p` as well, the
`count * size` bytes from `p` lie inside the payload of the block of `p`,
every header read inside these bytes is zero, and the headers of the chain
and `gpOSMemLFree` are those that `OSMemMalloc` leaves. -/
def CallocPost (cfg : Config) (fuel : Nat) (s : Heap) (count size : Nat) : Prop :=
  ∀ t p, OSMemCalloc cfg fuel s count size = some (t, p) → p ≠ OS_NULL →
    ∃ s1 o, OSMemMalloc cfg fuel s (uOSMemSize_t cfg (count * size)) = some (s1, p) ∧
      IsBlock cfg s1 o ∧ usedOf s1 o = 1 ∧
      p = s1.gpOSMemBegin + o + SIZEOF_OSMEM_ALIGNED cfg ∧
      o + SIZEOF_OSMEM_ALIGNED cfg + count * size ≤ nextOf s1 o ∧
      (∀ a, p ≤ a → a + cfg.sizeof_tOSMem ≤ p + count * size → t.mem a = ⟨0, 0, 0⟩) ∧
      (∀ a, IsBlock cfg s1 a ∨ a = OSMEM_SIZE_ALIGNED cfg →
        t.mem (s1.gpOSMemBegin + a) = s1.mem (s1.gpOSMemBegin + a)) ∧
      t.gpOSMemBegin = s1.gpOSMemBegin ∧ t.gpOSMemEnd = s1.gpOSMemEnd ∧
      t.gpOSMemLFree = s1.gpOSMemLFree

/-- Sum of `SIZEOF_OSMEM_ALIGNED` plus the payload capacity over the headers
met from offset `o` on, the end header included; `none` when the walk has not
reached the end header within `fuel` steps. -/
def chainSum (cfg : Config) (s : Heap) : Nat → Nat → Option Nat
  | 0, _ => none
  | fuel + 1, o =>
    if o = OSMEM_SIZE_ALIGNED cfg then some (SIZEOF_OSMEM_ALIGNED cfg + capacityOf cfg s o)
    else (chainSum cfg s fuel (nextOf s o)).map
      (fun v => SIZEOF_OSMEM_ALIGNED cfg + capacityOf cfg s o + v)

/-- Conservation as the specification states it: the sum over the chain is
the number of bytes of the arena. -/
def Conservation (cfg : Config) (s : Heap) : Prop :=
  ∃ fuel, chainSum cfg s fuel 0 = some (OSRamHeap_size cfg)

/-- A pointer at an aligned address and at an aligned offset from
`gpOSMemBegin`. -/
def AlignedPointer (cfg : Config) (s : Heap) (p : Nat) : Prop :=
  s.gpOSMemBegin ≤ p ∧ cfg.OSMEM_ALIGNMENT ∣ (p - s.gpOSMemBegin) ∧ cfg.OSMEM_ALIGNMENT ∣ p

/-- Alignment of the heap `s`: every offset of the walk of the chain is a
multiple of the alignment, and so is every pointer other than null that
`OSMemMalloc` or `OSMemCalloc` returns. -/
def AlignmentPost (cfg : Config) (s : Heap) : Prop :=
  (∀ o, InChain cfg s o → cfg.OSMEM_ALIGNMENT ∣ o) ∧
  (∀ fuel n t p, OSMemMalloc cfg fuel s n = some (t, p) → p ≠ OS_NULL →
    AlignedPointer cfg s p) ∧
  (∀ fuel count size t p, OSMemCalloc cfg fuel s count size = some (t, p) → p ≠ OS_NULL →
    AlignedPointer cfg s p)

/-- First fit: `OSMemMalloc(n)` returns, it returns null exactly when no free
block of the chain has a payload capacity of at least
`max(OSMEM_ALIGN_SIZE(n), OSMIN_SIZE_ALIGNED)`, and otherwise it returns the
payload address of the free block with the lowest offset that has. -/
def FirstFitPost (cfg : Config) (s : Heap) (n : Nat) : Prop :=
  (∃ fuel r, OSMemMalloc cfg fuel s n = some r) ∧
  ∀ fuel t p, OSMemMalloc cfg fuel s n = some (t, p) →
    (p = OS_NULL ↔ ∀ o, IsBlock cfg s o → usedOf s o = 0 →
      capacityOf cfg s o < max (OSMEM_ALIGN_SIZE cfg n) (OSMIN_SIZE_ALIGNED cfg)) ∧
    (p ≠ OS_NULL → ∃ o, IsBlock cfg s o ∧ usedOf s o = 0 ∧
      max (OSMEM_ALIGN_SIZE cfg n) (OSMIN_SIZE_ALIGNED cfg) ≤ capacityOf cfg s o ∧
      p = s.gpOSMemBegin + o + SIZEOF_OSMEM_ALIGNED cfg ∧
      ∀ a, IsBlock cfg s a → usedOf s a = 0 →
        max (OSMEM_ALIGN_SIZE cfg n) (OSMIN_SIZE_ALIGNED cfg) ≤ capacityOf cfg s a → o ≤ a)

/-- Split decision of `OSMemMalloc` on the block at offset `o` of the heap
`s` for the size `sz`, with `t` the heap after the call: when the block has
room for `sz` bytes, one more header and a minimum payload, it ends with a
capacity of `sz` and a new free header follows it, which takes its `NextMem`
and has it as `PrevMem`; otherwise no header changes but for the `Used` flag
of the block. -/
def SplitPost (cfg : Config) (s t : Heap) (o sz : Nat) : Prop :=
  (sz + SIZEOF_OSMEM_ALIGNED cfg + OSMIN_SIZE_ALIGNED cfg ≤ capacityOf cfg s o →
    capacityOf cfg t o = sz ∧ usedOf t o = 1 ∧
    IsBlock cfg t (o + SIZEOF_OSMEM_ALIGNED cfg + sz) ∧
    usedOf t (o + SIZEOF_OSMEM_ALIGNED cfg + sz) = 0 ∧
    nextOf t (o + SIZEOF_OSMEM_ALIGNED cfg + sz) = nextOf s o ∧
    prevOf t (o + SIZEOF_OSMEM_ALIGNED cfg + sz) = o) ∧
  (¬ (sz + SIZEOF_OSMEM_ALIGNED cfg + OSMIN_SIZE_ALIGNED cfg ≤ capacityOf cfg s o) →
    (∀ a, IsBlock cfg t a ↔ IsBlock cfg s a) ∧
    ∀ a, nextOf t a = nextOf s a ∧ prevOf t a = prevOf s a ∧
      usedOf t a = if a = o then 1 else usedOf s a)

/-- State of the default build after OSMemInit, a = OSMemMalloc(256),
b = OSMemMalloc(16), OSMemFree(a), OSMemCalloc(257, 256) and
OSMemMalloc(16). -/
def runC5 : Heap × Nat := returned (OSMemMalloc defaultConfig 8 runC4.1 16)

/-- Outcome of `OSMemTrim(p, newsize)` on a block followed by a free header
(lines 268-297), with `o` the offset of the block, `sz` the rounded size and
`q = o + SIZEOF_OSMEM_ALIGNED + sz`: the call returns `p`, the block has a
payload capacity of `sz`, the header at `q` is free and has the `NextMem`
that the free header after the block had, that header is a block of the
chain, the `PrevMem` of the block that follows is `q` unless the end header
follows, and `gpOSMemLFree` points at `q` when it pointed at the old free
header and is as before otherwise. -/
def TrimMovePost (cfg : Config) (s : Heap) (p newsize : Nat) : Prop :=
  (OSMemTrim cfg s p newsize).2 = p ∧
  (OSMemTrim cfg s p newsize).1.gpOSMemBegin = s.gpOSMemBegin ∧
  capacityOf cfg (OSMemTrim cfg s p newsize).1 (headerOf cfg s p)
    = max (OSMEM_ALIGN_SIZE cfg newsize) (OSMIN_SIZE_ALIGNED cfg) ∧
  usedOf (OSMemTrim cfg s p newsize).1
    (headerOf cfg s p + SIZEOF_OSMEM_ALIGNED cfg
      + max (OSMEM_ALIGN_SIZE cfg newsize) (OSMIN_SIZE_ALIGNED cfg)) = 0 ∧
  nextOf (OSMemTrim cfg s p newsize).1
    (headerOf cfg s p + SIZEOF_OSMEM_ALIGNED cfg
      + max (OSMEM_ALIGN_SIZE cfg newsize) (OSMIN_SIZE_ALIGNED cfg))
    = nextOf s (nextOf s (headerOf cfg s p)) ∧
  IsBlock cfg (OSMemTrim cfg s p newsize).1
    (headerOf cfg s p + SIZEOF_OSMEM_ALIGNED cfg
      + max (OSMEM_ALIGN_SIZE cfg newsize) (OSMIN_SIZE_ALIGNED cfg)) ∧
  (nextOf s (nextOf s (headerOf cfg s p)) ≠ OSMEM_SIZE_ALIGNED cfg →
    prevOf (OSMemTrim cfg s p newsize).1 (nextOf s (nextOf s (headerOf cfg s p)))
      = headerOf cfg s p + SIZEOF_OSMEM_ALIGNED cfg
        + max (OSMEM_ALIGN_SIZE cfg newsize) (OSMIN_SIZE_ALIGNED cfg)) ∧
  (OSMemTrim cfg s p newsize).1.gpOSMemLFree =
    (if s.gpOSMemLFree = s.gpOSMemBegin + nextOf s (headerOf cfg s p) then
      s.gpOSMemBegin + (headerOf cfg s p + SIZEOF_OSMEM_ALIGNED cfg
        + max (OSMEM_ALIGN_SIZE cfg newsize) (OSMIN_SIZE_ALIGNED cfg))
     else s.gpOSMemLFree)

/-- Outcome of `OSMemTrim(p, newsize)` on a block followed by a used header
(lines 298-329), with `o` the offset of the block, `c` its payload capacity,
`sz` the rounded size and `q = o + SIZEOF_OSMEM_ALIGNED + sz`: the call
returns `p`; when `c - sz` holds a header and a minimum payload, the block has
a payload capacity of `sz`, the header at `q` is free and has the `NextMem`
that the block had and is a block of the chain, and `gpOSMemLFree` points at
`q` when `q` lies below the address it held and is as before otherwise; when
`c - sz` is smaller, the state is as before. -/
def TrimSplitPost (cfg : Config) (s : Heap) (p newsize : Nat) : Prop :=
  (OSMemTrim cfg s p newsize).2 = p ∧
  (SIZEOF_OSMEM_ALIGNED cfg + OSMIN_SIZE_ALIGNED cfg
      ≤ capacityOf cfg s (headerOf cfg s p)
        - max (OSMEM_ALIGN_SIZE cfg newsize) (OSMIN_SIZE_ALIGNED cfg) →
    (OSMemTrim cfg s p newsize).1.gpOSMemBegin = s.gpOSMemBegin ∧
    capacityOf cfg (OSMemTrim cfg s p newsize).1 (headerOf cfg s p)
      = max (OSMEM_ALIGN_SIZE cfg newsize) (OSMIN_SIZE_ALIGNED cfg) ∧
    usedOf (OSMemTrim cfg s p newsize).1
      (headerOf cfg s p + SIZEOF_OSMEM_ALIGNED cfg
        + max (OSMEM_ALIGN_SIZE cfg newsize) (OSMIN_SIZE_ALIGNED cfg)) = 0 ∧
    nextOf (OSMemTrim cfg s p newsize).1
      (headerOf cfg s p + SIZEOF_OSMEM_ALIGNED cfg
        + max (OSMEM_ALIGN_SIZE cfg newsize) (OSMIN_SIZE_ALIGNED cfg))
      = nextOf s (headerOf cfg s p) ∧
    IsBlock cfg (OSMemTrim cfg s p newsize).1
      (headerOf cfg s p + SIZEOF_OSMEM_ALIGNED cfg
        + max (OSMEM_ALIGN_SIZE cfg newsize) (OSMIN_SIZE_ALIGNED cfg)) ∧
    (OSMemTrim cfg s p newsize).1.gpOSMemLFree =
      (if s.gpOSMemBegin + (headerOf cfg s p + SIZEOF_OSMEM_ALIGNED cfg
          + max (OSMEM_ALIGN_SIZE cfg newsize) (OSMIN_SIZE_ALIGNED cfg)) < s.gpOSMemLFree then
        s.gpOSMemBegin + (headerOf cfg s p + SIZEOF_OSMEM_ALIGNED cfg
          + max (OSMEM_ALIGN_SIZE cfg newsize) (OSMIN_SIZE_ALIGNED cfg))
       else s.gpOSMemLFree)) ∧
  (¬ (SIZEOF_OSMEM_ALIGNED cfg + OSMIN_SIZE_ALIGNED cfg
      ≤ capacityOf cfg s (headerOf cfg s p)
        - max (OSMEM_ALIGN_SIZE cfg newsize) (OSMIN_SIZE_ALIGNED cfg)) →
    (OSMemTrim cfg s p newsize).1 = s)

/-- The call `OSMemMalloc(n)` on the heap `s` returns, with the same result
for every amount of fuel from `OSMEM_SIZE_ALIGNED + 2` on: both loops end. -/
def MallocTotal (cfg : Config) (s : Heap) (n : Nat) : Prop :=
  ∃ r, ∀ fuel, OSMEM_SIZE_ALIGNED cfg + 2 ≤ fuel → OSMemMalloc cfg fuel s n = some r

/-- State of the default build after OSMemInit in which the bytes at address
4104, inside the payload of the free block, read as a header with
`NextMem = 8` and `Used = 1`, and `gpOSMemLFree` holds the address 4104. -/
def loopState : Heap := ((run0.setNextMem 4104 8).setUsed 4104 1).setLFree 4104

/-- State of the default build after OSMemInit and a = OSMemMalloc(64). -/
def runU1 : Heap × Nat := returned (OSMemMalloc defaultConfig 8 run0 64)

/-- State of the default build after OSMemInit, a = OSMemMalloc(64) and
OSMemFree(a). -/
def runU2 : Heap := OSMemFree defaultConfig runU1.1 runU1.2

/-- State of the default build after OSMemInit, a = OSMemMalloc(64),
OSMemFree(a) and OSMemTrim(a, 16), with the pointer returned. -/
def runU3 : Heap × Nat := OSMemTrim defaultConfig runU2 runU1.2 16

/-- The block at offset `o` of the heap `s` is left alone in the heap `t`:
the arena is where it was, and `o` is a block of the chain with the `NextMem`
it had and with `Used = 1`. -/
def Undisturbed (cfg : Config) (s t : Heap) (o : Nat) : Prop :=
  t.gpOSMemBegin = s.gpOSMemBegin ∧ IsBlock cfg t o ∧ nextOf t o = nextOf s o ∧ usedOf t o = 1

/-- Frame of the block at offset `o` of the heap `s` with the live pointers
`L`: a call `OSMemMalloc(n)`, and a call `OSMemFree(q)` or `OSMemTrim(q, m)`
on a live pointer `q` of another block, leave the block alone, and the
payload of a block that `OSMemMalloc` returns, from the pointer to the next
header, shares no byte with the payload of the block. -/
def FramePost (cfg : Config) (s : Heap) (L : Set Nat) (o : Nat) : Prop :=
  (∀ fuel n t p, OSMemMalloc cfg fuel s n = some (t, p) →
    Undisturbed cfg s t o ∧
    (p ≠ OS_NULL →
      t.gpOSMemBegin + nextOf t (headerOf cfg t p)
          ≤ s.gpOSMemBegin + o + SIZEOF_OSMEM_ALIGNED cfg ∨
        s.gpOSMemBegin + nextOf s o ≤ p)) ∧
  (∀ q, q ∈ L → headerOf cfg s q ≠ o → Undisturbed cfg s (OSMemFree cfg s q) o) ∧
  (∀ q m, q ∈ L → headerOf cfg s q ≠ o → Undisturbed cfg s (OSMemTrim cfg s q m).1 o)

/-- State of the default build after OSMemInit, a = OSMemMalloc(16) and
c = OSMemCalloc(257, 256). -/
def runF2 : Heap × Nat := returned (OSMemCalloc defaultConfig 8 runB1.1 257 256)

/-- Default build, continued: e = OSMemMalloc(16). -/
def runF3 : Heap × Nat := returned (OSMemMalloc defaultConfig 8 runF2.1 16)

/-- Default build, continued: f = OSMemMalloc(16). -/
def runF4 : Heap × Nat := returned (OSMemMalloc defaultConfig 8 runF3.1 16)

/-- Default build, continued: OSMemFree(a). -/
def runF5 : Heap := OSMemFree defaultConfig runF4.1 runB1.2

/-- Default build, continued: OSMemFree(e). -/
def runF6 : Heap := OSMemFree defaultConfig runF5 runF3.2

/-- Default build, continued: OSMemMalloc(16). -/
def runF7 : Heap × Nat := returned (OSMemMalloc defaultConfig 8 runF6 16)

/-! ## The functions of OSMemory.c on bytes

The definitions above keep one header per address, which is how the code sees
memory as long as no two headers share a byte.  After an `OSMemCalloc` whose
byte count overflows, headers four bytes apart can be in use at once, and a
store into one changes a field of the other.  The definitions of this section
read and write the fields of `tOSMem_t` as bytes: `uOSMemSize_t` fields are
little endian, `NextMem` is at offset 0 of the struct, `PrevMem` follows it,
and `Used` is the byte after `PrevMem`.  They are used for the heaps in which
headers overlap. -/

namespace Bytewise

/-- Memory as bytes: the bytes that are not 0, each with its address. -/
abbrev Memory := List (Nat × Nat)

/-- Byte read at the address `a`. -/
def readByte (m : Memory) (a : Nat) : Nat :=
  match m.find? (fun e => e.1 = a) with
  | some e => e.2
  | none => 0

/-- Store of the byte `v` at the address `a`. -/
def writeByte (m : Memory) (a v : Nat) : Memory :=
  if v % 256 = 0 then m.filter (fun e => e.1 ≠ a)
  else (a, v % 256) :: m.filter (fun e => e.1 ≠ a)

/-- Little-endian read of `n` bytes from the address `a`. -/
def readLE (m : Memory) : Nat → Nat → Nat
  | 0, _ => 0
  | n + 1, a => readByte m a + 256 * readLE m n (a + 1)

/-- Little-endian store of the low `n` bytes of `v` from the address `a`. -/
def writeLE : Nat → Memory → Nat → Nat → Memory
  | 0, m, _, _ => m
  | n + 1, m, a, v => writeLE n (writeByte m a v) (a + 1) (v / 256)

/-- Number of bytes of a `uOSMemSize_t`. -/
def sizeof_uOSMemSize_t (cfg : Config) : Nat := uOSMemSize_bits cfg / 8

/-- The three static pointers of OSMemory.c and the bytes of memory. -/
structure Heap where
  /-- Static `gpOSMemBegin`. -/
  gpOSMemBegin : Nat
  /-- Static `gpOSMemEnd`. -/
  gpOSMemEnd : Nat
  /-- Static `gpOSMemLFree`. -/
  gpOSMemLFree : Nat
  /-- Bytes of memory. -/
  mem : Memory
deriving DecidableEq, Repr

/-- Read of `p->NextMem`. -/
def Heap.NextMem (cfg : Config) (s : Heap) (p : Nat) : Nat :=
  readLE s.mem (sizeof_uOSMemSize_t cfg) p

/-- Read of `p->PrevMem`. -/
def Heap.PrevMem (cfg : Config) (s : Heap) (p : Nat) : Nat :=
  readLE s.mem (sizeof_uOSMemSize_t cfg) (p + sizeof_uOSMemSize_t cfg)

/-- Read of `p->Used`. -/
def Heap.Used (cfg : Config) (s : Heap) (p : Nat) : Nat :=
  readByte s.mem (p + 2 * sizeof_uOSMemSize_t cfg)

/-- Store `p->NextMem = v`. -/
def Heap.setNextMem (cfg : Config) (s : Heap) (p v : Nat) : Heap :=
  { s with mem := writeLE (sizeof_uOSMemSize_t cfg) s.mem p v }

/-- Store `p->PrevMem = v`. -/
def Heap.setPrevMem (cfg : Config) (s : Heap) (p v : Nat) : Heap :=
  { s with mem := writeLE (sizeof_uOSMemSize_t cfg) s.mem (p + sizeof_uOSMemSize_t cfg) v }

/-- Store `p->Used = v`. -/
def Heap.setUsed (cfg : Config) (s : Heap) (p v : Nat) : Heap :=
  { s with mem := writeByte s.mem (p + 2 * sizeof_uOSMemSize_t cfg) v }

/-- Assignment `gpOSMemLFree = p`. -/
def Heap.setLFree (s : Heap) (p : Nat) : Heap :=
  { s with gpOSMemLFree := p }

/-- Expression `(uOSMemSize_t)((uOS8_t *)p - gpOSMemBegin)`. -/
def offsetOf (cfg : Config) (s : Heap) (p : Nat) : Nat :=
  uOSMemSize_t cfg (sub32 p s.gpOSMemBegin)

/-- State at program start: the statics are `OS_NULL` and memory is zero. -/
def startState : Heap :=
  { gpOSMemBegin := OS_NULL, gpOSMemEnd := OS_NULL, gpOSMemLFree := OS_NULL, mem := [] }

/-- Function `OSMemCombine(ptOSMem)` (OSMemory.c lines 100-136). -/
def OSMemCombine (cfg : Config) (s : Heap) (ptOSMem : Nat) : Heap :=
  if s.Used cfg ptOSMem = 1 then s
  else
    -- Combine forward
    let ptNextOSMem := s.gpOSMemBegin + s.NextMem cfg ptOSMem
    let s1 :=
      if ptOSMem ≠ ptNextOSMem ∧ s.Used cfg ptNextOSMem = 0 ∧ ptNextOSMem ≠ s.gpOSMemEnd then
        let sa := if s.gpOSMemLFree = ptNextOSMem then s.setLFree ptOSMem else s
        let sb := sa.setNextMem cfg ptOSMem (sa.NextMem cfg ptNextOSMem)
        sb.setPrevMem cfg (sb.gpOSMemBegin + sb.NextMem cfg ptNextOSMem) (offsetOf cfg sb ptOSMem)
      else s
    -- Combine backward
    let ptPrevOSMem := s1.gpOSMemBegin + s1.PrevMem cfg ptOSMem
    if ptPrevOSMem ≠ ptOSMem ∧ s1.Used cfg ptPrevOSMem = 0 then
      let sa := if s1.gpOSMemLFree = ptOSMem then s1.setLFree ptPrevOSMem else s1
      let sb := sa.setNextMem cfg ptPrevOSMem (sa.NextMem cfg ptOSMem)
      sb.setPrevMem cfg (sb.gpOSMemBegin + sb.NextMem cfg ptOSMem) (offsetOf cfg sb ptPrevOSMem)
    else s1

/-- Function `OSMemInit()` (OSMemory.c lines 145-166). -/
def OSMemInit (cfg : Config) (s : Heap) : Heap :=
  let s1 := { s with gpOSMemBegin := OSMEM_ALIGN_ADDR cfg cfg.OSRAM_HEAP_POINTER }
  let ptOSMemTemp := s1.gpOSMemBegin
  let s2 := s1.setNextMem cfg ptOSMemTemp (uOSMemSize_t cfg (OSMEM_SIZE_ALIGNED cfg))
  let s3 := s2.setPrevMem cfg ptOSMemTemp 0
  let s4 := s3.setUsed cfg ptOSMemTemp 0
  let s5 := { s4 with gpOSMemEnd := s4.gpOSMemBegin + OSMEM_SIZE_ALIGNED cfg }
  let s6 := s5.setUsed cfg s5.gpOSMemEnd 1
  let s7 := s6.setNextMem cfg s6.gpOSMemEnd (uOSMemSize_t cfg (OSMEM_SIZE_ALIGNED cfg))
  let s8 := s7.setPrevMem cfg s7.gpOSMemEnd (uOSMemSize_t cfg (OSMEM_SIZE_ALIGNED cfg))
  s8.setLFree s8.gpOSMemBegin

/-- Function `OSMemFree(pMem)` (OSMemory.c lines 176-211). -/
def OSMemFree (cfg : Config) (s : Heap) (pMem : Nat) : Heap :=
  if pMem = OS_NULL then s
  else if pMem < s.gpOSMemBegin ∨ pMem ≥ s.gpOSMemEnd then s
  else
    let ptOSMemTemp := pMem - SIZEOF_OSMEM_ALIGNED cfg
    if s.Used cfg ptOSMemTemp = 1 then
      let s1 := s.setUsed cfg ptOSMemTemp 0
      let s2 := if ptOSMemTemp < s1.gpOSMemLFree then s1.setLFree ptOSMemTemp else s1
      OSMemCombine cfg s2 ptOSMemTemp
    else s

/-- Function `OSMemTrim(pMem, newsize)` (OSMemory.c lines 224-330): the new
state and the returned pointer. -/
def OSMemTrim (cfg : Config) (s : Heap) (pMem newsize : Nat) : Heap × Nat :=
  let newsize1 := uOSMemSize_t cfg (OSMEM_ALIGN_SIZE cfg newsize)
  let newsize := if newsize1 < OSMIN_SIZE_ALIGNED cfg then OSMIN_SIZE_ALIGNED cfg else newsize1
  if newsize > OSMEM_SIZE_ALIGNED cfg then (s, OS_NULL)
  else if pMem < s.gpOSMemBegin ∨ pMem ≥ s.gpOSMemEnd then (s, pMem)
  else
    let ptOSMemTemp := pMem - SIZEOF_OSMEM_ALIGNED cfg
    let ptr := offsetOf cfg s ptOSMemTemp
    let size := uOSMemSize_t cfg
      (sub32 (sub32 (s.NextMem cfg ptOSMemTemp) ptr) (SIZEOF_OSMEM_ALIGNED cfg))
    if newsize > size then (s, OS_NULL)
    else if newsize = size then (s, pMem)
    else
      let ptOSMemTemp2 := s.gpOSMemBegin + s.NextMem cfg ptOSMemTemp
      if s.Used cfg ptOSMemTemp2 = 0 then
        let NextMem := s.NextMem cfg ptOSMemTemp2
        let ptr2 := uOSMemSize_t cfg (ptr + SIZEOF_OSMEM_ALIGNED cfg + newsize)
        let s1 := if s.gpOSMemLFree = ptOSMemTemp2 then s.setLFree (s.gpOSMemBegin + ptr2) else s
        let ptOSMemTemp2 := s1.gpOSMemBegin + ptr2
        let s2 := s1.setUsed cfg ptOSMemTemp2 0
        let s3 := s2.setNextMem cfg ptOSMemTemp2 NextMem
        let s4 := s3.setPrevMem cfg ptOSMemTemp2 ptr
        let s5 := s4.setNextMem cfg ptOSMemTemp ptr2
        let s6 :=
          if s5.NextMem cfg ptOSMemTemp2 ≠ OSMEM_SIZE_ALIGNED cfg then
            s5.setPrevMem cfg (s5.gpOSMemBegin + s5.NextMem cfg ptOSMemTemp2) ptr2
          else s5
        (s6, pMem)
      else if (newsize + SIZEOF_OSMEM_ALIGNED cfg + OSMIN_SIZE_ALIGNED cfg) % 2 ^ 32 ≤ size then
        let ptr2 := uOSMemSize_t cfg (ptr + SIZEOF_OSMEM_ALIGNED cfg + newsize)
        let ptOSMemTemp2 := s.gpOSMemBegin + ptr2
        let s1 := if ptOSMemTemp2 < s.gpOSMemLFree then s.setLFree ptOSMemTemp2 else s
        let s2 := s1.setUsed cfg ptOSMemTemp2 0
        let s3 := s2.setNextMem cfg ptOSMemTemp2 (s2.NextMem cfg ptOSMemTemp)
        let s4 := s3.setPrevMem cfg ptOSMemTemp2 ptr
        let s5 := s4.setNextMem cfg ptOSMemTemp ptr2
        let s6 :=
          if s5.NextMem cfg ptOSMemTemp2 ≠ OSMEM_SIZE_ALIGNED cfg then
            s5.setPrevMem cfg (s5.gpOSMemBegin + s5.NextMem cfg ptOSMemTemp2) ptr2
          else s5
        (s6, pMem)
      else (s, pMem)

/-- Inner loop of `OSMemMalloc` (lines 426-429). -/
def OSMemMalloc_lfree (cfg : Config) : Nat → Heap → Option Heap
  | 0, _ => none
  | fuel + 1, s =>
    if s.Used cfg s.gpOSMemLFree ≠ 0 ∧ s.gpOSMemLFree ≠ s.gpOSMemEnd then
      OSMemMalloc_lfree cfg fuel (s.setLFree (s.gpOSMemBegin + s.NextMem cfg s.gpOSMemLFree))
    else some s

/-- Body of the scan loop of `OSMemMalloc` once the block at offset `ptr` has
passed the test of line 384 (lines 389-421). -/
def OSMemMalloc_take (cfg : Config) (s : Heap) (ptr size : Nat) : Heap :=
  let ptOSMemTemp := s.gpOSMemBegin + ptr
  if sub32 (s.NextMem cfg ptOSMemTemp) (ptr + SIZEOF_OSMEM_ALIGNED cfg) ≥
      (size + SIZEOF_OSMEM_ALIGNED cfg + OSMIN_SIZE_ALIGNED cfg) % 2 ^ 32 then
    let ptr2 := uOSMemSize_t cfg (ptr + SIZEOF_OSMEM_ALIGNED cfg + size)
    let ptOSMemTemp2 := s.gpOSMemBegin + ptr2
    let s1 := s.setUsed cfg ptOSMemTemp2 0
    let s2 := s1.setNextMem cfg ptOSMemTemp2 (s1.NextMem cfg ptOSMemTemp)
    let s3 := s2.setPrevMem cfg ptOSMemTemp2 ptr
    let s4 := s3.setNextMem cfg ptOSMemTemp ptr2
    let s5 := s4.setUsed cfg ptOSMemTemp 1
    if s5.NextMem cfg ptOSMemTemp2 ≠ OSMEM_SIZE_ALIGNED cfg then
      s5.setPrevMem cfg (s5.gpOSMemBegin + s5.NextMem cfg ptOSMemTemp2) ptr2
    else s5
  else
    s.setUsed cfg ptOSMemTemp 1

/-- Scan loop of `OSMemMalloc` (lines 379-434), entered with the loop variable
`ptr`. -/
def OSMemMalloc_scan (cfg : Config) (size : Nat) : Nat → Heap → Nat → Option (Heap × Nat)
  | 0, _, _ => none
  | fuel + 1, s, ptr =>
    if ptr < OSMEM_SIZE_ALIGNED cfg - size then
      let ptOSMemTemp := s.gpOSMemBegin + ptr
      if s.Used cfg ptOSMemTemp = 0 ∧
          sub32 (s.NextMem cfg ptOSMemTemp) (ptr + SIZEOF_OSMEM_ALIGNED cfg) ≥ size then
        let s1 := OSMemMalloc_take cfg s ptr size
        if ptOSMemTemp = s1.gpOSMemLFree then
          match OSMemMalloc_lfree cfg fuel s1 with
          | none => none
          | some s2 => some (s2, ptOSMemTemp + SIZEOF_OSMEM_ALIGNED cfg)
        else some (s1, ptOSMemTemp + SIZEOF_OSMEM_ALIGNED cfg)
      else OSMemMalloc_scan cfg size fuel s (s.NextMem cfg ptOSMemTemp)
    else some (s, OS_NULL)

/-- Function `OSMemMalloc(size)` (OSMemory.c lines 340-439). -/
def OSMemMalloc (cfg : Config) (fuel : Nat) (s : Heap) (size : Nat) : Option (Heap × Nat) :=
  let s0 := if s.gpOSMemEnd = OS_NULL then OSMemInit cfg s else s
  if s0.gpOSMemEnd = OS_NULL then some (s0, OS_NULL)
  else if size = 0 then some (s0, OS_NULL)
  else
    let size1 := uOSMemSize_t cfg (OSMEM_ALIGN_SIZE cfg size)
    let size2 := if size1 < OSMIN_SIZE_ALIGNED cfg then OSMIN_SIZE_ALIGNED cfg else size1
    if size2 > OSMEM_SIZE_ALIGNED cfg then some (s0, OS_NULL)
    else OSMemMalloc_scan cfg size2 fuel s0 (offsetOf cfg s0 s0.gpOSMemLFree)

/-- Library call `memset(p, 0, len)`: every byte from `p` to `p + len - 1` is
zero afterwards. -/
def memset_zero (s : Heap) (p len : Nat) : Heap :=
  { s with mem := s.mem.filter (fun e => ¬ (p ≤ e.1 ∧ e.1 < p + len)) }

/-- Function `OSMemCalloc(count, size)` (OSMemory.c lines 451-463). -/
def OSMemCalloc (cfg : Config) (fuel : Nat) (s : Heap) (count size : Nat) :
    Option (Heap × Nat) :=
  match OSMemMalloc cfg fuel s (uOSMemSize_t cfg (count * size)) with
  | none => none
  | some (s1, pMem) =>
    if pMem ≠ OS_NULL then some (memset_zero s1 pMem ((count * size) % 2 ^ 32), pMem)
    else some (s1, pMem)

/-- Field `NextMem` of the header at offset `o`. -/
def nextOf (cfg : Config) (s : Heap) (o : Nat) : Nat := s.NextMem cfg (s.gpOSMemBegin + o)

/-- Field `Used` of the header at offset `o`. -/
def usedOf (cfg : Config) (s : Heap) (o : Nat) : Nat := s.Used cfg (s.gpOSMemBegin + o)

/-- Payload capacity of the block at offset `o`. -/
def capacityOf (cfg : Config) (s : Heap) (o : Nat) : Nat :=
  nextOf cfg s o - o - SIZEOF_OSMEM_ALIGNED cfg

/-- Offset of the header of the block whose payload is at address `p`. -/
def headerOf (cfg : Config) (s : Heap) (p : Nat) : Nat :=
  offsetOf cfg s (p - SIZEOF_OSMEM_ALIGNED cfg)

/-- Offsets met when `NextMem` is followed from offset 0; the walk stops at
the end header. -/
inductive InChain (cfg : Config) (s : Heap) : Nat → Prop
  | first : InChain cfg s 0
  | step {o : Nat} : InChain cfg s o → o ≠ OSMEM_SIZE_ALIGNED cfg →
      InChain cfg s (nextOf cfg s o)

/-- Blocks of the chain: the offsets of the walk other than the end header. -/
def IsBlock (cfg : Config) (s : Heap) (o : Nat) : Prop :=
  InChain cfg s o ∧ o ≠ OSMEM_SIZE_ALIGNED cfg

/-- Pointers that `OSMemFree` and `OSMemTrim` leave alone. -/
def Ignored (s : Heap) (p : Nat) : Prop :=
  p = OS_NULL ∨ p < s.gpOSMemBegin ∨ p ≥ s.gpOSMemEnd

/-- Heap states that call sequences produce from the state after
`OSMemInit`, each with the set of live pointers, as `AIOS.Reachable` defines
them for the heap of headers. -/
inductive Reachable (cfg : Config) (callocArgs : Nat → Nat → Prop) : Heap → Set Nat → Prop
  | init (s0 : Heap) : Reachable cfg callocArgs (OSMemInit cfg s0) ∅
  | malloc {s : Heap} {L : Set Nat} (fuel size : Nat) {t : Heap} {p : Nat} :
      Reachable cfg callocArgs s L →
      OSMemMalloc cfg fuel s size = some (t, p) →
      Reachable cfg callocArgs t (if p = OS_NULL then L else insert p L)
  | calloc {s : Heap} {L : Set Nat} (fuel count size : Nat) {t : Heap} {p : Nat} :
      Reachable cfg callocArgs s L →
      callocArgs count size →
      OSMemCalloc cfg fuel s count size = some (t, p) →
      Reachable cfg callocArgs t (if p = OS_NULL then L else insert p L)
  | free {s : Heap} {L : Set Nat} (p : Nat) :
      Reachable cfg callocArgs s L → p ∈ L →
      Reachable cfg callocArgs (OSMemFree cfg s p) (L \ {p})
  | free_ignored {s : Heap} {L : Set Nat} (p : Nat) :
      Reachable cfg callocArgs s L → Ignored s p →
      Reachable cfg callocArgs (OSMemFree cfg s p) L
  | trim {s : Heap} {L : Set Nat} (p newsize : Nat) :
      Reachable cfg callocArgs s L → p ∈ L →
      Reachable cfg callocArgs (OSMemTrim cfg s p newsize).1 L
  | trim_ignored {s : Heap} {L : Set Nat} (p newsize : Nat) :
      Reachable cfg callocArgs s L → Ignored s p →
      Reachable cfg callocArgs (OSMemTrim cfg s p newsize).1 L

end Bytewise

/-- Result of a byte-level call that returns. -/
def Bytewise.returned (r : Option (Bytewise.Heap × Nat)) : Bytewise.Heap × Nat :=
  r.getD (Bytewise.startState, OS_NULL)

/-- Default build on bytes, after `OSMemInit`. -/
def Bytewise.run0 : Bytewise.Heap := Bytewise.OSMemInit defaultConfig Bytewise.startState

/-- Default build on bytes: a = OSMemMalloc(16). -/
def Bytewise.runG1 : Bytewise.Heap × Nat :=
  Bytewise.returned (Bytewise.OSMemMalloc defaultConfig 8 Bytewise.run0 16)

/-- Default build on bytes, continued: b = OSMemMalloc(28). -/
def Bytewise.runG2 : Bytewise.Heap × Nat :=
  Bytewise.returned (Bytewise.OSMemMalloc defaultConfig 8 Bytewise.runG1.1 28)

/-- Default build on bytes, continued: OSMemFree(a). -/
def Bytewise.runG3 : Bytewise.Heap := Bytewise.OSMemFree defaultConfig Bytewise.runG2.1 4104

/-- Default build on bytes, continued: c = OSMemCalloc(4097, 16). -/
def Bytewise.runG4 : Bytewise.Heap × Nat :=
  Bytewise.returned (Bytewise.OSMemCalloc defaultConfig 8 Bytewise.runG3 4097 16)

/-- Default build on bytes, continued: OSMemTrim(b, 32). -/
def Bytewise.runG5 : Bytewise.Heap × Nat := Bytewise.OSMemTrim defaultConfig Bytewise.runG4.1 4128 32

/-- Default build on bytes, continued: d = OSMemMalloc(40). -/
def Bytewise.runG6 : Bytewise.Heap × Nat :=
  Bytewise.returned (Bytewise.OSMemMalloc defaultConfig 8 Bytewise.runG5.1 40)

/-- Default build on bytes, a second run: c = OSMemCalloc(257, 256) after
a = OSMemMalloc(16). -/
def Bytewise.runH2 : Bytewise.Heap × Nat :=
  Bytewise.returned (Bytewise.OSMemCalloc defaultConfig 8 Bytewise.runG1.1 257 256)

/-- Default build on bytes, continued: e = OSMemMalloc(16). -/
def Bytewise.runH3 : Bytewise.Heap × Nat :=
  Bytewise.returned (Bytewise.OSMemMalloc defaultConfig 8 Bytewise.runH2.1 16)

/-- Default build on bytes, continued: f = OSMemMalloc(60). -/
def Bytewise.runH4 : Bytewise.Heap × Nat :=
  Bytewise.returned (Bytewise.OSMemMalloc defaultConfig 8 Bytewise.runH3.1 60)

/-- Default build on bytes, continued: OSMemFree(a). -/
def Bytewise.runH5 : Bytewise.Heap := Bytewise.OSMemFree defaultConfig Bytewise.runH4.1 4104

/-- Default build on bytes, continued: OSMemFree(e). -/
def Bytewise.runH6 : Bytewise.Heap := Bytewise.OSMemFree defaultConfig Bytewise.runH5 4392

/-- Default build on bytes, continued: g = OSMemMalloc(64). -/
def Bytewise.runH7 : Bytewise.Heap × Nat :=
  Bytewise.returned (Bytewise.OSMemMalloc defaultConfig 8 Bytewise.runH6 64)

/-- Default build on bytes, continued: OSMemTrim(c, 36). -/
def Bytewise.runH8 : Bytewise.Heap × Nat := Bytewise.OSMemTrim defaultConfig Bytewise.runH7.1 4128 36

/-- Default build on bytes, a third run: b = OSMemMalloc(60) after
a = OSMemMalloc(16). -/
def Bytewise.runK2 : Bytewise.Heap × Nat :=
  Bytewise.returned (Bytewise.OSMemMalloc defaultConfig 8 Bytewise.runG1.1 60)

/-- Default build on bytes, continued: c = OSMemCalloc(257, 256). -/
def Bytewise.runK3 : Bytewise.Heap × Nat :=
  Bytewise.returned (Bytewise.OSMemCalloc defaultConfig 8 Bytewise.runK2.1 257 256)

/-- Default build on bytes, continued: e = OSMemMalloc(28). -/
def Bytewise.runK4 : Bytewise.Heap × Nat :=
  Bytewise.returned (Bytewise.OSMemMalloc defaultConfig 8 Bytewise.runK3.1 28)

/-- Default build on bytes, continued: OSMemFree(a). -/
def Bytewise.runK5 : Bytewise.Heap := Bytewise.OSMemFree defaultConfig Bytewise.runK4.1 4104

/-- Default build on bytes, continued: f = OSMemMalloc(24). -/
def Bytewise.runK6 : Bytewise.Heap × Nat :=
  Bytewise.returned (Bytewise.OSMemMalloc defaultConfig 8 Bytewise.runK5 24)

/-- Default build on bytes, continued: OSMemFree(e). -/
def Bytewise.runK7 : Bytewise.Heap := Bytewise.OSMemFree defaultConfig Bytewise.runK6.1 4460

/-- Default build on bytes, continued: g = OSMemMalloc(64). -/
def Bytewise.runK8 : Bytewise.Heap × Nat :=
  Bytewise.returned (Bytewise.OSMemMalloc defaultConfig 8 Bytewise.runK7 64)

/-- Default build on bytes, continued: OSMemTrim(b, 36). -/
def Bytewise.runK9 : Bytewise.Heap × Nat := Bytewise.OSMemTrim defaultConfig Bytewise.runK8.1 4128 36

/-! ## Arithmetic of the configuration -/

theorem land_mask (k : Nat) (hk : k ≤ 32) (y : Nat) (hy : y < 2 ^ 32) :
    y &&& (2 ^ 32 - 1 - (2 ^ k - 1)) = y / 2 ^ k * 2 ^ k := by
  have hk2 : (2:Nat) ^ k ≤ 2 ^ 32 := Nat.pow_le_pow_right (by norm_num) hk
  have hpos : 0 < (2:Nat) ^ k := by positivity
  have h0 : (2:Nat) ^ 32 - 1 - (2 ^ k - 1) = 2 ^ 32 - 2 ^ k := by omega
  rw [h0]
  apply Nat.eq_of_testBit_eq
  intro i
  have h1 : (2:Nat) ^ 32 - 2 ^ k = 2 ^ k * (2 ^ (32 - k) - 1) := by
    rw [Nat.mul_sub, ← pow_add]; congr 2 <;> omega
  rw [Nat.testBit_land, h1, Nat.mul_comm (y / 2 ^ k), Nat.testBit_mul_pow_two,
    Nat.testBit_mul_pow_two, Nat.testBit_two_pow_sub_one, ← Nat.shiftRight_eq_div_pow,
    Nat.testBit_shiftRight]
  by_cases hik : k ≤ i
  · have hbit : y.testBit i = true → i < 32 := by
      intro h
      by_contra hc
      have := Nat.testBit_lt_two_pow (x := y) (i := i)
        (lt_of_lt_of_le hy (Nat.pow_le_pow_right (by norm_num) (by omega)))
      simp_all
    simp only [ge_iff_le, hik, decide_True, Bool.true_and]
    rw [Nat.add_sub_cancel' hik]
    cases hb : y.testBit i
    · simp
    · have := hbit hb
      simp; omega
  · simp [hik]

theorem WF_align (cfg : Config) (h : cfg.WF) : ∃ k, k < 32 ∧ cfg.OSMEM_ALIGNMENT = 2 ^ k := by
  have := h.1
  simp only [List.mem_map, List.mem_range] at this
  obtain ⟨k, hk, e⟩ := this
  exact ⟨k, hk, e.symm⟩

theorem align_eq (cfg : Config) (h : cfg.WF) (x : Nat) :
    OSMEM_ALIGN_SIZE cfg x
      = (x + cfg.OSMEM_ALIGNMENT - 1) % 2 ^ 32 / cfg.OSMEM_ALIGNMENT * cfg.OSMEM_ALIGNMENT := by
  obtain ⟨k, hk, e⟩ := WF_align cfg h
  unfold OSMEM_ALIGN_SIZE
  rw [e]
  exact land_mask k (by omega) _ (Nat.mod_lt _ (by norm_num))

theorem align_addr_eq (cfg : Config) (x : Nat) :
    OSMEM_ALIGN_ADDR cfg x = OSMEM_ALIGN_SIZE cfg x := rfl

theorem alignment_pos (cfg : Config) (h : cfg.WF) : 0 < cfg.OSMEM_ALIGNMENT := by
  obtain ⟨k, _, e⟩ := WF_align cfg h
  rw [e]; positivity

theorem alignment_le (cfg : Config) (h : cfg.WF) : cfg.OSMEM_ALIGNMENT ≤ 2 ^ 31 := by
  obtain ⟨k, hk, e⟩ := WF_align cfg h
  rw [e]; exact Nat.pow_le_pow_right (by norm_num) (by omega)

theorem alignment_dvd_two_pow (cfg : Config) (h : cfg.WF) (n : Nat) (hn : 31 ≤ n) :
    cfg.OSMEM_ALIGNMENT ∣ 2 ^ n := by
  obtain ⟨k, hk, e⟩ := WF_align cfg h
  rw [e]; exact pow_dvd_pow 2 (by omega)

/-- Rounding up without wrap-around: the result is the least multiple of the
alignment that is not below the argument. -/
theorem align_bounds (cfg : Config) (h : cfg.WF) (x : Nat)
    (hx : x + cfg.OSMEM_ALIGNMENT ≤ 2 ^ 32) :
    x ≤ OSMEM_ALIGN_SIZE cfg x ∧ OSMEM_ALIGN_SIZE cfg x < x + cfg.OSMEM_ALIGNMENT ∧
      cfg.OSMEM_ALIGNMENT ∣ OSMEM_ALIGN_SIZE cfg x := by
  have hA := alignment_pos cfg h
  rw [align_eq cfg h]
  have hlt : x + cfg.OSMEM_ALIGNMENT - 1 < 2 ^ 32 := by omega
  rw [Nat.mod_eq_of_lt hlt]
  have h1 := Nat.div_add_mod (x + cfg.OSMEM_ALIGNMENT - 1) cfg.OSMEM_ALIGNMENT
  have h2 := Nat.mod_lt (x + cfg.OSMEM_ALIGNMENT - 1) hA
  rw [Nat.mul_comm] at h1
  refine ⟨by omega, by omega, Dvd.intro_left _ rfl⟩

theorem align_dvd (cfg : Config) (h : cfg.WF) (x : Nat) :
    cfg.OSMEM_ALIGNMENT ∣ OSMEM_ALIGN_SIZE cfg x := by
  rw [align_eq cfg h]; exact Dvd.intro_left _ rfl

theorem align_lt (cfg : Config) (h : cfg.WF) (x : Nat) : OSMEM_ALIGN_SIZE cfg x < 2 ^ 32 := by
  have hA := alignment_pos cfg h
  rw [align_eq cfg h]
  have := Nat.div_mul_le_self ((x + cfg.OSMEM_ALIGNMENT - 1) % 2 ^ 32) cfg.OSMEM_ALIGNMENT
  have := Nat.mod_lt (x + cfg.OSMEM_ALIGNMENT - 1) (show 0 < 2 ^ 32 by norm_num)
  omega

theorem bits_cases (cfg : Config) :
    (2:Nat) ^ uOSMemSize_bits cfg = 65536 ∨ (2:Nat) ^ uOSMemSize_bits cfg = 4294967296 := by
  unfold uOSMemSize_bits
  split <;> simp

theorem uOSMemSize_t_of_lt (cfg : Config) {x : Nat} (h : x < 2 ^ uOSMemSize_bits cfg) :
    uOSMemSize_t cfg x = x := Nat.mod_eq_of_lt h

theorem uOSMemSize_t_lt (cfg : Config) (x : Nat) : uOSMemSize_t cfg x < 2 ^ uOSMemSize_bits cfg :=
  Nat.mod_lt _ (by positivity)

theorem sub32_of_le {a b : Nat} (h : b ≤ a) (ha : a < 2 ^ 32) : sub32 a b = a - b := by
  unfold sub32; omega

/-- Facts on the constants of a sound configuration, in the form the proofs
below use them. -/
theorem WF_facts (cfg : Config) (h : cfg.WF) :
    0 < SIZEOF_OSMEM_ALIGNED cfg ∧ 0 < OSMIN_SIZE_ALIGNED cfg ∧
    SIZEOF_OSMEM_ALIGNED cfg + OSMIN_SIZE_ALIGNED cfg ≤ OSMEM_SIZE_ALIGNED cfg ∧
    OSMEM_SIZE_ALIGNED cfg < 2 ^ uOSMemSize_bits cfg ∧
    2 ^ uOSMemSize_bits cfg ≤ 2 ^ 32 ∧
    0 < OSMEM_ALIGN_ADDR cfg cfg.OSRAM_HEAP_POINTER ∧
    OSMEM_ALIGN_ADDR cfg cfg.OSRAM_HEAP_POINTER + OSMEM_SIZE_ALIGNED cfg
      + 2 * SIZEOF_OSMEM_ALIGNED cfg < 2 ^ 32 ∧
    OSMEM_SIZE_ALIGNED cfg + OSMIN_SIZE_ALIGNED cfg < 2 ^ 32 := by
  have hA := alignment_pos cfg h
  obtain ⟨_, h1, h2, h3, h4, h5, h6, h7, h8, h9, h10⟩ := h
  unfold OSRamHeap_size at h9
  have hb := align_bounds cfg ⟨‹_›, h1, h2, h3, h4, h5, h6, h7, h8, h9, h10⟩
    cfg.OSRAM_HEAP_POINTER (by omega)
  rw [align_addr_eq cfg]
  have hW := bits_cases cfg
  refine ⟨by omega, by omega, h5, h7, ?_, by omega, by omega, h10⟩
  rcases hW with e | e <;> rw [e] <;> norm_num

/-! ## Reading a header after a store -/

@[simp] theorem setNextMem_gpOSMemBegin (s : Heap) (p v : Nat) :
    (s.setNextMem p v).gpOSMemBegin = s.gpOSMemBegin := rfl
@[simp] theorem setNextMem_gpOSMemEnd (s : Heap) (p v : Nat) :
    (s.setNextMem p v).gpOSMemEnd = s.gpOSMemEnd := rfl
@[simp] theorem setNextMem_gpOSMemLFree (s : Heap) (p v : Nat) :
    (s.setNextMem p v).gpOSMemLFree = s.gpOSMemLFree := rfl
@[simp] theorem setPrevMem_gpOSMemBegin (s : Heap) (p v : Nat) :
    (s.setPrevMem p v).gpOSMemBegin = s.gpOSMemBegin := rfl
@[simp] theorem setPrevMem_gpOSMemEnd (s : Heap) (p v : Nat) :
    (s.setPrevMem p v).gpOSMemEnd = s.gpOSMemEnd := rfl
@[simp] theorem setPrevMem_gpOSMemLFree (s : Heap) (p v : Nat) :
    (s.setPrevMem p v).gpOSMemLFree = s.gpOSMemLFree := rfl
@[simp] theorem setUsed_gpOSMemBegin (s : Heap) (p v : Nat) :
    (s.setUsed p v).gpOSMemBegin = s.gpOSMemBegin := rfl
@[simp] theorem setUsed_gpOSMemEnd (s : Heap) (p v : Nat) :
    (s.setUsed p v).gpOSMemEnd = s.gpOSMemEnd := rfl
@[simp] theorem setUsed_gpOSMemLFree (s : Heap) (p v : Nat) :
    (s.setUsed p v).gpOSMemLFree = s.gpOSMemLFree := rfl
@[simp] theorem setLFree_gpOSMemBegin (s : Heap) (p : Nat) :
    (s.setLFree p).gpOSMemBegin = s.gpOSMemBegin := rfl
@[simp] theorem setLFree_gpOSMemEnd (s : Heap) (p : Nat) :
    (s.setLFree p).gpOSMemEnd = s.gpOSMemEnd := rfl
@[simp] theorem setLFree_gpOSMemLFree (s : Heap) (p : Nat) :
    (s.setLFree p).gpOSMemLFree = p := rfl
@[simp] theorem setLFree_mem (s : Heap) (p : Nat) : (s.setLFree p).mem = s.mem := rfl

@[simp] theorem setNextMem_NextMem (s : Heap) (p v a : Nat) :
    ((s.setNextMem p v).mem a).NextMem = if a = p then v else (s.mem a).NextMem := by
  unfold Heap.setNextMem; by_cases h : a = p <;> simp [h]
@[simp] theorem setNextMem_PrevMem (s : Heap) (p v a : Nat) :
    ((s.setNextMem p v).mem a).PrevMem = (s.mem a).PrevMem := by
  unfold Heap.setNextMem; by_cases h : a = p <;> simp [h]
@[simp] theorem setNextMem_Used (s : Heap) (p v a : Nat) :
    ((s.setNextMem p v).mem a).Used = (s.mem a).Used := by
  unfold Heap.setNextMem; by_cases h : a = p <;> simp [h]
@[simp] theorem setPrevMem_NextMem (s : Heap) (p v a : Nat) :
    ((s.setPrevMem p v).mem a).NextMem = (s.mem a).NextMem := by
  unfold Heap.setPrevMem; by_cases h : a = p <;> simp [h]
@[simp] theorem setPrevMem_PrevMem (s : Heap) (p v a : Nat) :
    ((s.setPrevMem p v).mem a).PrevMem = if a = p then v else (s.mem a).PrevMem := by
  unfold Heap.setPrevMem; by_cases h : a = p <;> simp [h]
@[simp] theorem setPrevMem_Used (s : Heap) (p v a : Nat) :
    ((s.setPrevMem p v).mem a).Used = (s.mem a).Used := by
  unfold Heap.setPrevMem; by_cases h : a = p <;> simp [h]
@[simp] theorem setUsed_NextMem (s : Heap) (p v a : Nat) :
    ((s.setUsed p v).mem a).NextMem = (s.mem a).NextMem := by
  unfold Heap.setUsed; by_cases h : a = p <;> simp [h]
@[simp] theorem setUsed_PrevMem (s : Heap) (p v a : Nat) :
    ((s.setUsed p v).mem a).PrevMem = (s.mem a).PrevMem := by
  unfold Heap.setUsed; by_cases h : a = p <;> simp [h]
@[simp] theorem setUsed_Used (s : Heap) (p v a : Nat) :
    ((s.setUsed p v).mem a).Used = if a = p then v else (s.mem a).Used := by
  unfold Heap.setUsed; by_cases h : a = p <;> simp [h]

/-! ## The invariant: general facts -/

theorem Inv_init (cfg : Config) (h : cfg.WF) (s0 : Heap) :
    Inv cfg (OSMemInit cfg s0) (fun o => o = 0) := by
  obtain ⟨hH, hM, hHM, hEW, hW, hb, hbE⟩ := WF_facts cfg h
  have hE := uOSMemSize_t_of_lt cfg hEW
  refine ⟨?_, ?_, ?_⟩ <;> constructor <;> simp [OSMemInit, nextOf, prevOf, usedOf, hE]
  all_goals omega

theorem ChainW.next_inj {cfg : Config} {s : Heap} {B : Nat → Prop} (c : ChainW cfg s B)
    (hM : 0 < OSMIN_SIZE_ALIGNED cfg)
    {x y : Nat} (hx : B x) (hy : B y) (h : nextOf s x = nextOf s y) : x = y := by
  have h1 := c.sep x y hx hy
  have h2 := c.sep y x hy hx
  have h3 := c.next_ge x hx
  have h4 := c.next_ge y hy
  omega

theorem ChainW.lt_end {cfg : Config} {s : Heap} {B : Nat → Prop} (c : ChainW cfg s B)
    (hM : 0 < OSMIN_SIZE_ALIGNED cfg) {x : Nat} (hx : B x) : x < OSMEM_SIZE_ALIGNED cfg := by
  have h3 := c.next_ge x hx
  have h4 := c.next_le x hx
  omega

theorem ChainW.prev_next {cfg : Config} {s : Heap} {B : Nat → Prop} (c : ChainW cfg s B)
    (hM : 0 < OSMIN_SIZE_ALIGNED cfg) {x : Nat} (hx : B x)
    (hn : nextOf s x ≠ OSMEM_SIZE_ALIGNED cfg) : prevOf s (nextOf s x) = x := by
  have hBn : B (nextOf s x) := (c.next_mem x hx).resolve_left hn
  have h3 := c.next_ge x hx
  obtain ⟨h1, h2⟩ := c.prev_mem _ hBn (by omega)
  exact c.next_inj hM h1 hx h2

theorem ChainW.prev_lt {cfg : Config} {s : Heap} {B : Nat → Prop} (c : ChainW cfg s B)
    (hM : 0 < OSMIN_SIZE_ALIGNED cfg) {x : Nat} (hx : B x) (h0 : x ≠ 0) : prevOf s x < x := by
  obtain ⟨h1, h2⟩ := c.prev_mem _ hx h0
  have h3 := c.next_ge _ h1
  omega

theorem offsetOf_block (cfg : Config) (h : cfg.WF) {s : Heap} {B : Nat → Prop}
    (c : ChainW cfg s B) {o : Nat} (ho : o ≤ OSMEM_SIZE_ALIGNED cfg) :
    offsetOf cfg s (s.gpOSMemBegin + o) = o := by
  obtain ⟨hH, hM, hHM, hEW, hW, hb, hbE⟩ := WF_facts cfg h
  have e := c.hbegin
  unfold offsetOf
  rw [sub32_of_le (by omega) (by omega), Nat.add_sub_cancel_left]
  exact uOSMemSize_t_of_lt cfg (by omega)

/-- The links depend on the fields `NextMem` and `PrevMem` of the blocks and
of the end header only. -/
theorem ChainW.congrChain {cfg : Config} {s s' : Heap} {B : Nat → Prop} (c : ChainW cfg s B)
    (hb : s'.gpOSMemBegin = s.gpOSMemBegin) (he : s'.gpOSMemEnd = s.gpOSMemEnd)
    (hnx : ∀ a, B a ∨ a = OSMEM_SIZE_ALIGNED cfg → nextOf s' a = nextOf s a)
    (hpv : ∀ a, B a → prevOf s' a = prevOf s a) : ChainW cfg s' B := by
  constructor
  · rw [hb]; exact c.hbegin
  · rw [he, hb]; exact c.hend
  · exact c.zero_mem
  · intro o ho; rw [hnx o (Or.inl ho)]; exact c.next_ge o ho
  · intro o ho; rw [hnx o (Or.inl ho)]; exact c.next_le o ho
  · intro o ho; rw [hnx o (Or.inl ho)]; exact c.next_mem o ho
  · intro o x ho hx; rw [hnx o (Or.inl ho)]; exact c.sep o x ho hx
  · rw [hpv 0 c.zero_mem]; exact c.prev_zero
  · intro o ho h0
    obtain ⟨h1, h2⟩ := c.prev_mem o ho h0
    rw [hpv o ho, hnx _ (Or.inl h1)]; exact ⟨h1, h2⟩
  · rw [hnx _ (Or.inr rfl)]; exact c.sent_next

/-- The flags depend on the field `Used` of the blocks and of the end header
and on the field `NextMem` of the blocks only. -/
theorem UsedW.congrUsed {cfg : Config} {s s' : Heap} {B Ex : Nat → Prop} (u : UsedW cfg s B Ex)
    (c : ChainW cfg s B)
    (hnx : ∀ a, B a → nextOf s' a = nextOf s a)
    (hus : ∀ a, B a ∨ a = OSMEM_SIZE_ALIGNED cfg → usedOf s' a = usedOf s a) :
    UsedW cfg s' B Ex := by
  constructor
  · intro o ho; rw [hus o (Or.inl ho)]; exact u.used01 o ho
  · intro o ho hex; rw [hus o (Or.inl ho), hnx o ho]
    intro h0 hn
    rw [hus _ ((c.next_mem o ho).symm.imp_right (fun e => e))]
    exact u.noadj o ho hex h0 hn
  · rw [hus _ (Or.inr rfl)]; exact u.sent_used

theorem LFreeW.congrLFree {cfg : Config} {s s' : Heap} {B : Nat → Prop} (l : LFreeW cfg s B)
    (hb : s'.gpOSMemBegin = s.gpOSMemBegin) (he : s'.gpOSMemEnd = s.gpOSMemEnd)
    (hl : s'.gpOSMemLFree = s.gpOSMemLFree)
    (hus : ∀ a, B a → usedOf s' a = usedOf s a) : LFreeW cfg s' B := by
  constructor
  · rw [hl, he, hb]
    rcases l.lfree_ok with h | ⟨o, h1, h2, h3⟩
    · exact Or.inl h
    · exact Or.inr ⟨o, h1, by rw [hus o h1]; exact h2, h3⟩
  · intro o ho; rw [hb, hl, hus o ho]; exact l.lfree_min o ho

/-- The exemptions may change as long as the rule holds for the blocks that
lose theirs. -/
theorem UsedW.weaken {cfg : Config} {s : Heap} {B Ex Ex' : Nat → Prop} (u : UsedW cfg s B Ex)
    (h : ∀ o, B o → Ex o → ¬ Ex' o → usedOf s o = 0 →
      nextOf s o ≠ OSMEM_SIZE_ALIGNED cfg → usedOf s (nextOf s o) = 1) :
    UsedW cfg s B Ex' := by
  constructor
  · exact u.used01
  · intro o ho hex h0 hn
    by_cases hE : Ex o
    · exact h o ho hE hex h0 hn
    · exact u.noadj o ho hE h0 hn
  · exact u.sent_used

/-- Links after a merge: the block `x` absorbs the block after it. -/
theorem ChainW.mergeChain {cfg : Config} {s s' : Heap} {B : Nat → Prop} (c : ChainW cfg s B)
    (hM : 0 < OSMIN_SIZE_ALIGNED cfg)
    {x : Nat} (hx : B x) (hn : nextOf s x ≠ OSMEM_SIZE_ALIGNED cfg)
    (hb : s'.gpOSMemBegin = s.gpOSMemBegin) (he : s'.gpOSMemEnd = s.gpOSMemEnd)
    (hnx : ∀ a, B a ∨ a = OSMEM_SIZE_ALIGNED cfg →
      nextOf s' a = if a = x then nextOf s (nextOf s x) else nextOf s a)
    (hpv : ∀ a, B a → a ≠ nextOf s x →
      prevOf s' a = if a = nextOf s (nextOf s x) then x else prevOf s a) :
    ChainW cfg s' (fun o => B o ∧ o ≠ nextOf s x) := by
  have hBn : B (nextOf s x) := (c.next_mem x hx).resolve_left hn
  have hx1 := c.next_ge x hx
  have hx2 := c.next_le x hx
  have hn1 := c.next_ge _ hBn
  have hn2 := c.next_le _ hBn
  have hn3 := c.next_mem _ hBn
  have hxE := c.lt_end hM hx
  constructor
  · rw [hb]; exact c.hbegin
  · rw [he, hb]; exact c.hend
  · exact ⟨c.zero_mem, by omega⟩
  · intro o ⟨ho, _⟩
    have := c.next_ge o ho
    rw [hnx o (Or.inl ho)]; split_ifs with e
    · subst e; omega
    · exact this
  · intro o ⟨ho, _⟩
    have := c.next_le o ho
    rw [hnx o (Or.inl ho)]; split_ifs with e
    · omega
    · exact this
  · intro o ⟨ho, _⟩
    rw [hnx o (Or.inl ho)]; split_ifs with e
    · rcases hn3 with h1 | h1
      · exact Or.inl h1
      · exact Or.inr ⟨h1, by omega⟩
    · rcases c.next_mem o ho with h1 | h1
      · exact Or.inl h1
      · exact Or.inr ⟨h1, fun e2 => e (c.next_inj hM ho hx e2)⟩
  · intro o y ⟨ho, _⟩ ⟨hy, hyn⟩ hlt
    have h1 := c.sep o y ho hy hlt
    have h2 := c.sep _ y hBn hy
    rw [hnx o (Or.inl ho)]; split_ifs with e
    · subst e; omega
    · exact h1
  · rw [hpv 0 c.zero_mem (by omega)]
    have := c.prev_zero
    split_ifs with e
    · omega
    · exact this
  · intro o ⟨ho, hon⟩ h0
    obtain ⟨h1, h2⟩ := c.prev_mem o ho h0
    rw [hpv o ho hon]
    split_ifs with e
    · refine ⟨⟨hx, by omega⟩, ?_⟩
      rw [hnx x (Or.inl hx), if_pos rfl, e]
    · have hp : prevOf s o ≠ x := by
        intro e2; rw [e2] at h2; exact hon h2.symm
      have hp2 : prevOf s o ≠ nextOf s x := by
        intro e2; rw [e2] at h2; exact e h2.symm
      refine ⟨⟨h1, hp2⟩, ?_⟩
      rw [hnx _ (Or.inl h1), if_neg hp]; exact h2
  · rw [hnx _ (Or.inr rfl), if_neg (by omega)]; exact c.sent_next

/-- Links after a split: a header is put at offset `q` inside the block `o`. -/
theorem ChainW.insertChain {cfg : Config} {s s' : Heap} {B : Nat → Prop} (c : ChainW cfg s B)
    (hM : 0 < OSMIN_SIZE_ALIGNED cfg)
    {o q : Nat} (ho : B o)
    (h1 : o + SIZEOF_OSMEM_ALIGNED cfg + OSMIN_SIZE_ALIGNED cfg ≤ q)
    (h2 : q + SIZEOF_OSMEM_ALIGNED cfg + OSMIN_SIZE_ALIGNED cfg ≤ nextOf s o)
    (hb : s'.gpOSMemBegin = s.gpOSMemBegin) (he : s'.gpOSMemEnd = s.gpOSMemEnd)
    (hnx : ∀ a, B a ∨ a = OSMEM_SIZE_ALIGNED cfg ∨ a = q →
      nextOf s' a = if a = q then nextOf s o else if a = o then q else nextOf s a)
    (hpv : ∀ a, B a ∨ a = q →
      prevOf s' a = if a = q then o else if a = nextOf s o then q else prevOf s a) :
    ChainW cfg s' (fun a => B a ∨ a = q) := by
  have ho2 := c.next_le o ho
  have ho3 := c.next_mem o ho
  have hqB : ¬ B q := fun hq => by
    have := c.sep o q ho hq; omega
  constructor
  · rw [hb]; exact c.hbegin
  · rw [he, hb]; exact c.hend
  · exact Or.inl c.zero_mem
  · intro a ha
    rw [hnx a (by tauto)]
    rcases ha with ha | ha
    · have := c.next_ge a ha
      split_ifs with e1 e2
      · omega
      · omega
      · exact this
    · simp [ha]; omega
  · intro a ha
    rw [hnx a (by tauto)]
    rcases ha with ha | ha
    · have := c.next_le a ha
      split_ifs with e1 e2
      · omega
      · omega
      · exact this
    · simp [ha]; omega
  · intro a ha
    rw [hnx a (by tauto)]
    rcases ha with ha | ha
    · have := c.next_mem a ha
      split_ifs with e1 e2
      · tauto
      · tauto
      · tauto
    · simp [ha]; tauto
  · intro a y ha hy hlt
    rw [hnx a (by tauto)]
    rcases ha with ha | ha <;> rcases hy with hy | hy
    · have h3 := c.sep a y ha hy hlt
      have := c.sep o y ho hy
      split_ifs with e1 e2
      · omega
      · subst e2; omega
      · exact h3
    · have := c.sep a o ha ho
      have := c.sep o a ho ha
      have := c.next_ge a ha
      split_ifs with e1 e2
      · omega
      · omega
      · omega
    · have := c.sep o y ho hy
      simp [ha]; omega
    · omega
  · rw [hpv 0 (Or.inl c.zero_mem)]
    have := c.prev_zero
    split_ifs with e1 e2
    · omega
    · omega
    · exact this
  · intro a ha h0
    rw [hpv a ha]
    rcases ha with ha | ha
    · obtain ⟨p1, p2⟩ := c.prev_mem a ha h0
      split_ifs with e1 e2
      · exact absurd (e1 ▸ ha) hqB
      · refine ⟨Or.inr rfl, ?_⟩
        rw [hnx q (by tauto), if_pos rfl, e2]
      · have hp : prevOf s a ≠ o := by
          intro e3; rw [e3] at p2; exact e2 p2.symm
        have hp2 : prevOf s a ≠ q := by
          intro e3; rw [e3] at p1; exact hqB p1
        refine ⟨Or.inl p1, ?_⟩
        rw [hnx _ (Or.inl p1), if_neg hp2, if_neg hp]; exact p2
    · subst ha
      rw [if_pos rfl]
      refine ⟨Or.inl ho, ?_⟩
      rw [hnx o (Or.inl ho), if_neg (by omega), if_pos rfl]
  · rw [hnx _ (by tauto)]
    have := c.lt_end hM ho
    rw [if_neg (by omega), if_neg (by omega)]; exact c.sent_next

/-! ## Merging two blocks -/

/-- Fields of the heap after `mergeNext` on the block `x`. -/
theorem mergeNext_fields (cfg : Config) (h : cfg.WF) {s : Heap} {B : Nat → Prop}
    (c : ChainW cfg s B) {x : Nat} (hx : B x) :
    (mergeNext cfg s (s.gpOSMemBegin + x)).gpOSMemBegin = s.gpOSMemBegin ∧
    (mergeNext cfg s (s.gpOSMemBegin + x)).gpOSMemEnd = s.gpOSMemEnd ∧
    (mergeNext cfg s (s.gpOSMemBegin + x)).gpOSMemLFree =
      (if s.gpOSMemLFree = s.gpOSMemBegin + nextOf s x then s.gpOSMemBegin + x
       else s.gpOSMemLFree) ∧
    (∀ a, nextOf (mergeNext cfg s (s.gpOSMemBegin + x)) a =
      if a = x then nextOf s (nextOf s x) else nextOf s a) ∧
    (∀ a, prevOf (mergeNext cfg s (s.gpOSMemBegin + x)) a =
      if a = nextOf s (nextOf s x) then x else prevOf s a) ∧
    (∀ a, usedOf (mergeNext cfg s (s.gpOSMemBegin + x)) a = usedOf s a) := by
  obtain ⟨hH, hM, hHM, hEW, hW, hb, hbE⟩ := WF_facts cfg h
  have hx1 := c.next_ge x hx
  have hxE := c.lt_end hM hx
  have hoff : offsetOf cfg s (s.gpOSMemBegin + x) = x := offsetOf_block cfg h c (by omega)
  have hne : ¬ nextOf s x = x := by omega
  unfold nextOf at hne
  by_cases hl : s.gpOSMemLFree = s.gpOSMemBegin + nextOf s x
  · have hl' := hl
    unfold nextOf at hl'
    refine ⟨?_, ?_, ?_, ?_, ?_, ?_⟩ <;>
      simp [mergeNext, nextOf, prevOf, usedOf, hl', hne, offsetOf]
    simp [offsetOf] at hoff
    simp [hoff]
  · have hl' := hl
    unfold nextOf at hl'
    refine ⟨?_, ?_, ?_, ?_, ?_, ?_⟩ <;>
      simp [mergeNext, nextOf, prevOf, usedOf, hl', hne, offsetOf]
    simp [offsetOf] at hoff
    simp [hoff]

/-- Flags after a merge: the block `x` is not exempt any more. -/
theorem UsedW.mergeUsed {cfg : Config} {s s' : Heap} {B Ex : Nat → Prop} (u : UsedW cfg s B Ex)
    (c : ChainW cfg s B)
    {x : Nat} (hx : B x) (hn : nextOf s x ≠ OSMEM_SIZE_ALIGNED cfg)
    (hun : usedOf s (nextOf s x) = 0) (hex : ¬ Ex (nextOf s x))
    (hnx : ∀ a, B a → nextOf s' a = if a = x then nextOf s (nextOf s x) else nextOf s a)
    (hus : ∀ a, B a ∨ a = OSMEM_SIZE_ALIGNED cfg → usedOf s' a = usedOf s a) :
    UsedW cfg s' (fun o => B o ∧ o ≠ nextOf s x) (fun o => Ex o ∧ o ≠ x) := by
  have hBn : B (nextOf s x) := (c.next_mem x hx).resolve_left hn
  constructor
  · intro o ⟨ho, _⟩; rw [hus o (Or.inl ho)]; exact u.used01 o ho
  · intro o ⟨ho, _⟩ hex' h0 hne
    rw [hus o (Or.inl ho)] at h0
    rw [hnx o ho] at hne ⊢
    by_cases e : o = x
    · rw [if_pos e] at hne ⊢
      rw [hus _ ((c.next_mem _ hBn).symm.imp_right id)]
      exact u.noadj _ hBn hex hun hne
    · rw [if_neg e] at hne ⊢
      rw [hus _ ((c.next_mem _ ho).symm.imp_right id)]
      exact u.noadj o ho (fun hE => hex' ⟨hE, e⟩) h0 hne
  · rw [hus _ (Or.inr rfl)]; exact u.sent_used

/-- Lowest free pointer after a merge. -/
theorem LFreeW.mergeLFree {cfg : Config} {s s' : Heap} {B : Nat → Prop} (l : LFreeW cfg s B)
    (c : ChainW cfg s B) (hM : 0 < OSMIN_SIZE_ALIGNED cfg)
    {x : Nat} (hx : B x) (hux : usedOf s x = 0)
    (hb : s'.gpOSMemBegin = s.gpOSMemBegin) (he : s'.gpOSMemEnd = s.gpOSMemEnd)
    (hl : s'.gpOSMemLFree =
      if s.gpOSMemLFree = s.gpOSMemBegin + nextOf s x then s.gpOSMemBegin + x
      else s.gpOSMemLFree)
    (hus : ∀ a, B a → usedOf s' a = usedOf s a) :
    LFreeW cfg s' (fun o => B o ∧ o ≠ nextOf s x) := by
  have hx1 := c.next_ge x hx
  constructor
  · rw [hl, he, hb]
    split_ifs with e
    · exact Or.inr ⟨x, ⟨hx, by omega⟩, by rw [hus x hx]; exact hux, rfl⟩
    · rcases l.lfree_ok with h1 | ⟨o, h1, h2, h3⟩
      · exact Or.inl h1
      · refine Or.inr ⟨o, ⟨h1, ?_⟩, by rw [hus o h1]; exact h2, h3⟩
        intro e2; rw [e2] at h3; exact e h3
  · intro o ⟨ho, _⟩
    rw [hb, hl, hus o ho]
    have := l.lfree_min o ho
    split_ifs with e
    · intro h1; exact this (by omega)
    · exact this

/-- Invariant after a merge. -/
theorem InvW.mergeInv (cfg : Config) (h : cfg.WF) {s : Heap} {B Ex : Nat → Prop}
    (inv : InvW cfg s B Ex) {x : Nat} (hx : B x) (hux : usedOf s x = 0)
    (hn : nextOf s x ≠ OSMEM_SIZE_ALIGNED cfg) (hun : usedOf s (nextOf s x) = 0)
    (hex : ¬ Ex (nextOf s x)) :
    InvW cfg (mergeNext cfg s (s.gpOSMemBegin + x)) (fun o => B o ∧ o ≠ nextOf s x)
      (fun o => Ex o ∧ o ≠ x) := by
  obtain ⟨hH, hM, hHM, hEW, hW, hb, hbE⟩ := WF_facts cfg h
  obtain ⟨f1, f2, f3, f4, f5, f6⟩ := mergeNext_fields cfg h inv.chain hx
  exact ⟨inv.chain.mergeChain hM hx hn f1 f2 (fun a _ => f4 a) (fun a _ _ => f5 a),
    inv.used.mergeUsed inv.chain hx hn hun hex (fun a _ => f4 a) (fun a _ => f6 a),
    inv.lfree.mergeLFree inv.chain hM hx hux f1 f2 f3 (fun a _ => f6 a)⟩

/-! ## The function OSMemFree -/

/-- First step of `OSMemFree` on the block `o` (lines 199-205): the block is
marked free and `gpOSMemLFree` is lowered to it. -/
theorem InvW.mark_free (cfg : Config) (h : cfg.WF) {s s' : Heap} {B : Nat → Prop}
    (inv : Inv cfg s B) {o : Nat} (ho : B o)
    (hb : s'.gpOSMemBegin = s.gpOSMemBegin) (he : s'.gpOSMemEnd = s.gpOSMemEnd)
    (hl : s'.gpOSMemLFree =
      if s.gpOSMemBegin + o < s.gpOSMemLFree then s.gpOSMemBegin + o else s.gpOSMemLFree)
    (hnx : ∀ a, nextOf s' a = nextOf s a) (hpv : ∀ a, prevOf s' a = prevOf s a)
    (hus : ∀ a, usedOf s' a = if a = o then 0 else usedOf s a) :
    InvW cfg s' B (fun a => a = o ∨ a = prevOf s o) := by
  obtain ⟨hH, hM, hHM, hEW, hW, hb0, hbE⟩ := WF_facts cfg h
  have hoE := inv.chain.lt_end hM ho
  refine ⟨inv.chain.congrChain hb he (fun a _ => hnx a) (fun a _ => hpv a), ?_, ?_⟩
  · constructor
    · intro a ha; rw [hus]; split_ifs
      · exact Or.inl rfl
      · exact inv.used.used01 a ha
    · intro a ha hex h0 hne
      rw [hnx] at hne ⊢
      have hao : a ≠ o := fun e => hex (Or.inl e)
      rw [hus, if_neg hao] at h0
      have hno : nextOf s a ≠ o := by
        intro e
        have := inv.chain.prev_next hM ha hne
        rw [e] at this
        exact hex (Or.inr this.symm)
      rw [hus, if_neg hno]
      exact inv.used.noadj a ha (fun f => f) h0 hne
    · rw [hus, if_neg (by omega)]; exact inv.used.sent_used
  · constructor
    · rw [hl, he, hb]
      split_ifs with e
      · exact Or.inr ⟨o, ho, by rw [hus, if_pos rfl], rfl⟩
      · rcases inv.lfree.lfree_ok with h1 | ⟨a, h1, h2, h3⟩
        · rw [inv.chain.hend] at h1; omega
        · refine Or.inr ⟨a, h1, ?_, h3⟩
          rw [hus]; split_ifs
          · rfl
          · exact h2
    · intro a ha
      rw [hb, hl, hus]
      have := inv.lfree.lfree_min a ha
      split_ifs with e1 e2 e2
      · omega
      · intro h1; exact this (by omega)
      · omega
      · exact this

/-- The function `OSMemCombine` on a header that is not used is a merge of the
block with its successor, when that one is free and not the end header,
followed by a merge of its predecessor with the block, when the predecessor is
free. -/
theorem OSMemCombine_eq (cfg : Config) (s : Heap) (x : Nat) (hu : (s.mem x).Used ≠ 1)
    (s1 : Heap)
    (hs1 : s1 = if x ≠ s.gpOSMemBegin + (s.mem x).NextMem ∧
        (s.mem (s.gpOSMemBegin + (s.mem x).NextMem)).Used = 0 ∧
        s.gpOSMemBegin + (s.mem x).NextMem ≠ s.gpOSMemEnd then mergeNext cfg s x else s)
    (hlink : s1.gpOSMemBegin + (s1.mem x).PrevMem ≠ x →
      s1.gpOSMemBegin + (s1.mem (s1.gpOSMemBegin + (s1.mem x).PrevMem)).NextMem = x) :
    OSMemCombine cfg s x =
      if s1.gpOSMemBegin + (s1.mem x).PrevMem ≠ x ∧
          (s1.mem (s1.gpOSMemBegin + (s1.mem x).PrevMem)).Used = 0 then
        mergeNext cfg s1 (s1.gpOSMemBegin + (s1.mem x).PrevMem)
      else s1 := by
  unfold OSMemCombine
  rw [if_neg hu]
  have e1 : (if x ≠ s.gpOSMemBegin + (s.mem x).NextMem ∧
        (s.mem (s.gpOSMemBegin + (s.mem x).NextMem)).Used = 0 ∧
        s.gpOSMemBegin + (s.mem x).NextMem ≠ s.gpOSMemEnd then
      (let sa := if s.gpOSMemLFree = s.gpOSMemBegin + (s.mem x).NextMem then s.setLFree x else s
       let sb := sa.setNextMem x (sa.mem (s.gpOSMemBegin + (s.mem x).NextMem)).NextMem
       sb.setPrevMem (sb.gpOSMemBegin + (sb.mem (s.gpOSMemBegin + (s.mem x).NextMem)).NextMem)
        (offsetOf cfg sb x)) else s) = s1 := by
    rw [hs1]; rfl
  simp only [] at e1 ⊢
  rw [e1]
  by_cases hc : s1.gpOSMemBegin + (s1.mem x).PrevMem ≠ x ∧
      (s1.mem (s1.gpOSMemBegin + (s1.mem x).PrevMem)).Used = 0
  · rw [if_pos hc, if_pos hc]
    unfold mergeNext
    simp only [hlink hc.1]
  · rw [if_neg hc, if_neg hc]

theorem InvW.congr_sets {cfg : Config} {s : Heap} {B B' Ex Ex' : Nat → Prop}
    (inv : InvW cfg s B Ex) (hB : ∀ a, B a ↔ B' a) (hE : ∀ a, Ex a ↔ Ex' a) :
    InvW cfg s B' Ex' := by
  have e1 : B = B' := funext fun a => propext (hB a)
  have e2 : Ex = Ex' := funext fun a => propext (hE a)
  rw [← e1, ← e2]; exact inv

theorem freeMark_fields (s : Heap) (o : Nat) :
    (freeMark s o).gpOSMemBegin = s.gpOSMemBegin ∧
    (freeMark s o).gpOSMemEnd = s.gpOSMemEnd ∧
    (freeMark s o).gpOSMemLFree =
      (if s.gpOSMemBegin + o < s.gpOSMemLFree then s.gpOSMemBegin + o else s.gpOSMemLFree) ∧
    (∀ a, nextOf (freeMark s o) a = nextOf s a) ∧
    (∀ a, prevOf (freeMark s o) a = prevOf s a) ∧
    (∀ a, usedOf (freeMark s o) a = if a = o then 0 else usedOf s a) := by
  unfold freeMark
  by_cases hl : s.gpOSMemBegin + o < s.gpOSMemLFree <;>
    simp [hl, nextOf, prevOf, usedOf]

/-- The function `OSMemFree` on the payload address of a used block `o`, in
three steps. -/
theorem OSMemFree_eq (cfg : Config) (h : cfg.WF) {s : Heap} {B : Nat → Prop}
    (inv : Inv cfg s B) {o : Nat} (ho : B o) (hu : usedOf s o = 1) :
    OSMemFree cfg s (s.gpOSMemBegin + o + SIZEOF_OSMEM_ALIGNED cfg) =
      freeBwd cfg (freeFwd cfg (freeMark s o) o) o := by
  obtain ⟨hH, hM, hHM, hEW, hW, hb0, hbE⟩ := WF_facts cfg h
  obtain ⟨m1, m2, m3, m4, m5, m6⟩ := freeMark_fields s o
  have hbeg := inv.chain.hbegin
  have hend := inv.chain.hend
  have ho1 := inv.chain.next_ge o ho
  have ho2 := inv.chain.next_le o ho
  have invm := InvW.mark_free cfg h inv ho m1 m2 m3 m4 m5 m6
  unfold OSMemFree
  rw [if_neg (by unfold OS_NULL; omega), if_neg (by omega), Nat.add_sub_cancel]
  have hu' : (s.mem (s.gpOSMemBegin + o)).Used = 1 := hu
  rw [if_pos hu']
  have e2 : (let s1 := s.setUsed (s.gpOSMemBegin + o) 0
      let s2 := if s.gpOSMemBegin + o < s1.gpOSMemLFree then s1.setLFree (s.gpOSMemBegin + o)
        else s1
      OSMemCombine cfg s2 (s.gpOSMemBegin + o)) =
      OSMemCombine cfg (freeMark s o) ((freeMark s o).gpOSMemBegin + o) := by
    rw [m1]; rfl
  rw [e2]
  have hmu : ((freeMark s o).mem ((freeMark s o).gpOSMemBegin + o)).Used ≠ 1 := by
    have := m6 o
    rw [if_pos rfl] at this
    unfold usedOf at this
    rw [this]; omega
  have hn : nextOf (freeMark s o) o = nextOf s o := m4 o
  have hp : prevOf (freeMark s o) o = prevOf s o := m5 o
  -- the forward step
  have hs1 : freeFwd cfg (freeMark s o) o =
      if (freeMark s o).gpOSMemBegin + o ≠ (freeMark s o).gpOSMemBegin +
            ((freeMark s o).mem ((freeMark s o).gpOSMemBegin + o)).NextMem ∧
          ((freeMark s o).mem ((freeMark s o).gpOSMemBegin +
            ((freeMark s o).mem ((freeMark s o).gpOSMemBegin + o)).NextMem)).Used = 0 ∧
          (freeMark s o).gpOSMemBegin +
            ((freeMark s o).mem ((freeMark s o).gpOSMemBegin + o)).NextMem ≠
            (freeMark s o).gpOSMemEnd then mergeNext cfg (freeMark s o)
              ((freeMark s o).gpOSMemBegin + o)
      else freeMark s o := by
    unfold freeFwd
    apply if_congr _ rfl rfl
    have e3 : ((freeMark s o).mem ((freeMark s o).gpOSMemBegin + o)).NextMem = nextOf s o := hn
    rw [e3, m2, hend, m1]
    unfold usedOf
    rw [hn, m1]
    constructor
    · rintro ⟨a1, a2⟩; exact ⟨by omega, a2, by omega⟩
    · rintro ⟨_, a2, a3⟩; exact ⟨by omega, a2⟩
  have f1 : (freeFwd cfg (freeMark s o) o).gpOSMemBegin = s.gpOSMemBegin := by
    unfold freeFwd; split_ifs
    · rw [(mergeNext_fields cfg h invm.chain ho).1, m1]
    · exact m1
  have f2 : prevOf (freeFwd cfg (freeMark s o) o) o = prevOf s o := by
    unfold freeFwd; split_ifs
    · rw [(mergeNext_fields cfg h invm.chain ho).2.2.2.2.1, if_neg, hp]
      have := invm.chain.next_ge o ho
      have := (invm.chain.next_mem o ho)
      rcases this with e | e
      · omega
      · have := invm.chain.next_ge _ e; omega
    · exact hp
  have f2' : ((freeFwd cfg (freeMark s o) o).mem (s.gpOSMemBegin + o)).PrevMem = prevOf s o := by
    rw [← f2]; unfold prevOf; rw [f1]
  rw [OSMemCombine_eq cfg (freeMark s o) _ hmu (freeFwd cfg (freeMark s o) o) hs1]
  · unfold freeBwd
    rw [m1, f1, f2', f2]
    apply if_congr _ rfl rfl
    unfold usedOf
    rw [f1]
    have hz : o = 0 → prevOf s o = 0 := fun e => by subst e; exact inv.chain.prev_zero
    constructor
    · rintro ⟨a1, a2⟩; exact ⟨by omega, a2⟩
    · rintro ⟨a1, a2⟩
      refine ⟨?_, a2⟩
      have := inv.chain.prev_lt hM ho a1
      omega
  · -- the link from the predecessor
    rw [m1, f1, f2']
    intro hne
    have h0 : o ≠ 0 := by
      intro e; subst e
      rw [inv.chain.prev_zero] at hne; omega
    obtain ⟨p1, p2⟩ := inv.chain.prev_mem o ho h0
    have plt := inv.chain.prev_lt hM ho h0
    have : nextOf (freeFwd cfg (freeMark s o) o) (prevOf s o) = o := by
      unfold freeFwd; split_ifs
      · rw [(mergeNext_fields cfg h invm.chain ho).2.2.2.1, if_neg (by omega), m4]; exact p2
      · rw [m4]; exact p2
    unfold nextOf at this
    rw [f1] at this
    rw [this]

theorem ChainW.congrSetChain {cfg : Config} {s : Heap} {B B' : Nat → Prop}
    (c : ChainW cfg s B) (hB : ∀ a, B a ↔ B' a) : ChainW cfg s B' := by
  have e1 : B = B' := funext fun a => propext (hB a)
  rw [← e1]; exact c

theorem UsedW.congrSetUsed {cfg : Config} {s : Heap} {B B' Ex : Nat → Prop}
    (u : UsedW cfg s B Ex) (hB : ∀ a, B a ↔ B' a) : UsedW cfg s B' Ex := by
  have e1 : B = B' := funext fun a => propext (hB a)
  rw [← e1]; exact u

theorem LFreeW.congrSetLFree {cfg : Config} {s : Heap} {B B' : Nat → Prop}
    (l : LFreeW cfg s B) (hB : ∀ a, B a ↔ B' a) : LFreeW cfg s B' := by
  have e1 : B = B' := funext fun a => propext (hB a)
  rw [← e1]; exact l

theorem freeFwd_fields (cfg : Config) (h : cfg.WF) {s : Heap} {B : Nat → Prop}
    (c : ChainW cfg s B) {o : Nat} (ho : B o) :
    (freeFwd cfg s o).gpOSMemBegin = s.gpOSMemBegin ∧
    (freeFwd cfg s o).gpOSMemEnd = s.gpOSMemEnd ∧
    (∀ a, a ≠ o → nextOf (freeFwd cfg s o) a = nextOf s a) ∧
    (∀ a, a ≤ nextOf s o → prevOf (freeFwd cfg s o) a = prevOf s a) ∧
    (∀ a, usedOf (freeFwd cfg s o) a = usedOf s a) := by
  obtain ⟨hH, hM, hHM, hEW, hW, hb0, hbE⟩ := WF_facts cfg h
  unfold freeFwd
  split_ifs with hc
  · obtain ⟨f1, f2, f3, f4, f5, f6⟩ := mergeNext_fields cfg h c ho
    refine ⟨f1, f2, fun a ha => by rw [f4, if_neg ha], fun a ha => ?_, f6⟩
    rw [f5, if_neg]
    have hBn := (c.next_mem o ho).resolve_left hc.1
    have := c.next_ge _ hBn
    omega
  · exact ⟨rfl, rfl, fun _ _ => rfl, fun _ _ => rfl, fun _ => rfl⟩

/-- Invariant after the first two steps of `OSMemFree` on the block `o`. -/
theorem InvW.freeFwd (cfg : Config) (h : cfg.WF) {s : Heap} {B : Nat → Prop}
    (inv : Inv cfg s B) {o : Nat} (ho : B o) (hu : usedOf s o = 1) :
    InvW cfg (freeFwd cfg (freeMark s o) o)
      (fun a => B a ∧ ¬ ((nextOf s o ≠ OSMEM_SIZE_ALIGNED cfg ∧ usedOf s (nextOf s o) = 0) ∧
        a = nextOf s o))
      (fun a => a = prevOf s o ∧ a ≠ o) := by
  obtain ⟨hH, hM, hHM, hEW, hW, hb0, hbE⟩ := WF_facts cfg h
  obtain ⟨m1, m2, m3, m4, m5, m6⟩ := freeMark_fields s o
  have invm := InvW.mark_free cfg h inv ho m1 m2 m3 m4 m5 m6
  have ho1 := inv.chain.next_ge o ho
  have hpo : prevOf s o ≤ o := by
    by_cases e : o = 0
    · subst e; rw [inv.chain.prev_zero]
    · exact Nat.le_of_lt (inv.chain.prev_lt hM ho e)
  have hun : usedOf (freeMark s o) (nextOf s o) = usedOf s (nextOf s o) := by
    rw [m6, if_neg (by omega)]
  unfold AIOS.freeFwd
  rw [m4, hun]
  split_ifs with hc
  · have := InvW.mergeInv cfg h invm ho (by rw [m6, if_pos rfl]) (by rw [m4]; exact hc.1)
      (by rw [m4, hun]; exact hc.2) (by rw [m4]; intro e; omega)
    refine this.congr_sets (fun a => ?_) (fun a => ?_)
    · rw [m4]; simp only [hc, true_and, ne_eq, not_false_eq_true, and_self]
    · constructor
      · rintro ⟨a1 | a1, a2⟩
        · exact absurd a1 a2
        · exact ⟨a1, a2⟩
      · rintro ⟨a1, a2⟩; exact ⟨Or.inr a1, a2⟩
  · refine ⟨?_, ?_, ?_⟩
    · exact invm.chain.congrSetChain (fun a => by simp [hc])
    · refine (@UsedW.weaken cfg _ B _ (fun a => a = prevOf s o ∧ a ≠ o) invm.used ?_).congrSetUsed
        (fun a => by simp [hc])
      intro a ha hex hnex h0 hne
      have e : a = o := by
        rcases hex with e | e
        · exact e
        · by_contra hh; exact hnex ⟨e, hh⟩
      subst e
      rw [m4] at hne ⊢
      rw [hun]
      have hBn := (inv.chain.next_mem a ha).resolve_left hne
      rcases inv.used.used01 _ hBn with u0 | u1
      · exact absurd ⟨hne, u0⟩ hc
      · exact u1
    · exact invm.lfree.congrSetLFree (fun a => by simp [hc])

/-- Invariant after `OSMemFree` on the payload address of a used block. -/
theorem OSMemFree_inv (cfg : Config) (h : cfg.WF) {s : Heap} {B : Nat → Prop}
    (inv : Inv cfg s B) {o : Nat} (ho : B o) (hu : usedOf s o = 1) :
    Inv cfg (OSMemFree cfg s (s.gpOSMemBegin + o + SIZEOF_OSMEM_ALIGNED cfg))
        (freeBlocks cfg s B o) ∧
      (OSMemFree cfg s (s.gpOSMemBegin + o + SIZEOF_OSMEM_ALIGNED cfg)).gpOSMemBegin
        = s.gpOSMemBegin ∧
      ∀ a, usedOf (OSMemFree cfg s (s.gpOSMemBegin + o + SIZEOF_OSMEM_ALIGNED cfg)) a
        = if a = o then 0 else usedOf s a := by
  obtain ⟨hH, hM, hHM, hEW, hW, hb0, hbE⟩ := WF_facts cfg h
  obtain ⟨m1, m2, m3, m4, m5, m6⟩ := freeMark_fields s o
  have invm := InvW.mark_free cfg h inv ho m1 m2 m3 m4 m5 m6
  have inv3 := InvW.freeFwd cfg h inv ho hu
  obtain ⟨g1, g2, g3, g4, g5⟩ := freeFwd_fields cfg h invm.chain ho
  have ho1 := inv.chain.next_ge o ho
  rw [OSMemFree_eq cfg h inv ho hu]
  have hpv : prevOf (freeFwd cfg (freeMark s o) o) o = prevOf s o := by
    rw [g4 o (by rw [m4]; omega), m5]
  have hus : ∀ a, usedOf (freeFwd cfg (freeMark s o) o) a = if a = o then 0 else usedOf s a := by
    intro a; rw [g5, m6]
  unfold freeBwd
  rw [hpv, hus]
  by_cases h0 : o = 0
  · -- the first block has no predecessor
    rw [if_neg (by tauto)]
    refine ⟨?_, by rw [g1, m1], hus⟩
    refine ⟨inv3.chain.congrSetChain ?_, (inv3.used.weaken ?_).congrSetUsed ?_, inv3.lfree.congrSetLFree ?_⟩
    · intro a; unfold freeBlocks; tauto
    · intro a _ hex; rw [h0, inv.chain.prev_zero] at hex; omega
    · intro a; unfold freeBlocks; tauto
    · intro a; unfold freeBlocks; tauto
  · obtain ⟨p1, p2⟩ := inv.chain.prev_mem o ho h0
    have plt := inv.chain.prev_lt hM ho h0
    rw [if_neg (show ¬ prevOf s o = o by omega)]
    have hnp : nextOf (freeFwd cfg (freeMark s o) o) (prevOf s o) = o := by
      rw [g3 _ (by omega), m4]; exact p2
    by_cases hc : usedOf s (prevOf s o) = 0
    · rw [if_pos ⟨h0, hc⟩]
      have hB3 : (fun a => B a ∧ ¬ ((nextOf s o ≠ OSMEM_SIZE_ALIGNED cfg ∧
          usedOf s (nextOf s o) = 0) ∧ a = nextOf s o)) (prevOf s o) :=
        ⟨p1, fun hh => by have := hh.2; omega⟩
      have := InvW.mergeInv cfg h inv3 hB3 (by rw [hus, if_neg (by omega)]; exact hc)
        (by rw [hnp]; exact (inv.chain.lt_end hM ho).ne)
        (by simp [hnp, hus]) (by rw [hnp]; simp)
      refine ⟨this.congr_sets (fun a => ?_) (fun a => ?_), ?_, ?_⟩
      · rw [hnp]; unfold freeBlocks; simp only [h0, hc, ne_eq, not_false_eq_true, and_self,
          true_and]; tauto
      · simp only [ne_eq]; tauto
      · rw [(mergeNext_fields cfg h inv3.chain hB3).1, g1, m1]
      · intro a; rw [(mergeNext_fields cfg h inv3.chain hB3).2.2.2.2.2, hus]
    · rw [if_neg (by tauto)]
      refine ⟨?_, by rw [g1, m1], hus⟩
      refine ⟨inv3.chain.congrSetChain ?_, (inv3.used.weaken ?_).congrSetUsed ?_,
        inv3.lfree.congrSetLFree ?_⟩
      · intro a; unfold freeBlocks; tauto
      · intro a _ hex _ hu0
        rw [hex.1, hus, if_neg (by omega)] at hu0
        exact absurd hu0 hc
      · intro a; unfold freeBlocks; tauto
      · intro a; unfold freeBlocks; tauto

/-! ## The function OSMemMalloc -/

/-- Fields of the heap after `OSMemMalloc_take` on a block that splits. -/
theorem take_fields_split (cfg : Config) (h : cfg.WF) {s : Heap} {B : Nat → Prop}
    (c : ChainW cfg s B) {o sz : Nat} (ho : B o) (hs : Splits cfg s o sz) :
    (OSMemMalloc_take cfg s o sz).gpOSMemBegin = s.gpOSMemBegin ∧
    (OSMemMalloc_take cfg s o sz).gpOSMemEnd = s.gpOSMemEnd ∧
    (OSMemMalloc_take cfg s o sz).gpOSMemLFree = s.gpOSMemLFree ∧
    (∀ a, nextOf (OSMemMalloc_take cfg s o sz) a =
      if a = o + SIZEOF_OSMEM_ALIGNED cfg + sz then nextOf s o
      else if a = o then o + SIZEOF_OSMEM_ALIGNED cfg + sz else nextOf s a) ∧
    (∀ a, prevOf (OSMemMalloc_take cfg s o sz) a =
      if a = o + SIZEOF_OSMEM_ALIGNED cfg + sz then o
      else if a = nextOf s o ∧ nextOf s o ≠ OSMEM_SIZE_ALIGNED cfg then
        o + SIZEOF_OSMEM_ALIGNED cfg + sz
      else prevOf s a) ∧
    (∀ a, usedOf (OSMemMalloc_take cfg s o sz) a =
      if a = o then 1 else if a = o + SIZEOF_OSMEM_ALIGNED cfg + sz then 0 else usedOf s a) := by
  obtain ⟨hH, hM, hHM, hEW, hW, hb0, hbE⟩ := WF_facts cfg h
  have ho2 := c.next_le o ho
  have hbeg := c.hbegin
  unfold Splits at hs
  have hq : uOSMemSize_t cfg (o + SIZEOF_OSMEM_ALIGNED cfg + sz)
      = o + SIZEOF_OSMEM_ALIGNED cfg + sz := uOSMemSize_t_of_lt cfg (by omega)
  have hsub : sub32 (nextOf s o) (o + SIZEOF_OSMEM_ALIGNED cfg)
      = nextOf s o - (o + SIZEOF_OSMEM_ALIGNED cfg) := sub32_of_le (by omega) (by omega)
  have hmod : (sz + SIZEOF_OSMEM_ALIGNED cfg + OSMIN_SIZE_ALIGNED cfg) % 2 ^ 32
      = sz + SIZEOF_OSMEM_ALIGNED cfg + OSMIN_SIZE_ALIGNED cfg := Nat.mod_eq_of_lt (by omega)
  have hcond : sub32 (s.mem (s.gpOSMemBegin + o)).NextMem (o + SIZEOF_OSMEM_ALIGNED cfg) ≥
      (sz + SIZEOF_OSMEM_ALIGNED cfg + OSMIN_SIZE_ALIGNED cfg) % 2 ^ 32 := by
    have : (s.mem (s.gpOSMemBegin + o)).NextMem = nextOf s o := rfl
    rw [this, hsub, hmod]; omega
  unfold OSMemMalloc_take
  simp only [hcond, if_true, hq]
  have hne1 : ¬ o = o + SIZEOF_OSMEM_ALIGNED cfg + sz := by omega
  have hne2 : ¬ o + SIZEOF_OSMEM_ALIGNED cfg + sz = o := by omega
  have hne3 : ¬ nextOf s o = o + SIZEOF_OSMEM_ALIGNED cfg + sz := by omega
  have hne4 : ¬ o + SIZEOF_OSMEM_ALIGNED cfg + sz = nextOf s o := by omega
  generalize o + SIZEOF_OSMEM_ALIGNED cfg + sz = q at *
  have hn : (s.mem (s.gpOSMemBegin + o)).NextMem = nextOf s o := rfl
  generalize nextOf s o = n at *
  by_cases hE : n = OSMEM_SIZE_ALIGNED cfg
  · refine ⟨?_, ?_, ?_, ?_, ?_, ?_⟩ <;>
      simp [nextOf, prevOf, usedOf, hne1, hne2, hn, hE]
    · intro a; split_ifs <;> simp_all
  · refine ⟨?_, ?_, ?_, ?_, ?_, ?_⟩ <;>
      simp [nextOf, prevOf, usedOf, hne1, hne2, hne3, hne4, hn, hE]
    · intro a; split_ifs <;> simp_all
    · intro a; split_ifs <;> simp_all

/-- Fields of the heap after `OSMemMalloc_take` on a block that does not
split. -/
theorem take_fields_whole (cfg : Config) (h : cfg.WF) {s : Heap} {B : Nat → Prop}
    (c : ChainW cfg s B) {o sz : Nat} (ho : B o) (hfit : o + SIZEOF_OSMEM_ALIGNED cfg + sz ≤ nextOf s o)
    (hs : ¬ Splits cfg s o sz) :
    OSMemMalloc_take cfg s o sz = s.setUsed (s.gpOSMemBegin + o) 1 := by
  obtain ⟨hH, hM, hHM, hEW, hW, hb0, hbE⟩ := WF_facts cfg h
  have ho1 := c.next_ge o ho
  have ho2 := c.next_le o ho
  have hbeg := c.hbegin
  unfold Splits at hs
  have hsub : sub32 (nextOf s o) (o + SIZEOF_OSMEM_ALIGNED cfg)
      = nextOf s o - (o + SIZEOF_OSMEM_ALIGNED cfg) := sub32_of_le (by omega) (by omega)
  have hcond : ¬ sub32 (s.mem (s.gpOSMemBegin + o)).NextMem (o + SIZEOF_OSMEM_ALIGNED cfg) ≥
      (sz + SIZEOF_OSMEM_ALIGNED cfg + OSMIN_SIZE_ALIGNED cfg) % 2 ^ 32 := by
    have : (s.mem (s.gpOSMemBegin + o)).NextMem = nextOf s o := rfl
    rw [this, hsub]
    rw [Nat.mod_eq_of_lt (by omega)]; omega
  unfold OSMemMalloc_take
  simp only [hcond, if_false]

theorem ChainW.lt_end' {cfg : Config} {s : Heap} {B : Nat → Prop} (c : ChainW cfg s B)
    {x : Nat} (hx : B x) : x ≤ OSMEM_SIZE_ALIGNED cfg := by
  have h3 := c.next_ge x hx
  have h4 := c.next_le x hx
  omega

/-- Flags after a split: the new block `q` is free, the block `o` before it
is used, and the header after it is used. -/
theorem UsedW.insertUsed {cfg : Config} {s s' : Heap} {B Ex : Nat → Prop} (u : UsedW cfg s B Ex)
    (c : ChainW cfg s B) (hM : 0 < OSMIN_SIZE_ALIGNED cfg)
    {o q : Nat} (ho : B o) (hq : ¬ B q)
    (hnext : nextOf s o = OSMEM_SIZE_ALIGNED cfg ∨ usedOf s (nextOf s o) = 1)
    (hnx : ∀ a, B a ∨ a = q →
      nextOf s' a = if a = q then nextOf s o else if a = o then q else nextOf s a)
    (hus : ∀ a, B a ∨ a = OSMEM_SIZE_ALIGNED cfg → a ≠ o → usedOf s' a = usedOf s a)
    (huq : usedOf s' q = 0) (huo : usedOf s' o = 1) :
    UsedW cfg s' (fun a => B a ∨ a = q) Ex := by
  have hno : nextOf s o ≠ o := by
    have := c.next_ge o ho; omega
  constructor
  · rintro a (ha | ha)
    · by_cases e : a = o
      · subst e; exact Or.inr huo
      · rw [hus a (Or.inl ha) e]; exact u.used01 a ha
    · subst ha; exact Or.inl huq
  · rintro a (ha | ha) hex h0
    · have haq : a ≠ q := fun e => hq (e ▸ ha)
      by_cases e : a = o
      · subst e; omega
      · rw [hus a (Or.inl ha) e] at h0
        rw [hnx a (Or.inl ha), if_neg haq, if_neg e]
        intro hne
        have := u.noadj a ha hex h0 hne
        by_cases e2 : nextOf s a = o
        · rw [e2]; exact huo
        · rw [hus _ ((c.next_mem a ha).symm.imp_right id) e2]; exact this
    · subst ha
      rw [hnx a (Or.inr rfl), if_pos rfl]
      intro hne
      rcases hnext with e | e
      · exact absurd e hne
      · rw [hus _ ((c.next_mem o ho).symm.imp_right id) hno]; exact e
  · rw [hus _ (Or.inr rfl) (c.lt_end hM ho).ne']; exact u.sent_used

/-- Links and flags after `OSMemMalloc_take` on a free block `o` that fits a
payload of `sz` bytes. -/
theorem take_inv (cfg : Config) (h : cfg.WF) {s : Heap} {B : Nat → Prop}
    (inv : Inv cfg s B) {o sz : Nat} (ho : B o) (hu : usedOf s o = 0)
    (hfit : o + SIZEOF_OSMEM_ALIGNED cfg + sz ≤ nextOf s o)
    (hsz : OSMIN_SIZE_ALIGNED cfg ≤ sz) :
    ChainW cfg (OSMemMalloc_take cfg s o sz) (splitBlocks cfg s B o sz) ∧
    UsedW cfg (OSMemMalloc_take cfg s o sz) (splitBlocks cfg s B o sz) (fun _ => False) ∧
    (OSMemMalloc_take cfg s o sz).gpOSMemBegin = s.gpOSMemBegin ∧
    (OSMemMalloc_take cfg s o sz).gpOSMemEnd = s.gpOSMemEnd ∧
    (OSMemMalloc_take cfg s o sz).gpOSMemLFree = s.gpOSMemLFree ∧
    (∀ a, B a → usedOf (OSMemMalloc_take cfg s o sz) a = if a = o then 1 else usedOf s a) ∧
    (∀ a, splitBlocks cfg s B o sz a → ¬ B a → usedOf (OSMemMalloc_take cfg s o sz) a = 0) ∧
    (∀ a, B a → a ≠ o → nextOf (OSMemMalloc_take cfg s o sz) a = nextOf s a) ∧
    nextOf (OSMemMalloc_take cfg s o sz) o =
      (if Splits cfg s o sz then o + SIZEOF_OSMEM_ALIGNED cfg + sz else nextOf s o) := by
  obtain ⟨hH, hM, hHM, hEW, hW, hb0, hbE⟩ := WF_facts cfg h
  have ho1 := inv.chain.next_ge o ho
  have ho2 := inv.chain.next_le o ho
  by_cases hs : Splits cfg s o sz
  · obtain ⟨f1, f2, f3, f4, f5, f6⟩ := take_fields_split cfg h inv.chain ho hs
    have hs' := hs
    unfold Splits at hs'
    have hqB : ¬ B (o + SIZEOF_OSMEM_ALIGNED cfg + sz) := fun hq => by
      have := inv.chain.sep o _ ho hq; omega
    have hBeq : ∀ a, (B a ∨ a = o + SIZEOF_OSMEM_ALIGNED cfg + sz) ↔ splitBlocks cfg s B o sz a := by
      intro a; unfold splitBlocks; tauto
    refine ⟨?_, ?_, f1, f2, f3, ?_, ?_, ?_, ?_⟩
    · refine (inv.chain.insertChain hM ho (by omega) (by omega) f1 f2 (fun a _ => f4 a)
        (fun a ha => ?_)).congrSetChain hBeq
      rw [f5]
      by_cases e1 : a = o + SIZEOF_OSMEM_ALIGNED cfg + sz
      · rw [if_pos e1, if_pos e1]
      · rw [if_neg e1, if_neg e1]
        by_cases e2 : a = nextOf s o
        · have hB : B a := ha.resolve_right e1
          have := inv.chain.lt_end hM hB
          rw [if_pos ⟨e2, by omega⟩, if_pos e2]
        · rw [if_neg (by tauto), if_neg e2]
    · refine (inv.used.insertUsed inv.chain hM ho hqB ?_ (fun a _ => f4 a) (fun a ha hao => ?_)
        ?_ ?_).congrSetUsed hBeq
      · by_cases e : nextOf s o = OSMEM_SIZE_ALIGNED cfg
        · exact Or.inl e
        · exact Or.inr (inv.used.noadj o ho (fun f => f) hu e)
      · rw [f6, if_neg hao]
        by_cases e : a = o + SIZEOF_OSMEM_ALIGNED cfg + sz
        · rcases ha with ha | ha
          · exact absurd (e ▸ ha) hqB
          · omega
        · rw [if_neg e]
      · rw [f6, if_neg (by omega), if_pos rfl]
      · rw [f6, if_pos rfl]
    · intro a ha
      rw [f6]
      by_cases e : a = o
      · rw [if_pos e, if_pos e]
      · rw [if_neg e, if_neg e, if_neg (fun (e2 : a = o + SIZEOF_OSMEM_ALIGNED cfg + sz) => hqB (e2 ▸ ha))]
    · intro a ha hnb
      unfold splitBlocks at ha
      have e : a = o + SIZEOF_OSMEM_ALIGNED cfg + sz := by tauto
      rw [f6, if_neg (by omega), if_pos e]
    · intro a ha hao
      rw [f4, if_neg (fun (e2 : a = o + SIZEOF_OSMEM_ALIGNED cfg + sz) => hqB (e2 ▸ ha)), if_neg hao]
    · rw [f4, if_neg (by omega), if_pos rfl, if_pos hs]
  · have e := take_fields_whole cfg h inv.chain ho hfit hs
    rw [e]
    have hBeq : ∀ a, B a ↔ splitBlocks cfg s B o sz a := by
      intro a; unfold splitBlocks; tauto
    have hus : ∀ a, usedOf (s.setUsed (s.gpOSMemBegin + o) 1) a = if a = o then 1 else usedOf s a := by
      intro a; simp [usedOf]
    have hnx : ∀ a, nextOf (s.setUsed (s.gpOSMemBegin + o) 1) a = nextOf s a := by
      intro a; simp [nextOf]
    have hpv : ∀ a, prevOf (s.setUsed (s.gpOSMemBegin + o) 1) a = prevOf s a := by
      intro a; simp [prevOf]
    refine ⟨?_, ?_, rfl, rfl, rfl, fun a _ => hus a, ?_, fun a _ _ => hnx a, ?_⟩
    · exact (@ChainW.congrChain cfg s (s.setUsed (s.gpOSMemBegin + o) 1) B inv.chain rfl rfl
        (fun a _ => hnx a) (fun a _ => hpv a)).congrSetChain hBeq
    · refine UsedW.congrSetUsed ?_ hBeq
      constructor
      · intro a ha; rw [hus]; split_ifs
        · exact Or.inr rfl
        · exact inv.used.used01 a ha
      · intro a ha _ h0
        rw [hus] at h0
        by_cases e : a = o
        · rw [if_pos e] at h0; omega
        · rw [if_neg e] at h0
          rw [hnx, hus]
          intro hne
          split_ifs
          · rfl
          · exact inv.used.noadj a ha (fun f => f) h0 hne
      · rw [hus, if_neg (inv.chain.lt_end hM ho).ne']; exact inv.used.sent_used
    · intro a ha hnb; exact absurd ((hBeq a).mpr ha) hnb
    · rw [hnx, if_neg hs]

/-- The loop that moves `gpOSMemLFree` forward ends within the fuel that the
distance to the end header allows, and it ends on the lowest free block. -/
theorem lfree_loop (cfg : Config) (h : cfg.WF) {B : Nat → Prop} :
    ∀ (fuel : Nat) (t : Heap) (cur : Nat), ChainW cfg t B → UsedW cfg t B (fun _ => False) →
      t.gpOSMemLFree = t.gpOSMemBegin + cur → (cur = OSMEM_SIZE_ALIGNED cfg ∨ B cur) →
      (∀ a, B a → a < cur → usedOf t a = 1) →
      (OSMEM_SIZE_ALIGNED cfg - cur < fuel → ∃ t', OSMemMalloc_lfree fuel t = some t') ∧
      (∀ t', OSMemMalloc_lfree fuel t = some t' →
        t'.gpOSMemBegin = t.gpOSMemBegin ∧ t'.gpOSMemEnd = t.gpOSMemEnd ∧ t'.mem = t.mem ∧
        LFreeW cfg t' B) := by
  obtain ⟨hH, hM, hHM, hEW, hW, hb0, hbE⟩ := WF_facts cfg h
  intro fuel
  induction fuel with
  | zero =>
    intro t cur c u hl hcur hlow
    exact ⟨fun hlt => by omega, fun t' ht => by simp [OSMemMalloc_lfree] at ht⟩
  | succ fuel ih =>
    intro t cur c u hl hcur hlow
    unfold OSMemMalloc_lfree
    by_cases hc : (t.mem t.gpOSMemLFree).Used ≠ 0 ∧ t.gpOSMemLFree ≠ t.gpOSMemEnd
    · rw [if_pos hc]
      have hne : cur ≠ OSMEM_SIZE_ALIGNED cfg := by
        intro e; apply hc.2; rw [hl, c.hend, e]
      have hB : B cur := hcur.resolve_left hne
      have hu1 : usedOf t cur = 1 := by
        rcases u.used01 cur hB with e | e
        · exfalso; apply hc.1; rw [hl]; exact e
        · exact e
      have hn1 := c.next_ge cur hB
      have hn2 := c.next_le cur hB
      have hnext : (t.mem t.gpOSMemLFree).NextMem = nextOf t cur := by rw [hl]; rfl
      rw [hnext]
      have c2 : ChainW cfg (t.setLFree (t.gpOSMemBegin + nextOf t cur)) B :=
        c.congrChain rfl rfl (fun _ _ => rfl) (fun _ _ => rfl)
      have u2 : UsedW cfg (t.setLFree (t.gpOSMemBegin + nextOf t cur)) B (fun _ => False) :=
        u.congrUsed c (fun _ _ => rfl) (fun _ _ => rfl)
      have := ih (t.setLFree (t.gpOSMemBegin + nextOf t cur)) (nextOf t cur) c2 u2 rfl
        (c.next_mem cur hB) (fun a ha hlt => by
          have := c.sep cur a hB ha
          by_cases e : a = cur
          · subst e; exact hu1
          · exact hlow a ha (by omega))
      exact ⟨fun hlt => this.1 (by omega), fun t' ht => this.2 t' ht⟩
    · rw [if_neg hc]
      refine ⟨fun _ => ⟨t, rfl⟩, fun t' ht => ?_⟩
      have e : t' = t := by simpa using ht.symm
      subst e
      refine ⟨rfl, rfl, rfl, ?_, ?_⟩
      · rcases hcur with e | hB
        · left; rw [hl, c.hend, e]
        · right
          refine ⟨cur, hB, ?_, hl⟩
          by_contra hu
          apply hc
          refine ⟨by rw [hl]; exact hu, ?_⟩
          have := c.lt_end hM hB
          rw [hl, c.hend]; omega
      · intro a ha hlt
        exact hlow a ha (by rw [hl] at hlt; omega)

/-- The test of line 384 in the terms of the invariant. -/
theorem fits_iff (cfg : Config) (h : cfg.WF) {s : Heap} {B : Nat → Prop}
    (c : ChainW cfg s B) {o sz : Nat} (ho : B o) :
    ((s.mem (s.gpOSMemBegin + o)).Used = 0 ∧
      sub32 (s.mem (s.gpOSMemBegin + o)).NextMem (o + SIZEOF_OSMEM_ALIGNED cfg) ≥ sz) ↔
    Fits cfg s o sz := by
  obtain ⟨hH, hM, hHM, hEW, hW, hb0, hbE⟩ := WF_facts cfg h
  have ho1 := c.next_ge o ho
  have ho2 := c.next_le o ho
  have hn : (s.mem (s.gpOSMemBegin + o)).NextMem = nextOf s o := rfl
  have hu : (s.mem (s.gpOSMemBegin + o)).Used = usedOf s o := rfl
  rw [hn, hu, sub32_of_le (by omega) (by omega)]
  unfold Fits
  constructor
  · rintro ⟨a1, a2⟩; exact ⟨a1, by omega⟩
  · rintro ⟨a1, a2⟩; exact ⟨a1, by omega⟩

/-- Outcome of the scan loop entered at the offset `ptr`, when no block below
`ptr` fits. -/
theorem scan_loop (cfg : Config) (h : cfg.WF) {s : Heap} {B : Nat → Prop}
    (inv : Inv cfg s B) {sz : Nat} (hsz : OSMIN_SIZE_ALIGNED cfg ≤ sz)
    (hszE : sz ≤ OSMEM_SIZE_ALIGNED cfg) :
    ∀ (fuel ptr : Nat), (ptr = OSMEM_SIZE_ALIGNED cfg ∨ B ptr) →
      (∀ a, B a → a < ptr → ¬ Fits cfg s a sz) →
      s.gpOSMemBegin + ptr ≥ s.gpOSMemLFree →
      (OSMEM_SIZE_ALIGNED cfg - ptr + 1 < fuel → ∃ r, OSMemMalloc_scan cfg sz fuel s ptr = some r) ∧
      (∀ s' p, OSMemMalloc_scan cfg sz fuel s ptr = some (s', p) →
        (p = OS_NULL ∧ s' = s ∧ ∀ a, B a → ¬ Fits cfg s a sz) ∨
        (∃ o, B o ∧ Fits cfg s o sz ∧ (∀ a, B a → a < o → ¬ Fits cfg s a sz) ∧
          p = s.gpOSMemBegin + o + SIZEOF_OSMEM_ALIGNED cfg ∧
          Inv cfg s' (splitBlocks cfg s B o sz) ∧
          s'.gpOSMemBegin = s.gpOSMemBegin ∧ s'.gpOSMemEnd = s.gpOSMemEnd ∧
          s'.mem = (OSMemMalloc_take cfg s o sz).mem)) := by
  obtain ⟨hH, hM, hHM, hEW, hW, hb0, hbE⟩ := WF_facts cfg h
  intro fuel
  induction fuel with
  | zero =>
    intro ptr hptr hlow hlf
    exact ⟨fun hlt => by omega, fun s' p hs => by simp [OSMemMalloc_scan] at hs⟩
  | succ fuel ih =>
    intro ptr hptr hlow hlf
    unfold OSMemMalloc_scan
    by_cases hc1 : ptr < OSMEM_SIZE_ALIGNED cfg - sz
    · rw [if_pos hc1]
      have hB : B ptr := hptr.resolve_left (by omega)
      have hn1 := inv.chain.next_ge ptr hB
      have hn2 := inv.chain.next_le ptr hB
      simp only []
      by_cases hc2 : Fits cfg s ptr sz
      · rw [if_pos ((fits_iff cfg h inv.chain hB).mpr hc2)]
        obtain ⟨t1, t2, t3, t4, t5, t6, t7, t8, t9⟩ :=
          take_inv cfg h inv hB hc2.1 hc2.2 hsz
        have hqlt : ∀ a, splitBlocks cfg s B ptr sz a → ¬ B a → ptr < a := by
          intro a ha hnb
          unfold splitBlocks at ha
          have : a = ptr + SIZEOF_OSMEM_ALIGNED cfg + sz := by tauto
          omega
        by_cases hl : s.gpOSMemBegin + ptr = (OSMemMalloc_take cfg s ptr sz).gpOSMemLFree
        · rw [if_pos hl]
          have hB1 : splitBlocks cfg s B ptr sz ptr := Or.inl hB
          have := lfree_loop cfg h fuel (OSMemMalloc_take cfg s ptr sz) ptr t1 t2
            (by rw [← hl, t3]) (Or.inr hB1) (fun a ha hlt => by
              by_cases hBa : B a
              · rw [t6 a hBa, if_neg (by omega)]
                exact inv.lfree.lfree_min a hBa (by rw [t5] at hl; omega)
              · have := hqlt a ha hBa; omega)
          constructor
          · intro hlt
            obtain ⟨t', ht'⟩ := this.1 (by omega)
            rw [ht']; exact ⟨_, rfl⟩
          · intro s' p hs
            cases hr : OSMemMalloc_lfree fuel (OSMemMalloc_take cfg s ptr sz) with
            | none => rw [hr] at hs; simp at hs
            | some t' =>
              rw [hr] at hs
              simp only [Option.some.injEq, Prod.mk.injEq] at hs
              obtain ⟨e1, e2⟩ := hs
              subst e1
              obtain ⟨l1, l2, l3, l4⟩ := this.2 t' hr
              right
              refine ⟨ptr, hB, hc2, hlow, e2.symm, ⟨?_, ?_, l4⟩, by rw [l1, t3], by rw [l2, t4], l3⟩
              · exact t1.congrChain l1 l2 (fun a _ => by unfold nextOf; rw [l1, l3])
                  (fun a _ => by unfold prevOf; rw [l1, l3])
              · exact t2.congrUsed t1 (fun a _ => by unfold nextOf; rw [l1, l3])
                  (fun a _ => by unfold usedOf; rw [l1, l3])
        · rw [if_neg hl]
          refine ⟨fun _ => ⟨_, rfl⟩, fun s' p hs => ?_⟩
          simp only [Option.some.injEq, Prod.mk.injEq] at hs
          obtain ⟨e1, e2⟩ := hs
          subst e1
          right
          refine ⟨ptr, hB, hc2, hlow, e2.symm, ⟨t1, t2, ?_⟩, t3, t4, rfl⟩
          rw [t5] at hl
          constructor
          · rw [t5, t4, t3]
            rcases inv.lfree.lfree_ok with e | ⟨o', b1, b2, b3⟩
            · rw [inv.chain.hend] at e; omega
            · right
              refine ⟨o', Or.inl b1, ?_, b3⟩
              rw [t6 o' b1, if_neg (by intro e; apply hl; rw [b3, e])]
              exact b2
          · intro a ha hlt
            rw [t3, t5] at hlt
            by_cases hBa : B a
            · rw [t6 a hBa, if_neg (by omega)]
              exact inv.lfree.lfree_min a hBa hlt
            · have := hqlt a ha hBa; omega
      · rw [if_neg (fun hh => hc2 ((fits_iff cfg h inv.chain hB).mp hh))]
        have hn : (s.mem (s.gpOSMemBegin + ptr)).NextMem = nextOf s ptr := rfl
        rw [hn]
        have := ih (nextOf s ptr) (inv.chain.next_mem ptr hB) (fun a ha hlt => by
            have := inv.chain.sep ptr a hB ha
            by_cases e : a = ptr
            · subst e; exact hc2
            · exact hlow a ha (by omega)) (by omega)
        exact ⟨fun hlt => this.1 (by omega), this.2⟩
    · rw [if_neg hc1]
      refine ⟨fun _ => ⟨_, rfl⟩, fun s' p hs => ?_⟩
      simp only [Option.some.injEq, Prod.mk.injEq] at hs
      obtain ⟨e1, e2⟩ := hs
      left
      refine ⟨e2.symm, e1.symm, fun a ha hf => ?_⟩
      have := inv.chain.next_le a ha
      unfold Fits at hf
      by_cases hlt : a < ptr
      · exact hlow a ha hlt ⟨hf.1, hf.2⟩
      · omega

theorem roundedSize_ge (cfg : Config) (size : Nat) :
    OSMIN_SIZE_ALIGNED cfg ≤ roundedSize cfg size := by
  unfold roundedSize; split_ifs <;> omega

/-- Offset of the lowest free pointer. -/
theorem lfree_offset (cfg : Config) (h : cfg.WF) {s : Heap} {B : Nat → Prop}
    (inv : Inv cfg s B) :
    ∃ lf, s.gpOSMemLFree = s.gpOSMemBegin + lf ∧ (lf = OSMEM_SIZE_ALIGNED cfg ∨ B lf) ∧
      offsetOf cfg s s.gpOSMemLFree = lf := by
  rcases inv.lfree.lfree_ok with e | ⟨o, b1, _, b3⟩
  · refine ⟨OSMEM_SIZE_ALIGNED cfg, by rw [e, inv.chain.hend], Or.inl rfl, ?_⟩
    rw [e, inv.chain.hend]; exact offsetOf_block cfg h inv.chain le_rfl
  · refine ⟨o, b3, Or.inr b1, ?_⟩
    rw [b3]; exact offsetOf_block cfg h inv.chain (inv.chain.lt_end' b1)

/-- The function `OSMemMalloc` on a heap that satisfies the invariant returns
within `OSMEM_SIZE_ALIGNED + 2` units of fuel, and what it returns is
described by `MallocPost`. -/
theorem OSMemMalloc_spec (cfg : Config) (h : cfg.WF) {s : Heap} {B : Nat → Prop}
    (inv : Inv cfg s B) (size : Nat) :
    (∀ fuel, OSMEM_SIZE_ALIGNED cfg + 2 ≤ fuel → ∃ r, OSMemMalloc cfg fuel s size = some r) ∧
    (∀ fuel s' p, OSMemMalloc cfg fuel s size = some (s', p) →
      MallocPost cfg s B size s' p) := by
  obtain ⟨hH, hM, hHM, hEW, hW, hb0, hbE⟩ := WF_facts cfg h
  have hend : ¬ s.gpOSMemEnd = OS_NULL := by
    rw [inv.chain.hend, inv.chain.hbegin]; unfold OS_NULL; omega
  obtain ⟨lf, l1, l2, l3⟩ := lfree_offset cfg h inv
  have hunf : ∀ fuel, OSMemMalloc cfg fuel s size =
      if size = 0 then some (s, OS_NULL)
      else if roundedSize cfg size > OSMEM_SIZE_ALIGNED cfg then some (s, OS_NULL)
      else OSMemMalloc_scan cfg (roundedSize cfg size) fuel s lf := by
    intro fuel
    unfold OSMemMalloc
    simp only [hend, if_false, l3]
    rfl
  by_cases h0 : size = 0
  · refine ⟨fun fuel _ => ⟨(s, OS_NULL), by rw [hunf, if_pos h0]⟩, fun fuel s' p hs => ?_⟩
    rw [hunf, if_pos h0] at hs
    simp only [Option.some.injEq, Prod.mk.injEq] at hs
    exact Or.inl ⟨hs.2.symm, hs.1.symm, Or.inl h0⟩
  by_cases hbig : roundedSize cfg size > OSMEM_SIZE_ALIGNED cfg
  · refine ⟨fun fuel _ => ⟨(s, OS_NULL), by rw [hunf, if_neg h0, if_pos hbig]⟩,
      fun fuel s' p hs => ?_⟩
    rw [hunf, if_neg h0, if_pos hbig] at hs
    simp only [Option.some.injEq, Prod.mk.injEq] at hs
    exact Or.inl ⟨hs.2.symm, hs.1.symm, Or.inr (Or.inl hbig)⟩
  have hlow : ∀ a, B a → a < lf → ¬ Fits cfg s a (roundedSize cfg size) := by
    intro a ha hlt hf
    have := inv.lfree.lfree_min a ha (by omega)
    unfold Fits at hf
    omega
  constructor
  · intro fuel hfuel
    rw [hunf, if_neg h0, if_neg hbig]
    exact (scan_loop cfg h inv (roundedSize_ge cfg size) (by omega) fuel lf l2 hlow
      (by omega)).1 (by omega)
  · intro fuel s' p hs
    rw [hunf, if_neg h0, if_neg hbig] at hs
    rcases (scan_loop cfg h inv (roundedSize_ge cfg size) (by omega) fuel lf l2 hlow
      (by omega)).2 s' p hs with ⟨a1, a2, a3⟩ | hh
    · exact Or.inl ⟨a1, a2, Or.inr (Or.inr a3)⟩
    · exact Or.inr ⟨h0, hh⟩

/-! ## The function OSMemTrim -/

/-- The function `OSMemTrim` on the payload address of a block `o`, by
cases. -/
theorem OSMemTrim_eq (cfg : Config) (h : cfg.WF) {s : Heap} {B : Nat → Prop}
    (c : ChainW cfg s B) {o : Nat} (ho : B o) (newsize : Nat) :
    OSMemTrim cfg s (s.gpOSMemBegin + o + SIZEOF_OSMEM_ALIGNED cfg) newsize =
      if roundedSize cfg newsize > OSMEM_SIZE_ALIGNED cfg then (s, OS_NULL)
      else if roundedSize cfg newsize > capacityOf cfg s o then (s, OS_NULL)
      else if roundedSize cfg newsize = capacityOf cfg s o then
        (s, s.gpOSMemBegin + o + SIZEOF_OSMEM_ALIGNED cfg)
      else if usedOf s (nextOf s o) = 0 then
        (trimMove cfg s o (roundedSize cfg newsize),
          s.gpOSMemBegin + o + SIZEOF_OSMEM_ALIGNED cfg)
      else if roundedSize cfg newsize + SIZEOF_OSMEM_ALIGNED cfg + OSMIN_SIZE_ALIGNED cfg
          ≤ capacityOf cfg s o then
        (trimSplit cfg s o (roundedSize cfg newsize),
          s.gpOSMemBegin + o + SIZEOF_OSMEM_ALIGNED cfg)
      else (s, s.gpOSMemBegin + o + SIZEOF_OSMEM_ALIGNED cfg) := by
  obtain ⟨hH, hM, hHM, hEW, hW, hb0, hbE⟩ := WF_facts cfg h
  have ho1 := c.next_ge o ho
  have ho2 := c.next_le o ho
  have hbeg := c.hbegin
  have hend := c.hend
  have hoff : offsetOf cfg s (s.gpOSMemBegin + o) = o := offsetOf_block cfg h c (by omega)
  have hn : (s.mem (s.gpOSMemBegin + o)).NextMem = nextOf s o := rfl
  have hcap : uOSMemSize_t cfg (sub32 (sub32 (nextOf s o) o) (SIZEOF_OSMEM_ALIGNED cfg))
      = capacityOf cfg s o := by
    have e1 : sub32 (nextOf s o) o = nextOf s o - o := sub32_of_le (by omega) (by omega)
    rw [e1, sub32_of_le (by omega) (by omega)]
    exact uOSMemSize_t_of_lt cfg (by omega)
  unfold OSMemTrim
  simp only []
  have hr : (if uOSMemSize_t cfg (OSMEM_ALIGN_SIZE cfg newsize) < OSMIN_SIZE_ALIGNED cfg then
      OSMIN_SIZE_ALIGNED cfg else uOSMemSize_t cfg (OSMEM_ALIGN_SIZE cfg newsize))
      = roundedSize cfg newsize := rfl
  rw [hr]
  by_cases h1 : roundedSize cfg newsize > OSMEM_SIZE_ALIGNED cfg
  · rw [if_pos h1, if_pos h1]
  rw [if_neg h1, if_neg h1, if_neg (by omega), Nat.add_sub_cancel, hoff, hn, hcap]
  by_cases h2 : roundedSize cfg newsize > capacityOf cfg s o
  · rw [if_pos h2, if_pos h2]
  rw [if_neg h2, if_neg h2]
  by_cases h3 : roundedSize cfg newsize = capacityOf cfg s o
  · rw [if_pos h3, if_pos h3]
  rw [if_neg h3, if_neg h3]
  have hu : (s.mem (s.gpOSMemBegin + nextOf s o)).Used = usedOf s (nextOf s o) := rfl
  rw [hu]
  have hmod : (roundedSize cfg newsize + SIZEOF_OSMEM_ALIGNED cfg + OSMIN_SIZE_ALIGNED cfg)
      % 2 ^ 32 = roundedSize cfg newsize + SIZEOF_OSMEM_ALIGNED cfg + OSMIN_SIZE_ALIGNED cfg :=
    Nat.mod_eq_of_lt (by unfold capacityOf at h2; omega)
  rw [hmod]
  by_cases h4 : usedOf s (nextOf s o) = 0
  · rw [if_pos h4, if_pos h4]
    unfold trimMove
    simp only [hn]
  rw [if_neg h4, if_neg h4]
  by_cases h5 : roundedSize cfg newsize + SIZEOF_OSMEM_ALIGNED cfg + OSMIN_SIZE_ALIGNED cfg
      ≤ capacityOf cfg s o
  · rw [if_pos h5, if_pos h5]
    rfl
  · rw [if_neg h5, if_neg h5]

/-- Fields of the heap after `trimMove`. -/
theorem trimMove_fields (cfg : Config) (h : cfg.WF) {s : Heap} {B : Nat → Prop}
    (c : ChainW cfg s B) {o sz : Nat} (ho : B o)
    (hlt : o + SIZEOF_OSMEM_ALIGNED cfg + sz < nextOf s o) :
    (trimMove cfg s o sz).gpOSMemBegin = s.gpOSMemBegin ∧
    (trimMove cfg s o sz).gpOSMemEnd = s.gpOSMemEnd ∧
    (trimMove cfg s o sz).gpOSMemLFree =
      (if s.gpOSMemLFree = s.gpOSMemBegin + nextOf s o then
        s.gpOSMemBegin + (o + SIZEOF_OSMEM_ALIGNED cfg + sz)
       else s.gpOSMemLFree) ∧
    (∀ a, nextOf (trimMove cfg s o sz) a =
      if a = o then o + SIZEOF_OSMEM_ALIGNED cfg + sz
      else if a = o + SIZEOF_OSMEM_ALIGNED cfg + sz then nextOf s (nextOf s o)
      else nextOf s a) ∧
    (∀ a, prevOf (trimMove cfg s o sz) a =
      if a = nextOf s (nextOf s o) ∧ nextOf s (nextOf s o) ≠ OSMEM_SIZE_ALIGNED cfg then
        o + SIZEOF_OSMEM_ALIGNED cfg + sz
      else if a = o + SIZEOF_OSMEM_ALIGNED cfg + sz then o else prevOf s a) ∧
    (∀ a, usedOf (trimMove cfg s o sz) a =
      if a = o + SIZEOF_OSMEM_ALIGNED cfg + sz then 0 else usedOf s a) := by
  obtain ⟨hH, hM, hHM, hEW, hW, hb0, hbE⟩ := WF_facts cfg h
  have ho2 := c.next_le o ho
  have hq : uOSMemSize_t cfg (o + SIZEOF_OSMEM_ALIGNED cfg + sz)
      = o + SIZEOF_OSMEM_ALIGNED cfg + sz := uOSMemSize_t_of_lt cfg (by omega)
  unfold trimMove
  simp only [hq]
  have hne1 : ¬ o = o + SIZEOF_OSMEM_ALIGNED cfg + sz := by omega
  have hne2 : ¬ o + SIZEOF_OSMEM_ALIGNED cfg + sz = o := by omega
  generalize o + SIZEOF_OSMEM_ALIGNED cfg + sz = q at *
  have hn : (s.mem (s.gpOSMemBegin + o)).NextMem = nextOf s o := rfl
  rw [hn]
  generalize nextOf s o = n at *
  have hnn : (s.mem (s.gpOSMemBegin + n)).NextMem = nextOf s n := rfl
  rw [hnn]
  generalize nextOf s n = nn at *
  by_cases hl : s.gpOSMemLFree = s.gpOSMemBegin + n <;>
  by_cases hE : nn = OSMEM_SIZE_ALIGNED cfg
  all_goals
    refine ⟨?_, ?_, ?_, ?_, ?_, ?_⟩ <;>
      simp [nextOf, prevOf, usedOf, hne1, hne2, hl, hE]

/-- Fields of the heap after `trimSplit`. -/
theorem trimSplit_fields (cfg : Config) (h : cfg.WF) {s : Heap} {B : Nat → Prop}
    (c : ChainW cfg s B) {o sz : Nat} (ho : B o)
    (hlt : o + SIZEOF_OSMEM_ALIGNED cfg + sz < nextOf s o) :
    (trimSplit cfg s o sz).gpOSMemBegin = s.gpOSMemBegin ∧
    (trimSplit cfg s o sz).gpOSMemEnd = s.gpOSMemEnd ∧
    (trimSplit cfg s o sz).gpOSMemLFree =
      (if s.gpOSMemBegin + (o + SIZEOF_OSMEM_ALIGNED cfg + sz) < s.gpOSMemLFree then
        s.gpOSMemBegin + (o + SIZEOF_OSMEM_ALIGNED cfg + sz)
       else s.gpOSMemLFree) ∧
    (∀ a, nextOf (trimSplit cfg s o sz) a =
      if a = o then o + SIZEOF_OSMEM_ALIGNED cfg + sz
      else if a = o + SIZEOF_OSMEM_ALIGNED cfg + sz then nextOf s o
      else nextOf s a) ∧
    (∀ a, prevOf (trimSplit cfg s o sz) a =
      if a = nextOf s o ∧ nextOf s o ≠ OSMEM_SIZE_ALIGNED cfg then
        o + SIZEOF_OSMEM_ALIGNED cfg + sz
      else if a = o + SIZEOF_OSMEM_ALIGNED cfg + sz then o else prevOf s a) ∧
    (∀ a, usedOf (trimSplit cfg s o sz) a =
      if a = o + SIZEOF_OSMEM_ALIGNED cfg + sz then 0 else usedOf s a) := by
  obtain ⟨hH, hM, hHM, hEW, hW, hb0, hbE⟩ := WF_facts cfg h
  have ho2 := c.next_le o ho
  have hq : uOSMemSize_t cfg (o + SIZEOF_OSMEM_ALIGNED cfg + sz)
      = o + SIZEOF_OSMEM_ALIGNED cfg + sz := uOSMemSize_t_of_lt cfg (by omega)
  unfold trimSplit
  simp only [hq]
  have hne1 : ¬ o = o + SIZEOF_OSMEM_ALIGNED cfg + sz := by omega
  have hne2 : ¬ o + SIZEOF_OSMEM_ALIGNED cfg + sz = o := by omega
  generalize o + SIZEOF_OSMEM_ALIGNED cfg + sz = q at *
  by_cases hl : s.gpOSMemBegin + q < s.gpOSMemLFree <;>
  by_cases hE : nextOf s o = OSMEM_SIZE_ALIGNED cfg
  all_goals
    have hE' := hE
    unfold nextOf at hE'
    refine ⟨?_, ?_, ?_, ?_, ?_, ?_⟩ <;>
      simp [nextOf, prevOf, usedOf, hne1, hne2, hl, hE']

/-- Invariant after `trimSplit`: the used block `o`, followed by a used
header, is cut at a payload of `sz` bytes. -/
theorem trimSplit_inv (cfg : Config) (h : cfg.WF) {s : Heap} {B : Nat → Prop}
    (inv : Inv cfg s B) {o sz : Nat} (ho : B o) (hu : usedOf s o = 1)
    (hsz : OSMIN_SIZE_ALIGNED cfg ≤ sz)
    (hs : o + SIZEOF_OSMEM_ALIGNED cfg + sz + SIZEOF_OSMEM_ALIGNED cfg + OSMIN_SIZE_ALIGNED cfg
      ≤ nextOf s o)
    (hun : usedOf s (nextOf s o) ≠ 0) :
    Inv cfg (trimSplit cfg s o sz) (fun a => B a ∨ a = o + SIZEOF_OSMEM_ALIGNED cfg + sz) := by
  obtain ⟨hH, hM, hHM, hEW, hW, hb0, hbE⟩ := WF_facts cfg h
  obtain ⟨f1, f2, f3, f4, f5, f6⟩ := @trimSplit_fields cfg h s B inv.chain o sz ho (by omega)
  have hqB : ¬ B (o + SIZEOF_OSMEM_ALIGNED cfg + sz) := fun hq => by
    have := inv.chain.sep o _ ho hq; omega
  have ho2 := inv.chain.next_le o ho
  refine ⟨?_, ?_, ?_⟩
  · refine inv.chain.insertChain hM ho (by omega) (by omega) f1 f2 (fun a _ => ?_) (fun a ha => ?_)
    · rw [f4]; split_ifs <;> first | rfl | omega
    · rw [f5]
      by_cases e1 : a = o + SIZEOF_OSMEM_ALIGNED cfg + sz
      · rw [if_neg (show ¬ (a = nextOf s o ∧ nextOf s o ≠ OSMEM_SIZE_ALIGNED cfg) by omega),
          if_pos e1, if_pos e1]
      · have hB : B a := ha.resolve_right e1
        have := inv.chain.lt_end hM hB
        rw [if_neg e1, if_neg e1]
        by_cases e2 : a = nextOf s o
        · rw [if_pos ⟨e2, by omega⟩, if_pos e2]
        · rw [if_neg (by tauto), if_neg e2]
  · refine inv.used.insertUsed inv.chain hM ho hqB ?_ (fun a _ => ?_) (fun a ha _ => ?_) ?_ ?_
    · rcases inv.chain.next_mem o ho with e | e
      · exact Or.inl e
      · rcases inv.used.used01 _ e with u0 | u1
        · exact absurd u0 hun
        · exact Or.inr u1
    · rw [f4]; split_ifs <;> first | rfl | omega
    · rw [f6, if_neg]
      rintro rfl
      rcases ha with ha | ha
      · exact hqB ha
      · omega
    · rw [f6, if_pos rfl]
    · rw [f6, if_neg (by omega)]; exact hu
  · constructor
    · rw [f3, f2, f1]
      split_ifs with e
      · exact Or.inr ⟨_, Or.inr rfl, by rw [f6, if_pos rfl], rfl⟩
      · rcases inv.lfree.lfree_ok with e1 | ⟨o', b1, b2, b3⟩
        · exact Or.inl e1
        · refine Or.inr ⟨o', Or.inl b1, ?_, b3⟩
          rw [f6, if_neg (fun (e2 : o' = o + SIZEOF_OSMEM_ALIGNED cfg + sz) => hqB (e2 ▸ b1))]; exact b2
    · intro a ha
      rw [f1, f3, f6]
      rcases ha with ha | ha
      · rw [if_neg (fun (e2 : a = o + SIZEOF_OSMEM_ALIGNED cfg + sz) => hqB (e2 ▸ ha))]
        have := inv.lfree.lfree_min a ha
        split_ifs with e
        · intro hlt; exact this (by omega)
        · exact this
      · subst ha
        intro hlt
        exfalso
        split_ifs at hlt <;> omega

/-- Invariant after `trimMove`: the used block `o`, followed by a free block,
is cut at a payload of `sz` bytes and the free block grows downwards. -/
theorem trimMove_inv (cfg : Config) (h : cfg.WF) {s : Heap} {B : Nat → Prop}
    (inv : Inv cfg s B) {o sz : Nat} (ho : B o) (hu : usedOf s o = 1)
    (hsz : OSMIN_SIZE_ALIGNED cfg ≤ sz)
    (hlt : o + SIZEOF_OSMEM_ALIGNED cfg + sz < nextOf s o)
    (hun : usedOf s (nextOf s o) = 0) :
    Inv cfg (trimMove cfg s o sz)
      (fun a => (B a ∧ a ≠ nextOf s o) ∨ a = o + SIZEOF_OSMEM_ALIGNED cfg + sz) := by
  obtain ⟨hH, hM, hHM, hEW, hW, hb0, hbE⟩ := WF_facts cfg h
  obtain ⟨f1, f2, f3, f4, f5, f6⟩ := trimMove_fields cfg h inv.chain ho hlt
  have hqB : ¬ B (o + SIZEOF_OSMEM_ALIGNED cfg + sz) := fun hq => by
    have := inv.chain.sep o _ ho hq; omega
  have ho2 := inv.chain.next_le o ho
  have hnE : nextOf s o ≠ OSMEM_SIZE_ALIGNED cfg := by
    intro e; rw [e, inv.used.sent_used] at hun; omega
  have hBn : B (nextOf s o) := (inv.chain.next_mem o ho).resolve_left hnE
  have hn1 := inv.chain.next_ge _ hBn
  have hn2 := inv.chain.next_le _ hBn
  -- the heap in which the block `o` has absorbed its successor
  obtain ⟨g1, g2, g3, g4, g5, g6⟩ := mergeNext_fields cfg h inv.chain ho
  have c1 := inv.chain.mergeChain hM ho hnE g1 g2 (fun a _ => g4 a) (fun a _ _ => g5 a)
  have u1 := inv.used.mergeUsed inv.chain ho hnE hun (fun f => f) (fun a _ => g4 a)
    (fun a _ => g6 a)
  have hB1 : (fun a => B a ∧ a ≠ nextOf s o) o := ⟨ho, by omega⟩
  have hqB1 : ¬ (fun a => B a ∧ a ≠ nextOf s o) (o + SIZEOF_OSMEM_ALIGNED cfg + sz) :=
    fun hq => hqB hq.1
  refine ⟨?_, ?_, ?_⟩
  · refine c1.insertChain hM hB1 (by omega) (by rw [g4, if_pos rfl]; omega) (by rw [f1, g1])
      (by rw [f2, g2]) (fun a _ => ?_) (fun a ha => ?_)
    · rw [f4, g4, g4, if_pos rfl]
      split_ifs <;> first | rfl | omega
    · rw [f5, g4, if_pos rfl, g5]
      by_cases e1 : a = o + SIZEOF_OSMEM_ALIGNED cfg + sz
      · rw [if_neg (show ¬ (a = nextOf s (nextOf s o) ∧
          nextOf s (nextOf s o) ≠ OSMEM_SIZE_ALIGNED cfg) by omega), if_pos e1, if_pos e1]
      · have hB : B a := (ha.resolve_right e1).1
        have := inv.chain.lt_end hM hB
        rw [if_neg e1, if_neg e1]
        by_cases e2 : a = nextOf s (nextOf s o)
        · rw [if_pos ⟨e2, by omega⟩, if_pos e2]
        · rw [if_neg (by tauto), if_neg e2, if_neg e2]
  · refine (u1.insertUsed c1 hM hB1 hqB1 ?_ (fun a _ => ?_) (fun a ha _ => ?_) ?_ ?_).weaken
      (fun a _ hex => absurd hex.1 id)
    · rw [g4, if_pos rfl, g6]
      by_cases e : nextOf s (nextOf s o) = OSMEM_SIZE_ALIGNED cfg
      · exact Or.inl e
      · exact Or.inr (inv.used.noadj _ hBn (fun f => f) hun e)
    · rw [f4, g4, g4, if_pos rfl]
      split_ifs <;> first | rfl | omega
    · rw [f6, g6, if_neg]
      rintro rfl
      rcases ha with ha | ha
      · exact hqB ha.1
      · omega
    · rw [f6, if_pos rfl]
    · rw [f6, if_neg (by omega)]; exact hu
  · have hlf : ¬ s.gpOSMemBegin + nextOf s o < s.gpOSMemLFree := fun hh => by
      have := inv.lfree.lfree_min _ hBn hh; omega
    constructor
    · rw [f3, f2, f1]
      split_ifs with e
      · exact Or.inr ⟨_, Or.inr rfl, by rw [f6, if_pos rfl], rfl⟩
      · rcases inv.lfree.lfree_ok with e1 | ⟨o', b1, b2, b3⟩
        · exact Or.inl e1
        · refine Or.inr ⟨o', Or.inl ⟨b1, fun e2 => e (by rw [b3, e2])⟩, ?_, b3⟩
          rw [f6, if_neg (fun (e2 : o' = o + SIZEOF_OSMEM_ALIGNED cfg + sz) => hqB (e2 ▸ b1))]; exact b2
    · intro a ha
      rw [f1, f3, f6]
      rcases ha with ha | ha
      · rw [if_neg (fun (e2 : a = o + SIZEOF_OSMEM_ALIGNED cfg + sz) => hqB (e2 ▸ ha.1))]
        have hmin := inv.lfree.lfree_min a ha.1
        have := inv.chain.sep o a ho ha.1
        split_ifs with e
        · intro hlt2; exact hmin (by omega)
        · exact hmin
      · subst ha
        rw [if_pos rfl]
        split_ifs with e
        · intro hlt2; omega
        · intro hlt2
          exfalso
          rcases inv.lfree.lfree_ok with e1 | ⟨o', b1, b2, b3⟩
          · rw [inv.chain.hend] at e1; omega
          · have := inv.chain.sep o o' ho b1
            have : o' ≠ o := fun e3 => by rw [e3] at b2; omega
            have : o' ≠ nextOf s o := fun e3 => e (by rw [b3, e3])
            omega

/-- Invariant after `OSMemTrim` on the payload address of a used block: the
set of used blocks and their flags are as before. -/
theorem OSMemTrim_inv (cfg : Config) (h : cfg.WF) {s : Heap} {B : Nat → Prop}
    (inv : Inv cfg s B) {o : Nat} (ho : B o) (hu : usedOf s o = 1) (newsize : Nat) :
    Inv cfg (OSMemTrim cfg s (s.gpOSMemBegin + o + SIZEOF_OSMEM_ALIGNED cfg) newsize).1
        (trimBlocks cfg s B o (roundedSize cfg newsize)) ∧
      (OSMemTrim cfg s (s.gpOSMemBegin + o + SIZEOF_OSMEM_ALIGNED cfg) newsize).1.gpOSMemBegin
        = s.gpOSMemBegin ∧
      (∀ a, (B a ∧ usedOf s a = 1) ↔
        (trimBlocks cfg s B o (roundedSize cfg newsize) a ∧
          usedOf (OSMemTrim cfg s (s.gpOSMemBegin + o + SIZEOF_OSMEM_ALIGNED cfg) newsize).1 a
            = 1)) := by
  obtain ⟨hH, hM, hHM, hEW, hW, hb0, hbE⟩ := WF_facts cfg h
  have ho1 := inv.chain.next_ge o ho
  have ho2 := inv.chain.next_le o ho
  have hr := roundedSize_ge cfg newsize
  rw [OSMemTrim_eq cfg h inv.chain ho]
  generalize roundedSize cfg newsize = sz at *
  have same : ∀ (Bx : Nat → Prop), (∀ a, B a ↔ Bx a) →
      Inv cfg s Bx ∧ s.gpOSMemBegin = s.gpOSMemBegin ∧
        ∀ a, (B a ∧ usedOf s a = 1) ↔ (Bx a ∧ usedOf s a = 1) := by
    intro Bx hBx
    exact ⟨inv.congr_sets hBx (fun _ => Iff.rfl), rfl, fun a => by rw [hBx a]⟩
  by_cases h1 : sz > OSMEM_SIZE_ALIGNED cfg
  · rw [if_pos h1]
    exact same _ (fun a => by unfold trimBlocks capacityOf; rw [if_neg (by omega)])
  rw [if_neg h1]
  by_cases h2 : sz > capacityOf cfg s o
  · rw [if_pos h2]
    exact same _ (fun a => by unfold trimBlocks; rw [if_neg (by omega)])
  rw [if_neg h2]
  by_cases h3 : sz = capacityOf cfg s o
  · rw [if_pos h3]
    exact same _ (fun a => by unfold trimBlocks; rw [if_neg (by omega)])
  rw [if_neg h3]
  have hlt : sz < capacityOf cfg s o := by omega
  have hlt' : o + SIZEOF_OSMEM_ALIGNED cfg + sz < nextOf s o := by
    unfold capacityOf at hlt; omega
  have hqB : ¬ B (o + SIZEOF_OSMEM_ALIGNED cfg + sz) := fun hq => by
    have := inv.chain.sep o _ ho hq; omega
  by_cases h4 : usedOf s (nextOf s o) = 0
  · rw [if_pos h4]
    have hB' : ∀ a, ((B a ∧ a ≠ nextOf s o) ∨ a = o + SIZEOF_OSMEM_ALIGNED cfg + sz) ↔
        trimBlocks cfg s B o sz a := by
      intro a; unfold trimBlocks; rw [if_pos hlt, if_pos h4]
    obtain ⟨f1, f2, f3, f4, f5, f6⟩ := trimMove_fields cfg h inv.chain ho hlt'
    refine ⟨(trimMove_inv cfg h inv ho hu hr hlt' h4).congr_sets hB' (fun _ => Iff.rfl), f1,
      fun a => ?_⟩
    rw [← hB' a]
    simp only [f6]
    constructor
    · rintro ⟨a1, a2⟩
      have e1 : a ≠ o + SIZEOF_OSMEM_ALIGNED cfg + sz := fun e => hqB (e ▸ a1)
      have e2 : a ≠ nextOf s o := fun e => by rw [e] at a2; omega
      exact ⟨Or.inl ⟨a1, e2⟩, by rw [if_neg e1]; exact a2⟩
    · rintro ⟨a1, a2⟩
      by_cases e1 : a = o + SIZEOF_OSMEM_ALIGNED cfg + sz
      · rw [if_pos e1] at a2; omega
      · rw [if_neg e1] at a2
        exact ⟨(a1.resolve_right e1).1, a2⟩
  rw [if_neg h4]
  by_cases h5 : sz + SIZEOF_OSMEM_ALIGNED cfg + OSMIN_SIZE_ALIGNED cfg ≤ capacityOf cfg s o
  · rw [if_pos h5]
    have hB' : ∀ a, (B a ∨ a = o + SIZEOF_OSMEM_ALIGNED cfg + sz) ↔
        trimBlocks cfg s B o sz a := by
      intro a; unfold trimBlocks; rw [if_pos hlt, if_neg h4, if_pos h5]
    obtain ⟨f1, f2, f3, f4, f5, f6⟩ := trimSplit_fields cfg h inv.chain ho hlt'
    refine ⟨(trimSplit_inv cfg h inv ho hu hr (by unfold capacityOf at h5; omega)
      h4).congr_sets hB' (fun _ => Iff.rfl), f1, fun a => ?_⟩
    rw [← hB' a]
    simp only [f6]
    constructor
    · rintro ⟨a1, a2⟩
      have e1 : a ≠ o + SIZEOF_OSMEM_ALIGNED cfg + sz := fun e => hqB (e ▸ a1)
      exact ⟨Or.inl a1, by rw [if_neg e1]; exact a2⟩
    · rintro ⟨a1, a2⟩
      by_cases e1 : a = o + SIZEOF_OSMEM_ALIGNED cfg + sz
      · rw [if_pos e1] at a2; omega
      · rw [if_neg e1] at a2
        exact ⟨a1.resolve_right e1, a2⟩
  · rw [if_neg h5]
    exact same _ (fun a => by unfold trimBlocks; rw [if_pos hlt, if_neg h4, if_neg h5])

/-- Ignored pointers: `OSMemFree` changes nothing. -/
theorem OSMemFree_ignored (cfg : Config) (s : Heap) (p : Nat) (hp : Ignored s p) :
    OSMemFree cfg s p = s := by
  unfold OSMemFree
  rcases hp with e | e
  · rw [if_pos e]
  · split_ifs <;> rfl

/-- Ignored pointers: `OSMemTrim` changes nothing once the heap is set up. -/
theorem OSMemTrim_ignored (cfg : Config) (s : Heap) (p newsize : Nat) (hp : Ignored s p)
    (hb : 0 < s.gpOSMemBegin) : (OSMemTrim cfg s p newsize).1 = s := by
  unfold OSMemTrim
  have : p < s.gpOSMemBegin ∨ p ≥ s.gpOSMemEnd := by
    rcases hp with e | e
    · left; rw [e]; exact hb
    · exact e
  simp only []
  split_ifs <;> rfl

/-! ## The function OSMemCalloc -/

/-- A byte count that `callocFits` admits is not above the size `OSMemMalloc`
works with. -/
theorem le_roundedSize (cfg : Config) (h : cfg.WF) {m : Nat}
    (hm : m + cfg.OSMEM_ALIGNMENT ≤ 2 ^ uOSMemSize_bits cfg) :
    uOSMemSize_t cfg m = m ∧ m ≤ roundedSize cfg m := by
  obtain ⟨hH, hM, hHM, hEW, hW, hb0, hbE⟩ := WF_facts cfg h
  have hA := alignment_pos cfg h
  obtain ⟨b1, b2, _⟩ := align_bounds cfg h m (by omega)
  have e : uOSMemSize_t cfg (OSMEM_ALIGN_SIZE cfg m) = OSMEM_ALIGN_SIZE cfg m :=
    uOSMemSize_t_of_lt cfg (by omega)
  refine ⟨uOSMemSize_t_of_lt cfg (by omega), ?_⟩
  unfold roundedSize
  rw [e]
  split_ifs <;> omega

/-- Zeroing bytes inside the payload of a block leaves the invariant alone. -/
theorem memset_inv (cfg : Config) (h : cfg.WF) {s : Heap} {B : Nat → Prop}
    (inv : Inv cfg s B) {o len : Nat} (ho : B o)
    (hlen : o + SIZEOF_OSMEM_ALIGNED cfg + len ≤ nextOf s o) :
    Inv cfg (memset_zero cfg s (s.gpOSMemBegin + o + SIZEOF_OSMEM_ALIGNED cfg) len) B ∧
    ∀ a, B a ∨ a = OSMEM_SIZE_ALIGNED cfg →
      (memset_zero cfg s (s.gpOSMemBegin + o + SIZEOF_OSMEM_ALIGNED cfg) len).mem
        (s.gpOSMemBegin + a) = s.mem (s.gpOSMemBegin + a) := by
  obtain ⟨hH, hM, hHM, hEW, hW, hb0, hbE⟩ := WF_facts cfg h
  have hsz : 0 < cfg.sizeof_tOSMem := h.2.1
  have ho2 := inv.chain.next_le o ho
  have key : ∀ a, B a ∨ a = OSMEM_SIZE_ALIGNED cfg →
      (memset_zero cfg s (s.gpOSMemBegin + o + SIZEOF_OSMEM_ALIGNED cfg) len).mem
        (s.gpOSMemBegin + a) = s.mem (s.gpOSMemBegin + a) := by
    intro a ha
    unfold memset_zero
    simp only []
    rw [if_neg]
    rintro ⟨a1, a2⟩
    rcases ha with ha | ha
    · have := inv.chain.sep o a ho ha
      omega
    · omega
  refine ⟨?_, key⟩
  have hnx : ∀ a, B a ∨ a = OSMEM_SIZE_ALIGNED cfg →
      nextOf (memset_zero cfg s (s.gpOSMemBegin + o + SIZEOF_OSMEM_ALIGNED cfg) len) a
        = nextOf s a := fun a ha => congrArg tOSMem.NextMem (key a ha)
  have hpv : ∀ a, B a →
      prevOf (memset_zero cfg s (s.gpOSMemBegin + o + SIZEOF_OSMEM_ALIGNED cfg) len) a
        = prevOf s a := fun a ha => congrArg tOSMem.PrevMem (key a (Or.inl ha))
  have hus : ∀ a, B a ∨ a = OSMEM_SIZE_ALIGNED cfg →
      usedOf (memset_zero cfg s (s.gpOSMemBegin + o + SIZEOF_OSMEM_ALIGNED cfg) len) a
        = usedOf s a := fun a ha => congrArg tOSMem.Used (key a ha)
  exact ⟨inv.chain.congrChain rfl rfl hnx hpv,
    inv.used.congrUsed inv.chain (fun a ha => hnx a (Or.inl ha)) hus,
    inv.lfree.congrLFree rfl rfl rfl (fun a ha => hus a (Or.inl ha))⟩

/-- What a successful `OSMemMalloc` leaves, in the terms `OSMemCalloc` and
the set of live pointers need: the block `o` is used and holds the rounded
size, the blocks of before keep their flags, and the new block is free. -/
theorem MallocPost_success (cfg : Config) (h : cfg.WF) {s s' : Heap} {B : Nat → Prop}
    (inv : Inv cfg s B) {size p : Nat} (hp : MallocPost cfg s B size s' p)
    (hne : p ≠ OS_NULL) :
    ∃ o, B o ∧ usedOf s o = 0 ∧ p = s.gpOSMemBegin + o + SIZEOF_OSMEM_ALIGNED cfg ∧
      Inv cfg s' (splitBlocks cfg s B o (roundedSize cfg size)) ∧
      s'.gpOSMemBegin = s.gpOSMemBegin ∧
      (∀ a, B a → usedOf s' a = if a = o then 1 else usedOf s a) ∧
      (∀ a, splitBlocks cfg s B o (roundedSize cfg size) a → ¬ B a → usedOf s' a = 0) ∧
      o + SIZEOF_OSMEM_ALIGNED cfg + roundedSize cfg size ≤ nextOf s' o := by
  rcases hp with ⟨e, _⟩ | ⟨_, o, ho, hf, _, e, inv', hb, he, hm⟩
  · exact absurd e hne
  · obtain ⟨t1, t2, t3, t4, t5, t6, t7, t8, t9⟩ :=
      take_inv cfg h inv ho hf.1 hf.2 (roundedSize_ge cfg size)
    have hu : ∀ a, usedOf s' a = usedOf (OSMemMalloc_take cfg s o (roundedSize cfg size)) a := by
      intro a; unfold usedOf; rw [hb, t3, hm]
    have hn : ∀ a, nextOf s' a = nextOf (OSMemMalloc_take cfg s o (roundedSize cfg size)) a := by
      intro a; unfold nextOf; rw [hb, t3, hm]
    refine ⟨o, ho, hf.1, e, inv', hb, fun a ha => by rw [hu, t6 a ha],
      fun a ha hnb => by rw [hu, t7 a ha hnb], ?_⟩
    rw [hn, t9]
    have := hf.2
    split_ifs <;> omega

/-- Live pointers after a successful `OSMemMalloc`. -/
theorem LiveIs_malloc (cfg : Config) {s s' : Heap} {B B' : Nat → Prop} {L : Set Nat}
    (hL : LiveIs cfg s B L) {o : Nat} (ho : B o) (hu : usedOf s o = 0)
    (hsub : ∀ a, B a → B' a)
    (hb : s'.gpOSMemBegin = s.gpOSMemBegin)
    (h1 : ∀ a, B a → usedOf s' a = if a = o then 1 else usedOf s a)
    (h2 : ∀ a, B' a → ¬ B a → usedOf s' a = 0) :
    LiveIs cfg s' B' (insert (s.gpOSMemBegin + o + SIZEOF_OSMEM_ALIGNED cfg) L) := by
  intro x
  rw [Set.mem_insert_iff, hL x, hb]
  constructor
  · rintro (e | ⟨a, a1, a2, a3⟩)
    · exact ⟨o, hsub o ho, by rw [h1 o ho, if_pos rfl], e⟩
    · refine ⟨a, hsub a a1, ?_, a3⟩
      rw [h1 a a1, if_neg (fun e => by rw [e] at a2; omega)]; exact a2
  · rintro ⟨a, a1, a2, a3⟩
    by_cases hB : B a
    · by_cases e : a = o
      · left; rw [a3, e]
      · right
        rw [h1 a hB, if_neg e] at a2
        exact ⟨a, hB, a2, a3⟩
    · rw [h2 a a1 hB] at a2; omega

/-- Every state that call sequences within the contract reach satisfies the
invariant, and its live pointers are the payload addresses of its used
blocks. -/
theorem Reachable.inv (cfg : Config) (h : cfg.WF) {s : Heap} {L : Set Nat}
    (hr : Reachable cfg (callocFits cfg) s L) : ∃ B, Inv cfg s B ∧ LiveIs cfg s B L := by
  obtain ⟨hH, hM, hHM, hEW, hW, hb0, hbE⟩ := WF_facts cfg h
  induction hr with
  | init s0 =>
    refine ⟨fun o => o = 0, Inv_init cfg h s0, fun x => ?_⟩
    have hE := uOSMemSize_t_of_lt cfg hEW
    have hu : usedOf (OSMemInit cfg s0) 0 = 0 := by
      simp [OSMemInit, usedOf]; omega
    constructor
    · intro hx; exact absurd hx (Set.not_mem_empty x)
    · rintro ⟨a, a1, a2, _⟩
      rw [a1, hu] at a2; omega
  | @malloc s L fuel size s' p _ hm ih =>
    obtain ⟨B, inv, hL⟩ := ih
    have post := (OSMemMalloc_spec cfg h inv size).2 fuel s' p hm
    by_cases hp : p = OS_NULL
    · rw [if_pos hp]
      rcases post with ⟨_, e, _⟩ | ⟨_, o, _, _, _, e, _⟩
      · rw [e]; exact ⟨B, inv, hL⟩
      · rw [e] at hp; unfold OS_NULL at hp; omega
    · rw [if_neg hp]
      obtain ⟨o, ho, hu, e, inv', hb, u1, u2, _⟩ := MallocPost_success cfg h inv post hp
      refine ⟨_, inv', ?_⟩
      rw [e]
      exact LiveIs_malloc cfg hL ho hu (fun a ha => Or.inl ha) hb u1 u2
  | @calloc s L fuel count size s' p _ hfits hc ih =>
    obtain ⟨B, inv, hL⟩ := ih
    unfold callocFits at hfits
    obtain ⟨r1, r2⟩ := le_roundedSize cfg h hfits
    unfold OSMemCalloc at hc
    rw [r1] at hc
    cases hm : OSMemMalloc cfg fuel s (count * size) with
    | none => rw [hm] at hc; simp at hc
    | some r =>
      obtain ⟨s1, p1⟩ := r
      rw [hm] at hc
      have post := (OSMemMalloc_spec cfg h inv (count * size)).2 fuel s1 p1 hm
      by_cases hp : p1 = OS_NULL
      · simp only [hp, ne_eq, not_true_eq_false, if_false, Option.some.injEq,
          Prod.mk.injEq] at hc
        obtain ⟨e1, e2⟩ := hc
        rw [← e2, if_pos rfl, ← e1]
        rcases post with ⟨_, e, _⟩ | ⟨_, o, _, _, _, e, _⟩
        · rw [e]; exact ⟨B, inv, hL⟩
        · rw [e] at hp; unfold OS_NULL at hp; omega
      · simp only [ne_eq, hp, not_false_eq_true, if_true, Option.some.injEq,
          Prod.mk.injEq] at hc
        obtain ⟨e1, e2⟩ := hc
        rw [← e2, if_neg hp, ← e1]
        obtain ⟨o, ho, hu, e, inv', hb, u1, u2, hcap⟩ := MallocPost_success cfg h inv post hp
        have hA := alignment_pos cfg h
        have hlen : (count * size) % 2 ^ 32 = count * size := Nat.mod_eq_of_lt (by omega)
        have e' : p1 = s1.gpOSMemBegin + o + SIZEOF_OSMEM_ALIGNED cfg := by rw [hb]; exact e
        rw [hlen, e']
        obtain ⟨m1, m2⟩ := @memset_inv cfg h s1 _ inv' o (count * size) (Or.inl ho)
          (by omega)
        refine ⟨_, m1, ?_⟩
        have hus : ∀ a, splitBlocks cfg s B o (roundedSize cfg (count * size)) a →
            usedOf (memset_zero cfg s1 (s1.gpOSMemBegin + o + SIZEOF_OSMEM_ALIGNED cfg)
              (count * size)) a = usedOf s1 a :=
          fun a ha => congrArg tOSMem.Used (m2 a (Or.inl ha))
        have key := @LiveIs_malloc cfg s
          (memset_zero cfg s1 (s1.gpOSMemBegin + o + SIZEOF_OSMEM_ALIGNED cfg) (count * size))
          B _ L hL o ho hu (fun a ha => Or.inl ha) hb
          (fun a ha => by rw [hus a (Or.inl ha), u1 a ha])
          (fun a ha hnb => by rw [hus a ha, u2 a ha hnb])
        rw [← hb] at key
        exact key
  | @free s L p _ hp ih =>
    obtain ⟨B, inv, hL⟩ := ih
    obtain ⟨o, ho, hu, e⟩ := (hL p).mp hp
    rw [e]
    obtain ⟨inv', hb, hus⟩ := OSMemFree_inv cfg h inv ho hu
    refine ⟨_, inv', fun x => ?_⟩
    rw [Set.mem_diff, Set.mem_singleton_iff, hL x, hb]
    constructor
    · rintro ⟨⟨a, a1, a2, a3⟩, hne⟩
      have hao : a ≠ o := fun e2 => hne (by rw [a3, e2])
      refine ⟨a, ⟨a1, ?_, ?_⟩, by rw [hus, if_neg hao]; exact a2, a3⟩
      · rintro ⟨⟨_, b2⟩, b3⟩; rw [← b3] at b2; omega
      · rintro ⟨_, b3⟩; exact hao b3
    · rintro ⟨a, a1, a2, a3⟩
      rw [hus] at a2
      by_cases hao : a = o
      · rw [if_pos hao] at a2; omega
      · rw [if_neg hao] at a2
        exact ⟨⟨a, a1.1, a2, a3⟩, by rw [a3]; omega⟩
  | @free_ignored s L p _ hp ih =>
    rw [OSMemFree_ignored cfg s p hp]; exact ih
  | @trim s L p newsize _ hp ih =>
    obtain ⟨B, inv, hL⟩ := ih
    obtain ⟨o, ho, hu, e⟩ := (hL p).mp hp
    rw [e]
    obtain ⟨inv', hb, hiff⟩ := OSMemTrim_inv cfg h inv ho hu newsize
    refine ⟨_, inv', fun x => ?_⟩
    rw [hL x, hb]
    constructor
    · rintro ⟨a, a1, a2, a3⟩
      exact ⟨a, ((hiff a).mp ⟨a1, a2⟩).1, ((hiff a).mp ⟨a1, a2⟩).2, a3⟩
    · rintro ⟨a, a1, a2, a3⟩
      exact ⟨a, ((hiff a).mpr ⟨a1, a2⟩).1, ((hiff a).mpr ⟨a1, a2⟩).2, a3⟩
  | @trim_ignored s L p newsize _ hp ih =>
    obtain ⟨B, inv, hL⟩ := ih
    rw [OSMemTrim_ignored cfg s p newsize hp (by rw [inv.chain.hbegin]; exact hb0)]
    exact ⟨B, inv, hL⟩

/-! ## From the invariant to the properties of the chain -/

/-- Every offset of the walk from 0 is a block of `B` or the end header. -/
theorem InChain.mem {cfg : Config} {s : Heap} {B : Nat → Prop} (c : ChainW cfg s B) {o : Nat}
    (ho : InChain cfg s o) : o = OSMEM_SIZE_ALIGNED cfg ∨ B o := by
  induction ho with
  | first => exact Or.inr c.zero_mem
  | step _ hne ih => exact c.next_mem _ (ih.resolve_left hne)

/-- Every block of `B` is met by the walk from 0. -/
theorem ChainW.inChain {cfg : Config} {s : Heap} {B : Nat → Prop} (c : ChainW cfg s B)
    (hM : 0 < OSMIN_SIZE_ALIGNED cfg) : ∀ (n o : Nat), o ≤ n → B o → InChain cfg s o := by
  intro n
  induction n with
  | zero =>
    intro o hle _
    have : o = 0 := by omega
    subst this; exact InChain.first
  | succ n ih =>
    intro o hle ho
    by_cases h0 : o = 0
    · subst h0; exact InChain.first
    · obtain ⟨p1, p2⟩ := c.prev_mem o ho h0
      have plt := c.prev_lt hM ho h0
      have := InChain.step (ih _ (by omega) p1) (c.lt_end hM p1).ne
      rw [p2] at this
      exact this

/-- The blocks of the invariant are the blocks of the chain. -/
theorem ChainW.isBlock_iff {cfg : Config} {s : Heap} {B : Nat → Prop} (c : ChainW cfg s B)
    (hM : 0 < OSMIN_SIZE_ALIGNED cfg) (o : Nat) : IsBlock cfg s o ↔ B o := by
  constructor
  · rintro ⟨h1, h2⟩; exact (h1.mem c).resolve_left h2
  · intro ho; exact ⟨c.inChain hM o o le_rfl ho, (c.lt_end hM ho).ne⟩

/-- The walk from a block, or from the end header, written out. -/
theorem ChainW.chainFrom {cfg : Config} {s : Heap} {B : Nat → Prop} (c : ChainW cfg s B)
    (hM : 0 < OSMIN_SIZE_ALIGNED cfg) :
    ∀ (n o prev : Nat), OSMEM_SIZE_ALIGNED cfg - o ≤ n →
      (o = OSMEM_SIZE_ALIGNED cfg ∨ (B o ∧ prevOf s o = prev)) →
      ∃ l, ChainFrom cfg s prev o l := by
  intro n
  induction n with
  | zero =>
    intro o prev hle ho
    rcases ho with e | ⟨hB, _⟩
    · exact ⟨[], e⟩
    · have := c.lt_end hM hB; omega
  | succ n ih =>
    intro o prev hle ho
    rcases ho with e | ⟨hB, hp⟩
    · exact ⟨[], e⟩
    · have h1 := c.next_ge o hB
      have h2 := c.next_le o hB
      have h3 := c.lt_end hM hB
      obtain ⟨l, hl⟩ := ih (nextOf s o) o (by omega) (by
        rcases c.next_mem o hB with e | e
        · exact Or.inl e
        · by_cases hE : nextOf s o = OSMEM_SIZE_ALIGNED cfg
          · exact Or.inl hE
          · exact Or.inr ⟨e, c.prev_next hM hB hE⟩)
      exact ⟨o :: l, rfl, h3, by omega, h2, hp, hl⟩

theorem Inv.chainInvariant (cfg : Config) (h : cfg.WF) {s : Heap} {B : Nat → Prop}
    (inv : Inv cfg s B) : ChainInvariant cfg s := by
  obtain ⟨hH, hM, _⟩ := WF_facts cfg h
  exact inv.chain.chainFrom hM _ 0 0 le_rfl (Or.inr ⟨inv.chain.zero_mem, inv.chain.prev_zero⟩)

theorem Inv.noAdjacentFree (cfg : Config) (h : cfg.WF) {s : Heap} {B : Nat → Prop}
    (inv : Inv cfg s B) : NoAdjacentFree cfg s := by
  obtain ⟨hH, hM, _⟩ := WF_facts cfg h
  intro o hb hu
  have hB := (inv.chain.isBlock_iff hM o).mp hb
  by_cases hE : nextOf s o = OSMEM_SIZE_ALIGNED cfg
  · rw [hE, inv.used.sent_used]; omega
  · rw [inv.used.noadj o hB (fun f => f) hu hE]; omega

theorem Inv.lowestFree (cfg : Config) (h : cfg.WF) {s : Heap} {B : Nat → Prop}
    (inv : Inv cfg s B) : LowestFree cfg s := by
  obtain ⟨hH, hM, _⟩ := WF_facts cfg h
  rcases inv.lfree.lfree_ok with e | ⟨o, b1, b2, b3⟩
  · refine ⟨OSMEM_SIZE_ALIGNED cfg, by rw [e, inv.chain.hend], Or.inr ⟨rfl, fun a ha => ?_⟩⟩
    have hB := (inv.chain.isBlock_iff hM a).mp ha
    have := inv.chain.lt_end hM hB
    rw [inv.lfree.lfree_min a hB (by rw [e, inv.chain.hend]; omega)]; omega
  · refine ⟨o, b3, Or.inl ⟨(inv.chain.isBlock_iff hM o).mpr b1, b2, fun a ha hu => ?_⟩⟩
    have hB := (inv.chain.isBlock_iff hM a).mp ha
    by_contra hlt
    have := inv.lfree.lfree_min a hB (by rw [b3]; omega)
    omega

/-! ## Freeing several blocks -/

/-- A chain over fewer blocks has longer blocks. -/
theorem ChainW.next_mono {cfg : Config} {s0 s : Heap} {B0 B : Nat → Prop}
    (c0 : ChainW cfg s0 B0) (c : ChainW cfg s B) (hM : 0 < OSMIN_SIZE_ALIGNED cfg)
    (hsub : ∀ a, B a → B0 a) {a : Nat} (ha : B a) : nextOf s0 a ≤ nextOf s a := by
  have h1 := c.next_ge a ha
  rcases c.next_mem a ha with e | e
  · rw [e]; exact c0.next_le a (hsub a ha)
  · exact c0.sep a _ (hsub a ha) (hsub _ e) (by omega)

/-- The blocks of a chain fix its `NextMem` fields. -/
theorem ChainW.next_unique {cfg : Config} {s1 s2 : Heap} {B : Nat → Prop}
    (c1 : ChainW cfg s1 B) (c2 : ChainW cfg s2 B) (hM : 0 < OSMIN_SIZE_ALIGNED cfg)
    {a : Nat} (ha : B a) : nextOf s1 a = nextOf s2 a :=
  Nat.le_antisymm (c1.next_mono c2 hM (fun _ x => x) ha) (c2.next_mono c1 hM (fun _ x => x) ha)

/-- The blocks and their flags fix `gpOSMemLFree`. -/
theorem LFreeW.lfree_unique {cfg : Config} {s1 s2 : Heap} {B : Nat → Prop}
    (l1 : LFreeW cfg s1 B) (l2 : LFreeW cfg s2 B) (c1 : ChainW cfg s1 B) (c2 : ChainW cfg s2 B)
    (hM : 0 < OSMIN_SIZE_ALIGNED cfg)
    (hus : ∀ a, B a → usedOf s1 a = usedOf s2 a) : s1.gpOSMemLFree = s2.gpOSMemLFree := by
  have b1 := c1.hbegin
  have b2 := c2.hbegin
  have e1 := c1.hend
  have e2 := c2.hend
  rcases l1.lfree_ok with h1 | ⟨o1, p1, q1, r1⟩ <;> rcases l2.lfree_ok with h2 | ⟨o2, p2, q2, r2⟩
  · omega
  · have := l1.lfree_min o2 p2 (by have := c2.lt_end hM p2; omega)
    rw [hus o2 p2] at this; omega
  · have := l2.lfree_min o1 p1 (by have := c1.lt_end hM p1; omega)
    rw [← hus o1 p1] at this; omega
  · have t1 := l1.lfree_min o2 p2
    have t2 := l2.lfree_min o1 p1
    rw [hus o2 p2] at t1
    rw [← hus o1 p1] at t2
    have : o1 = o2 := by
      rcases Nat.lt_trichotomy o1 o2 with lt | eq | gt
      · have := t2 (by omega); omega
      · exact eq
      · have := t1 (by omega); omega
    omega

/-- Before any block is freed the blocks are those of the heap. -/
theorem mergedBlocks_none (cfg : Config) (h : cfg.WF) {s0 : Heap} {B0 : Nat → Prop}
    (inv0 : Inv cfg s0 B0) (a : Nat) : mergedBlocks s0 B0 (fun _ => False) a ↔ B0 a := by
  obtain ⟨hH, hM, _⟩ := WF_facts cfg h
  constructor
  · exact fun x => x.1
  · intro ha
    refine ⟨ha, ?_⟩
    by_cases e0 : a = 0
    · exact Or.inl e0
    · obtain ⟨p1, p2⟩ := inv0.chain.prev_mem a ha e0
      by_cases hu : usedOf s0 (prevOf s0 a) = 0
      · have := inv0.used.noadj _ p1 (fun x => x) hu (by rw [p2]; exact (inv0.chain.lt_end hM ha).ne)
        rw [p2] at this
        refine Or.inr (Or.inl ?_)
        rintro (x | x)
        · omega
        · exact x
      · refine Or.inr (Or.inr ?_)
        rintro (x | x)
        · exact hu x
        · exact x

/-- The heap itself, with no block freed yet. -/
theorem FreedW.start (cfg : Config) (h : cfg.WF) {s0 : Heap} {B0 : Nat → Prop}
    (inv0 : Inv cfg s0 B0) : FreedW cfg s0 B0 (fun _ => False) s0 :=
  ⟨InvW.congr_sets inv0 (fun a => (mergedBlocks_none cfg h inv0 a).symm) (fun _ => Iff.rfl),
    fun _ x => x.elim, fun _ _ => rfl⟩

theorem FreedW.congrFreed {cfg : Config} {s0 s : Heap} {B0 Q Q' : Nat → Prop}
    (f : FreedW cfg s0 B0 Q s) (hQ : ∀ a, Q a ↔ Q' a) : FreedW cfg s0 B0 Q' s := by
  have e : Q = Q' := funext fun a => propext (hQ a)
  rw [← e]; exact f

/-- Flags after the blocks of `Q` have been freed. -/
theorem FreedW.used_iff {cfg : Config} {s0 s : Heap} {B0 Q : Nat → Prop}
    (f : FreedW cfg s0 B0 Q s) (a : Nat) : usedOf s a = 0 ↔ freeAfter s0 Q a := by
  unfold freeAfter
  by_cases hq : Q a
  · simp [f.used_in a hq, hq]
  · simp [f.used_out a hq, hq]

/-- A block that is still used has kept its `NextMem`. -/
theorem FreedW.next_eq {cfg : Config} {s0 s : Heap} {B0 Q : Nat → Prop}
    (hM : 0 < OSMIN_SIZE_ALIGNED cfg) (inv0 : Inv cfg s0 B0)
    (f : FreedW cfg s0 B0 Q s) {a : Nat} (ha : mergedBlocks s0 B0 Q a)
    (hnF : ¬ freeAfter s0 Q a) : nextOf s a = nextOf s0 a := by
  apply Nat.le_antisymm
  · rcases inv0.chain.next_mem a ha.1 with e | e
    · rw [e]; exact f.inv.chain.next_le a ha
    · have hn : nextOf s0 a ≠ OSMEM_SIZE_ALIGNED cfg := (inv0.chain.lt_end hM e).ne
      have hm : mergedBlocks s0 B0 Q (nextOf s0 a) :=
        ⟨e, Or.inr (Or.inr (by rw [inv0.chain.prev_next hM ha.1 hn]; exact hnF))⟩
      have := inv0.chain.next_ge a ha.1
      exact f.inv.chain.sep a _ ha hm (by omega)
  · exact inv0.chain.next_mono f.inv.chain hM (fun _ x => x.1) ha

/-- One more block freed: `OSMemFree` on a block of `B0` that is used and not
yet freed. -/
theorem FreedW.free (cfg : Config) (h : cfg.WF) {s0 s : Heap} {B0 Q : Nat → Prop}
    (inv0 : Inv cfg s0 B0) (f : FreedW cfg s0 B0 Q s) {o : Nat} (ho : B0 o)
    (hu : usedOf s0 o = 1) (hq : ¬ Q o) :
    FreedW cfg s0 B0 (fun a => Q a ∨ a = o)
      (OSMemFree cfg s (s.gpOSMemBegin + o + SIZEOF_OSMEM_ALIGNED cfg)) := by
  obtain ⟨hH, hM, _⟩ := WF_facts cfg h
  have hnF : ¬ freeAfter s0 Q o := by
    rintro (e | e)
    · omega
    · exact hq e
  have hoB : mergedBlocks s0 B0 Q o := ⟨ho, Or.inr (Or.inl hnF)⟩
  have hus : usedOf s o = 1 := by rw [f.used_out o hq]; exact hu
  have hn : nextOf s o = nextOf s0 o := f.next_eq hM inv0 hoB hnF
  have hlt := inv0.chain.next_ge o ho
  have hfwd : (nextOf s o ≠ OSMEM_SIZE_ALIGNED cfg ∧ usedOf s (nextOf s o) = 0) ↔
      (nextOf s0 o ≠ OSMEM_SIZE_ALIGNED cfg ∧ freeAfter s0 Q (nextOf s0 o)) := by
    rw [hn, f.used_iff]
  have hbwd : (o ≠ 0 ∧ usedOf s (prevOf s o) = 0) ↔
      (o ≠ 0 ∧ freeAfter s0 Q (prevOf s0 o)) := by
    apply and_congr_right
    intro h0
    rw [f.used_iff]
    obtain ⟨py, pny⟩ := f.inv.chain.prev_mem o hoB h0
    obtain ⟨pz, pnz⟩ := inv0.chain.prev_mem o ho h0
    by_cases e : prevOf s o = prevOf s0 o
    · rw [e]
    · have hy : freeAfter s0 Q (prevOf s o) := by
        by_contra hny
        have := f.next_eq hM inv0 py hny
        exact e (inv0.chain.next_inj hM py.1 pz (by rw [← this, pny, pnz]))
      have hz : freeAfter s0 Q (prevOf s0 o) := by
        by_contra hnz
        have hm : mergedBlocks s0 B0 Q (prevOf s0 o) := ⟨pz, Or.inr (Or.inl hnz)⟩
        have := f.next_eq hM inv0 hm hnz
        exact e (f.inv.chain.next_inj hM py hm (by rw [this, pny, pnz]))
      exact ⟨fun _ => hz, fun _ => hy⟩
  have hF : ∀ x, freeAfter s0 (fun a => Q a ∨ a = o) x ↔ (freeAfter s0 Q x ∨ x = o) := by
    intro x; unfold freeAfter
    constructor
    · rintro (a | a | a)
      · exact Or.inl (Or.inl a)
      · exact Or.inl (Or.inr a)
      · exact Or.inr a
    · rintro ((a | a) | a)
      · exact Or.inl a
      · exact Or.inr (Or.inl a)
      · exact Or.inr (Or.inr a)
  have hset : ∀ a, freeBlocks cfg s (mergedBlocks s0 B0 Q) o a ↔
      mergedBlocks s0 B0 (fun a => Q a ∨ a = o) a := by
    intro a
    unfold freeBlocks
    rw [hfwd, hbwd, hn]
    unfold mergedBlocks
    rw [hF, hF]
    by_cases hB : B0 a
    swap
    · clear f hfwd hbwd hF hn hlt hus hoB inv0 h hH hM ho hu hq
      tauto
    have haE := inv0.chain.lt_end hM hB
    by_cases ea : a = o
    · subst ea
      have hp : a ≠ 0 → prevOf s0 a ≠ a := fun h0 => (inv0.chain.prev_lt hM hB h0).ne
      have hne : a ≠ nextOf s0 a := by omega
      clear f hfwd hbwd hF hn hlt hus hoB inv0 h hH hM haE ho hu hq
      tauto
    by_cases en : a = nextOf s0 o
    · have hnE : nextOf s0 o ≠ OSMEM_SIZE_ALIGNED cfg := by omega
      have hp : prevOf s0 (nextOf s0 o) = o := inv0.chain.prev_next hM ho hnE
      subst en
      rw [hp]
      have h0 : nextOf s0 o ≠ 0 := by omega
      clear f hfwd hbwd hF hn hlt hus hoB inv0 h hH hM haE ho hu hq hp
      tauto
    · have hp : a ≠ 0 → prevOf s0 a ≠ o := by
        intro h0 e
        have := (inv0.chain.prev_mem a hB h0).2
        rw [e] at this
        exact en this.symm
      clear f hfwd hbwd hF hn hlt hus hoB inv0 h hH hM haE ho hu hq
      tauto
  obtain ⟨i1, i2, i3⟩ := OSMemFree_inv cfg h f.inv hoB hus
  refine ⟨InvW.congr_sets i1 hset (fun _ => Iff.rfl), ?_, ?_⟩
  · rintro a (hQ | e)
    · rw [i3]; split_ifs
      · rfl
      · exact f.used_in a hQ
    · rw [i3, if_pos e]
  · intro a hna
    rw [i3, if_neg (fun e => hna (Or.inr e))]
    exact f.used_out a (fun e => hna (Or.inl e))

/-- Function `OSMemFree` on the payload address of a header whose `Used` is
not 1 changes nothing. -/
theorem OSMemFree_not_used (cfg : Config) (s : Heap) (o : Nat) (hu : usedOf s o ≠ 1) :
    OSMemFree cfg s (s.gpOSMemBegin + o + SIZEOF_OSMEM_ALIGNED cfg) = s := by
  unfold OSMemFree
  rw [Nat.add_sub_cancel]
  have hu' : ¬ (s.mem (s.gpOSMemBegin + o)).Used = 1 := hu
  simp only [hu', if_false, ite_self]

/-- The blocks of a list of pointers freed one after the other, whatever the
order and the repetitions. -/
theorem FreedW.freeAll (cfg : Config) (h : cfg.WF) {s0 : Heap} {B0 : Nat → Prop}
    (inv0 : Inv cfg s0 B0) (qs : List Nat) :
    ∀ (Q : Nat → Prop) (s : Heap), FreedW cfg s0 B0 Q s →
    (∀ p ∈ qs, ∃ o, B0 o ∧ usedOf s0 o = 1 ∧
      p = s0.gpOSMemBegin + o + SIZEOF_OSMEM_ALIGNED cfg) →
    FreedW cfg s0 B0 (fun a => Q a ∨ s0.gpOSMemBegin + a + SIZEOF_OSMEM_ALIGNED cfg ∈ qs)
      (AIOS.freeAll cfg s qs) := by
  induction qs with
  | nil =>
    intro Q s f _
    exact f.congrFreed (fun a => by simp)
  | cons p qs ih =>
    intro Q s f hl
    obtain ⟨o, ho, hu, hp⟩ := hl p (List.mem_cons_self _ _)
    have hb : s.gpOSMemBegin = s0.gpOSMemBegin := by
      rw [f.inv.chain.hbegin, inv0.chain.hbegin]
    have hl' : ∀ p ∈ qs, ∃ o, B0 o ∧ usedOf s0 o = 1 ∧
        p = s0.gpOSMemBegin + o + SIZEOF_OSMEM_ALIGNED cfg :=
      fun p hp => hl p (List.mem_cons_of_mem _ hp)
    have hfold : AIOS.freeAll cfg s (p :: qs) = AIOS.freeAll cfg (OSMemFree cfg s p) qs := rfl
    rw [hfold]
    have hpa : ∀ a, s0.gpOSMemBegin + a + SIZEOF_OSMEM_ALIGNED cfg = p ↔ a = o := by
      intro a; rw [hp]; omega
    by_cases hq : Q o
    · have e : OSMemFree cfg s p = s := by
        rw [hp, ← hb]
        exact OSMemFree_not_used cfg s o (by rw [f.used_in o hq]; omega)
      rw [e]
      refine (ih Q s f hl').congrFreed (fun a => ?_)
      rw [List.mem_cons, hpa]
      constructor
      · rintro (x | x)
        · exact Or.inl x
        · exact Or.inr (Or.inr x)
      · rintro (x | x | x)
        · exact Or.inl x
        · exact Or.inl (x ▸ hq)
        · exact Or.inr x
    · have f1 := FreedW.free cfg h inv0 f ho hu hq
      rw [hb, ← hp] at f1
      refine (ih _ _ f1 hl').congrFreed (fun a => ?_)
      rw [List.mem_cons, hpa]
      tauto

/-- Every block that is free after the blocks of `Q` have been freed lies
inside a free block of the new chain. -/
theorem FreedW.cover (cfg : Config) (h : cfg.WF) {s0 s : Heap} {B0 Q : Nat → Prop}
    (inv0 : Inv cfg s0 B0) (f : FreedW cfg s0 B0 Q s) :
    ∀ (n y : Nat), y ≤ n → B0 y → freeAfter s0 Q y →
      ∃ a, mergedBlocks s0 B0 Q a ∧ usedOf s a = 0 ∧ a ≤ y ∧ nextOf s0 y ≤ nextOf s a := by
  obtain ⟨hH, hM, _⟩ := WF_facts cfg h
  intro n
  induction n with
  | zero =>
    intro y hy hB hF
    have e : y = 0 := by omega
    have hm : mergedBlocks s0 B0 Q y := ⟨hB, Or.inl e⟩
    exact ⟨y, hm, (f.used_iff y).mpr hF, le_rfl,
      inv0.chain.next_mono f.inv.chain hM (fun _ x => x.1) hm⟩
  | succ n ih =>
    intro y hy hB hF
    by_cases hm : mergedBlocks s0 B0 Q y
    · exact ⟨y, hm, (f.used_iff y).mpr hF, le_rfl,
        inv0.chain.next_mono f.inv.chain hM (fun _ x => x.1) hm⟩
    · have h0 : y ≠ 0 := fun e => hm ⟨hB, Or.inl e⟩
      have hFp : freeAfter s0 Q (prevOf s0 y) := by
        by_contra hc
        exact hm ⟨hB, Or.inr (Or.inr hc)⟩
      obtain ⟨p1, p2⟩ := inv0.chain.prev_mem y hB h0
      have plt := inv0.chain.prev_lt hM hB h0
      obtain ⟨a, am, au, ale, anx⟩ := ih (prevOf s0 y) (by omega) p1 hFp
      rw [p2] at anx
      refine ⟨a, am, au, by omega, ?_⟩
      rcases f.inv.chain.next_mem a am with e | e
      · rw [e]; exact inv0.chain.next_le y hB
      · have hne : nextOf s a ≠ y := fun e2 => hm (e2 ▸ e)
        exact inv0.chain.sep y _ hB e.1 (by omega)

/-- A run of adjacent blocks that have all been freed lies inside one free
block of the new chain. -/
theorem FreedW.run (cfg : Config) (h : cfg.WF) {s0 s : Heap} {B0 Q : Nat → Prop}
    (inv0 : Inv cfg s0 B0) (f : FreedW cfg s0 B0 Q s) (os : List Nat) :
    os ≠ [] → List.Chain' (fun x y => nextOf s0 x = y) os →
    (∀ o ∈ os, B0 o ∧ Q o) →
    ∃ a, mergedBlocks s0 B0 Q a ∧ usedOf s a = 0 ∧
      ∀ o ∈ os, a ≤ o ∧ nextOf s0 o ≤ nextOf s a := by
  obtain ⟨hH, hM, _⟩ := WF_facts cfg h
  induction os with
  | nil => intro hne; exact absurd rfl hne
  | cons o l ih =>
    intro _ hch hall
    obtain ⟨hoB, hoQ⟩ := hall o (List.mem_cons_self _ _)
    obtain ⟨a, am, au, ale, anx⟩ := FreedW.cover cfg h inv0 f o o le_rfl hoB (Or.inr hoQ)
    cases l with
    | nil =>
      refine ⟨a, am, au, fun x hx => ?_⟩
      rw [List.mem_singleton] at hx
      subst hx
      exact ⟨ale, anx⟩
    | cons o2 l =>
      rw [List.chain'_cons] at hch
      obtain ⟨hadj, hch2⟩ := hch
      obtain ⟨b, bm, bu, ball⟩ := ih (List.cons_ne_nil _ _) hch2
        (fun x hx => hall x (List.mem_cons_of_mem _ hx))
      obtain ⟨ble, bnx⟩ := ball o2 (List.mem_cons_self _ _)
      have ho2B := (hall o2 (List.mem_cons_of_mem _ (List.mem_cons_self _ _))).1
      have g1 := inv0.chain.next_ge o hoB
      have g2 := inv0.chain.next_ge o2 ho2B
      have e : a = b := by
        rcases Nat.lt_trichotomy a b with lt | eq | gt
        · have s1 := f.inv.chain.sep a b am bm lt
          have e2 : nextOf s a = b := by omega
          have := f.inv.used.noadj a am (fun x => x) au
            (by rw [e2]; exact (f.inv.chain.lt_end hM bm).ne)
          rw [e2] at this
          omega
        · exact eq
        · have s1 := f.inv.chain.sep b a bm am gt
          omega
      subst e
      refine ⟨a, am, au, fun x hx => ?_⟩
      rcases List.mem_cons.mp hx with e | e
      · subst e; exact ⟨ale, anx⟩
      · exact ball x e

/-- Header of the block whose payload `OSMemMalloc` has returned. -/
theorem headerOf_block (cfg : Config) (h : cfg.WF) {s : Heap} {B : Nat → Prop}
    (c : ChainW cfg s B) {o : Nat} (ho : o ≤ OSMEM_SIZE_ALIGNED cfg) :
    headerOf cfg s (s.gpOSMemBegin + o + SIZEOF_OSMEM_ALIGNED cfg) = o := by
  unfold headerOf
  rw [Nat.add_sub_cancel]
  exact offsetOf_block cfg h c ho

/-- Two heaps reached by freeing the same blocks have the same chain and the
same `gpOSMemLFree`. -/
theorem FreedW.same (cfg : Config) (h : cfg.WF) {s0 s1 s2 : Heap} {B0 Q : Nat → Prop}
    (f1 : FreedW cfg s0 B0 Q s1) (f2 : FreedW cfg s0 B0 Q s2) :
    SameChain cfg s1 s2 ∧ s1.gpOSMemLFree = s2.gpOSMemLFree := by
  obtain ⟨hH, hM, _⟩ := WF_facts cfg h
  have hus : ∀ a, usedOf s1 a = usedOf s2 a := by
    intro a
    by_cases hq : Q a
    · rw [f1.used_in a hq, f2.used_in a hq]
    · rw [f1.used_out a hq, f2.used_out a hq]
  refine ⟨fun o => ⟨?_, fun hb => ⟨?_, hus o⟩⟩, ?_⟩
  · rw [f1.inv.chain.isBlock_iff hM, f2.inv.chain.isBlock_iff hM]
  · exact f1.inv.chain.next_unique f2.inv.chain hM ((f1.inv.chain.isBlock_iff hM o).mp hb)
  · exact f1.inv.lfree.lfree_unique f2.inv.lfree f1.inv.chain f2.inv.chain hM (fun a _ => hus a)

/-- The state of the default build after OSMemInit, a = OSMemMalloc(16),
c = OSMemMalloc(16), OSMemFree(a) and OSMemCalloc(257, 256) is reached by
calls on live pointers. -/
theorem reachable_runB4 :
    Reachable defaultConfig anyCallocArgs runB4.1
      (insert 4152 ((insert 4128 (insert 4104 ∅) : Set Nat) \ {4104})) := by
  have r1 : Reachable defaultConfig anyCallocArgs runB1.1 (insert 4104 ∅) :=
    Reachable.malloc (t := runB1.1) (p := 4104) 8 16 (Reachable.init startState)
      (show OSMemMalloc defaultConfig 8 run0 16 = some (runB1.1, 4104) from rfl)
  have r2 : Reachable defaultConfig anyCallocArgs runB2.1 (insert 4128 (insert 4104 ∅)) :=
    Reachable.malloc (t := runB2.1) (p := 4128) 8 16 r1
      (show OSMemMalloc defaultConfig 8 runB1.1 16 = some (runB2.1, 4128) from rfl)
  have r3 : Reachable defaultConfig anyCallocArgs runB3
      ((insert 4128 (insert 4104 ∅) : Set Nat) \ {4104}) :=
    Reachable.free 4104 r2 (Or.inr (Or.inl rfl))
  exact Reachable.calloc (t := runB4.1) (p := 4152) 8 257 256 r3 trivial
    (show OSMemCalloc defaultConfig 8 runB3 257 256 = some (runB4.1, 4152) from rfl)

/-- The walk of the chain of `runB5` never leaves offset 0. -/
theorem inChain_runB5 {a : Nat} (ha : InChain defaultConfig runB5 a) : a = 0 := by
  induction ha with
  | first => rfl
  | step _ _ ih => subst ih; decide

/-! ## Calls that change nothing -/

/-- The alignment divides the range of `uOSMemSize_t`. -/
theorem alignment_dvd_range (cfg : Config) (h : cfg.WF) :
    cfg.OSMEM_ALIGNMENT ∣ 2 ^ uOSMemSize_bits cfg := by
  obtain ⟨hH, hM, hHM, hEW, hW, hb0, hbE⟩ := WF_facts cfg h
  obtain ⟨k, hk, eA⟩ := WF_align cfg h
  have hdvd : cfg.OSMEM_ALIGNMENT ∣ OSMEM_SIZE_ALIGNED cfg := align_dvd cfg h _
  have hA : cfg.OSMEM_ALIGNMENT ≤ OSMEM_SIZE_ALIGNED cfg := Nat.le_of_dvd (by omega) hdvd
  have hkb : k < uOSMemSize_bits cfg := by
    have : (2:Nat) ^ k < 2 ^ uOSMemSize_bits cfg := by rw [← eA]; omega
    exact (Nat.pow_lt_pow_iff_right (by norm_num)).mp this
  rw [eA]; exact pow_dvd_pow 2 (Nat.le_of_lt hkb)

/-- A multiple of the alignment stays one when it is stored in a
`uOSMemSize_t`. -/
theorem dvd_uOSMemSize_t (cfg : Config) (h : cfg.WF) {x : Nat}
    (hx : cfg.OSMEM_ALIGNMENT ∣ x) : cfg.OSMEM_ALIGNMENT ∣ uOSMemSize_t cfg x :=
  (Nat.dvd_mod_iff (alignment_dvd_range cfg h)).mpr hx

/-- Offset of an address above `gpOSMemBegin`. -/
theorem offsetOf_add (cfg : Config) {s : Heap} {k : Nat} (hb : s.gpOSMemBegin < 2 ^ 32)
    (hk : k < 2 ^ uOSMemSize_bits cfg) (hW : 2 ^ uOSMemSize_bits cfg ≤ 2 ^ 32) :
    offsetOf cfg s (s.gpOSMemBegin + k) = k := by
  unfold offsetOf
  have : sub32 (s.gpOSMemBegin + k) s.gpOSMemBegin = k := by unfold sub32; omega
  rw [this]; exact uOSMemSize_t_of_lt cfg hk

theorem nextOf_setNextMem (s : Heap) (p v a : Nat) :
    nextOf (s.setNextMem p v) a = if s.gpOSMemBegin + a = p then v else nextOf s a := by
  unfold nextOf; simp
theorem prevOf_setNextMem (s : Heap) (p v a : Nat) :
    prevOf (s.setNextMem p v) a = prevOf s a := by
  unfold prevOf; simp
theorem nextOf_setPrevMem (s : Heap) (p v a : Nat) :
    nextOf (s.setPrevMem p v) a = nextOf s a := by
  unfold nextOf; simp
theorem prevOf_setPrevMem (s : Heap) (p v a : Nat) :
    prevOf (s.setPrevMem p v) a = if s.gpOSMemBegin + a = p then v else prevOf s a := by
  unfold prevOf; simp
theorem nextOf_setUsed (s : Heap) (p v a : Nat) :
    nextOf (s.setUsed p v) a = nextOf s a := by
  unfold nextOf; simp
theorem prevOf_setUsed (s : Heap) (p v a : Nat) :
    prevOf (s.setUsed p v) a = prevOf s a := by
  unfold prevOf; simp
theorem nextOf_setLFree (s : Heap) (p a : Nat) : nextOf (s.setLFree p) a = nextOf s a := rfl
theorem prevOf_setLFree (s : Heap) (p a : Nat) : prevOf (s.setLFree p) a = prevOf s a := rfl

theorem Closed.setNextMem {R X : Nat → Prop} {s : Heap} (c : Closed R X s) (p : Nat) {v : Nat}
    (hv : R v) : Closed R X (s.setNextMem p v) := by
  intro a ha
  rw [nextOf_setNextMem, prevOf_setNextMem]
  refine ⟨?_, (c a ha).2⟩
  split_ifs
  · exact hv
  · exact (c a ha).1

theorem Closed.setPrevMem {R X : Nat → Prop} {s : Heap} (c : Closed R X s) (p : Nat) {v : Nat}
    (hv : R v) : Closed R X (s.setPrevMem p v) := by
  intro a ha
  rw [nextOf_setPrevMem, prevOf_setPrevMem]
  refine ⟨(c a ha).1, ?_⟩
  split_ifs
  · exact hv
  · exact (c a ha).2

theorem Closed.setUsed {R X : Nat → Prop} {s : Heap} (c : Closed R X s) (p v : Nat) :
    Closed R X (s.setUsed p v) := by
  intro a ha
  rw [nextOf_setUsed, prevOf_setUsed]
  exact c a ha

theorem Closed.setLFree {R X : Nat → Prop} {s : Heap} (c : Closed R X s) (p : Nat) :
    Closed R X (s.setLFree p) := c

/-- A new header `q` whose two links have been stored joins the headers of
`X`. -/
theorem Closed.newHeader {R X : Nat → Prop} {s : Heap} (c : Closed R X s) (q : Nat)
    {v w : Nat} (hv : R v) (hw : R w) :
    Closed R (fun a => X a ∨ a = q)
      ((s.setNextMem (s.gpOSMemBegin + q) v).setPrevMem (s.gpOSMemBegin + q) w) := by
  intro a ha
  rw [nextOf_setPrevMem, prevOf_setPrevMem, nextOf_setNextMem, prevOf_setNextMem]
  rcases ha with ha | ha
  · constructor
    · split_ifs
      · exact hv
      · exact (c a ha).1
    · split_ifs
      · exact hw
      · exact (c a ha).2
  · subst ha
    simp only [setNextMem_gpOSMemBegin, if_true]
    exact ⟨hv, hw⟩

theorem Closed.mono {R R' X : Nat → Prop} {s : Heap} (c : Closed R X s)
    (hR : ∀ a, R a → R' a) : Closed R' X s :=
  fun a ha => ⟨hR _ (c a ha).1, hR _ (c a ha).2⟩

theorem AlignW.closed {cfg : Config} {s : Heap} {R : Nat → Prop} {L : Set Nat}
    (al : AlignW cfg s R L) : Closed R R s :=
  fun a ha => ⟨al.next_mem a ha, al.prev_mem a ha⟩

/-- The alignment invariant from its parts. -/
theorem AlignW.of_closed {cfg : Config} {s t : Heap} {R R' : Nat → Prop} {L L' : Set Nat}
    (al : AlignW cfg s R L) (hb : t.gpOSMemBegin = s.gpOSMemBegin)
    (he : t.gpOSMemEnd = s.gpOSMemEnd) (hR : ∀ a, R a → R' a)
    (hd : ∀ a, R' a → cfg.OSMEM_ALIGNMENT ∣ a ∧ a < 2 ^ uOSMemSize_bits cfg)
    (c : Closed R' R' t)
    (hl : ∃ k, R' k ∧ t.gpOSMemLFree = s.gpOSMemBegin + k)
    (hL : ∀ p, p ∈ L' → ∃ k, R' k ∧ p = s.gpOSMemBegin + k + SIZEOF_OSMEM_ALIGNED cfg) :
    AlignW cfg t R' L' := by
  refine ⟨by rw [hb]; exact al.hbegin, by rw [he, hb]; exact al.hend, hR 0 al.zero_mem,
    fun a ha => (hd a ha).1, fun a ha => (hd a ha).2, fun a ha => (c a ha).1,
    fun a ha => (c a ha).2, ?_, ?_⟩
  · rw [hb]; exact hl
  · rw [hb]; exact hL

/-- Alignment invariant after `OSMemMalloc_take` on a header of `R` with an
aligned size. -/
theorem AlignW.take (cfg : Config) (h : cfg.WF) {s : Heap} {R : Nat → Prop} {L : Set Nat}
    (al : AlignW cfg s R L) {ptr size : Nat} (hp : R ptr)
    (hs : cfg.OSMEM_ALIGNMENT ∣ size) :
    ∃ R', (∀ a, R a → R' a) ∧ AlignW cfg (OSMemMalloc_take cfg s ptr size) R' L ∧
      (OSMemMalloc_take cfg s ptr size).gpOSMemBegin = s.gpOSMemBegin ∧
      (OSMemMalloc_take cfg s ptr size).gpOSMemLFree = s.gpOSMemLFree := by
  have hH : cfg.OSMEM_ALIGNMENT ∣ SIZEOF_OSMEM_ALIGNED cfg := align_dvd cfg h _
  have hq : cfg.OSMEM_ALIGNMENT ∣ uOSMemSize_t cfg (ptr + SIZEOF_OSMEM_ALIGNED cfg + size) :=
    dvd_uOSMemSize_t cfg h (Dvd.dvd.add (Dvd.dvd.add (al.dvd ptr hp) hH) hs)
  have hqlt := uOSMemSize_t_lt cfg (ptr + SIZEOF_OSMEM_ALIGNED cfg + size)
  unfold OSMemMalloc_take
  simp only []
  generalize uOSMemSize_t cfg (ptr + SIZEOF_OSMEM_ALIGNED cfg + size) = q at hq hqlt ⊢
  have hR' : ∀ a, R a ∨ a = q → cfg.OSMEM_ALIGNMENT ∣ a ∧ a < 2 ^ uOSMemSize_bits cfg := by
    rintro a (ha | ha)
    · exact ⟨al.dvd a ha, al.lt a ha⟩
    · subst ha; exact ⟨hq, hqlt⟩
  have c5 : Closed (fun a => R a ∨ a = q) (fun a => R a ∨ a = q)
      (((((s.setUsed (s.gpOSMemBegin + q) 0).setNextMem (s.gpOSMemBegin + q)
        ((s.setUsed (s.gpOSMemBegin + q) 0).mem (s.gpOSMemBegin + ptr)).NextMem).setPrevMem
        (s.gpOSMemBegin + q) ptr).setNextMem (s.gpOSMemBegin + ptr) q).setUsed
        (s.gpOSMemBegin + ptr) 1) := by
    have c1 := (al.closed.mono (fun a (ha : R a) => (Or.inl ha : R a ∨ a = q))).setUsed
      (s.gpOSMemBegin + q) 0
    have hv : (fun a => R a ∨ a = q)
        ((s.setUsed (s.gpOSMemBegin + q) 0).mem (s.gpOSMemBegin + ptr)).NextMem := (c1 ptr hp).1
    exact ((c1.newHeader q hv (Or.inl hp)).setNextMem _ (Or.inr rfl)).setUsed _ _
  obtain ⟨k, hk, hl⟩ := al.lfree
  split_ifs with c1 c2
  · exact ⟨fun a => R a ∨ a = q, fun a ha => Or.inl ha,
      al.of_closed rfl rfl (fun a ha => Or.inl ha) hR' (c5.setPrevMem _ (Or.inr rfl))
        ⟨k, Or.inl hk, hl⟩ (fun p hp => by
          obtain ⟨k, hk, e⟩ := al.live p hp; exact ⟨k, Or.inl hk, e⟩), rfl, rfl⟩
  · exact ⟨fun a => R a ∨ a = q, fun a ha => Or.inl ha,
      al.of_closed rfl rfl (fun a ha => Or.inl ha) hR' c5
        ⟨k, Or.inl hk, hl⟩ (fun p hp => by
          obtain ⟨k, hk, e⟩ := al.live p hp; exact ⟨k, Or.inl hk, e⟩), rfl, rfl⟩
  · exact ⟨R, fun a ha => ha,
      al.of_closed rfl rfl (fun a ha => ha) (fun a ha => ⟨al.dvd a ha, al.lt a ha⟩)
        (al.closed.setUsed _ _) ⟨k, hk, hl⟩ al.live, rfl, rfl⟩

theorem AlignW.begin_lt (cfg : Config) (h : cfg.WF) {s : Heap} {R : Nat → Prop} {L : Set Nat}
    (al : AlignW cfg s R L) : 0 < s.gpOSMemBegin ∧ s.gpOSMemBegin < 2 ^ 32 := by
  obtain ⟨hH, hM, hHM, hEW, hW, hb0, hbE⟩ := WF_facts cfg h
  rw [al.hbegin]; omega

theorem AlignW.offsetOf_eq (cfg : Config) (h : cfg.WF) {s : Heap} {R : Nat → Prop} {L : Set Nat}
    (al : AlignW cfg s R L) {k : Nat} (hk : R k) :
    AIOS.offsetOf cfg s (s.gpOSMemBegin + k) = k := by
  obtain ⟨hH, hM, hHM, hEW, hW, hb0, hbE⟩ := WF_facts cfg h
  exact offsetOf_add cfg (al.begin_lt cfg h).2 (al.lt k hk) hW

/-- Alignment invariant along the loop that moves `gpOSMemLFree`. -/
theorem AlignW.lfreeAligned (cfg : Config) {R : Nat → Prop} {L : Set Nat} :
    ∀ (fuel : Nat) (s t : Heap), AlignW cfg s R L → OSMemMalloc_lfree fuel s = some t →
      AlignW cfg t R L ∧ t.gpOSMemBegin = s.gpOSMemBegin := by
  intro fuel
  induction fuel with
  | zero => intro s t _ e; simp [OSMemMalloc_lfree] at e
  | succ n ih =>
    intro s t al e
    unfold OSMemMalloc_lfree at e
    split_ifs at e with c
    · obtain ⟨k, hk, hl⟩ := al.lfree
      have al' : AlignW cfg (s.setLFree (s.gpOSMemBegin + (s.mem s.gpOSMemLFree).NextMem)) R L :=
        al.of_closed rfl rfl (fun a ha => ha) (fun a ha => ⟨al.dvd a ha, al.lt a ha⟩)
          (al.closed.setLFree _)
          ⟨nextOf s k, al.next_mem k hk, by rw [hl]; rfl⟩ al.live
      obtain ⟨r1, r2⟩ := ih (s.setLFree (s.gpOSMemBegin + (s.mem s.gpOSMemLFree).NextMem)) t al' e
      exact ⟨r1, r2⟩
    · simp only [Option.some.injEq] at e
      rw [← e]; exact ⟨al, rfl⟩

theorem AlignW.insert_live {cfg : Config} {s : Heap} {R : Nat → Prop} {L : Set Nat}
    (al : AlignW cfg s R L) {k : Nat} (hk : R k) :
    AlignW cfg s R (insert (s.gpOSMemBegin + k + SIZEOF_OSMEM_ALIGNED cfg) L) :=
  ⟨al.hbegin, al.hend, al.zero_mem, al.dvd, al.lt, al.next_mem, al.prev_mem, al.lfree,
    fun p hp => by
      rcases Set.mem_insert_iff.mp hp with e | e
      · exact ⟨k, hk, e⟩
      · exact al.live p e⟩

theorem AlignW.subset_live {cfg : Config} {s : Heap} {R : Nat → Prop} {L L' : Set Nat}
    (al : AlignW cfg s R L) (hL : ∀ p, p ∈ L' → p ∈ L) : AlignW cfg s R L' :=
  ⟨al.hbegin, al.hend, al.zero_mem, al.dvd, al.lt, al.next_mem, al.prev_mem, al.lfree,
    fun p hp => al.live p (hL p hp)⟩

/-- Alignment invariant along the scan loop of `OSMemMalloc`: the pointer
returned is null or the payload address of a header of `R`. -/
theorem AlignW.scan (cfg : Config) (h : cfg.WF) {L : Set Nat} {size : Nat}
    (hs : cfg.OSMEM_ALIGNMENT ∣ size) :
    ∀ (fuel : Nat) (R : Nat → Prop) (s : Heap) (ptr : Nat) (t : Heap) (p : Nat),
      AlignW cfg s R L → R ptr →
      OSMemMalloc_scan cfg size fuel s ptr = some (t, p) →
      ∃ R', (∀ a, R a → R' a) ∧
        AlignW cfg t R' (if p = OS_NULL then L else insert p L) ∧
        t.gpOSMemBegin = s.gpOSMemBegin ∧
        (p ≠ OS_NULL → ∃ k, R k ∧ p = s.gpOSMemBegin + k + SIZEOF_OSMEM_ALIGNED cfg) := by
  obtain ⟨hH, hM, hHM, hEW, hW, hb0, hbE⟩ := WF_facts cfg h
  intro fuel
  induction fuel with
  | zero => intro R s ptr t p _ _ e; simp [OSMemMalloc_scan] at e
  | succ n ih =>
    intro R s ptr t p al hp e
    have hb := (al.begin_lt cfg h).1
    unfold OSMemMalloc_scan at e
    simp only [] at e
    split_ifs at e with c1 c2 c3
    · -- the block is taken and `gpOSMemLFree` moves
      obtain ⟨R', hsub, al1, b1, _⟩ := al.take cfg h hp hs
      cases hl : OSMemMalloc_lfree n (OSMemMalloc_take cfg s ptr size) with
      | none => rw [hl] at e; simp at e
      | some s2 =>
        rw [hl] at e
        simp only [Option.some.injEq, Prod.mk.injEq] at e
        obtain ⟨e1, e2⟩ := e
        obtain ⟨al2, b2⟩ := AlignW.lfreeAligned cfg n _ _ al1 hl
        have hne : p ≠ OS_NULL := by rw [← e2]; unfold OS_NULL; omega
        rw [if_neg hne, ← e1, ← e2]
        refine ⟨R', hsub, ?_, by rw [b2, b1], fun _ => ⟨ptr, hp, rfl⟩⟩
        have := al2.insert_live (hsub ptr hp)
        rw [b2, b1] at this
        exact this
    · simp only [Option.some.injEq, Prod.mk.injEq] at e
      obtain ⟨e1, e2⟩ := e
      obtain ⟨R', hsub, al1, b1, _⟩ := al.take cfg h hp hs
      have hne : p ≠ OS_NULL := by rw [← e2]; unfold OS_NULL; omega
      rw [if_neg hne, ← e1, ← e2]
      refine ⟨R', hsub, ?_, b1, fun _ => ⟨ptr, hp, rfl⟩⟩
      have := al1.insert_live (hsub ptr hp)
      rw [b1] at this
      exact this
    · exact ih R s _ t p al (al.next_mem ptr hp) e
    · simp only [Option.some.injEq, Prod.mk.injEq] at e
      obtain ⟨e1, e2⟩ := e
      rw [← e1, ← e2, if_pos rfl]
      exact ⟨R, fun a ha => ha, al, rfl, fun hne => absurd rfl hne⟩

/-- The size `OSMemMalloc` and `OSMemTrim` work with is a multiple of the
alignment. -/
theorem roundedSize_dvd (cfg : Config) (h : cfg.WF) (size : Nat) :
    cfg.OSMEM_ALIGNMENT ∣ roundedSize cfg size := by
  unfold roundedSize
  split_ifs
  · exact align_dvd cfg h _
  · exact dvd_uOSMemSize_t cfg h (align_dvd cfg h _)

/-- Alignment invariant after `OSMemMalloc`. -/
theorem AlignW.malloc (cfg : Config) (h : cfg.WF) {s t : Heap} {R : Nat → Prop} {L : Set Nat}
    (al : AlignW cfg s R L) {fuel size p : Nat}
    (e : OSMemMalloc cfg fuel s size = some (t, p)) :
    ∃ R', (∀ a, R a → R' a) ∧
      AlignW cfg t R' (if p = OS_NULL then L else insert p L) ∧
      t.gpOSMemBegin = s.gpOSMemBegin ∧
      (p ≠ OS_NULL → ∃ k, R k ∧ p = s.gpOSMemBegin + k + SIZEOF_OSMEM_ALIGNED cfg) := by
  obtain ⟨hH, hM, hHM, hEW, hW, hb0, hbE⟩ := WF_facts cfg h
  have hb := al.begin_lt cfg h
  have hend : ¬ s.gpOSMemEnd = OS_NULL := by rw [al.hend]; unfold OS_NULL; omega
  obtain ⟨k, hk, hl⟩ := al.lfree
  have hoff : AIOS.offsetOf cfg s s.gpOSMemLFree = k := by rw [hl]; exact al.offsetOf_eq cfg h hk
  have hunf : OSMemMalloc cfg fuel s size =
      if size = 0 then some (s, OS_NULL)
      else if roundedSize cfg size > OSMEM_SIZE_ALIGNED cfg then some (s, OS_NULL)
      else OSMemMalloc_scan cfg (roundedSize cfg size) fuel s k := by
    unfold OSMemMalloc
    simp only [hend, if_false, hoff]
    rfl
  rw [hunf] at e
  split_ifs at e with c1 c2
  · simp only [Option.some.injEq, Prod.mk.injEq] at e
    rw [← e.1, ← e.2, if_pos rfl]
    exact ⟨R, fun a ha => ha, al, rfl, fun hne => absurd rfl hne⟩
  · simp only [Option.some.injEq, Prod.mk.injEq] at e
    rw [← e.1, ← e.2, if_pos rfl]
    exact ⟨R, fun a ha => ha, al, rfl, fun hne => absurd rfl hne⟩
  · exact AlignW.scan cfg h (roundedSize_dvd cfg h size) fuel R s k t p al hk e

/-- Alignment invariant after `memset`, whatever the range. -/
theorem AlignW.memset {cfg : Config} {s : Heap} {R : Nat → Prop} {L : Set Nat}
    (al : AlignW cfg s R L) (p len : Nat) : AlignW cfg (memset_zero cfg s p len) R L := by
  refine al.of_closed rfl rfl (fun a ha => ha) (fun a ha => ⟨al.dvd a ha, al.lt a ha⟩) ?_
    al.lfree al.live
  intro a ha
  unfold nextOf prevOf memset_zero
  simp only []
  split_ifs
  · exact ⟨al.zero_mem, al.zero_mem⟩
  · exact ⟨al.next_mem a ha, al.prev_mem a ha⟩

/-- Alignment invariant after `OSMemCalloc`, whatever the arguments. -/
theorem AlignW.calloc (cfg : Config) (h : cfg.WF) {s t : Heap} {R : Nat → Prop} {L : Set Nat}
    (al : AlignW cfg s R L) {fuel count size p : Nat}
    (e : OSMemCalloc cfg fuel s count size = some (t, p)) :
    ∃ R', (∀ a, R a → R' a) ∧
      AlignW cfg t R' (if p = OS_NULL then L else insert p L) ∧
      t.gpOSMemBegin = s.gpOSMemBegin ∧
      (p ≠ OS_NULL → ∃ k, R k ∧ p = s.gpOSMemBegin + k + SIZEOF_OSMEM_ALIGNED cfg) := by
  unfold OSMemCalloc at e
  cases hm : OSMemMalloc cfg fuel s (uOSMemSize_t cfg (count * size)) with
  | none => rw [hm] at e; simp at e
  | some r =>
    obtain ⟨s1, p1⟩ := r
    rw [hm] at e
    obtain ⟨R', hsub, al1, b1, hp1⟩ := al.malloc cfg h hm
    simp only [] at e
    split_ifs at e with c
    · simp only [Option.some.injEq, Prod.mk.injEq] at e
      rw [← e.1, ← e.2]
      exact ⟨R', hsub, al1.memset _ _, b1, hp1⟩
    · simp only [Option.some.injEq, Prod.mk.injEq] at e
      rw [← e.1, ← e.2]
      exact ⟨R', hsub, al1, b1, hp1⟩

/-- The function `OSMemCombine` is its forward half followed by its backward
half. -/
theorem OSMemCombine_halves (cfg : Config) (s : Heap) (x : Nat) :
    OSMemCombine cfg s x =
      if (s.mem x).Used = 1 then s else combineBwd cfg (combineFwd cfg s x) x := rfl

/-- Alignment invariant after one merge. -/
theorem AlignW.mergeAt (cfg : Config) (h : cfg.WF) {s : Heap} {R : Nat → Prop} {L : Set Nat}
    (al : AlignW cfg s R L) {x n k j : Nat} (hx : x = s.gpOSMemBegin + k) (hk : R k)
    (hn : n = s.gpOSMemBegin + j) (hj : R j) :
    AlignW cfg (AIOS.mergeAt cfg s x n) R L ∧
      (AIOS.mergeAt cfg s x n).gpOSMemBegin = s.gpOSMemBegin := by
  subst hx hn
  have hoff := al.offsetOf_eq cfg h hk
  have hd : ∀ a, R a → cfg.OSMEM_ALIGNMENT ∣ a ∧ a < 2 ^ uOSMemSize_bits cfg :=
    fun a ha => ⟨al.dvd a ha, al.lt a ha⟩
  obtain ⟨l, hl, el⟩ := al.lfree
  unfold AIOS.mergeAt
  simp only []
  by_cases c : s.gpOSMemLFree = s.gpOSMemBegin + j
  · simp only [c, if_true]
    refine ⟨al.of_closed rfl rfl (fun a ha => ha) hd ?_ ⟨k, hk, rfl⟩ al.live, rfl⟩
    refine Closed.setPrevMem (Closed.setNextMem (al.closed.setLFree _) _ ?_) _ ?_
    · exact al.next_mem j hj
    · have : R (AIOS.offsetOf cfg s (s.gpOSMemBegin + k)) := by rw [hoff]; exact hk
      exact this
  · simp only [c, if_false]
    refine ⟨al.of_closed rfl rfl (fun a ha => ha) hd ?_ ⟨l, hl, el⟩ al.live, rfl⟩
    refine Closed.setPrevMem (Closed.setNextMem al.closed _ ?_) _ ?_
    · exact al.next_mem j hj
    · have : R (AIOS.offsetOf cfg s (s.gpOSMemBegin + k)) := by rw [hoff]; exact hk
      exact this

/-- Alignment invariant after `OSMemCombine` on a header of `R`. -/
theorem AlignW.combine (cfg : Config) (h : cfg.WF) {s : Heap} {R : Nat → Prop} {L : Set Nat}
    (al : AlignW cfg s R L) {x k : Nat} (hx : x = s.gpOSMemBegin + k) (hk : R k) :
    AlignW cfg (OSMemCombine cfg s x) R L ∧
      (OSMemCombine cfg s x).gpOSMemBegin = s.gpOSMemBegin := by
  rw [OSMemCombine_halves]
  split_ifs with hu
  · exact ⟨al, rfl⟩
  have f : AlignW cfg (combineFwd cfg s x) R L ∧
      (combineFwd cfg s x).gpOSMemBegin = s.gpOSMemBegin := by
    unfold combineFwd
    split_ifs
    · exact al.mergeAt cfg h hx hk rfl (by
        have : R (nextOf s k) := al.next_mem k hk
        rw [hx]; exact this)
    · exact ⟨al, rfl⟩
  obtain ⟨al1, b1⟩ := f
  generalize combineFwd cfg s x = s1 at al1 b1 ⊢
  unfold combineBwd
  split_ifs
  · have hx1 : x = s1.gpOSMemBegin + k := by rw [b1]; exact hx
    have := al1.mergeAt cfg h (rfl : s1.gpOSMemBegin + (s1.mem x).PrevMem = _) (by
      have : R (prevOf s1 k) := al1.prev_mem k hk
      rw [hx1]; exact this) hx1 hk
    exact ⟨this.1, by rw [this.2, b1]⟩
  · exact ⟨al1, b1⟩

/-- Alignment invariant after `OSMemFree` on a live pointer. -/
theorem AlignW.freeAligned (cfg : Config) (h : cfg.WF) {s : Heap} {R : Nat → Prop} {L : Set Nat}
    (al : AlignW cfg s R L) {p : Nat} (hp : p ∈ L) :
    AlignW cfg (OSMemFree cfg s p) R (L \ {p}) := by
  obtain ⟨k, hk, e⟩ := al.live p hp
  subst e
  have hd : ∀ a, R a → cfg.OSMEM_ALIGNMENT ∣ a ∧ a < 2 ^ uOSMemSize_bits cfg :=
    fun a ha => ⟨al.dvd a ha, al.lt a ha⟩
  have hsub : ∀ q, q ∈ L \ {s.gpOSMemBegin + k + SIZEOF_OSMEM_ALIGNED cfg} → q ∈ L :=
    fun q hq => hq.1
  obtain ⟨l, hl, el⟩ := al.lfree
  unfold OSMemFree
  rw [Nat.add_sub_cancel]
  simp only []
  split_ifs with c1 c2 c3 c4
  · exact al.subset_live hsub
  · exact al.subset_live hsub
  · have al2 : AlignW cfg ((s.setUsed (s.gpOSMemBegin + k) 0).setLFree (s.gpOSMemBegin + k)) R L :=
      al.of_closed rfl rfl (fun a ha => ha) hd ((al.closed.setUsed _ _).setLFree _)
        ⟨k, hk, rfl⟩ al.live
    exact (al2.combine cfg h rfl hk).1.subset_live hsub
  · have al2 : AlignW cfg (s.setUsed (s.gpOSMemBegin + k) 0) R L :=
      al.of_closed rfl rfl (fun a ha => ha) hd (al.closed.setUsed _ _) ⟨l, hl, el⟩ al.live
    exact (al2.combine cfg h rfl hk).1.subset_live hsub
  · exact al.subset_live hsub

/-- The state that `OSMemTrim` leaves, on the payload address of a header at
offset `k`, in any heap: the state of before, or that of one of the two
branches that shrink the block. -/
theorem OSMemTrim_cases (cfg : Config) (s : Heap) (k newsize : Nat)
    (hoff : offsetOf cfg s (s.gpOSMemBegin + k) = k) :
    (OSMemTrim cfg s (s.gpOSMemBegin + k + SIZEOF_OSMEM_ALIGNED cfg) newsize).1 = s ∨
    (OSMemTrim cfg s (s.gpOSMemBegin + k + SIZEOF_OSMEM_ALIGNED cfg) newsize).1
      = trimMove cfg s k (roundedSize cfg newsize) ∨
    (OSMemTrim cfg s (s.gpOSMemBegin + k + SIZEOF_OSMEM_ALIGNED cfg) newsize).1
      = trimSplit cfg s k (roundedSize cfg newsize) := by
  have key : ∀ r, OSMemTrim cfg s (s.gpOSMemBegin + k + SIZEOF_OSMEM_ALIGNED cfg) newsize = r →
      r.1 = s ∨ r.1 = trimMove cfg s k (roundedSize cfg newsize) ∨
        r.1 = trimSplit cfg s k (roundedSize cfg newsize) := by
    intro r he
    unfold OSMemTrim at he
    simp only [] at he
    have hr : (if uOSMemSize_t cfg (OSMEM_ALIGN_SIZE cfg newsize) < OSMIN_SIZE_ALIGNED cfg then
        OSMIN_SIZE_ALIGNED cfg else uOSMemSize_t cfg (OSMEM_ALIGN_SIZE cfg newsize))
        = roundedSize cfg newsize := rfl
    rw [hr, Nat.add_sub_cancel, hoff] at he
    split at he
    · rw [← he]; exact Or.inl rfl
    split at he
    · rw [← he]; exact Or.inl rfl
    split at he
    · rw [← he]; exact Or.inl rfl
    split at he
    · rw [← he]; exact Or.inl rfl
    split at he
    · rw [← he]; exact Or.inr (Or.inl rfl)
    split at he
    · rw [← he]; exact Or.inr (Or.inr rfl)
    · rw [← he]; exact Or.inl rfl
  exact key _ rfl

/-- Alignment invariant after the first branch of `OSMemTrim`. -/
theorem AlignW.trimMove (cfg : Config) (h : cfg.WF) {s : Heap} {R : Nat → Prop} {L : Set Nat}
    (al : AlignW cfg s R L) {k sz : Nat} (hk : R k) (hs : cfg.OSMEM_ALIGNMENT ∣ sz) :
    ∃ R', (∀ a, R a → R' a) ∧ AlignW cfg (AIOS.trimMove cfg s k sz) R' L := by
  have hH : cfg.OSMEM_ALIGNMENT ∣ SIZEOF_OSMEM_ALIGNED cfg := align_dvd cfg h _
  have hq : cfg.OSMEM_ALIGNMENT ∣ uOSMemSize_t cfg (k + SIZEOF_OSMEM_ALIGNED cfg + sz) :=
    dvd_uOSMemSize_t cfg h (Dvd.dvd.add (Dvd.dvd.add (al.dvd k hk) hH) hs)
  have hqlt := uOSMemSize_t_lt cfg (k + SIZEOF_OSMEM_ALIGNED cfg + sz)
  unfold AIOS.trimMove
  simp only []
  generalize uOSMemSize_t cfg (k + SIZEOF_OSMEM_ALIGNED cfg + sz) = q at hq hqlt ⊢
  have hR' : ∀ a, R a ∨ a = q → cfg.OSMEM_ALIGNMENT ∣ a ∧ a < 2 ^ uOSMemSize_bits cfg := by
    rintro a (ha | ha)
    · exact ⟨al.dvd a ha, al.lt a ha⟩
    · subst ha; exact ⟨hq, hqlt⟩
  have hv : (fun a => R a ∨ a = q) (s.mem (s.gpOSMemBegin + (s.mem (s.gpOSMemBegin + k)).NextMem)).NextMem :=
    Or.inl (al.next_mem _ (al.next_mem k hk))
  have hlive : ∀ p, p ∈ L → ∃ k, (R k ∨ k = q) ∧
      p = s.gpOSMemBegin + k + SIZEOF_OSMEM_ALIGNED cfg := fun p hp => by
    obtain ⟨k, hk, e⟩ := al.live p hp; exact ⟨k, Or.inl hk, e⟩
  have c0 := al.closed.mono (fun a (ha : R a) => (Or.inl ha : R a ∨ a = q))
  obtain ⟨l, hl, el⟩ := al.lfree
  refine ⟨fun a => R a ∨ a = q, fun a ha => Or.inl ha, ?_⟩
  by_cases c : s.gpOSMemLFree = s.gpOSMemBegin + (s.mem (s.gpOSMemBegin + k)).NextMem
  · simp only [c, if_true]
    have c5 := ((((c0.setLFree (s.gpOSMemBegin + q)).setUsed (s.gpOSMemBegin + q) 0).newHeader q
      hv (Or.inl hk)).setNextMem (s.gpOSMemBegin + k) (Or.inr rfl : R q ∨ q = q))
    split_ifs
    · exact al.of_closed rfl rfl (fun a ha => Or.inl ha) hR' (c5.setPrevMem _ (Or.inr rfl))
        ⟨q, Or.inr rfl, rfl⟩ hlive
    · exact al.of_closed rfl rfl (fun a ha => Or.inl ha) hR' c5 ⟨q, Or.inr rfl, rfl⟩ hlive
  · simp only [c, if_false]
    have c5 := (((c0.setUsed (s.gpOSMemBegin + q) 0).newHeader q
      hv (Or.inl hk)).setNextMem (s.gpOSMemBegin + k) (Or.inr rfl : R q ∨ q = q))
    split_ifs
    · exact al.of_closed rfl rfl (fun a ha => Or.inl ha) hR' (c5.setPrevMem _ (Or.inr rfl))
        ⟨l, Or.inl hl, el⟩ hlive
    · exact al.of_closed rfl rfl (fun a ha => Or.inl ha) hR' c5 ⟨l, Or.inl hl, el⟩ hlive

/-- Alignment invariant after the second branch of `OSMemTrim`. -/
theorem AlignW.trimSplit (cfg : Config) (h : cfg.WF) {s : Heap} {R : Nat → Prop} {L : Set Nat}
    (al : AlignW cfg s R L) {k sz : Nat} (hk : R k) (hs : cfg.OSMEM_ALIGNMENT ∣ sz) :
    ∃ R', (∀ a, R a → R' a) ∧ AlignW cfg (AIOS.trimSplit cfg s k sz) R' L := by
  have hH : cfg.OSMEM_ALIGNMENT ∣ SIZEOF_OSMEM_ALIGNED cfg := align_dvd cfg h _
  have hq : cfg.OSMEM_ALIGNMENT ∣ uOSMemSize_t cfg (k + SIZEOF_OSMEM_ALIGNED cfg + sz) :=
    dvd_uOSMemSize_t cfg h (Dvd.dvd.add (Dvd.dvd.add (al.dvd k hk) hH) hs)
  have hqlt := uOSMemSize_t_lt cfg (k + SIZEOF_OSMEM_ALIGNED cfg + sz)
  unfold AIOS.trimSplit
  simp only []
  generalize uOSMemSize_t cfg (k + SIZEOF_OSMEM_ALIGNED cfg + sz) = q at hq hqlt ⊢
  have hR' : ∀ a, R a ∨ a = q → cfg.OSMEM_ALIGNMENT ∣ a ∧ a < 2 ^ uOSMemSize_bits cfg := by
    rintro a (ha | ha)
    · exact ⟨al.dvd a ha, al.lt a ha⟩
    · subst ha; exact ⟨hq, hqlt⟩
  have hlive : ∀ p, p ∈ L → ∃ k, (R k ∨ k = q) ∧
      p = s.gpOSMemBegin + k + SIZEOF_OSMEM_ALIGNED cfg := fun p hp => by
    obtain ⟨k, hk, e⟩ := al.live p hp; exact ⟨k, Or.inl hk, e⟩
  have c0 := al.closed.mono (fun a (ha : R a) => (Or.inl ha : R a ∨ a = q))
  obtain ⟨l, hl, el⟩ := al.lfree
  refine ⟨fun a => R a ∨ a = q, fun a ha => Or.inl ha, ?_⟩
  by_cases c : s.gpOSMemBegin + q < s.gpOSMemLFree
  · simp only [c, if_true]
    have c1 := (c0.setLFree (s.gpOSMemBegin + q)).setUsed (s.gpOSMemBegin + q) 0
    have hv : (fun a => R a ∨ a = q)
        ((((s.setLFree (s.gpOSMemBegin + q)).setUsed (s.gpOSMemBegin + q) 0).mem
          (s.gpOSMemBegin + k)).NextMem) := (c1 k hk).1
    have c5 := ((c1.newHeader q hv (Or.inl hk)).setNextMem (s.gpOSMemBegin + k)
      (Or.inr rfl : R q ∨ q = q))
    split_ifs
    · exact al.of_closed rfl rfl (fun a ha => Or.inl ha) hR' (c5.setPrevMem _ (Or.inr rfl))
        ⟨q, Or.inr rfl, rfl⟩ hlive
    · exact al.of_closed rfl rfl (fun a ha => Or.inl ha) hR' c5 ⟨q, Or.inr rfl, rfl⟩ hlive
  · simp only [c, if_false]
    have c1 := c0.setUsed (s.gpOSMemBegin + q) 0
    have hv : (fun a => R a ∨ a = q)
        (((s.setUsed (s.gpOSMemBegin + q) 0).mem (s.gpOSMemBegin + k)).NextMem) :=
      (c1 k hk).1
    have c5 := ((c1.newHeader q hv (Or.inl hk)).setNextMem (s.gpOSMemBegin + k)
      (Or.inr rfl : R q ∨ q = q))
    split_ifs
    · exact al.of_closed rfl rfl (fun a ha => Or.inl ha) hR' (c5.setPrevMem _ (Or.inr rfl))
        ⟨l, Or.inl hl, el⟩ hlive
    · exact al.of_closed rfl rfl (fun a ha => Or.inl ha) hR' c5 ⟨l, Or.inl hl, el⟩ hlive

/-- Alignment invariant after `OSMemTrim` on a live pointer. -/
theorem AlignW.trim (cfg : Config) (h : cfg.WF) {s : Heap} {R : Nat → Prop} {L : Set Nat}
    (al : AlignW cfg s R L) {p : Nat} (hp : p ∈ L) (newsize : Nat) :
    ∃ R', (∀ a, R a → R' a) ∧ AlignW cfg (OSMemTrim cfg s p newsize).1 R' L := by
  obtain ⟨k, hk, e⟩ := al.live p hp
  subst e
  rcases OSMemTrim_cases cfg s k newsize (al.offsetOf_eq cfg h hk) with e | e | e
  · rw [e]; exact ⟨R, fun a ha => ha, al⟩
  · rw [e]; exact al.trimMove cfg h hk (roundedSize_dvd cfg h newsize)
  · rw [e]; exact al.trimSplit cfg h hk (roundedSize_dvd cfg h newsize)

/-- Every state that call sequences reach in the heap of headers, whatever
the arguments of `OSMemCalloc`, satisfies the alignment invariant. -/
theorem Reachable.alignW (cfg : Config) (h : cfg.WF) {callocArgs : Nat → Nat → Prop}
    {s : Heap} {L : Set Nat} (hr : Reachable cfg callocArgs s L) :
    ∃ R, AlignW cfg s R L := by
  obtain ⟨hH, hM, hHM, hEW, hW, hb0, hbE⟩ := WF_facts cfg h
  induction hr with
  | init s0 =>
    have hE := uOSMemSize_t_of_lt cfg hEW
    have hdE : cfg.OSMEM_ALIGNMENT ∣ OSMEM_SIZE_ALIGNED cfg := align_dvd cfg h _
    refine ⟨fun a => a = 0 ∨ a = OSMEM_SIZE_ALIGNED cfg, ?_⟩
    constructor
    · rfl
    · rfl
    · exact Or.inl rfl
    · rintro a (e | e)
      · rw [e]; exact dvd_zero _
      · rw [e]; exact hdE
    · rintro a (e | e)
      · rw [e]; positivity
      · rw [e]; exact hEW
    · rintro a (e | e) <;> subst e <;> simp [OSMemInit, nextOf, hE]
    · rintro a (e | e) <;> subst e <;> simp [OSMemInit, prevOf, hE]
    · exact ⟨0, Or.inl rfl, rfl⟩
    · intro p hp; exact absurd hp (Set.not_mem_empty p)
  | @malloc s L fuel size s' p _ hm ih =>
    obtain ⟨R, al⟩ := ih
    obtain ⟨R', _, al', _⟩ := al.malloc cfg h hm
    exact ⟨R', al'⟩
  | @calloc s L fuel count size s' p _ _ hc ih =>
    obtain ⟨R, al⟩ := ih
    obtain ⟨R', _, al', _⟩ := al.calloc cfg h hc
    exact ⟨R', al'⟩
  | @free s L p _ hp ih =>
    obtain ⟨R, al⟩ := ih
    exact ⟨R, al.freeAligned cfg h hp⟩
  | @free_ignored s L p _ hp ih =>
    rw [OSMemFree_ignored cfg s p hp]; exact ih
  | @trim s L p newsize _ hp ih =>
    obtain ⟨R, al⟩ := ih
    obtain ⟨R', _, al'⟩ := al.trim cfg h hp newsize
    exact ⟨R', al'⟩
  | @trim_ignored s L p newsize _ hp ih =>
    obtain ⟨R, al⟩ := ih
    rw [OSMemTrim_ignored cfg s p newsize hp (al.begin_lt cfg h).1]
    exact ⟨R, al⟩

/-- Every offset of the walk from 0 is a header of `R`. -/
theorem InChain.aligned {cfg : Config} {s : Heap} {R : Nat → Prop} {L : Set Nat}
    (al : AlignW cfg s R L) {o : Nat} (ho : InChain cfg s o) : R o := by
  induction ho with
  | first => exact al.zero_mem
  | step _ _ ih => exact al.next_mem _ ih

/-! ## Shrinking a block -/

/-- The sentinel offset plus the alignment fits `uOSMemSize_t`. -/
theorem end_add_alignment_le (cfg : Config) (h : cfg.WF) :
    OSMEM_SIZE_ALIGNED cfg + cfg.OSMEM_ALIGNMENT ≤ 2 ^ uOSMemSize_bits cfg := by
  obtain ⟨hH, hM, hHM, hEW, hW, hb0, hbE⟩ := WF_facts cfg h
  obtain ⟨e, he⟩ := align_dvd cfg h (OSMEM_SIZE cfg)
  obtain ⟨w, hw⟩ := alignment_dvd_range cfg h
  have hApos := alignment_pos cfg h
  have hE : OSMEM_SIZE_ALIGNED cfg = cfg.OSMEM_ALIGNMENT * e := he
  have hew : e < w := by
    rw [hE, hw] at hEW
    exact Nat.lt_of_mul_lt_mul_left hEW
  rw [hE, hw]
  calc cfg.OSMEM_ALIGNMENT * e + cfg.OSMEM_ALIGNMENT = cfg.OSMEM_ALIGNMENT * (e + 1) := by ring
    _ ≤ cfg.OSMEM_ALIGNMENT * w := Nat.mul_le_mul_left _ hew

/-- Rounding a size up to the alignment stays below every multiple of the
alignment that the size is not above. -/
theorem roundedSize_le_of_dvd (cfg : Config) (h : cfg.WF) {n c : Nat}
    (hc : cfg.OSMEM_ALIGNMENT ∣ c) (hn : n ≤ c) (hM : OSMIN_SIZE_ALIGNED cfg ≤ c)
    (hcE : c ≤ OSMEM_SIZE_ALIGNED cfg) : n ≤ roundedSize cfg n ∧ roundedSize cfg n ≤ c := by
  obtain ⟨hH, _, hHM, hEW, hW, hb0, hbE⟩ := WF_facts cfg h
  have hsum := end_add_alignment_le cfg h
  have hA := alignment_pos cfg h
  obtain ⟨b1, b2, b3⟩ := align_bounds cfg h n (by omega)
  have e : uOSMemSize_t cfg (OSMEM_ALIGN_SIZE cfg n) = OSMEM_ALIGN_SIZE cfg n :=
    uOSMemSize_t_of_lt cfg (by omega)
  have hle : OSMEM_ALIGN_SIZE cfg n ≤ c := by
    obtain ⟨i, hi⟩ := hc
    obtain ⟨j, hj⟩ := b3
    rw [hj, hi]
    apply Nat.mul_le_mul_left
    have : cfg.OSMEM_ALIGNMENT * j < cfg.OSMEM_ALIGNMENT * (i + 1) := by
      rw [← hj, Nat.mul_add, ← hi]; omega
    have := Nat.lt_of_mul_lt_mul_left this
    omega
  unfold roundedSize
  rw [e]
  split_ifs <;> omega

/-- In a state reached within the contract the offsets of the blocks and the
payload capacities are multiples of the alignment. -/
theorem Reachable.capacity_dvd (cfg : Config) (h : cfg.WF) {s : Heap} {L : Set Nat}
    {callocArgs : Nat → Nat → Prop} (hr : Reachable cfg callocArgs s L) {o : Nat}
    (ho : IsBlock cfg s o) :
    cfg.OSMEM_ALIGNMENT ∣ o ∧ cfg.OSMEM_ALIGNMENT ∣ nextOf s o ∧
      cfg.OSMEM_ALIGNMENT ∣ capacityOf cfg s o := by
  obtain ⟨R, al⟩ := hr.alignW cfg h
  have h1 := al.dvd o (InChain.aligned al ho.1)
  have h2 := al.dvd _ (InChain.aligned al (InChain.step ho.1 ho.2))
  refine ⟨h1, h2, ?_⟩
  unfold capacityOf
  exact Nat.dvd_sub' (Nat.dvd_sub' h2 h1) (align_dvd cfg h _)

/-- Outcome of a shrinking `OSMemTrim` on the payload address of a used block
of a heap that satisfies the invariant, when the payload capacity is a
multiple of the alignment. -/
theorem OSMemTrim_shrink (cfg : Config) (h : cfg.WF) {s : Heap} {B : Nat → Prop}
    (inv : Inv cfg s B) {o : Nat} (ho : B o) (hu : usedOf s o = 1)
    (hd : cfg.OSMEM_ALIGNMENT ∣ capacityOf cfg s o) {newsize : Nat}
    (hn : newsize ≤ capacityOf cfg s o) :
    ShrinkPost cfg s (s.gpOSMemBegin + o + SIZEOF_OSMEM_ALIGNED cfg) newsize := by
  obtain ⟨hH, hM, hHM, hEW, hW, hb0, hbE⟩ := WF_facts cfg h
  have ho1 := inv.chain.next_ge o ho
  have ho2 := inv.chain.next_le o ho
  have hcap : capacityOf cfg s o = nextOf s o - o - SIZEOF_OSMEM_ALIGNED cfg := rfl
  obtain ⟨r1, r2⟩ := roundedSize_le_of_dvd cfg h hd hn (by omega) (by omega)
  obtain ⟨inv', hb, hiff⟩ := OSMemTrim_inv cfg h inv ho hu newsize
  obtain ⟨k1, k2⟩ := (hiff o).mp ⟨ho, hu⟩
  have hhd : headerOf cfg s (s.gpOSMemBegin + o + SIZEOF_OSMEM_ALIGNED cfg) = o :=
    headerOf_block cfg h inv.chain (inv.chain.lt_end' ho)
  unfold ShrinkPost
  rw [hhd]
  refine ⟨?_, hb, (inv'.chain.isBlock_iff hM o).mpr k1, k2, ?_⟩
  · rw [OSMemTrim_eq cfg h inv.chain ho]
    split_ifs with c1 c2 <;> first | rfl | omega
  · have key : nextOf (OSMemTrim cfg s (s.gpOSMemBegin + o + SIZEOF_OSMEM_ALIGNED cfg) newsize).1 o
        = nextOf s o ∨
        nextOf (OSMemTrim cfg s (s.gpOSMemBegin + o + SIZEOF_OSMEM_ALIGNED cfg) newsize).1 o
        = o + SIZEOF_OSMEM_ALIGNED cfg + roundedSize cfg newsize := by
      rw [OSMemTrim_eq cfg h inv.chain ho]
      split_ifs with c1 c2 c3 c4 c5
      · exact Or.inl rfl
      · exact Or.inl rfl
      · exact Or.inl rfl
      · right
        have := (@trimMove_fields cfg h s B inv.chain o (roundedSize cfg newsize) ho
          (by omega)).2.2.2.1 o
        rw [this, if_pos rfl]
      · right
        have := (@trimSplit_fields cfg h s B inv.chain o (roundedSize cfg newsize) ho
          (by omega)).2.2.2.1 o
        rw [this, if_pos rfl]
      · exact Or.inl rfl
    unfold capacityOf at hn r2 ⊢
    rcases key with e | e <;> rw [e] <;> omega

/-- A new size above the payload capacity is rejected by `OSMemTrim`, as long
as rounding it up to the alignment does not wrap around in `uOSMemSize_t`. -/
theorem OSMemTrim_growth_rejected (cfg : Config) (h : cfg.WF) {s : Heap} {B : Nat → Prop}
    (inv : Inv cfg s B) {o : Nat} (ho : B o) {newsize : Nat}
    (hfit : newsize + cfg.OSMEM_ALIGNMENT ≤ 2 ^ uOSMemSize_bits cfg)
    (hgt : capacityOf cfg s o < newsize) :
    OSMemTrim cfg s (s.gpOSMemBegin + o + SIZEOF_OSMEM_ALIGNED cfg) newsize = (s, OS_NULL) := by
  obtain ⟨_, r2⟩ := le_roundedSize cfg h hfit
  rw [OSMemTrim_eq cfg h inv.chain ho]
  split_ifs <;> first | rfl | omega

/-! ## Conservation, first fit and the split decision -/

/-- Sum over the chain from a block, or from the end header, of a heap that
satisfies the invariant. -/
theorem chainSum_eq (cfg : Config) (h : cfg.WF) {s : Heap} {B : Nat → Prop}
    (c : ChainW cfg s B) :
    ∀ (fuel o : Nat), (B o ∨ o = OSMEM_SIZE_ALIGNED cfg) →
      (OSMEM_SIZE_ALIGNED cfg - o < fuel →
        chainSum cfg s fuel o = some (OSMEM_SIZE_ALIGNED cfg - o + SIZEOF_OSMEM_ALIGNED cfg)) ∧
      (∀ v, chainSum cfg s fuel o = some v →
        v = OSMEM_SIZE_ALIGNED cfg - o + SIZEOF_OSMEM_ALIGNED cfg) := by
  obtain ⟨hH, hM, hHM, hEW, hW, hb0, hbE⟩ := WF_facts cfg h
  intro fuel
  induction fuel with
  | zero =>
    intro o _
    exact ⟨fun hlt => absurd hlt (Nat.not_lt_zero _), fun v hv => by simp [chainSum] at hv⟩
  | succ n ih =>
    intro o ho
    unfold chainSum
    by_cases e : o = OSMEM_SIZE_ALIGNED cfg
    · rw [if_pos e]
      have hcap : capacityOf cfg s o = 0 := by
        unfold capacityOf; rw [e, c.sent_next]; omega
      rw [hcap, e]
      refine ⟨fun _ => by simp, fun v hv => ?_⟩
      simp only [Option.some.injEq] at hv
      omega
    · rw [if_neg e]
      have hB : B o := ho.resolve_right e
      have h1 := c.next_ge o hB
      have h2 := c.next_le o hB
      have hcap : SIZEOF_OSMEM_ALIGNED cfg + capacityOf cfg s o = nextOf s o - o := by
        unfold capacityOf; omega
      obtain ⟨i1, i2⟩ := ih (nextOf s o) ((c.next_mem o hB).symm.imp_left id)
      constructor
      · intro hlt
        rw [i1 (by omega)]
        simp only [Option.map_some', Option.some.injEq]
        omega
      · intro v hv
        cases hx : chainSum cfg s n (nextOf s o) with
        | none => rw [hx] at hv; simp at hv
        | some w =>
          rw [hx] at hv
          simp only [Option.map_some', Option.some.injEq] at hv
          have := i2 w hx
          omega

/-- The size `OSMemMalloc` works with, for a request within the heap size. -/
theorem roundedSize_eq_max (cfg : Config) (h : cfg.WF) {n : Nat} (hn : n ≤ OSMEM_SIZE cfg) :
    roundedSize cfg n = max (OSMEM_ALIGN_SIZE cfg n) (OSMIN_SIZE_ALIGNED cfg) ∧
      roundedSize cfg n ≤ OSMEM_SIZE_ALIGNED cfg := by
  obtain ⟨hH, hM, hHM, hEW, hW, hb0, hbE⟩ := WF_facts cfg h
  have hle : OSMEM_SIZE cfg ≤ OSMEM_SIZE_ALIGNED cfg := h.2.2.2.2.2.2.1
  have hd : cfg.OSMEM_ALIGNMENT ∣ OSMEM_SIZE_ALIGNED cfg := align_dvd cfg h _
  have hsum := end_add_alignment_le cfg h
  obtain ⟨b1, b2, b3⟩ := align_bounds cfg h n (by omega)
  obtain ⟨r1, r2⟩ := roundedSize_le_of_dvd cfg h hd (by omega : n ≤ OSMEM_SIZE_ALIGNED cfg)
    (by omega) le_rfl
  refine ⟨?_, r2⟩
  have e : uOSMemSize_t cfg (OSMEM_ALIGN_SIZE cfg n) = OSMEM_ALIGN_SIZE cfg n := by
    apply uOSMemSize_t_of_lt
    unfold roundedSize at r2
    split_ifs at r2 <;> omega
  unfold roundedSize
  rw [e]
  split_ifs <;> omega

/-- The test of line 384 in terms of the payload capacity. -/
theorem fits_capacity (cfg : Config) (s : Heap) (o : Nat) {sz : Nat} (hsz : 0 < sz) :
    Fits cfg s o sz ↔ usedOf s o = 0 ∧ sz ≤ capacityOf cfg s o := by
  unfold Fits capacityOf
  constructor
  · rintro ⟨a, b⟩; exact ⟨a, by omega⟩
  · rintro ⟨a, b⟩; exact ⟨a, by omega⟩

/-- Outcome of `OSMemCalloc` with a byte count that fits, on a heap that
satisfies the invariant. -/
theorem OSMemCalloc_post (cfg : Config) (h : cfg.WF) {s : Heap} {B : Nat → Prop}
    (inv : Inv cfg s B) (fuel : Nat) {count size : Nat} (hfits : callocFits cfg count size) :
    CallocPost cfg fuel s count size := by
  obtain ⟨hH, hM, hHM, hEW, hW, hb0, hbE⟩ := WF_facts cfg h
  have hA := alignment_pos cfg h
  unfold callocFits at hfits
  obtain ⟨r1, r2⟩ := le_roundedSize cfg h hfits
  intro t p hc hp
  unfold OSMemCalloc at hc
  cases hm : OSMemMalloc cfg fuel s (uOSMemSize_t cfg (count * size)) with
  | none => rw [hm] at hc; simp at hc
  | some r =>
    obtain ⟨s1, p1⟩ := r
    rw [hm] at hc
    simp only [] at hc
    have hpp : p1 = p := by
      split_ifs at hc <;> simp only [Option.some.injEq, Prod.mk.injEq] at hc <;> exact hc.2
    subst hpp
    rw [if_pos hp] at hc
    simp only [Option.some.injEq, Prod.mk.injEq, and_true] at hc
    have hm' := hm
    rw [r1] at hm'
    have post := (OSMemMalloc_spec cfg h inv (count * size)).2 fuel s1 p1 hm'
    obtain ⟨o, ho, hu, e, inv', hb, u1, u2, hcap⟩ := MallocPost_success cfg h inv post hp
    have hlen : (count * size) % 2 ^ 32 = count * size := Nat.mod_eq_of_lt (by omega)
    have e' : p1 = s1.gpOSMemBegin + o + SIZEOF_OSMEM_ALIGNED cfg := by rw [hb]; exact e
    rw [hlen] at hc
    obtain ⟨_, m2⟩ := @memset_inv cfg h s1 _ inv' o (count * size) (Or.inl ho) (by omega)
    rw [← e', hc] at m2
    refine ⟨s1, o, rfl, (inv'.chain.isBlock_iff hM o).mpr (Or.inl ho),
      by rw [u1 o ho, if_pos rfl], e', by omega, ?_, ?_, ?_, ?_, ?_⟩
    · intro a a1 a2
      rw [← hc]
      unfold memset_zero
      simp only [a1, a2, and_self, if_true]
    · rintro a (ha | ha)
      · exact m2 a (Or.inl ((inv'.chain.isBlock_iff hM a).mp ha))
      · exact m2 a (Or.inr ha)
    · rw [← hc]; rfl
    · rw [← hc]; rfl
    · rw [← hc]; rfl

/-- The state of the default build after OSMemInit, a = OSMemMalloc(256),
b = OSMemMalloc(16), OSMemFree(a) and OSMemCalloc(257, 256) is reached by
calls on live pointers. -/
theorem reachable_runC4 :
    Reachable defaultConfig anyCallocArgs runC4.1
      (insert 4104 ((insert 4368 (insert 4104 ∅) : Set Nat) \ {4104})) := by
  have r1 : Reachable defaultConfig anyCallocArgs runC1.1 (insert 4104 ∅) :=
    Reachable.malloc (t := runC1.1) (p := 4104) 8 256 (Reachable.init startState)
      (show OSMemMalloc defaultConfig 8 run0 256 = some (runC1.1, 4104) from rfl)
  have r2 : Reachable defaultConfig anyCallocArgs runC2.1 (insert 4368 (insert 4104 ∅)) :=
    Reachable.malloc (t := runC2.1) (p := 4368) 8 16 r1
      (show OSMemMalloc defaultConfig 8 runC1.1 16 = some (runC2.1, 4368) from rfl)
  have r3 : Reachable defaultConfig anyCallocArgs runC3
      ((insert 4368 (insert 4104 ∅) : Set Nat) \ {4104}) :=
    Reachable.free 4104 r2 (Or.inr (Or.inl rfl))
  exact Reachable.calloc (t := runC4.1) (p := 4104) 8 257 256 r3 trivial
    (show OSMemCalloc defaultConfig 8 runC3 257 256 = some (runC4.1, 4104) from rfl)

/-- The walk of the chain of `runC4` meets the offsets 0 and 264 only. -/
theorem inChain_runC4 {o : Nat} (ho : InChain defaultConfig runC4.1 o) : o = 0 ∨ o = 264 := by
  induction ho with
  | first => exact Or.inl rfl
  | step _ _ ih =>
    rcases ih with e | e
    · subst e; exact Or.inr (by decide)
    · subst e; exact Or.inl (by decide)

/-- The state of the default build after OSMemInit and a = OSMemMalloc(16) is
reached within the contract. -/
theorem reachable_runB1 :
    Reachable defaultConfig (callocFits defaultConfig) runB1.1 (insert 4104 ∅) :=
  Reachable.malloc (t := runB1.1) (p := 4104) 8 16 (Reachable.init startState)
    (show OSMemMalloc defaultConfig 8 run0 16 = some (runB1.1, 4104) from rfl)

/-- Outcome of a successful `OSMemMalloc` on a heap that satisfies the
invariant: the block taken and the split decision. -/
theorem OSMemMalloc_split (cfg : Config) (h : cfg.WF) {s t : Heap} {B : Nat → Prop}
    (inv : Inv cfg s B) {fuel n p : Nat} (hm : OSMemMalloc cfg fuel s n = some (t, p))
    (hp : p ≠ OS_NULL) :
    IsBlock cfg s (headerOf cfg s p) ∧ usedOf s (headerOf cfg s p) = 0 ∧
    roundedSize cfg n ≤ capacityOf cfg s (headerOf cfg s p) ∧
    p = s.gpOSMemBegin + headerOf cfg s p + SIZEOF_OSMEM_ALIGNED cfg ∧
    SplitPost cfg s t (headerOf cfg s p) (roundedSize cfg n) := by
  obtain ⟨hH, hM, hHM, hEW, hW, hb0, hbE⟩ := WF_facts cfg h
  have post := (OSMemMalloc_spec cfg h inv n).2 fuel t p hm
  rcases post with ⟨e, _⟩ | ⟨_, o, ho, hf, _, e, inv', hb, he, hmem⟩
  · exact absurd e hp
  have hhd : headerOf cfg s p = o := by
    rw [e]; exact headerOf_block cfg h inv.chain (inv.chain.lt_end' ho)
  rw [hhd]
  have ho1 := inv.chain.next_ge o ho
  have hcap : capacityOf cfg s o = nextOf s o - o - SIZEOF_OSMEM_ALIGNED cfg := rfl
  have hsz := roundedSize_ge cfg n
  generalize roundedSize cfg n = sz at *
  have hf2 := hf.2
  refine ⟨(inv.chain.isBlock_iff hM o).mpr ho, hf.1, by omega, e, ?_, ?_⟩
  · intro hsp
    have hs : Splits cfg s o sz := by unfold Splits; omega
    obtain ⟨f1, f2, f3, f4, f5, f6⟩ := take_fields_split cfg h inv.chain ho hs
    have hn : ∀ a, nextOf t a = nextOf (OSMemMalloc_take cfg s o sz) a := by
      intro a; unfold nextOf; rw [hb, f1, hmem]
    have hpv : ∀ a, prevOf t a = prevOf (OSMemMalloc_take cfg s o sz) a := by
      intro a; unfold prevOf; rw [hb, f1, hmem]
    have hus : ∀ a, usedOf t a = usedOf (OSMemMalloc_take cfg s o sz) a := by
      intro a; unfold usedOf; rw [hb, f1, hmem]
    have hne : ¬ o = o + SIZEOF_OSMEM_ALIGNED cfg + sz := by omega
    refine ⟨?_, ?_, (inv'.chain.isBlock_iff hM _).mpr (Or.inr ⟨hs, rfl⟩), ?_, ?_, ?_⟩
    · unfold capacityOf
      rw [hn, f4, if_neg hne, if_pos rfl]; omega
    · rw [hus, f6, if_pos rfl]
    · rw [hus, f6, if_neg (Ne.symm hne), if_pos rfl]
    · rw [hn, f4, if_pos rfl]
    · rw [hpv, f5, if_pos rfl]
  · intro hsp
    have hs : ¬ Splits cfg s o sz := by unfold Splits; omega
    have hw := take_fields_whole cfg h inv.chain ho hf2 hs
    rw [hw] at hmem
    constructor
    · intro a
      rw [inv'.chain.isBlock_iff hM, inv.chain.isBlock_iff hM]
      unfold splitBlocks
      constructor
      · rintro (x | ⟨x, _⟩)
        · exact x
        · exact absurd x hs
      · exact fun x => Or.inl x
    · intro a
      unfold nextOf prevOf usedOf
      rw [hb, hmem]
      simp only [setUsed_NextMem, setUsed_PrevMem, setUsed_Used, add_right_inj, true_and]

/-! ## The function OSMemTrim on any heap -/

/-- The function `OSMemTrim` on the payload address of the header at offset
`o`, by cases, in a heap of which nothing is known but that the `NextMem` of
the header lies above the header and inside the heap. -/
theorem OSMemTrim_at (cfg : Config) (h : cfg.WF) {s : Heap}
    (hbeg : s.gpOSMemBegin = OSMEM_ALIGN_ADDR cfg cfg.OSRAM_HEAP_POINTER)
    (hend : s.gpOSMemEnd = s.gpOSMemBegin + OSMEM_SIZE_ALIGNED cfg)
    {o : Nat} (ho1 : o + SIZEOF_OSMEM_ALIGNED cfg < nextOf s o)
    (ho2 : nextOf s o ≤ OSMEM_SIZE_ALIGNED cfg) (newsize : Nat) :
    OSMemTrim cfg s (s.gpOSMemBegin + o + SIZEOF_OSMEM_ALIGNED cfg) newsize =
      if roundedSize cfg newsize > OSMEM_SIZE_ALIGNED cfg then (s, OS_NULL)
      else if roundedSize cfg newsize > capacityOf cfg s o then (s, OS_NULL)
      else if roundedSize cfg newsize = capacityOf cfg s o then
        (s, s.gpOSMemBegin + o + SIZEOF_OSMEM_ALIGNED cfg)
      else if usedOf s (nextOf s o) = 0 then
        (trimMove cfg s o (roundedSize cfg newsize),
          s.gpOSMemBegin + o + SIZEOF_OSMEM_ALIGNED cfg)
      else if roundedSize cfg newsize + SIZEOF_OSMEM_ALIGNED cfg + OSMIN_SIZE_ALIGNED cfg
          ≤ capacityOf cfg s o then
        (trimSplit cfg s o (roundedSize cfg newsize),
          s.gpOSMemBegin + o + SIZEOF_OSMEM_ALIGNED cfg)
      else (s, s.gpOSMemBegin + o + SIZEOF_OSMEM_ALIGNED cfg) := by
  obtain ⟨hH, hM, hHM, hEW, hW, hb0, hbE⟩ := WF_facts cfg h
  have hoff : offsetOf cfg s (s.gpOSMemBegin + o) = o :=
    offsetOf_add cfg (by omega) (by omega) hW
  have hn : (s.mem (s.gpOSMemBegin + o)).NextMem = nextOf s o := rfl
  have hcap : uOSMemSize_t cfg (sub32 (sub32 (nextOf s o) o) (SIZEOF_OSMEM_ALIGNED cfg))
      = capacityOf cfg s o := by
    have e1 : sub32 (nextOf s o) o = nextOf s o - o := sub32_of_le (by omega) (by omega)
    rw [e1, sub32_of_le (by omega) (by omega)]
    exact uOSMemSize_t_of_lt cfg (by omega)
  unfold OSMemTrim
  simp only []
  have hr : (if uOSMemSize_t cfg (OSMEM_ALIGN_SIZE cfg newsize) < OSMIN_SIZE_ALIGNED cfg then
      OSMIN_SIZE_ALIGNED cfg else uOSMemSize_t cfg (OSMEM_ALIGN_SIZE cfg newsize))
      = roundedSize cfg newsize := rfl
  rw [hr]
  by_cases h1 : roundedSize cfg newsize > OSMEM_SIZE_ALIGNED cfg
  · rw [if_pos h1, if_pos h1]
  rw [if_neg h1, if_neg h1, if_neg (by omega), Nat.add_sub_cancel, hoff, hn, hcap]
  by_cases h2 : roundedSize cfg newsize > capacityOf cfg s o
  · rw [if_pos h2, if_pos h2]
  rw [if_neg h2, if_neg h2]
  by_cases h3 : roundedSize cfg newsize = capacityOf cfg s o
  · rw [if_pos h3, if_pos h3]
  rw [if_neg h3, if_neg h3]
  have hu : (s.mem (s.gpOSMemBegin + nextOf s o)).Used = usedOf s (nextOf s o) := rfl
  rw [hu]
  have hmod : (roundedSize cfg newsize + SIZEOF_OSMEM_ALIGNED cfg + OSMIN_SIZE_ALIGNED cfg)
      % 2 ^ 32 = roundedSize cfg newsize + SIZEOF_OSMEM_ALIGNED cfg + OSMIN_SIZE_ALIGNED cfg :=
    Nat.mod_eq_of_lt (by unfold capacityOf at h2; omega)
  rw [hmod]
  by_cases h4 : usedOf s (nextOf s o) = 0
  · rw [if_pos h4, if_pos h4]
    unfold trimMove
    simp only [hn]
  rw [if_neg h4, if_neg h4]
  by_cases h5 : roundedSize cfg newsize + SIZEOF_OSMEM_ALIGNED cfg + OSMIN_SIZE_ALIGNED cfg
      ≤ capacityOf cfg s o
  · rw [if_pos h5, if_pos h5]
    rfl
  · rw [if_neg h5, if_neg h5]

/-- Fields of the heap after `trimMove`, in any heap. -/
theorem trimMove_at (cfg : Config) (h : cfg.WF) {s : Heap} {o sz : Nat}
    (hlt : o + SIZEOF_OSMEM_ALIGNED cfg + sz < nextOf s o)
    (ho2 : nextOf s o ≤ OSMEM_SIZE_ALIGNED cfg) :
    (trimMove cfg s o sz).gpOSMemBegin = s.gpOSMemBegin ∧
    (trimMove cfg s o sz).gpOSMemLFree =
      (if s.gpOSMemLFree = s.gpOSMemBegin + nextOf s o then
        s.gpOSMemBegin + (o + SIZEOF_OSMEM_ALIGNED cfg + sz)
       else s.gpOSMemLFree) ∧
    (∀ a, nextOf (trimMove cfg s o sz) a =
      if a = o then o + SIZEOF_OSMEM_ALIGNED cfg + sz
      else if a = o + SIZEOF_OSMEM_ALIGNED cfg + sz then nextOf s (nextOf s o)
      else nextOf s a) ∧
    (nextOf s (nextOf s o) ≠ OSMEM_SIZE_ALIGNED cfg →
      prevOf (trimMove cfg s o sz) (nextOf s (nextOf s o))
        = o + SIZEOF_OSMEM_ALIGNED cfg + sz) ∧
    usedOf (trimMove cfg s o sz) (o + SIZEOF_OSMEM_ALIGNED cfg + sz) = 0 := by
  obtain ⟨hH, hM, hHM, hEW, hW, hb0, hbE⟩ := WF_facts cfg h
  have hq : uOSMemSize_t cfg (o + SIZEOF_OSMEM_ALIGNED cfg + sz)
      = o + SIZEOF_OSMEM_ALIGNED cfg + sz := uOSMemSize_t_of_lt cfg (by omega)
  unfold trimMove
  simp only [hq]
  have hne1 : ¬ o = o + SIZEOF_OSMEM_ALIGNED cfg + sz := by omega
  have hne2 : ¬ o + SIZEOF_OSMEM_ALIGNED cfg + sz = o := by omega
  generalize o + SIZEOF_OSMEM_ALIGNED cfg + sz = q at *
  have hn : (s.mem (s.gpOSMemBegin + o)).NextMem = nextOf s o := rfl
  rw [hn]
  generalize nextOf s o = n at *
  have hnn : (s.mem (s.gpOSMemBegin + n)).NextMem = nextOf s n := rfl
  rw [hnn]
  generalize nextOf s n = nn at *
  by_cases hl : s.gpOSMemLFree = s.gpOSMemBegin + n <;>
  by_cases hE : nn = OSMEM_SIZE_ALIGNED cfg
  all_goals
    refine ⟨?_, ?_, ?_, ?_, ?_⟩ <;>
      simp [nextOf, prevOf, usedOf, hne1, hne2, hl, hE]

/-- Fields of the heap after `trimSplit`, in any heap. -/
theorem trimSplit_at (cfg : Config) (h : cfg.WF) {s : Heap} {o sz : Nat}
    (hlt : o + SIZEOF_OSMEM_ALIGNED cfg + sz < nextOf s o)
    (ho2 : nextOf s o ≤ OSMEM_SIZE_ALIGNED cfg) :
    (trimSplit cfg s o sz).gpOSMemBegin = s.gpOSMemBegin ∧
    (trimSplit cfg s o sz).gpOSMemLFree =
      (if s.gpOSMemBegin + (o + SIZEOF_OSMEM_ALIGNED cfg + sz) < s.gpOSMemLFree then
        s.gpOSMemBegin + (o + SIZEOF_OSMEM_ALIGNED cfg + sz)
       else s.gpOSMemLFree) ∧
    (∀ a, nextOf (trimSplit cfg s o sz) a =
      if a = o then o + SIZEOF_OSMEM_ALIGNED cfg + sz
      else if a = o + SIZEOF_OSMEM_ALIGNED cfg + sz then nextOf s o
      else nextOf s a) ∧
    usedOf (trimSplit cfg s o sz) (o + SIZEOF_OSMEM_ALIGNED cfg + sz) = 0 := by
  obtain ⟨hH, hM, hHM, hEW, hW, hb0, hbE⟩ := WF_facts cfg h
  have hq : uOSMemSize_t cfg (o + SIZEOF_OSMEM_ALIGNED cfg + sz)
      = o + SIZEOF_OSMEM_ALIGNED cfg + sz := uOSMemSize_t_of_lt cfg (by omega)
  unfold trimSplit
  simp only [hq]
  have hne1 : ¬ o = o + SIZEOF_OSMEM_ALIGNED cfg + sz := by omega
  have hne2 : ¬ o + SIZEOF_OSMEM_ALIGNED cfg + sz = o := by omega
  generalize o + SIZEOF_OSMEM_ALIGNED cfg + sz = q at *
  by_cases hl : s.gpOSMemBegin + q < s.gpOSMemLFree <;>
  by_cases hE : nextOf s o = OSMEM_SIZE_ALIGNED cfg
  all_goals
    have hE' := hE
    unfold nextOf at hE'
    refine ⟨?_, ?_, ?_, ?_⟩ <;>
      simp [nextOf, prevOf, usedOf, hne1, hne2, hl, hE']

/-- The walk of the chain after a header has been put at offset `q` behind
the header at offset `o`: when the walk met `o` before, it meets `q` now. -/
theorem InChain.redirect {cfg : Config} {s t : Heap} {o q : Nat}
    (hnx : ∀ a, a ≠ o → a ≠ q → nextOf t a = nextOf s a) (hoq : nextOf t o = q)
    (hoE : o ≠ OSMEM_SIZE_ALIGNED cfg) (ho : InChain cfg s o) : InChain cfg t q := by
  have key : ∀ x, InChain cfg s x → InChain cfg t q ∨ InChain cfg t x := by
    intro x hx
    induction hx with
    | first => exact Or.inr InChain.first
    | @step x _ hne ih =>
      rcases ih with ih | ih
      · exact Or.inl ih
      · by_cases e1 : x = q
        · subst e1; exact Or.inl ih
        · by_cases e2 : x = o
          · subst e2
            have := InChain.step ih hne
            rw [hoq] at this
            exact Or.inl this
          · have := InChain.step ih hne
            rw [hnx x e2 e1] at this
            exact Or.inr this
  rcases key o ho with e | e
  · exact e
  · have := InChain.step e hoE
    rw [hoq] at this
    exact this

/-- Header of a live pointer in a heap with the alignment invariant. -/
theorem AlignW.headerOf_live (cfg : Config) (h : cfg.WF) {s : Heap} {R : Nat → Prop}
    {L : Set Nat} (al : AlignW cfg s R L) {p : Nat} (hp : p ∈ L) :
    R (headerOf cfg s p) ∧
      p = s.gpOSMemBegin + headerOf cfg s p + SIZEOF_OSMEM_ALIGNED cfg := by
  obtain ⟨k, hk, e⟩ := al.live p hp
  have hh : headerOf cfg s p = k := by
    unfold headerOf
    rw [e, Nat.add_sub_cancel]
    exact al.offsetOf_eq cfg h hk
  rw [hh]; exact ⟨hk, e⟩

/-- The rounded size of a request whose rounding lies below a payload
capacity of the heap. -/
theorem roundedSize_of_lt (cfg : Config) (h : cfg.WF) {newsize c : Nat}
    (hc : c ≤ OSMEM_SIZE_ALIGNED cfg)
    (hlt : max (OSMEM_ALIGN_SIZE cfg newsize) (OSMIN_SIZE_ALIGNED cfg) < c) :
    roundedSize cfg newsize = max (OSMEM_ALIGN_SIZE cfg newsize) (OSMIN_SIZE_ALIGNED cfg) := by
  obtain ⟨hH, hM, hHM, hEW, hW, hb0, hbE⟩ := WF_facts cfg h
  have e : uOSMemSize_t cfg (OSMEM_ALIGN_SIZE cfg newsize) = OSMEM_ALIGN_SIZE cfg newsize :=
    uOSMemSize_t_of_lt cfg (by omega)
  unfold roundedSize
  rw [e]
  split_ifs <;> omega

/-- Outcome of `OSMemTrim` on a live pointer whose block is a block of the
chain followed by a free header, in a heap with the alignment invariant. -/
theorem trimMovePost_live (cfg : Config) (h : cfg.WF) {s : Heap} {R : Nat → Prop}
    {L : Set Nat} (al : AlignW cfg s R L) {p : Nat} (hp : p ∈ L) (newsize : Nat)
    (hb : IsBlock cfg s (headerOf cfg s p))
    (hfree : usedOf s (nextOf s (headerOf cfg s p)) = 0)
    (hsucc : nextOf s (headerOf cfg s p) ≤ OSMEM_SIZE_ALIGNED cfg)
    (hlt : max (OSMEM_ALIGN_SIZE cfg newsize) (OSMIN_SIZE_ALIGNED cfg)
      < capacityOf cfg s (headerOf cfg s p)) :
    TrimMovePost cfg s p newsize := by
  obtain ⟨hH, hM, hHM, hEW, hW, hb0, hbE⟩ := WF_facts cfg h
  obtain ⟨hk, e⟩ := al.headerOf_live cfg h hp
  unfold TrimMovePost
  generalize headerOf cfg s p = k at *
  subst e
  have hcapE : capacityOf cfg s k ≤ OSMEM_SIZE_ALIGNED cfg := by unfold capacityOf; omega
  have hrs := roundedSize_of_lt cfg h hcapE hlt
  generalize max (OSMEM_ALIGN_SIZE cfg newsize) (OSMIN_SIZE_ALIGNED cfg) = sz at *
  have hnx : k + SIZEOF_OSMEM_ALIGNED cfg + sz < nextOf s k := by
    unfold capacityOf at hlt; omega
  have hc1 : ¬ sz > OSMEM_SIZE_ALIGNED cfg := by omega
  have hc2 : ¬ sz > capacityOf cfg s k := by omega
  have hc3 : ¬ sz = capacityOf cfg s k := by omega
  rw [OSMemTrim_at cfg h al.hbegin al.hend (by omega) hsucc, hrs, if_neg hc1, if_neg hc2,
    if_neg hc3, if_pos hfree]
  obtain ⟨f1, f2, f3, f4, f5⟩ := @trimMove_at cfg h s k sz hnx hsucc
  refine ⟨rfl, f1, ?_, f5, ?_, ?_, f4, f2⟩
  · show capacityOf cfg (trimMove cfg s k sz) k = sz
    unfold capacityOf
    rw [f3, if_pos rfl]; omega
  · show nextOf (trimMove cfg s k sz) (k + SIZEOF_OSMEM_ALIGNED cfg + sz) = _
    rw [f3, if_neg (by omega), if_pos rfl]
  · obtain ⟨hb1, hb2⟩ := hb
    refine ⟨InChain.redirect (fun a ha1 ha2 => ?_) ?_ hb2 hb1, by omega⟩
    · show nextOf (trimMove cfg s k sz) a = nextOf s a
      rw [f3, if_neg ha1, if_neg ha2]
    · show nextOf (trimMove cfg s k sz) k = _
      rw [f3, if_pos rfl]

/-- Outcome of `OSMemTrim` on a live pointer whose block is a block of the
chain followed by a used header, in a heap with the alignment invariant. -/
theorem trimSplitPost_live (cfg : Config) (h : cfg.WF) {s : Heap} {R : Nat → Prop}
    {L : Set Nat} (al : AlignW cfg s R L) {p : Nat} (hp : p ∈ L) (newsize : Nat)
    (hb : IsBlock cfg s (headerOf cfg s p))
    (hused : usedOf s (nextOf s (headerOf cfg s p)) ≠ 0)
    (hsucc : nextOf s (headerOf cfg s p) ≤ OSMEM_SIZE_ALIGNED cfg)
    (hlt : max (OSMEM_ALIGN_SIZE cfg newsize) (OSMIN_SIZE_ALIGNED cfg)
      < capacityOf cfg s (headerOf cfg s p)) :
    TrimSplitPost cfg s p newsize := by
  obtain ⟨hH, hM, hHM, hEW, hW, hb0, hbE⟩ := WF_facts cfg h
  obtain ⟨hk, e⟩ := al.headerOf_live cfg h hp
  unfold TrimSplitPost
  generalize headerOf cfg s p = k at *
  subst e
  have hcapE : capacityOf cfg s k ≤ OSMEM_SIZE_ALIGNED cfg := by unfold capacityOf; omega
  have hrs := roundedSize_of_lt cfg h hcapE hlt
  generalize max (OSMEM_ALIGN_SIZE cfg newsize) (OSMIN_SIZE_ALIGNED cfg) = sz at *
  have hnx : k + SIZEOF_OSMEM_ALIGNED cfg + sz < nextOf s k := by
    unfold capacityOf at hlt; omega
  have hc1 : ¬ sz > OSMEM_SIZE_ALIGNED cfg := by omega
  have hc2 : ¬ sz > capacityOf cfg s k := by omega
  have hc3 : ¬ sz = capacityOf cfg s k := by omega
  rw [OSMemTrim_at cfg h al.hbegin al.hend (by omega) hsucc, hrs, if_neg hc1, if_neg hc2,
    if_neg hc3, if_neg hused]
  by_cases hc5 : sz + SIZEOF_OSMEM_ALIGNED cfg + OSMIN_SIZE_ALIGNED cfg ≤ capacityOf cfg s k
  · rw [if_pos hc5]
    obtain ⟨f1, f2, f3, f4⟩ := @trimSplit_at cfg h s k sz hnx hsucc
    refine ⟨rfl, fun _ => ⟨f1, ?_, f4, ?_, ?_, f2⟩, fun hn => absurd (by omega) hn⟩
    · show capacityOf cfg (trimSplit cfg s k sz) k = sz
      unfold capacityOf
      rw [f3, if_pos rfl]; omega
    · show nextOf (trimSplit cfg s k sz) (k + SIZEOF_OSMEM_ALIGNED cfg + sz) = _
      rw [f3, if_neg (by omega), if_pos rfl]
    · obtain ⟨hb1, hb2⟩ := hb
      refine ⟨InChain.redirect (fun a ha1 ha2 => ?_) ?_ hb2 hb1, by omega⟩
      · show nextOf (trimSplit cfg s k sz) a = nextOf s a
        rw [f3, if_neg ha1, if_neg ha2]
      · show nextOf (trimSplit cfg s k sz) k = _
        rw [f3, if_pos rfl]
  · rw [if_neg hc5]
    exact ⟨rfl, fun hy => absurd (by omega) hc5, fun _ => rfl⟩

/-! ## Termination of OSMemMalloc from the links alone -/

/-- Links after `OSMemMalloc_take` on a block `o` that holds a payload of `sz`
bytes; nothing is asked of the flags. -/
theorem take_chain (cfg : Config) (h : cfg.WF) {s : Heap} {B : Nat → Prop}
    (c : ChainW cfg s B) {o sz : Nat} (ho : B o)
    (hfit : o + SIZEOF_OSMEM_ALIGNED cfg + sz ≤ nextOf s o)
    (hsz : OSMIN_SIZE_ALIGNED cfg ≤ sz) :
    ChainW cfg (OSMemMalloc_take cfg s o sz) (splitBlocks cfg s B o sz) ∧
    (OSMemMalloc_take cfg s o sz).gpOSMemLFree = s.gpOSMemLFree := by
  obtain ⟨hH, hM, hHM, hEW, hW, hb0, hbE⟩ := WF_facts cfg h
  have ho1 := c.next_ge o ho
  have ho2 := c.next_le o ho
  by_cases hs : Splits cfg s o sz
  · obtain ⟨f1, f2, f3, f4, f5, f6⟩ := take_fields_split cfg h c ho hs
    have hs' := hs
    unfold Splits at hs'
    have hBeq : ∀ a, (B a ∨ a = o + SIZEOF_OSMEM_ALIGNED cfg + sz) ↔ splitBlocks cfg s B o sz a := by
      intro a; unfold splitBlocks; tauto
    refine ⟨?_, f3⟩
    refine (c.insertChain hM ho (by omega) (by omega) f1 f2 (fun a _ => f4 a)
      (fun a ha => ?_)).congrSetChain hBeq
    rw [f5]
    by_cases e1 : a = o + SIZEOF_OSMEM_ALIGNED cfg + sz
    · rw [if_pos e1, if_pos e1]
    · rw [if_neg e1, if_neg e1]
      by_cases e2 : a = nextOf s o
      · have hB : B a := ha.resolve_right e1
        have := c.lt_end hM hB
        rw [if_pos ⟨e2, by omega⟩, if_pos e2]
      · rw [if_neg (by tauto), if_neg e2]
  · have e := take_fields_whole cfg h c ho hfit hs
    rw [e]
    have hBeq : ∀ a, B a ↔ splitBlocks cfg s B o sz a := by
      intro a; unfold splitBlocks; tauto
    have hnx : ∀ a, nextOf (s.setUsed (s.gpOSMemBegin + o) 1) a = nextOf s a := by
      intro a; simp [nextOf]
    have hpv : ∀ a, prevOf (s.setUsed (s.gpOSMemBegin + o) 1) a = prevOf s a := by
      intro a; simp [prevOf]
    exact ⟨(@ChainW.congrChain cfg s (s.setUsed (s.gpOSMemBegin + o) 1) B c rfl rfl
        (fun a _ => hnx a) (fun a _ => hpv a)).congrSetChain hBeq, rfl⟩

/-- The loop that moves `gpOSMemLFree` ends when it starts on a header of a
chain: each step goes to a higher offset, and the end header stops it. -/
theorem lfree_total (cfg : Config) (h : cfg.WF) {B : Nat → Prop} :
    ∀ (n : Nat) (t : Heap) (cur : Nat), ChainW cfg t B →
      t.gpOSMemLFree = t.gpOSMemBegin + cur → (cur = OSMEM_SIZE_ALIGNED cfg ∨ B cur) →
      OSMEM_SIZE_ALIGNED cfg - cur ≤ n →
      ∃ t', ∀ fuel, n + 1 ≤ fuel → OSMemMalloc_lfree fuel t = some t' := by
  obtain ⟨hH, hM, hHM, hEW, hW, hb0, hbE⟩ := WF_facts cfg h
  intro n
  induction n with
  | zero =>
    intro t cur c hl hcur hn
    have hE : cur = OSMEM_SIZE_ALIGNED cfg := by
      rcases hcur with e | hB
      · exact e
      · have := c.lt_end hM hB; omega
    refine ⟨t, fun fuel hf => ?_⟩
    obtain ⟨f, rfl⟩ : ∃ f, fuel = f + 1 := ⟨fuel - 1, by omega⟩
    unfold OSMemMalloc_lfree
    rw [if_neg]
    intro hc
    apply hc.2
    rw [hl, c.hend, hE]
  | succ n ih =>
    intro t cur c hl hcur hn
    by_cases hc : (t.mem t.gpOSMemLFree).Used ≠ 0 ∧ t.gpOSMemLFree ≠ t.gpOSMemEnd
    · have hne : cur ≠ OSMEM_SIZE_ALIGNED cfg := by
        intro e; apply hc.2; rw [hl, c.hend, e]
      have hB : B cur := hcur.resolve_left hne
      have hn1 := c.next_ge cur hB
      have hnext : (t.mem t.gpOSMemLFree).NextMem = nextOf t cur := by rw [hl]; rfl
      have c2 : ChainW cfg (t.setLFree (t.gpOSMemBegin + nextOf t cur)) B :=
        c.congrChain rfl rfl (fun _ _ => rfl) (fun _ _ => rfl)
      obtain ⟨t', ht'⟩ := ih (t.setLFree (t.gpOSMemBegin + nextOf t cur)) (nextOf t cur) c2 rfl
        (c.next_mem cur hB) (by omega)
      refine ⟨t', fun fuel hf => ?_⟩
      obtain ⟨f, rfl⟩ : ∃ f, fuel = f + 1 := ⟨fuel - 1, by omega⟩
      unfold OSMemMalloc_lfree
      rw [if_pos hc, hnext]
      exact ht' f (by omega)
    · refine ⟨t, fun fuel hf => ?_⟩
      obtain ⟨f, rfl⟩ : ∃ f, fuel = f + 1 := ⟨fuel - 1, by omega⟩
      unfold OSMemMalloc_lfree
      rw [if_neg hc]

/-- The scan loop ends when it starts on a header of a chain, with a result
that does not depend on the fuel. -/
theorem scan_total (cfg : Config) (h : cfg.WF) {s : Heap} {B : Nat → Prop}
    (c : ChainW cfg s B) {sz : Nat} (hsz : OSMIN_SIZE_ALIGNED cfg ≤ sz) :
    ∀ (n ptr : Nat), (ptr = OSMEM_SIZE_ALIGNED cfg ∨ B ptr) →
      OSMEM_SIZE_ALIGNED cfg - ptr ≤ n →
      ∃ r, ∀ fuel, n + 2 ≤ fuel → OSMemMalloc_scan cfg sz fuel s ptr = some r := by
  obtain ⟨hH, hM, hHM, hEW, hW, hb0, hbE⟩ := WF_facts cfg h
  intro n
  induction n with
  | zero =>
    intro ptr hptr hn
    have hE : ptr = OSMEM_SIZE_ALIGNED cfg := by
      rcases hptr with e | hB
      · exact e
      · have := c.lt_end hM hB; omega
    refine ⟨(s, OS_NULL), fun fuel hf => ?_⟩
    obtain ⟨f, rfl⟩ : ∃ f, fuel = f + 1 := ⟨fuel - 1, by omega⟩
    unfold OSMemMalloc_scan
    rw [if_neg (by omega)]
  | succ n ih =>
    intro ptr hptr hn
    by_cases hc1 : ptr < OSMEM_SIZE_ALIGNED cfg - sz
    · have hB : B ptr := hptr.resolve_left (by omega)
      have hn1 := c.next_ge ptr hB
      by_cases hc2 : Fits cfg s ptr sz
      · obtain ⟨t1, t2⟩ := take_chain cfg h c hB hc2.2 hsz
        by_cases hl : s.gpOSMemBegin + ptr = (OSMemMalloc_take cfg s ptr sz).gpOSMemLFree
        · obtain ⟨t', ht'⟩ := lfree_total cfg h (n + 1) (OSMemMalloc_take cfg s ptr sz) ptr t1
            (by rw [← hl, t1.hbegin, c.hbegin]) (Or.inr (Or.inl hB)) hn
          refine ⟨(t', s.gpOSMemBegin + ptr + SIZEOF_OSMEM_ALIGNED cfg), fun fuel hf => ?_⟩
          obtain ⟨f, rfl⟩ : ∃ f, fuel = f + 1 := ⟨fuel - 1, by omega⟩
          unfold OSMemMalloc_scan
          rw [if_pos hc1]
          simp only []
          rw [if_pos ((fits_iff cfg h c hB).mpr hc2), if_pos hl, ht' f (by omega)]
        · refine ⟨(OSMemMalloc_take cfg s ptr sz,
            s.gpOSMemBegin + ptr + SIZEOF_OSMEM_ALIGNED cfg), fun fuel hf => ?_⟩
          obtain ⟨f, rfl⟩ : ∃ f, fuel = f + 1 := ⟨fuel - 1, by omega⟩
          unfold OSMemMalloc_scan
          rw [if_pos hc1]
          simp only []
          rw [if_pos ((fits_iff cfg h c hB).mpr hc2), if_neg hl]
      · obtain ⟨r, hr⟩ := ih (nextOf s ptr) (c.next_mem ptr hB) (by omega)
        refine ⟨r, fun fuel hf => ?_⟩
        obtain ⟨f, rfl⟩ : ∃ f, fuel = f + 1 := ⟨fuel - 1, by omega⟩
        unfold OSMemMalloc_scan
        rw [if_pos hc1]
        simp only []
        rw [if_neg (fun hh => hc2 ((fits_iff cfg h c hB).mp hh))]
        exact hr f (by omega)
    · refine ⟨(s, OS_NULL), fun fuel hf => ?_⟩
      obtain ⟨f, rfl⟩ : ∃ f, fuel = f + 1 := ⟨fuel - 1, by omega⟩
      unfold OSMemMalloc_scan
      rw [if_neg hc1]

/-- The function `OSMemMalloc` returns on a heap whose links satisfy the
invariant and whose `gpOSMemLFree` is the address of a header of the chain. -/
theorem OSMemMalloc_total (cfg : Config) (h : cfg.WF) {s : Heap} {B : Nat → Prop}
    (c : ChainW cfg s B) {lf : Nat} (hl : s.gpOSMemLFree = s.gpOSMemBegin + lf)
    (hlf : InChain cfg s lf) (size : Nat) : MallocTotal cfg s size := by
  obtain ⟨hH, hM, hHM, hEW, hW, hb0, hbE⟩ := WF_facts cfg h
  have hlf' : lf = OSMEM_SIZE_ALIGNED cfg ∨ B lf := hlf.mem c
  have hlfE : lf ≤ OSMEM_SIZE_ALIGNED cfg := by
    rcases hlf' with e | hB
    · omega
    · exact c.lt_end' hB
  have hend : ¬ s.gpOSMemEnd = OS_NULL := by
    rw [c.hend, c.hbegin]; unfold OS_NULL; omega
  have l3 : offsetOf cfg s s.gpOSMemLFree = lf := by
    rw [hl]; exact offsetOf_block cfg h c hlfE
  have hunf : ∀ fuel, OSMemMalloc cfg fuel s size =
      if size = 0 then some (s, OS_NULL)
      else if roundedSize cfg size > OSMEM_SIZE_ALIGNED cfg then some (s, OS_NULL)
      else OSMemMalloc_scan cfg (roundedSize cfg size) fuel s lf := by
    intro fuel
    unfold OSMemMalloc
    simp only [hend, if_false, l3]
    rfl
  unfold MallocTotal
  by_cases h0 : size = 0
  · exact ⟨(s, OS_NULL), fun fuel _ => by rw [hunf, if_pos h0]⟩
  by_cases hbig : roundedSize cfg size > OSMEM_SIZE_ALIGNED cfg
  · exact ⟨(s, OS_NULL), fun fuel _ => by rw [hunf, if_neg h0, if_pos hbig]⟩
  obtain ⟨r, hr⟩ := scan_total cfg h c (roundedSize_ge cfg size) (OSMEM_SIZE_ALIGNED cfg) lf hlf'
    (by omega)
  exact ⟨r, fun fuel hf => by rw [hunf, if_neg h0, if_neg hbig]; exact hr fuel hf⟩

/-- The scan loop never ends in `loopState`: the header at offset 8 is used
and its `NextMem` is 8. -/
theorem scan_loopState : ∀ fuel, OSMemMalloc_scan defaultConfig 16 fuel loopState 8 = none := by
  intro fuel
  induction fuel with
  | zero => rfl
  | succ f ih =>
    have e : OSMemMalloc_scan defaultConfig 16 (f + 1) loopState 8
        = OSMemMalloc_scan defaultConfig 16 f loopState 8 := rfl
    rw [e, ih]

/-- The links of `loopState` satisfy the invariant, with the one block of the
heap after `OSMemInit`. -/
theorem chainW_loopState : ChainW defaultConfig loopState (fun o => o = 0) := by
  have c := (Inv_init defaultConfig (by decide) startState).chain
  refine c.congrChain rfl rfl (fun a ha => ?_) (fun a ha => ?_)
  · rcases ha with e | e
    · subst e; rfl
    · subst e; rfl
  · subst ha; rfl

/-! ## Frame of a used block -/

/-- The `NextMem` of a block of a chain is the next header of the chain: the
offset `n` when `n` is a header of the chain above the block and no block
lies between the two. -/
theorem ChainW.next_eq_of {cfg : Config} {t : Heap} {B : Nat → Prop} (ct : ChainW cfg t B)
    (hM : 0 < OSMIN_SIZE_ALIGNED cfg) {a n : Nat} (ha : B a)
    (hn : n = OSMEM_SIZE_ALIGNED cfg ∨ B n) (han : a < n)
    (hbetween : ∀ x, B x → a < x → x < n → False) : nextOf t a = n := by
  have h1 := ct.next_ge a ha
  have h2 := ct.next_le a ha
  have hle : nextOf t a ≤ n := by
    rcases hn with e | e
    · omega
    · exact ct.sep a n ha e han
  rcases ct.next_mem a ha with e | e
  · rcases hn with e2 | e2
    · omega
    · have := ct.lt_end hM e2; omega
  · by_contra hne
    exact hbetween _ e (by omega) (by omega)

/-- A used block is left alone by `OSMemMalloc`, and the block that the call
returns lies outside it. -/
theorem frame_malloc (cfg : Config) (h : cfg.WF) {s : Heap} {B : Nat → Prop}
    (inv : Inv cfg s B) {o : Nat} (ho : B o) (hu : usedOf s o = 1)
    {fuel n : Nat} {t : Heap} {p : Nat} (hm : OSMemMalloc cfg fuel s n = some (t, p)) :
    Undisturbed cfg s t o ∧
    (p ≠ OS_NULL →
      t.gpOSMemBegin + nextOf t (headerOf cfg t p)
          ≤ s.gpOSMemBegin + o + SIZEOF_OSMEM_ALIGNED cfg ∨
        s.gpOSMemBegin + nextOf s o ≤ p) := by
  obtain ⟨hH, hM, hHM, hEW, hW, hb0, hbE⟩ := WF_facts cfg h
  have hpost := (OSMemMalloc_spec cfg h inv n).2 fuel t p hm
  have ho1 := inv.chain.next_ge o ho
  by_cases hp : p = OS_NULL
  · rcases hpost with ⟨_, es, _⟩ | ⟨_, o', _, _, _, ep, _⟩
    · subst es
      exact ⟨⟨rfl, (inv.chain.isBlock_iff hM o).mpr ho, rfl, hu⟩, fun hne => absurd hp hne⟩
    · exfalso
      have := inv.chain.hbegin
      rw [ep] at hp; unfold OS_NULL at hp; omega
  · obtain ⟨o', ho', hu', ep, inv', hb, hus, _, hfit⟩ := MallocPost_success cfg h inv hpost hp
    have hne : o ≠ o' := by intro e; rw [e] at hu; omega
    have ho1' := inv.chain.next_ge o' ho'
    have hBo : splitBlocks cfg s B o' (roundedSize cfg n) o := Or.inl ho
    have hnext : nextOf t o = nextOf s o := by
      refine inv'.chain.next_eq_of hM hBo ?_ (by omega) ?_
      · exact (inv.chain.next_mem o ho).imp_right (fun x => Or.inl x)
      · rintro x (hx | ⟨hsp, hx⟩) h1 h2
        · have := inv.chain.sep o x ho hx h1; omega
        · unfold Splits at hsp
          rcases Nat.lt_or_gt_of_ne hne with hlt | hlt
          · have := inv.chain.sep o o' ho ho' hlt; omega
          · have := inv.chain.sep o' o ho' ho hlt; omega
    refine ⟨⟨hb, (inv'.chain.isBlock_iff hM o).mpr hBo, hnext, ?_⟩, fun _ => ?_⟩
    · rw [hus o ho, if_neg hne]; exact hu
    · have hh : headerOf cfg t p = o' := by
        rw [ep, ← hb]
        exact headerOf_block cfg h inv'.chain (inv.chain.lt_end' ho')
      rw [hh]
      rcases Nat.lt_or_gt_of_ne hne with hlt | hlt
      · right
        have := inv.chain.sep o o' ho ho' hlt
        rw [ep]; omega
      · left
        have := inv'.chain.sep o' o (Or.inl ho') hBo hlt
        rw [hb]; omega

/-- A used block is left alone by `OSMemFree` on another used block. -/
theorem frame_free (cfg : Config) (h : cfg.WF) {s : Heap} {B : Nat → Prop}
    (inv : Inv cfg s B) {o : Nat} (ho : B o) (hu : usedOf s o = 1)
    {k : Nat} (hk : B k) (huk : usedOf s k = 1) (hne : k ≠ o) :
    Undisturbed cfg s (OSMemFree cfg s (s.gpOSMemBegin + k + SIZEOF_OSMEM_ALIGNED cfg)) o := by
  obtain ⟨hH, hM, hHM, hEW, hW, hb0, hbE⟩ := WF_facts cfg h
  obtain ⟨inv', hb, hus⟩ := OSMemFree_inv cfg h inv hk huk
  have ho1 := inv.chain.next_ge o ho
  have hBo : freeBlocks cfg s B k o := by
    refine ⟨ho, ?_, ?_⟩
    · rintro ⟨⟨_, h0⟩, e⟩
      rw [← e] at h0; omega
    · rintro ⟨_, e⟩; exact hne e.symm
  refine ⟨hb, (inv'.chain.isBlock_iff hM o).mpr hBo, ?_, ?_⟩
  · refine inv'.chain.next_eq_of hM hBo ?_ (by omega) ?_
    · rcases inv.chain.next_mem o ho with e | e
      · exact Or.inl e
      · by_cases hE : nextOf s o = OSMEM_SIZE_ALIGNED cfg
        · exact Or.inl hE
        · right
          refine ⟨e, ?_, ?_⟩
          · rintro ⟨_, e2⟩
            exact hne (inv.chain.next_inj hM ho hk e2).symm
          · rintro ⟨⟨_, h0⟩, e2⟩
            have := inv.chain.prev_next hM ho hE
            rw [e2] at this
            rw [this] at h0; omega
    · rintro x ⟨hx, _⟩ h1 h2
      have := inv.chain.sep o x ho hx h1; omega
  · rw [hus o, if_neg (fun e => hne e.symm)]; exact hu

/-- A used block is left alone by `OSMemTrim` on another used block. -/
theorem frame_trim (cfg : Config) (h : cfg.WF) {s : Heap} {B : Nat → Prop}
    (inv : Inv cfg s B) {o : Nat} (ho : B o) (hu : usedOf s o = 1)
    {k : Nat} (hk : B k) (huk : usedOf s k = 1) (hne : k ≠ o) (m : Nat) :
    Undisturbed cfg s
      (OSMemTrim cfg s (s.gpOSMemBegin + k + SIZEOF_OSMEM_ALIGNED cfg) m).1 o := by
  obtain ⟨hH, hM, hHM, hEW, hW, hb0, hbE⟩ := WF_facts cfg h
  obtain ⟨inv', hb, hiff⟩ := OSMemTrim_inv cfg h inv hk huk m
  have ho1 := inv.chain.next_ge o ho
  have hk1 := inv.chain.next_ge k hk
  obtain ⟨hBo, hu'⟩ := (hiff o).mp ⟨ho, hu⟩
  refine ⟨hb, (inv'.chain.isBlock_iff hM o).mpr hBo, ?_, hu'⟩
  have hqb : ∀ x, x = k + SIZEOF_OSMEM_ALIGNED cfg + roundedSize cfg m →
      roundedSize cfg m < capacityOf cfg s k → o < x → x < nextOf s o → False := by
    intro x hx hcap h1 h2
    unfold capacityOf at hcap
    rcases Nat.lt_or_gt_of_ne hne with hlt | hlt
    · have := inv.chain.sep k o hk ho hlt; omega
    · have := inv.chain.sep o k ho hk hlt; omega
  refine inv'.chain.next_eq_of hM hBo ?_ (by omega) ?_
  · rcases inv.chain.next_mem o ho with e | e
    · exact Or.inl e
    · right
      have hnk : nextOf s o ≠ nextOf s k := fun e2 => hne (inv.chain.next_inj hM ho hk e2).symm
      unfold trimBlocks
      split_ifs
      · exact Or.inl ⟨e, hnk⟩
      · exact Or.inl e
      · exact e
      · exact e
  · intro x hx h1 h2
    unfold trimBlocks at hx
    split_ifs at hx with c1 c2 c3
    · rcases hx with ⟨hx, _⟩ | hx
      · have := inv.chain.sep o x ho hx h1; omega
      · exact hqb x hx c1 h1 h2
    · rcases hx with hx | hx
      · have := inv.chain.sep o x ho hx h1; omega
      · exact hqb x hx c1 h1 h2
    · have := inv.chain.sep o x ho hx h1; omega
    · have := inv.chain.sep o x ho hx h1; omega

/-- Frame of a used block in a heap that satisfies the invariant and whose
live pointers are the payload addresses of its used blocks. -/
theorem framePost_of_inv (cfg : Config) (h : cfg.WF) {s : Heap} {B : Nat → Prop}
    {L : Set Nat} (inv : Inv cfg s B) (hL : LiveIs cfg s B L) {o : Nat} (ho : B o)
    (hu : usedOf s o = 1) : FramePost cfg s L o := by
  refine ⟨fun fuel n t p hm => frame_malloc cfg h inv ho hu hm, fun q hq hne => ?_,
    fun q m hq hne => ?_⟩
  · obtain ⟨k, hk, huk, e⟩ := (hL q).mp hq
    subst e
    rw [headerOf_block cfg h inv.chain (inv.chain.lt_end' hk)] at hne
    exact frame_free cfg h inv ho hu hk huk hne
  · obtain ⟨k, hk, huk, e⟩ := (hL q).mp hq
    subst e
    rw [headerOf_block cfg h inv.chain (inv.chain.lt_end' hk)] at hne
    exact frame_trim cfg h inv ho hu hk huk hne m

/-! ## Concrete runs of the last claims -/

/-- The state of the default build after OSMemInit, a = OSMemMalloc(256) and
b = OSMemMalloc(16) is reached by calls on live pointers. -/
theorem reachable_runC2 (callocArgs : Nat → Nat → Prop) :
    Reachable defaultConfig callocArgs runC2.1 (insert 4368 (insert 4104 ∅)) :=
  Reachable.malloc (t := runC2.1) (p := 4368) 8 16
    (Reachable.malloc (t := runC1.1) (p := 4104) 8 256 (Reachable.init startState)
      (show OSMemMalloc defaultConfig 8 run0 256 = some (runC1.1, 4104) from rfl))
    (show OSMemMalloc defaultConfig 8 runC1.1 16 = some (runC2.1, 4368) from rfl)

/-- The walk of the chain of `loopState` meets the offsets 0 and 512 only. -/
theorem inChain_loopState {o : Nat} (ho : InChain defaultConfig loopState o) :
    o = 0 ∨ o = 512 := by
  induction ho with
  | first => exact Or.inl rfl
  | step _ hne ih =>
    rcases ih with e | e
    · subst e; exact Or.inr (by decide)
    · subst e; exact absurd (by decide) hne

/-- The state of the default build after OSMemInit, a = OSMemMalloc(16),
c = OSMemCalloc(257, 256), e = OSMemMalloc(16), f = OSMemMalloc(16),
OSMemFree(a) and OSMemFree(e) is reached by calls on live pointers. -/
theorem reachable_runF6 :
    Reachable defaultConfig anyCallocArgs runF6
      (((insert 4416 (insert 4392 (insert 4128 (insert 4104 ∅))) : Set Nat) \ {4104})
        \ {4392}) := by
  have r1 : Reachable defaultConfig anyCallocArgs runB1.1 (insert 4104 ∅) :=
    Reachable.malloc (t := runB1.1) (p := 4104) 8 16 (Reachable.init startState)
      (show OSMemMalloc defaultConfig 8 run0 16 = some (runB1.1, 4104) from rfl)
  have r2 : Reachable defaultConfig anyCallocArgs runF2.1 (insert 4128 (insert 4104 ∅)) :=
    Reachable.calloc (t := runF2.1) (p := 4128) 8 257 256 r1 trivial
      (show OSMemCalloc defaultConfig 8 runB1.1 257 256 = some (runF2.1, 4128) from rfl)
  have r3 : Reachable defaultConfig anyCallocArgs runF3.1
      (insert 4392 (insert 4128 (insert 4104 ∅))) :=
    Reachable.malloc (t := runF3.1) (p := 4392) 8 16 r2
      (show OSMemMalloc defaultConfig 8 runF2.1 16 = some (runF3.1, 4392) from rfl)
  have r4 : Reachable defaultConfig anyCallocArgs runF4.1
      (insert 4416 (insert 4392 (insert 4128 (insert 4104 ∅)))) :=
    Reachable.malloc (t := runF4.1) (p := 4416) 8 16 r3
      (show OSMemMalloc defaultConfig 8 runF3.1 16 = some (runF4.1, 4416) from rfl)
  have r5 : Reachable defaultConfig anyCallocArgs runF5
      ((insert 4416 (insert 4392 (insert 4128 (insert 4104 ∅))) : Set Nat) \ {4104}) :=
    Reachable.free 4104 r4 (Or.inr (Or.inr (Or.inr (Or.inl rfl))))
  exact Reachable.free 4392 r5 ⟨Or.inr (Or.inl rfl), by decide⟩

/-- The walk of the chain of `runF6` meets the block at offset 24, after the
blocks at the offsets 0, 312 and 336. -/
theorem isBlock_runF6 : IsBlock defaultConfig runF6 24 := by
  have c1 := @InChain.step defaultConfig runF6 0 InChain.first (by decide)
  rw [show nextOf runF6 0 = 312 by decide] at c1
  have c2 := InChain.step c1 (by decide)
  rw [show nextOf runF6 312 = 336 by decide] at c2
  have c3 := InChain.step c2 (by decide)
  rw [show nextOf runF6 336 = 24 by decide] at c3
  exact ⟨c3, by decide⟩

/-- The state of the default build after OSMemInit and a = OSMemMalloc(256)
satisfies the invariant, with the used block at offset 0 and the free block at
offset 264. -/
theorem inv_runC1 : Inv defaultConfig runC1.1 (fun o => o = 0 ∨ o = 264) := by
  refine ⟨⟨by decide, by decide, Or.inl rfl, ?_, ?_, ?_, ?_, by decide, ?_, by decide⟩,
    ⟨?_, ?_, by decide⟩, ⟨?_, ?_⟩⟩
  · rintro o (rfl | rfl) <;> decide
  · rintro o (rfl | rfl) <;> decide
  · rintro o (rfl | rfl)
    · exact Or.inr (Or.inr (by decide))
    · exact Or.inl (by decide)
  · rintro o x (rfl | rfl) (rfl | rfl) hlt
    · exact absurd hlt (by decide)
    · decide
    · exact absurd hlt (by decide)
    · exact absurd hlt (by decide)
  · rintro o (rfl | rfl) hne
    · exact absurd rfl hne
    · exact ⟨Or.inl (by decide), by decide⟩
  · rintro o (rfl | rfl) <;> decide
  · rintro o (rfl | rfl) _ hu hn
    · exact absurd hu (by decide)
    · exact absurd hn (by decide)
  · exact Or.inr ⟨264, Or.inr rfl, by decide, by decide⟩
  · rintro o (rfl | rfl) hlt
    · decide
    · exact absurd hlt (by decide)

/-! ## Concrete runs on bytes -/

/-- The byte-level state of the default build after OSMemInit,
a = OSMemMalloc(16), b = OSMemMalloc(28), OSMemFree(a),
c = OSMemCalloc(4097, 16), OSMemTrim(b, 32) and d = OSMemMalloc(40) is reached
by calls on live pointers. -/
theorem Bytewise.reachable_runG6 :
    Bytewise.Reachable defaultConfig anyCallocArgs Bytewise.runG6.1
      (insert 4164 (insert 4104
        ((insert 4128 (insert 4104 ∅) : Set Nat) \ {4104}))) := by
  have r1 : Bytewise.Reachable defaultConfig anyCallocArgs Bytewise.runG1.1 (insert 4104 ∅) :=
    Bytewise.Reachable.malloc (t := Bytewise.runG1.1) (p := 4104) 8 16
      (Bytewise.Reachable.init Bytewise.startState)
      (show Bytewise.OSMemMalloc defaultConfig 8 Bytewise.run0 16
        = some (Bytewise.runG1.1, 4104) from rfl)
  have r2 : Bytewise.Reachable defaultConfig anyCallocArgs Bytewise.runG2.1
      (insert 4128 (insert 4104 ∅)) :=
    Bytewise.Reachable.malloc (t := Bytewise.runG2.1) (p := 4128) 8 28 r1
      (show Bytewise.OSMemMalloc defaultConfig 8 Bytewise.runG1.1 28
        = some (Bytewise.runG2.1, 4128) from rfl)
  have r3 : Bytewise.Reachable defaultConfig anyCallocArgs Bytewise.runG3
      ((insert 4128 (insert 4104 ∅) : Set Nat) \ {4104}) :=
    Bytewise.Reachable.free 4104 r2 (Or.inr (Or.inl rfl))
  have r4 : Bytewise.Reachable defaultConfig anyCallocArgs Bytewise.runG4.1
      (insert 4104 ((insert 4128 (insert 4104 ∅) : Set Nat) \ {4104})) :=
    Bytewise.Reachable.calloc (t := Bytewise.runG4.1) (p := 4104) 8 4097 16 r3 trivial
      (show Bytewise.OSMemCalloc defaultConfig 8 Bytewise.runG3 4097 16
        = some (Bytewise.runG4.1, 4104) from rfl)
  have r5 : Bytewise.Reachable defaultConfig anyCallocArgs Bytewise.runG5.1
      (insert 4104 ((insert 4128 (insert 4104 ∅) : Set Nat) \ {4104})) :=
    Bytewise.Reachable.trim 4128 32 r4 (Or.inr ⟨Or.inl rfl, by decide⟩)
  exact Bytewise.Reachable.malloc (t := Bytewise.runG6.1) (p := 4164) 8 40 r5
    (show Bytewise.OSMemMalloc defaultConfig 8 Bytewise.runG5.1 40
      = some (Bytewise.runG6.1, 4164) from rfl)

/-- The walk of the chain of `Bytewise.runG6` goes from offset 0 to the
offsets 24 and 64 and then to offset 1. -/
theorem Bytewise.inChain_runG6 : Bytewise.InChain defaultConfig Bytewise.runG6.1 1 := by
  have c1 := @Bytewise.InChain.step defaultConfig Bytewise.runG6.1 0
    Bytewise.InChain.first (by decide)
  rw [show Bytewise.nextOf defaultConfig Bytewise.runG6.1 0 = 24 by decide] at c1
  have c2 := Bytewise.InChain.step c1 (by decide)
  rw [show Bytewise.nextOf defaultConfig Bytewise.runG6.1 24 = 64 by decide] at c2
  have c3 := Bytewise.InChain.step c2 (by decide)
  rw [show Bytewise.nextOf defaultConfig Bytewise.runG6.1 64 = 1 by decide] at c3
  exact c3

/-- The byte-level state of the default build after OSMemInit,
a = OSMemMalloc(16), c = OSMemCalloc(257, 256), e = OSMemMalloc(16),
f = OSMemMalloc(60), OSMemFree(a), OSMemFree(e) and g = OSMemMalloc(64) is
reached by calls on live pointers. -/
theorem Bytewise.reachable_runH7 :
    Bytewise.Reachable defaultConfig anyCallocArgs Bytewise.runH7.1
      (insert 4104
        ((((insert 4416 (insert 4392 (insert 4128 (insert 4104 ∅))) : Set Nat) \ {4104})
          \ {4392}))) := by
  have r1 : Bytewise.Reachable defaultConfig anyCallocArgs Bytewise.runG1.1 (insert 4104 ∅) :=
    Bytewise.Reachable.malloc (t := Bytewise.runG1.1) (p := 4104) 8 16
      (Bytewise.Reachable.init Bytewise.startState)
      (show Bytewise.OSMemMalloc defaultConfig 8 Bytewise.run0 16
        = some (Bytewise.runG1.1, 4104) from rfl)
  have r2 : Bytewise.Reachable defaultConfig anyCallocArgs Bytewise.runH2.1
      (insert 4128 (insert 4104 ∅)) :=
    Bytewise.Reachable.calloc (t := Bytewise.runH2.1) (p := 4128) 8 257 256 r1 trivial
      (show Bytewise.OSMemCalloc defaultConfig 8 Bytewise.runG1.1 257 256
        = some (Bytewise.runH2.1, 4128) from rfl)
  have r3 : Bytewise.Reachable defaultConfig anyCallocArgs Bytewise.runH3.1
      (insert 4392 (insert 4128 (insert 4104 ∅))) :=
    Bytewise.Reachable.malloc (t := Bytewise.runH3.1) (p := 4392) 8 16 r2
      (show Bytewise.OSMemMalloc defaultConfig 8 Bytewise.runH2.1 16
        = some (Bytewise.runH3.1, 4392) from rfl)
  have r4 : Bytewise.Reachable defaultConfig anyCallocArgs Bytewise.runH4.1
      (insert 4416 (insert 4392 (insert 4128 (insert 4104 ∅)))) :=
    Bytewise.Reachable.malloc (t := Bytewise.runH4.1) (p := 4416) 8 60 r3
      (show Bytewise.OSMemMalloc defaultConfig 8 Bytewise.runH3.1 60
        = some (Bytewise.runH4.1, 4416) from rfl)
  have r5 : Bytewise.Reachable defaultConfig anyCallocArgs Bytewise.runH5
      ((insert 4416 (insert 4392 (insert 4128 (insert 4104 ∅))) : Set Nat) \ {4104}) :=
    Bytewise.Reachable.free 4104 r4 (Or.inr (Or.inr (Or.inr (Or.inl rfl))))
  have r6 : Bytewise.Reachable defaultConfig anyCallocArgs Bytewise.runH6
      (((insert 4416 (insert 4392 (insert 4128 (insert 4104 ∅))) : Set Nat) \ {4104})
        \ {4392}) :=
    Bytewise.Reachable.free 4392 r5 ⟨Or.inr (Or.inl rfl), by decide⟩
  exact Bytewise.Reachable.malloc (t := Bytewise.runH7.1) (p := 4104) 8 64 r6
    (show Bytewise.OSMemMalloc defaultConfig 8 Bytewise.runH6 64
      = some (Bytewise.runH7.1, 4104) from rfl)

/-- The walk of the chain of `Bytewise.runH7` goes from offset 0 to the
offsets 72, 312, 380, 24 and 288. -/
theorem Bytewise.inChain_runH7 :
    Bytewise.InChain defaultConfig Bytewise.runH7.1 24 ∧
    Bytewise.InChain defaultConfig Bytewise.runH7.1 288 := by
  have c1 := @Bytewise.InChain.step defaultConfig Bytewise.runH7.1 0
    Bytewise.InChain.first (by decide)
  rw [show Bytewise.nextOf defaultConfig Bytewise.runH7.1 0 = 72 by decide] at c1
  have c2 := Bytewise.InChain.step c1 (by decide)
  rw [show Bytewise.nextOf defaultConfig Bytewise.runH7.1 72 = 312 by decide] at c2
  have c3 := Bytewise.InChain.step c2 (by decide)
  rw [show Bytewise.nextOf defaultConfig Bytewise.runH7.1 312 = 380 by decide] at c3
  have c4 := Bytewise.InChain.step c3 (by decide)
  rw [show Bytewise.nextOf defaultConfig Bytewise.runH7.1 380 = 24 by decide] at c4
  have c5 := Bytewise.InChain.step c4 (by decide)
  rw [show Bytewise.nextOf defaultConfig Bytewise.runH7.1 24 = 288 by decide] at c5
  exact ⟨c4, c5⟩

/-- The walk of the chain of `Bytewise.runH8` meets the offsets 0, 72 and 256
only. -/
theorem Bytewise.inChain_runH8 {o : Nat}
    (ho : Bytewise.InChain defaultConfig Bytewise.runH8.1 o) : o = 0 ∨ o = 72 ∨ o = 256 := by
  induction ho with
  | first => exact Or.inl rfl
  | step _ hne ih =>
    rcases ih with e | e | e
    · subst e; exact Or.inr (Or.inl (by decide))
    · subst e; exact Or.inr (Or.inr (by decide))
    · subst e; exact Or.inl (by decide)

/-- The byte-level state of the default build after OSMemInit,
a = OSMemMalloc(16), b = OSMemMalloc(60), c = OSMemCalloc(257, 256),
e = OSMemMalloc(28), OSMemFree(a), f = OSMemMalloc(24), OSMemFree(e) and
g = OSMemMalloc(64) is reached by calls on live pointers. -/
theorem Bytewise.reachable_runK8 :
    Bytewise.Reachable defaultConfig anyCallocArgs Bytewise.runK8.1
      (insert 4104
        ((insert 4496
          ((insert 4460 (insert 4196 (insert 4128 (insert 4104 ∅))) : Set Nat) \ {4104}))
          \ {4460})) := by
  have r1 : Bytewise.Reachable defaultConfig anyCallocArgs Bytewise.runG1.1 (insert 4104 ∅) :=
    Bytewise.Reachable.malloc (t := Bytewise.runG1.1) (p := 4104) 8 16
      (Bytewise.Reachable.init Bytewise.startState)
      (show Bytewise.OSMemMalloc defaultConfig 8 Bytewise.run0 16
        = some (Bytewise.runG1.1, 4104) from rfl)
  have r2 : Bytewise.Reachable defaultConfig anyCallocArgs Bytewise.runK2.1
      (insert 4128 (insert 4104 ∅)) :=
    Bytewise.Reachable.malloc (t := Bytewise.runK2.1) (p := 4128) 8 60 r1
      (show Bytewise.OSMemMalloc defaultConfig 8 Bytewise.runG1.1 60
        = some (Bytewise.runK2.1, 4128) from rfl)
  have r3 : Bytewise.Reachable defaultConfig anyCallocArgs Bytewise.runK3.1
      (insert 4196 (insert 4128 (insert 4104 ∅))) :=
    Bytewise.Reachable.calloc (t := Bytewise.runK3.1) (p := 4196) 8 257 256 r2 trivial
      (show Bytewise.OSMemCalloc defaultConfig 8 Bytewise.runK2.1 257 256
        = some (Bytewise.runK3.1, 4196) from rfl)
  have r4 : Bytewise.Reachable defaultConfig anyCallocArgs Bytewise.runK4.1
      (insert 4460 (insert 4196 (insert 4128 (insert 4104 ∅)))) :=
    Bytewise.Reachable.malloc (t := Bytewise.runK4.1) (p := 4460) 8 28 r3
      (show Bytewise.OSMemMalloc defaultConfig 8 Bytewise.runK3.1 28
        = some (Bytewise.runK4.1, 4460) from rfl)
  have r5 : Bytewise.Reachable defaultConfig anyCallocArgs Bytewise.runK5
      ((insert 4460 (insert 4196 (insert 4128 (insert 4104 ∅))) : Set Nat) \ {4104}) :=
    Bytewise.Reachable.free 4104 r4 (Or.inr (Or.inr (Or.inr (Or.inl rfl))))
  have r6 : Bytewise.Reachable defaultConfig anyCallocArgs Bytewise.runK6.1
      (insert 4496
        ((insert 4460 (insert 4196 (insert 4128 (insert 4104 ∅))) : Set Nat) \ {4104})) :=
    Bytewise.Reachable.malloc (t := Bytewise.runK6.1) (p := 4496) 8 24 r5
      (show Bytewise.OSMemMalloc defaultConfig 8 Bytewise.runK5 24
        = some (Bytewise.runK6.1, 4496) from rfl)
  have r7 : Bytewise.Reachable defaultConfig anyCallocArgs Bytewise.runK7
      ((insert 4496
        ((insert 4460 (insert 4196 (insert 4128 (insert 4104 ∅))) : Set Nat) \ {4104}))
        \ {4460}) :=
    Bytewise.Reachable.free 4460 r6 (Or.inr ⟨Or.inl rfl, by decide⟩)
  exact Bytewise.Reachable.malloc (t := Bytewise.runK8.1) (p := 4104) 8 64 r7
    (show Bytewise.OSMemMalloc defaultConfig 8 Bytewise.runK7 64
      = some (Bytewise.runK8.1, 4104) from rfl)

/-- The walk of the chain of `Bytewise.runK8` goes from offset 0 to the
offsets 72, 392, 424, 24 and 92. -/
theorem Bytewise.inChain_runK8 :
    Bytewise.InChain defaultConfig Bytewise.runK8.1 24 ∧
    Bytewise.InChain defaultConfig Bytewise.runK8.1 92 := by
  have c1 := @Bytewise.InChain.step defaultConfig Bytewise.runK8.1 0
    Bytewise.InChain.first (by decide)
  rw [show Bytewise.nextOf defaultConfig Bytewise.runK8.1 0 = 72 by decide] at c1
  have c2 := Bytewise.InChain.step c1 (by decide)
  rw [show Bytewise.nextOf defaultConfig Bytewise.runK8.1 72 = 392 by decide] at c2
  have c3 := Bytewise.InChain.step c2 (by decide)
  rw [show Bytewise.nextOf defaultConfig Bytewise.runK8.1 392 = 424 by decide] at c3
  have c4 := Bytewise.InChain.step c3 (by decide)
  rw [show Bytewise.nextOf defaultConfig Bytewise.runK8.1 424 = 24 by decide] at c4
  have c5 := Bytewise.InChain.step c4 (by decide)
  rw [show Bytewise.nextOf defaultConfig Bytewise.runK8.1 24 = 92 by decide] at c5
  exact ⟨c4, c5⟩

/-- The walk of the chain of `Bytewise.runK9` meets the offsets 0, 72 and 256
only. -/
theorem Bytewise.inChain_runK9 {o : Nat}
    (ho : Bytewise.InChain defaultConfig Bytewise.runK9.1 o) : o = 0 ∨ o = 72 ∨ o = 256 := by
  induction ho with
  | first => exact Or.inl rfl
  | step _ hne ih =>
    rcases ih with e | e | e
    · subst e; exact Or.inr (Or.inl (by decide))
    · subst e; exact Or.inr (Or.inr (by decide))
    · subst e; exact Or.inl (by decide)

/-! ## Claims C1 to C10 -/

/-- C1 (amended): from the state after OSMemInit, after every sequence of
OSMemMalloc, OSMemCalloc, OSMemFree and OSMemTrim calls whose pointer
arguments are null, out of range or live, and whose OSMemCalloc byte counts
count * size neither overflow uOSMemSize_t nor wrap around when rounded up,
following NextMem from offset 0 visits strictly increasing offsets and reaches
the end header at OSMEM_SIZE_ALIGNED, so that the blocks tile the heap, and
the PrevMem of every block is the offset of the block before it (0 for the
first block). -/
theorem C1_chain_invariant (cfg : Config) (h : cfg.WF) {s : Heap} {L : Set Nat}
    (hr : Reachable cfg (callocFits cfg) s L) : ChainInvariant cfg s := by
  obtain ⟨B, inv, _⟩ := hr.inv cfg h
  exact inv.chainInvariant cfg h

/-- C1, witness: the default build after OSMemInit and OSMemMalloc(16). -/
theorem C1_chain_invariant_witness :
    defaultConfig.WF ∧
    Reachable defaultConfig (callocFits defaultConfig) runB1.1 (insert 4104 ∅) ∧
    ChainInvariant defaultConfig runB1.1 :=
  ⟨by decide,
    Reachable.malloc (t := runB1.1) (p := 4104) 8 16 (Reachable.init startState)
      (show OSMemMalloc defaultConfig 8 run0 16 = some (runB1.1, 4104) from rfl),
    C1_chain_invariant defaultConfig (by decide)
      (Reachable.malloc (t := runB1.1) (p := 4104) 8 16 (Reachable.init startState)
        (show OSMemMalloc defaultConfig 8 run0 16 = some (runB1.1, 4104) from rfl))⟩

/-- C1, counterexample: on the default build, where uOSMemSize_t has 16 bits,
OSMemInit followed by OSMemCalloc(257, 256) allocates 65792 mod 65536 = 256
bytes and zeroes 65792: the header at offset 264 then has NextMem = 0 and the
chain from offset 0 does not reach the end header. -/
theorem C1_counterexample :
    Reachable defaultConfig anyCallocArgs runA.1 (insert 4104 ∅) ∧
    ¬ ChainInvariant defaultConfig runA.1 := by
  refine ⟨Reachable.calloc (t := runA.1) (p := 4104) 8 257 256 (Reachable.init startState)
    trivial (show OSMemCalloc defaultConfig 8 run0 257 256 = some (runA.1, 4104) from rfl), ?_⟩
  rintro ⟨l, hl⟩
  cases l with
  | nil =>
    have h0 : 0 = OSMEM_SIZE_ALIGNED defaultConfig := hl
    exact absurd h0 (by decide)
  | cons b l =>
    obtain ⟨_, _, _, _, _, hl⟩ := hl
    cases l with
    | nil =>
      have h0 : nextOf runA.1 0 = OSMEM_SIZE_ALIGNED defaultConfig := hl
      exact absurd h0 (by decide)
    | cons b l =>
      obtain ⟨_, _, h3, _⟩ := hl
      exact absurd h3 (by decide)

/-- C2 (amended): from the state after OSMemInit, after every sequence of
OSMemMalloc, OSMemCalloc, OSMemFree and OSMemTrim calls on live, null or
out-of-range pointers whose OSMemCalloc byte counts count * size neither
overflow uOSMemSize_t nor wrap around when rounded up, no block of the chain
with Used = 0 is followed by a header with Used = 0.  OSMemFree is one of the
calls: its single forward-then-backward pass of OSMemCombine restores the
property. -/
theorem C2_no_adjacent_free (cfg : Config) (h : cfg.WF) {s : Heap} {L : Set Nat}
    (hr : Reachable cfg (callocFits cfg) s L) : NoAdjacentFree cfg s := by
  obtain ⟨B, inv, _⟩ := hr.inv cfg h
  exact inv.noAdjacentFree cfg h

/-- C2, witness: the default build after OSMemInit, a = OSMemMalloc(16),
c = OSMemMalloc(16) and OSMemFree(a). -/
theorem C2_no_adjacent_free_witness :
    defaultConfig.WF ∧
    Reachable defaultConfig (callocFits defaultConfig) runB3
      ((insert 4128 (insert 4104 ∅) : Set Nat) \ {4104}) ∧
    NoAdjacentFree defaultConfig runB3 :=
  have r1 : Reachable defaultConfig (callocFits defaultConfig) runB1.1 (insert 4104 ∅) :=
    Reachable.malloc (t := runB1.1) (p := 4104) 8 16 (Reachable.init startState)
      (show OSMemMalloc defaultConfig 8 run0 16 = some (runB1.1, 4104) from rfl)
  have r2 : Reachable defaultConfig (callocFits defaultConfig) runB2.1
      (insert 4128 (insert 4104 ∅)) :=
    Reachable.malloc (t := runB2.1) (p := 4128) 8 16 r1
      (show OSMemMalloc defaultConfig 8 runB1.1 16 = some (runB2.1, 4128) from rfl)
  have r3 : Reachable defaultConfig (callocFits defaultConfig) runB3
      ((insert 4128 (insert 4104 ∅) : Set Nat) \ {4104}) :=
    Reachable.free 4104 r2 (Or.inr (Or.inl rfl))
  ⟨by decide, r3, C2_no_adjacent_free defaultConfig (by decide) r3⟩

/-- C2, counterexample: on the default build, where uOSMemSize_t has 16 bits,
after a = OSMemMalloc(16), c = OSMemMalloc(16), OSMemFree(a) and
OSMemCalloc(257, 256), which allocates 256 bytes at offset 48 and zeroes
65792, the block at offset 312 of the chain has Used = 0 and NextMem = 0, and
the block at offset 0 has Used = 0. -/
theorem C2_counterexample :
    Reachable defaultConfig anyCallocArgs runB4.1
      (insert 4152 ((insert 4128 (insert 4104 ∅) : Set Nat) \ {4104})) ∧
    ¬ NoAdjacentFree defaultConfig runB4.1 := by
  have r1 : Reachable defaultConfig anyCallocArgs runB1.1 (insert 4104 ∅) :=
    Reachable.malloc (t := runB1.1) (p := 4104) 8 16 (Reachable.init startState)
      (show OSMemMalloc defaultConfig 8 run0 16 = some (runB1.1, 4104) from rfl)
  have r2 : Reachable defaultConfig anyCallocArgs runB2.1 (insert 4128 (insert 4104 ∅)) :=
    Reachable.malloc (t := runB2.1) (p := 4128) 8 16 r1
      (show OSMemMalloc defaultConfig 8 runB1.1 16 = some (runB2.1, 4128) from rfl)
  have r3 : Reachable defaultConfig anyCallocArgs runB3
      ((insert 4128 (insert 4104 ∅) : Set Nat) \ {4104}) :=
    Reachable.free 4104 r2 (Or.inr (Or.inl rfl))
  have r4 : Reachable defaultConfig anyCallocArgs runB4.1
      (insert 4152 ((insert 4128 (insert 4104 ∅) : Set Nat) \ {4104})) :=
    Reachable.calloc (t := runB4.1) (p := 4152) 8 257 256 r3 trivial
      (show OSMemCalloc defaultConfig 8 runB3 257 256 = some (runB4.1, 4152) from rfl)
  refine ⟨r4, fun H => ?_⟩
  have i1 : InChain defaultConfig runB4.1 24 :=
    InChain.step (o := 0) InChain.first (by decide)
  have i2 : InChain defaultConfig runB4.1 48 := InChain.step (o := 24) i1 (by decide)
  have i3 : InChain defaultConfig runB4.1 312 := InChain.step (o := 48) i2 (by decide)
  exact H 312 ⟨i3, by decide⟩ (by decide) (by decide)

/-- C3 (amended): from the state after OSMemInit, after every sequence of
OSMemMalloc, OSMemCalloc, OSMemFree and OSMemTrim calls on live, null or
out-of-range pointers whose OSMemCalloc byte counts count * size neither
overflow uOSMemSize_t nor wrap around when rounded up, gpOSMemLFree points at
the free block of the chain with the smallest offset, or at the end header
when the chain has no free block. -/
theorem C3_lowest_free (cfg : Config) (h : cfg.WF) {s : Heap} {L : Set Nat}
    (hr : Reachable cfg (callocFits cfg) s L) : LowestFree cfg s := by
  obtain ⟨B, inv, _⟩ := hr.inv cfg h
  exact inv.lowestFree cfg h

/-- C3, witness: the default build after OSMemInit, a = OSMemMalloc(256) and
b = OSMemMalloc(16). -/
theorem C3_lowest_free_witness :
    defaultConfig.WF ∧
    Reachable defaultConfig (callocFits defaultConfig) runC2.1 (insert 4368 (insert 4104 ∅)) ∧
    LowestFree defaultConfig runC2.1 :=
  have r1 : Reachable defaultConfig (callocFits defaultConfig) runC1.1 (insert 4104 ∅) :=
    Reachable.malloc (t := runC1.1) (p := 4104) 8 256 (Reachable.init startState)
      (show OSMemMalloc defaultConfig 8 run0 256 = some (runC1.1, 4104) from rfl)
  have r2 : Reachable defaultConfig (callocFits defaultConfig) runC2.1
      (insert 4368 (insert 4104 ∅)) :=
    Reachable.malloc (t := runC2.1) (p := 4368) 8 16 r1
      (show OSMemMalloc defaultConfig 8 runC1.1 16 = some (runC2.1, 4368) from rfl)
  ⟨by decide, r2, C3_lowest_free defaultConfig (by decide) r2⟩

/-- C3, counterexample: on the default build, where uOSMemSize_t has 16 bits,
after a = OSMemMalloc(256), b = OSMemMalloc(16), OSMemFree(a) and
OSMemCalloc(257, 256), which takes the block at offset 0 again and zeroes
65792 bytes, gpOSMemLFree is at offset 288, which the chain does not reach,
while the block at offset 264 of the chain has Used = 0. -/
theorem C3_counterexample :
    Reachable defaultConfig anyCallocArgs runC4.1
      (insert 4104 ((insert 4368 (insert 4104 ∅) : Set Nat) \ {4104})) ∧
    ¬ LowestFree defaultConfig runC4.1 := by
  have r1 : Reachable defaultConfig anyCallocArgs runC1.1 (insert 4104 ∅) :=
    Reachable.malloc (t := runC1.1) (p := 4104) 8 256 (Reachable.init startState)
      (show OSMemMalloc defaultConfig 8 run0 256 = some (runC1.1, 4104) from rfl)
  have r2 : Reachable defaultConfig anyCallocArgs runC2.1 (insert 4368 (insert 4104 ∅)) :=
    Reachable.malloc (t := runC2.1) (p := 4368) 8 16 r1
      (show OSMemMalloc defaultConfig 8 runC1.1 16 = some (runC2.1, 4368) from rfl)
  have r3 : Reachable defaultConfig anyCallocArgs runC3
      ((insert 4368 (insert 4104 ∅) : Set Nat) \ {4104}) :=
    Reachable.free 4104 r2 (Or.inr (Or.inl rfl))
  have r4 : Reachable defaultConfig anyCallocArgs runC4.1
      (insert 4104 ((insert 4368 (insert 4104 ∅) : Set Nat) \ {4104})) :=
    Reachable.calloc (t := runC4.1) (p := 4104) 8 257 256 r3 trivial
      (show OSMemCalloc defaultConfig 8 runC3 257 256 = some (runC4.1, 4104) from rfl)
  refine ⟨r4, ?_⟩
  have hchain : ∀ o, InChain defaultConfig runC4.1 o → o = 0 ∨ o = 264 := by
    intro o ho
    induction ho with
    | first => exact Or.inl rfl
    | step _ _ ih =>
      rcases ih with e | e
      · subst e; exact Or.inr (by decide)
      · subst e; exact Or.inl (by decide)
  rintro ⟨lf, h1, h2⟩
  have e1 : runC4.1.gpOSMemLFree = 4384 := by decide
  have e2 : runC4.1.gpOSMemBegin = 4096 := by decide
  have e3 : OSMEM_SIZE_ALIGNED defaultConfig = 512 := by decide
  rw [e1, e2] at h1
  have hlf : lf = 288 := by omega
  subst hlf
  rcases h2 with ⟨⟨h3, _⟩, _⟩ | ⟨h3, _⟩
  · rcases hchain 288 h3 with e | e <;> omega
  · omega

/-- C4, evaluation at the failing input: on the small build (alignment 4,
header 8, minimum block 16, heap 64), after OSMemInit the end header at offset
64 has PrevMem = 64; p = OSMemMalloc(10) splits the block at offset 0 and
returns its payload address; OSMemFree(p) merges the two blocks again, and
OSMemCombine (line 120) stores 0 in the PrevMem of the end header, which keeps
Used = 1 and NextMem = 64. -/
theorem C4_sentinel_PrevMem_overwritten :
    prevOf (OSMemInit smallConfig startState) 64 = 64 ∧
    OSMemMalloc smallConfig 8 (OSMemInit smallConfig startState) 10 = some (runS1.1, 4104) ∧
    usedOf (OSMemFree smallConfig runS1.1 4104) 64 = 1 ∧
    nextOf (OSMemFree smallConfig runS1.1 4104) 64 = 64 ∧
    prevOf (OSMemFree smallConfig runS1.1 4104) 64 = 0 :=
  ⟨by decide, rfl, by decide, by decide, by decide⟩

/-- Requests within the heap size are not above the size `OSMemMalloc` works
with. -/
theorem request_le_roundedSize (cfg : Config) (h : cfg.WF) {n : Nat}
    (hn : n ≤ OSMEM_SIZE cfg) : n ≤ roundedSize cfg n := by
  obtain ⟨hH, hM, hHM, hEW, hW, hb0, hbE⟩ := WF_facts cfg h
  obtain ⟨k, hk, eA⟩ := WF_align cfg h
  have hle : OSMEM_SIZE cfg ≤ OSMEM_SIZE_ALIGNED cfg := h.2.2.2.2.2.2.1
  have hdvd : cfg.OSMEM_ALIGNMENT ∣ OSMEM_SIZE_ALIGNED cfg := align_dvd cfg h _
  -- the alignment divides the range of `uOSMemSize_t`
  have hA : cfg.OSMEM_ALIGNMENT ≤ OSMEM_SIZE_ALIGNED cfg := Nat.le_of_dvd (by omega) hdvd
  have hkb : k < uOSMemSize_bits cfg := by
    have : (2:Nat) ^ k < 2 ^ uOSMemSize_bits cfg := by rw [← eA]; omega
    exact (Nat.pow_lt_pow_iff_right (by norm_num)).mp this
  have hdW : cfg.OSMEM_ALIGNMENT ∣ 2 ^ uOSMemSize_bits cfg := by
    rw [eA]; exact pow_dvd_pow 2 (Nat.le_of_lt hkb)
  obtain ⟨e, he⟩ := hdvd
  obtain ⟨w, hw⟩ := hdW
  have hApos := alignment_pos cfg h
  have hew : e < w := by
    rw [he, hw] at hEW
    exact Nat.lt_of_mul_lt_mul_left hEW
  have hsum : OSMEM_SIZE_ALIGNED cfg + cfg.OSMEM_ALIGNMENT ≤ 2 ^ uOSMemSize_bits cfg := by
    rw [he, hw]
    calc cfg.OSMEM_ALIGNMENT * e + cfg.OSMEM_ALIGNMENT = cfg.OSMEM_ALIGNMENT * (e + 1) := by ring
      _ ≤ cfg.OSMEM_ALIGNMENT * w := Nat.mul_le_mul_left _ hew
  exact (le_roundedSize cfg h (m := n) (by omega)).2

/-- C5 (amended): in every heap state reached from OSMemInit by calls on
live, null or out-of-range pointers whose OSMemCalloc byte counts neither
overflow uOSMemSize_t nor wrap around when rounded up, and for every request
n with 1 <= n <= OSMEM_SIZE, OSMemMalloc(n) returns, and when it returns a
pointer other than null, that pointer is the
offset of a block of the chain plus SIZEOF_OSMEM_ALIGNED, the block was free
before the call, has Used = 1 after it, and its payload capacity
NextMem - offset - SIZEOF_OSMEM_ALIGNED after the call is at least n. -/
theorem C5_allocation_postcondition (cfg : Config) (h : cfg.WF) {s : Heap} {L : Set Nat}
    (hr : Reachable cfg (callocFits cfg) s L) (n : Nat) (h1 : 1 ≤ n)
    (h2 : n ≤ OSMEM_SIZE cfg) : AllocationPost cfg s n := by
  obtain ⟨hH, hM, hHM, hEW, hW, hb0, hbE⟩ := WF_facts cfg h
  obtain ⟨B, inv, _⟩ := hr.inv cfg h
  obtain ⟨sp1, sp2⟩ := OSMemMalloc_spec cfg h inv n
  refine ⟨?_, fun fuel s' p hm hp => ?_⟩
  · obtain ⟨r, hr'⟩ := sp1 _ le_rfl
    exact ⟨_, r, hr'⟩
  · obtain ⟨o, ho, hu, e, inv', hb, u1, _, hcap⟩ :=
      MallocPost_success cfg h inv (sp2 fuel s' p hm) hp
    refine ⟨o, (inv.chain.isBlock_iff hM o).mpr ho, hu, e, hb,
      (inv'.chain.isBlock_iff hM o).mpr (Or.inl ho), by rw [u1 o ho, if_pos rfl], ?_⟩
    have := request_le_roundedSize cfg h h2
    unfold capacityOf
    omega

/-- C5, witness: the default build after OSMemInit, request of 16 bytes. -/
theorem C5_allocation_postcondition_witness :
    defaultConfig.WF ∧ Reachable defaultConfig (callocFits defaultConfig) run0 ∅ ∧
    1 ≤ 16 ∧ 16 ≤ OSMEM_SIZE defaultConfig ∧ AllocationPost defaultConfig run0 16 :=
  ⟨by decide, Reachable.init startState, by decide, by decide,
    C5_allocation_postcondition defaultConfig (by decide) (Reachable.init startState) 16
      (by decide) (by decide)⟩

/-- C5, counterexample: on the default build, where uOSMemSize_t has 16 bits,
after OSMemInit, a = OSMemMalloc(256), b = OSMemMalloc(16), OSMemFree(a) and
OSMemCalloc(257, 256), gpOSMemLFree is at offset 288, which the chain from
offset 0 does not reach, and OSMemMalloc(16) returns the payload address of
the header at offset 288, which is no block of the chain. -/
theorem C5_counterexample :
    Reachable defaultConfig anyCallocArgs runC4.1
      (insert 4104 ((insert 4368 (insert 4104 ∅) : Set Nat) \ {4104})) ∧
    1 ≤ 16 ∧ 16 ≤ OSMEM_SIZE defaultConfig ∧
    OSMemMalloc defaultConfig 8 runC4.1 16 = some (runC5.1, 4392) ∧
    ¬ AllocationPost defaultConfig runC4.1 16 := by
  refine ⟨reachable_runC4, by decide, by decide, rfl, ?_⟩
  rintro ⟨_, hpost⟩
  obtain ⟨o, hblk, _, e, _⟩ := hpost 8 runC5.1 4392 rfl (by decide)
  have e1 : runC4.1.gpOSMemBegin = 4096 := by decide
  have e2 : SIZEOF_OSMEM_ALIGNED defaultConfig = 8 := by decide
  rw [e1, e2] at e
  rcases inChain_runC4 hblk.1 with x | x <;> omega

/-- C6, evaluation at the failing input: on the default build uOSMemSize_t has
16 bits and OSMEM_SIZE_ALIGNED is 512; the request 65535 is a value of the
type and exceeds the heap, but OSMEM_ALIGN_SIZE(65535) is 65536, which is 0 in
16 bits, so the size becomes OSMIN_SIZE_ALIGNED = 16 and OSMemMalloc(65535)
returns the payload address of the block at offset 0, marked used with a
payload capacity of 16 bytes. -/
theorem C6_wrapped_request_is_served :
    65535 < 2 ^ uOSMemSize_bits defaultConfig ∧
    OSMEM_SIZE_ALIGNED defaultConfig = 512 ∧
    roundedSize defaultConfig 65535 = 16 ∧
    usedOf run0 0 = 0 ∧
    OSMemMalloc defaultConfig 8 run0 65535 = some (runD1.1, 4104) ∧
    4104 ≠ OS_NULL ∧
    usedOf runD1.1 0 = 1 ∧
    capacityOf defaultConfig runD1.1 0 = 16 :=
  ⟨by decide, by decide, by decide, by decide, rfl, by decide, by decide, by decide⟩

/-- C7: OSMemMalloc(0) returns null in every state, whatever the fuel, and on
a heap that is already set up (gpOSMemEnd is not null) it leaves the whole
state, so every header and gpOSMemLFree, unchanged. -/
theorem C7_malloc_zero (cfg : Config) (fuel : Nat) (s : Heap) :
    (∃ s', OSMemMalloc cfg fuel s 0 = some (s', OS_NULL)) ∧
    (s.gpOSMemEnd ≠ OS_NULL → OSMemMalloc cfg fuel s 0 = some (s, OS_NULL)) := by
  unfold OSMemMalloc
  simp only []
  constructor
  · split_ifs <;> exact ⟨_, rfl⟩
  · intro hne
    rw [if_neg hne, if_neg hne]
    exact if_pos trivial

/-- C7, witness: the default build after OSMemInit, with no fuel at all. -/
theorem C7_malloc_zero_witness :
    run0.gpOSMemEnd ≠ OS_NULL ∧ OSMemMalloc defaultConfig 0 run0 0 = some (run0, OS_NULL) :=
  ⟨by decide, (C7_malloc_zero defaultConfig 0 run0).2 (by decide)⟩

/-- C8, evaluation at the failing input: on the default build, after OSMemInit
the end header at offset 512 has PrevMem = 512; p = OSMemMalloc(16) followed
by OSMemFree(p) leaves the block at offset 0 with NextMem = 512, PrevMem = 0
and Used = 0, the end header with Used = 1 and NextMem = 512, and gpOSMemLFree
at offset 0, but the end header with PrevMem = 0: OSMemCombine (line 120) has
stored the offset of the merged block there. -/
theorem C8_round_trip_end_header :
    prevOf run0 512 = 512 ∧
    OSMemMalloc defaultConfig 8 run0 16 = some (runB1.1, 4104) ∧
    nextOf (OSMemFree defaultConfig runB1.1 4104) 0 = 512 ∧
    prevOf (OSMemFree defaultConfig runB1.1 4104) 0 = 0 ∧
    usedOf (OSMemFree defaultConfig runB1.1 4104) 0 = 0 ∧
    usedOf (OSMemFree defaultConfig runB1.1 4104) 512 = 1 ∧
    nextOf (OSMemFree defaultConfig runB1.1 4104) 512 = 512 ∧
    (OSMemFree defaultConfig runB1.1 4104).gpOSMemLFree
      = (OSMemFree defaultConfig runB1.1 4104).gpOSMemBegin ∧
    prevOf (OSMemFree defaultConfig runB1.1 4104) 512 = 0 :=
  ⟨by decide, rfl, by decide, by decide, by decide, by decide, by decide, by decide,
    by decide⟩

/-- C9 (amended): in every heap state reached from OSMemInit by calls on
live, null or out-of-range pointers whose OSMemCalloc byte counts neither
overflow uOSMemSize_t nor wrap around when rounded up, for every run ps of
address-adjacent blocks with live pointers, OSMemFree on the pointers in any
permutation qs yields the same chain (block offsets, NextMem and Used) and
the same gpOSMemLFree as OSMemFree on them in increasing address order, and
in that chain the blocks of the run lie inside a single free block. -/
theorem C9_order_independent_coalescing (cfg : Config) (h : cfg.WF) {s : Heap} {L : Set Nat}
    (hr : Reachable cfg (callocFits cfg) s L) (ps qs : List Nat)
    (hlive : ∀ p ∈ ps, p ∈ L) (hrun : AdjacentRun cfg s ps) (hperm : qs.Perm ps) :
    SameChain cfg (freeAll cfg s qs) (freeAll cfg s ps) ∧
    (freeAll cfg s qs).gpOSMemLFree = (freeAll cfg s ps).gpOSMemLFree ∧
    (ps ≠ [] → InsideOneFree cfg s (freeAll cfg s ps) ps) := by
  obtain ⟨hH, hM, _⟩ := WF_facts cfg h
  obtain ⟨B0, inv0, hL⟩ := hr.inv cfg h
  have hl : ∀ p ∈ ps, ∃ o, B0 o ∧ usedOf s o = 1 ∧
      p = s.gpOSMemBegin + o + SIZEOF_OSMEM_ALIGNED cfg :=
    fun p hp => (hL p).mp (hlive p hp)
  have f1 := FreedW.freeAll cfg h inv0 ps _ _ (FreedW.start cfg h inv0) hl
  have f2 := (FreedW.freeAll cfg h inv0 qs _ _ (FreedW.start cfg h inv0)
    (fun p hp => hl p (hperm.mem_iff.mp hp))).congrFreed
      (fun a => or_congr Iff.rfl hperm.mem_iff)
  obtain ⟨e1, e2⟩ := FreedW.same cfg h f2 f1
  refine ⟨e1, e2, fun hne => ?_⟩
  have hhd : ∀ p ∈ ps, B0 (headerOf cfg s p) ∧
      s.gpOSMemBegin + headerOf cfg s p + SIZEOF_OSMEM_ALIGNED cfg = p := by
    intro p hp
    obtain ⟨o, ho, _, e⟩ := hl p hp
    have := headerOf_block cfg h inv0.chain (inv0.chain.lt_end' ho)
    rw [← e] at this
    rw [this]
    exact ⟨ho, e.symm⟩
  obtain ⟨a, am, au, hall⟩ := FreedW.run cfg h inv0 f1 (ps.map (headerOf cfg s))
    (by simpa using hne) ((List.chain'_map _).mpr hrun) (by
      intro o ho
      obtain ⟨p, hp, e⟩ := List.mem_map.mp ho
      subst e
      refine ⟨(hhd p hp).1, Or.inr ?_⟩
      rw [(hhd p hp).2]; exact hp)
  exact ⟨a, (f1.inv.chain.isBlock_iff hM a).mpr am, au,
    fun p hp => hall _ (List.mem_map_of_mem _ hp)⟩

/-- C9, witness: the default build after OSMemInit, a = OSMemMalloc(16) and
c = OSMemMalloc(16); the run is a, c and the other order is c, a. -/
theorem C9_order_independent_coalescing_witness :
    defaultConfig.WF ∧
    Reachable defaultConfig (callocFits defaultConfig) runB2.1 (insert 4128 (insert 4104 ∅)) ∧
    AdjacentRun defaultConfig runB2.1 [4104, 4128] ∧
    SameChain defaultConfig (freeAll defaultConfig runB2.1 [4128, 4104])
      (freeAll defaultConfig runB2.1 [4104, 4128]) ∧
    (freeAll defaultConfig runB2.1 [4128, 4104]).gpOSMemLFree =
      (freeAll defaultConfig runB2.1 [4104, 4128]).gpOSMemLFree ∧
    InsideOneFree defaultConfig runB2.1 (freeAll defaultConfig runB2.1 [4104, 4128])
      [4104, 4128] :=
  have r1 : Reachable defaultConfig (callocFits defaultConfig) runB1.1 (insert 4104 ∅) :=
    Reachable.malloc (t := runB1.1) (p := 4104) 8 16 (Reachable.init startState)
      (show OSMemMalloc defaultConfig 8 run0 16 = some (runB1.1, 4104) from rfl)
  have r2 : Reachable defaultConfig (callocFits defaultConfig) runB2.1
      (insert 4128 (insert 4104 ∅)) :=
    Reachable.malloc (t := runB2.1) (p := 4128) 8 16 r1
      (show OSMemMalloc defaultConfig 8 runB1.1 16 = some (runB2.1, 4128) from rfl)
  have hrun : AdjacentRun defaultConfig runB2.1 [4104, 4128] := by
    exact List.chain'_pair.mpr (by decide)
  have key := C9_order_independent_coalescing defaultConfig (by decide) r2 [4104, 4128]
    [4128, 4104] (by
      intro p hp
      rcases List.mem_cons.mp hp with e | hp
      · exact Or.inr (Or.inl e)
      · rcases List.mem_cons.mp hp with e | hp
        · exact Or.inl e
        · exact absurd hp (List.not_mem_nil _)) hrun (List.Perm.swap 4104 4128 [])
  ⟨by decide, r2, hrun, key.1, key.2.1, key.2.2 (List.cons_ne_nil _ _)⟩

/-- C9, counterexample: on the default build, where uOSMemSize_t has 16 bits,
after OSMemInit, a = OSMemMalloc(16), c = OSMemMalloc(16), OSMemFree(a) and
d = OSMemCalloc(257, 256), the call of memset has zeroed the headers behind
the block of d.  The blocks of c and d are adjacent and their pointers are
live; OSMemFree on c and then on d merges them with the zeroed header, and
the chain that is left is the one block at offset 0 with NextMem = 0, which
holds neither of the two blocks. -/
theorem C9_counterexample :
    Reachable defaultConfig anyCallocArgs runB4.1
      (insert 4152 ((insert 4128 (insert 4104 ∅) : Set Nat) \ {4104})) ∧
    (∀ p ∈ [4128, 4152],
      p ∈ (insert 4152 ((insert 4128 (insert 4104 ∅) : Set Nat) \ {4104}) : Set Nat)) ∧
    AdjacentRun defaultConfig runB4.1 [4128, 4152] ∧
    ¬ InsideOneFree defaultConfig runB4.1 (freeAll defaultConfig runB4.1 [4128, 4152])
      [4128, 4152] := by
  refine ⟨reachable_runB4, ?_, List.chain'_pair.mpr (by decide), ?_⟩
  · intro p hp
    rcases List.mem_cons.mp hp with e | hp
    · exact Or.inr ⟨Or.inl e, by rw [e]; decide⟩
    · rcases List.mem_cons.mp hp with e | hp
      · exact Or.inl e
      · exact absurd hp (List.not_mem_nil _)
  · rintro ⟨a, ⟨hin, _⟩, _, hall⟩
    have e : a = 0 := inChain_runB5 hin
    subst e
    have h1 := (hall 4128 (List.mem_cons_self _ _)).2
    revert h1
    decide

/-- C10: for every heap state, OSMemFree(p) with p null, or with p below
gpOSMemBegin, or with p at or above gpOSMemEnd, leaves the whole state, so
every header and gpOSMemLFree, unchanged. -/
theorem C10_tolerant_free (cfg : Config) (s : Heap) (p : Nat) (hp : Ignored s p) :
    OSMemFree cfg s p = s :=
  OSMemFree_ignored cfg s p hp

/-- C10, witness: the default build after OSMemInit and a = OSMemMalloc(16);
the pointer 4608 is the address of the end header. -/
theorem C10_tolerant_free_witness :
    Ignored runB1.1 4608 ∧ OSMemFree defaultConfig runB1.1 4608 = runB1.1 :=
  ⟨Or.inr (Or.inr (by decide)), C10_tolerant_free defaultConfig runB1.1 4608
    (Or.inr (Or.inr (by decide)))⟩

/-! ## Claims C11 to C20 -/

/-- C12, evaluation at the failing input: on the default build uOSMemSize_t
has 16 bits; after a = OSMemMalloc(256) the block at offset 0 is used with a
payload capacity of 256.  The new size 65535 is a value of the type and is
greater than 256, but OSMEM_ALIGN_SIZE(65535) is 65536, which is 0 in 16
bits, so the size becomes OSMIN_SIZE_ALIGNED = 16 and OSMemTrim(a, 65535)
returns a, not null, and shrinks the block to a payload capacity of 16, with
a new free header at offset 24 and gpOSMemLFree moved to it. -/
theorem C12_wrapped_growth_is_served :
    65535 < 2 ^ uOSMemSize_bits defaultConfig ∧
    OSMemMalloc defaultConfig 8 run0 256 = some (runC1.1, 4104) ∧
    usedOf runC1.1 0 = 1 ∧ capacityOf defaultConfig runC1.1 0 = 256 ∧
    256 < 65535 ∧
    roundedSize defaultConfig 65535 = 16 ∧
    runT1.2 = 4104 ∧ runT1.2 ≠ OS_NULL ∧
    capacityOf defaultConfig runT1.1 0 = 16 ∧
    nextOf runT1.1 0 = 24 ∧ nextOf runC1.1 0 = 264 ∧
    usedOf runT1.1 24 = 0 ∧ nextOf runT1.1 24 = 512 ∧
    runC1.1.gpOSMemLFree = runC1.1.gpOSMemBegin + 264 ∧
    runT1.1.gpOSMemLFree = runT1.1.gpOSMemBegin + 24 :=
  ⟨by decide, rfl, by decide, by decide, by decide, by decide, by decide, by decide, by decide,
    by decide, by decide, by decide, by decide, by decide, by decide⟩

/-- C13 (amended): in every heap state reached from OSMemInit by calls on
live, null or out-of-range pointers whose OSMemCalloc byte counts neither
overflow uOSMemSize_t nor wrap around when rounded up, for every live pointer
p and every newsize not above the payload capacity of the block of p,
OSMemTrim(p, newsize) returns p, the block keeps its header offset and
Used = 1, and its payload capacity afterwards is at least newsize and at most
the capacity it had. -/
theorem C13_shrink_keeps_allocation (cfg : Config) (h : cfg.WF) {s : Heap} {L : Set Nat}
    (hr : Reachable cfg (callocFits cfg) s L) {p : Nat} (hp : p ∈ L) {newsize : Nat}
    (hn : newsize ≤ capacityOf cfg s (headerOf cfg s p)) : ShrinkPost cfg s p newsize := by
  obtain ⟨hH, hM, _⟩ := WF_facts cfg h
  obtain ⟨B, inv, hL⟩ := hr.inv cfg h
  obtain ⟨o, ho, hu, e⟩ := (hL p).mp hp
  subst e
  have hhd : headerOf cfg s (s.gpOSMemBegin + o + SIZEOF_OSMEM_ALIGNED cfg) = o :=
    headerOf_block cfg h inv.chain (inv.chain.lt_end' ho)
  rw [hhd] at hn
  exact OSMemTrim_shrink cfg h inv ho hu
    (hr.capacity_dvd cfg h ((inv.chain.isBlock_iff hM o).mpr ho)).2.2 hn

/-- C13, witness: the default build after OSMemInit and a = OSMemMalloc(16);
OSMemTrim(a, 8). -/
theorem C13_shrink_keeps_allocation_witness :
    defaultConfig.WF ∧
    Reachable defaultConfig (callocFits defaultConfig) runB1.1 (insert 4104 ∅) ∧
    4104 ∈ (insert 4104 ∅ : Set Nat) ∧
    8 ≤ capacityOf defaultConfig runB1.1 (headerOf defaultConfig runB1.1 4104) ∧
    ShrinkPost defaultConfig runB1.1 4104 8 :=
  ⟨by decide, reachable_runB1, Or.inl rfl, by decide,
    C13_shrink_keeps_allocation defaultConfig (by decide) reachable_runB1 (Or.inl rfl)
      (by decide)⟩

/-- C13, counterexample: on the default build, where uOSMemSize_t has 16
bits, after OSMemInit, a = OSMemMalloc(256), b = OSMemMalloc(16),
OSMemFree(a) and OSMemCalloc(257, 256), the call of memset has zeroed the
header of b, at offset 264.  The pointer b is live and 0 is not above the
payload capacity of its block, but after OSMemTrim(b, 0) the header at offset
264 has Used = 0, and a payload capacity of 16, above the one it had. -/
theorem C13_counterexample :
    Reachable defaultConfig anyCallocArgs runC4.1
      (insert 4104 ((insert 4368 (insert 4104 ∅) : Set Nat) \ {4104})) ∧
    4368 ∈ (insert 4104 ((insert 4368 (insert 4104 ∅) : Set Nat) \ {4104}) : Set Nat) ∧
    headerOf defaultConfig runC4.1 4368 = 264 ∧
    0 ≤ capacityOf defaultConfig runC4.1 (headerOf defaultConfig runC4.1 4368) ∧
    usedOf (OSMemTrim defaultConfig runC4.1 4368 0).1 264 = 0 ∧
    capacityOf defaultConfig runC4.1 264 = 0 ∧
    capacityOf defaultConfig (OSMemTrim defaultConfig runC4.1 4368 0).1 264 = 16 ∧
    ¬ ShrinkPost defaultConfig runC4.1 4368 0 :=
  ⟨reachable_runC4, Or.inr ⟨Or.inl rfl, by decide⟩, by decide, by decide, by decide,
    by decide, by decide, fun hs => absurd hs.2.2.2.1 (by decide)⟩

/-- C14 (amended): in every heap state reached from OSMemInit by calls within
the contract, and for every count and size whose product count * size neither
overflows uOSMemSize_t nor wraps around when rounded up, when
OSMemCalloc(count, size) returns a pointer p other than null,
OSMemMalloc(count * size) returns p too, the count * size bytes from p lie
inside the payload of the block of p, every header read inside them is zero,
and the headers of the chain and gpOSMemLFree are those that OSMemMalloc
leaves. -/
theorem C14_zero_filled_allocation (cfg : Config) (h : cfg.WF) {s : Heap} {L : Set Nat}
    (hr : Reachable cfg (callocFits cfg) s L) (fuel : Nat) {count size : Nat}
    (hfits : callocFits cfg count size) : CallocPost cfg fuel s count size := by
  obtain ⟨B, inv, _⟩ := hr.inv cfg h
  exact OSMemCalloc_post cfg h inv fuel hfits

/-- C14, witness: the default build after OSMemInit; OSMemCalloc(2, 8). -/
theorem C14_zero_filled_allocation_witness :
    defaultConfig.WF ∧ Reachable defaultConfig (callocFits defaultConfig) run0 ∅ ∧
    callocFits defaultConfig 2 8 ∧ CallocPost defaultConfig 8 run0 2 8 :=
  ⟨by decide, Reachable.init startState, by unfold callocFits; decide,
    C14_zero_filled_allocation defaultConfig (by decide) (Reachable.init startState) 8
      (by unfold callocFits; decide)⟩

/-- C14, counterexample: on the default build, where uOSMemSize_t has 16
bits, OSMemCalloc(257, 256) after OSMemInit returns the payload address of the
block at offset 0, which OSMemMalloc(65792 mod 65536 = 256) has cut to a
capacity of 256: the 65792 bytes that memset zeroes do not lie inside it. -/
theorem C14_counterexample :
    Reachable defaultConfig anyCallocArgs run0 ∅ ∧
    OSMemCalloc defaultConfig 8 run0 257 256 = some (runA.1, 4104) ∧
    capacityOf defaultConfig runC1.1 0 = 256 ∧
    ¬ CallocPost defaultConfig 8 run0 257 256 := by
  refine ⟨Reachable.init startState, rfl, by decide, fun hc => ?_⟩
  obtain ⟨s1, o, hm, _, _, e, hin, _⟩ := hc runA.1 4104 rfl (by decide)
  have hm' : OSMemMalloc defaultConfig 8 run0 (uOSMemSize_t defaultConfig (257 * 256))
      = some (runC1.1, 4104) := rfl
  rw [hm'] at hm
  simp only [Option.some.injEq, Prod.mk.injEq, and_true] at hm
  subst hm
  have e1 : runC1.1.gpOSMemBegin = 4096 := by decide
  have e2 : SIZEOF_OSMEM_ALIGNED defaultConfig = 8 := by decide
  rw [e1, e2] at e
  have ho : o = 0 := by omega
  subst ho
  have e3 : nextOf runC1.1 0 = 264 := by decide
  rw [e3] at hin
  omega

/-- C15: for every well-formed configuration and from any prior state,
OSMemInit leaves a header at offset 0 with NextMem = OSMEM_SIZE_ALIGNED,
PrevMem = 0 and Used = 0, the end header at offset OSMEM_SIZE_ALIGNED with
Used = 1 and NextMem = PrevMem = OSMEM_SIZE_ALIGNED, and gpOSMemLFree at
offset 0: one free block of payload capacity
OSMEM_SIZE_ALIGNED - SIZEOF_OSMEM_ALIGNED. -/
theorem C15_init_postcondition (cfg : Config) (h : cfg.WF) (s0 : Heap) :
    InitPost cfg (OSMemInit cfg s0) := by
  obtain ⟨hH, hM, hHM, hEW, hW, hb, hbE⟩ := WF_facts cfg h
  have hE := uOSMemSize_t_of_lt cfg hEW
  unfold InitPost capacityOf
  refine ⟨?_, ?_, ?_, ?_, ?_, ?_, ?_, ?_, ?_⟩ <;>
    simp [OSMemInit, nextOf, prevOf, usedOf, hE]
  all_goals omega

/-- C15, witness: the default build, OSMemInit called in the state that has
the live allocation a = OSMemMalloc(16). -/
theorem C15_init_postcondition_witness :
    defaultConfig.WF ∧ InitPost defaultConfig (OSMemInit defaultConfig runB1.1) :=
  ⟨by decide, C15_init_postcondition defaultConfig (by decide) runB1.1⟩

/-- C16, evaluation of the scenario on the small build (alignment 4, header
size 8, minimum block 16, heap capacity 64): OSMemInit leaves one free block
of payload 56 at offset 0; OSMemMalloc(10) returns the payload at offset 8
and leaves a used block of payload 16 at offset 0 and a free block of payload
32 at offset 24; OSMemMalloc(40) returns null and changes nothing;
OSMemFree of the first pointer leaves one free block of payload 56 at offset
0, the end header used with NextMem = 64 and gpOSMemLFree at offset 0, but
the end header has PrevMem = 0, where OSMemInit had left 64. -/
theorem C16_scenario_end_header :
    SIZEOF_OSMEM_ALIGNED smallConfig = 8 ∧ OSMIN_SIZE_ALIGNED smallConfig = 16 ∧
    OSMEM_SIZE_ALIGNED smallConfig = 64 ∧
    InitPost smallConfig (OSMemInit smallConfig startState) ∧
    capacityOf smallConfig (OSMemInit smallConfig startState) 0 = 56 ∧
    OSMemMalloc smallConfig 8 (OSMemInit smallConfig startState) 10 = some (runS1.1, 4104) ∧
    4104 = runS1.1.gpOSMemBegin + 8 ∧
    usedOf runS1.1 0 = 1 ∧ capacityOf smallConfig runS1.1 0 = 16 ∧
    nextOf runS1.1 0 = 24 ∧ usedOf runS1.1 24 = 0 ∧ capacityOf smallConfig runS1.1 24 = 32 ∧
    nextOf runS1.1 24 = 64 ∧
    OSMemMalloc smallConfig 8 runS1.1 40 = some (runS1.1, OS_NULL) ∧
    usedOf runS3 0 = 0 ∧ nextOf runS3 0 = 64 ∧ prevOf runS3 0 = 0 ∧
    capacityOf smallConfig runS3 0 = 56 ∧
    usedOf runS3 64 = 1 ∧ nextOf runS3 64 = 64 ∧
    runS3.gpOSMemLFree = runS3.gpOSMemBegin + 0 ∧
    prevOf (OSMemInit smallConfig startState) 64 = 64 ∧
    prevOf runS3 64 = 0 :=
  ⟨by decide, by decide, by decide, by decide, by decide, rfl, by decide, by decide, by decide,
    by decide, by decide, by decide, by decide, rfl, by decide, by decide, by decide, by decide,
    by decide, by decide, by decide, by decide, by decide⟩

/-- C17 (amended): in every heap state reached from OSMemInit by calls on
live, null or out-of-range pointers whose OSMemCalloc byte counts neither
overflow uOSMemSize_t nor wrap around when rounded up, the sum over the
headers of the chain, the end header included with a payload capacity of 0,
of SIZEOF_OSMEM_ALIGNED plus the payload capacity is
OSMEM_SIZE_ALIGNED + SIZEOF_OSMEM_ALIGNED: the walk yields it with
OSMEM_SIZE_ALIGNED + 1 units of fuel and yields no other value.  The array
OSRamHeap has SIZEOF_OSMEM_ALIGNED + OSMEM_ALIGNMENT bytes more. -/
theorem C17_conservation (cfg : Config) (h : cfg.WF) {s : Heap} {L : Set Nat}
    (hr : Reachable cfg (callocFits cfg) s L) :
    (∀ fuel, OSMEM_SIZE_ALIGNED cfg < fuel →
      chainSum cfg s fuel 0 = some (OSMEM_SIZE_ALIGNED cfg + SIZEOF_OSMEM_ALIGNED cfg)) ∧
    (∀ fuel v, chainSum cfg s fuel 0 = some v →
      v = OSMEM_SIZE_ALIGNED cfg + SIZEOF_OSMEM_ALIGNED cfg) ∧
    OSRamHeap_size cfg = OSMEM_SIZE_ALIGNED cfg + SIZEOF_OSMEM_ALIGNED cfg +
      (SIZEOF_OSMEM_ALIGNED cfg + cfg.OSMEM_ALIGNMENT) := by
  obtain ⟨B, inv, _⟩ := hr.inv cfg h
  refine ⟨fun fuel hf => ?_, fun fuel v hv => ?_, by unfold OSRamHeap_size; omega⟩
  · have := (chainSum_eq cfg h inv.chain fuel 0 (Or.inl inv.chain.zero_mem)).1 (by omega)
    rw [this, Nat.sub_zero]
  · have := (chainSum_eq cfg h inv.chain fuel 0 (Or.inl inv.chain.zero_mem)).2 v hv
    rw [this, Nat.sub_zero]

/-- C17, witness: the default build after OSMemInit and OSMemMalloc(16). -/
theorem C17_conservation_witness :
    defaultConfig.WF ∧
    Reachable defaultConfig (callocFits defaultConfig) runB1.1 (insert 4104 ∅) ∧
    chainSum defaultConfig runB1.1 513 0 = some 520 ∧
    OSRamHeap_size defaultConfig = 532 :=
  ⟨by decide, reachable_runB1,
    (C17_conservation defaultConfig (by decide) reachable_runB1).1 513 (by decide),
    by decide⟩

/-- C17, counterexample: on the default build right after OSMemInit the chain
is one free block of 8 + 504 bytes and the end header, 8 bytes: the sum is
520, and the arena has 512 + 2 * 8 + 4 = 532 bytes. -/
theorem C17_counterexample :
    Reachable defaultConfig anyCallocArgs run0 ∅ ∧
    chainSum defaultConfig run0 2 0 = some 520 ∧
    OSRamHeap_size defaultConfig = 532 ∧
    ¬ Conservation defaultConfig run0 := by
  refine ⟨Reachable.init startState, by decide, by decide, ?_⟩
  rintro ⟨fuel, hf⟩
  have := (chainSum_eq defaultConfig (by decide) (Inv_init defaultConfig (by decide)
    startState).chain fuel 0 (Or.inl rfl)).2 _ hf
  revert this
  decide

/-- C18 (amended): in every heap state reached from OSMemInit by calls on
live, null or out-of-range pointers whose OSMemCalloc byte counts count * size
neither overflow uOSMemSize_t nor wrap around when rounded up, every offset
that the walk of the chain meets is a multiple of OSMEM_ALIGNMENT, and every
pointer other than null that OSMemMalloc or OSMemCalloc returns is at an
aligned address and at a multiple of OSMEM_ALIGNMENT from gpOSMemBegin. -/
theorem C18_alignment (cfg : Config) (h : cfg.WF) {s : Heap} {L : Set Nat}
    (hr : Reachable cfg (callocFits cfg) s L) : AlignmentPost cfg s := by
  obtain ⟨R, al⟩ := hr.alignW cfg h
  have hH : cfg.OSMEM_ALIGNMENT ∣ SIZEOF_OSMEM_ALIGNED cfg := align_dvd cfg h _
  have hb : cfg.OSMEM_ALIGNMENT ∣ s.gpOSMemBegin := by
    rw [al.hbegin, align_addr_eq]; exact align_dvd cfg h _
  have key : ∀ p, (∃ k, R k ∧ p = s.gpOSMemBegin + k + SIZEOF_OSMEM_ALIGNED cfg) →
      AlignedPointer cfg s p := by
    rintro p ⟨k, hk, e⟩
    have hk' := al.dvd k hk
    refine ⟨by omega, ?_, ?_⟩
    · have : p - s.gpOSMemBegin = k + SIZEOF_OSMEM_ALIGNED cfg := by omega
      rw [this]; exact Dvd.dvd.add hk' hH
    · rw [e]; exact Dvd.dvd.add (Dvd.dvd.add hb hk') hH
  refine ⟨fun o ho => al.dvd o (InChain.aligned al ho), ?_, ?_⟩
  · intro fuel n t p hm hp
    obtain ⟨_, _, _, _, hk⟩ := al.malloc cfg h hm
    exact key p (hk hp)
  · intro fuel count size t p hc hp
    obtain ⟨_, _, _, _, hk⟩ := al.calloc cfg h hc
    exact key p (hk hp)

/-- C18, witness: the default build after OSMemInit, a = OSMemMalloc(256) and
b = OSMemMalloc(16). -/
theorem C18_alignment_witness :
    defaultConfig.WF ∧
    Reachable defaultConfig (callocFits defaultConfig) runC2.1 (insert 4368 (insert 4104 ∅)) ∧
    AlignmentPost defaultConfig runC2.1 :=
  ⟨by decide, reachable_runC2 (callocFits defaultConfig),
    C18_alignment defaultConfig (by decide) (reachable_runC2 (callocFits defaultConfig))⟩

/-- C18, counterexample: on the default build, where uOSMemSize_t has 16
bits, with memory read and written as bytes, after OSMemInit,
a = OSMemMalloc(16), b = OSMemMalloc(28), OSMemFree(a),
c = OSMemCalloc(4097, 16), OSMemTrim(b, 32) and d = OSMemMalloc(40), all on
live pointers, the walk of the chain goes from offset 0 to the offsets 24 and
64 and then to offset 1, which is not a multiple of OSMEM_ALIGNMENT = 4.
OSMemCalloc allocates 16 bytes at offset 0 and zeroes 65552, the header of b
at offset 24 among them, while gpOSMemLFree keeps the address of the header at
offset 60.  OSMemTrim(b, 32) writes a header at offset 64, and OSMemMalloc(40)
takes the header at offset 60, whose Used byte is the low byte of the NextMem
of the header at offset 64. -/
theorem C18_counterexample :
    ¬ callocFits defaultConfig 4097 16 ∧
    Bytewise.Reachable defaultConfig anyCallocArgs Bytewise.runG6.1
      (insert 4164 (insert 4104
        ((insert 4128 (insert 4104 ∅) : Set Nat) \ {4104}))) ∧
    Bytewise.runG5.1.gpOSMemLFree = Bytewise.runG5.1.gpOSMemBegin + 60 ∧
    Bytewise.nextOf defaultConfig Bytewise.runG5.1 64 = 0 ∧
    Bytewise.OSMemMalloc defaultConfig 8 Bytewise.runG5.1 40 = some (Bytewise.runG6.1, 4164) ∧
    Bytewise.nextOf defaultConfig Bytewise.runG6.1 0 = 24 ∧
    Bytewise.nextOf defaultConfig Bytewise.runG6.1 24 = 64 ∧
    Bytewise.nextOf defaultConfig Bytewise.runG6.1 64 = 1 ∧
    Bytewise.InChain defaultConfig Bytewise.runG6.1 1 ∧
    ¬ (∀ o, Bytewise.InChain defaultConfig Bytewise.runG6.1 o →
        defaultConfig.OSMEM_ALIGNMENT ∣ o) :=
  ⟨by unfold callocFits; decide, Bytewise.reachable_runG6, by decide, by decide, rfl, by decide, by decide,
    by decide, Bytewise.inChain_runG6,
    fun hall => absurd (hall 1 Bytewise.inChain_runG6) (by decide)⟩

/-- C19 (amended): in every heap state reached from OSMemInit by calls on
live, null or out-of-range pointers whose OSMemCalloc byte counts neither
overflow uOSMemSize_t nor wrap around when rounded up, and for every request
n with 1 <= n <= OSMEM_SIZE, with s = max(OSMEM_ALIGN_SIZE(n),
OSMIN_SIZE_ALIGNED), OSMemMalloc(n) returns; it returns null exactly when no
free block of the chain has a payload capacity of at least s, and otherwise
the payload address of the free block of lowest offset that has. -/
theorem C19_first_fit (cfg : Config) (h : cfg.WF) {s : Heap} {L : Set Nat}
    (hr : Reachable cfg (callocFits cfg) s L) (n : Nat) (h1 : 1 ≤ n)
    (h2 : n ≤ OSMEM_SIZE cfg) : FirstFitPost cfg s n := by
  obtain ⟨hH, hM, hHM, hEW, hW, hb0, hbE⟩ := WF_facts cfg h
  obtain ⟨B, inv, _⟩ := hr.inv cfg h
  obtain ⟨sp1, sp2⟩ := OSMemMalloc_spec cfg h inv n
  obtain ⟨rm1, rm2⟩ := roundedSize_eq_max cfg h h2
  have hpos : 0 < roundedSize cfg n := Nat.lt_of_lt_of_le hM (roundedSize_ge cfg n)
  unfold FirstFitPost
  rw [← rm1]
  refine ⟨?_, fun fuel t p hm => ?_⟩
  · obtain ⟨r, hr'⟩ := sp1 _ le_rfl
    exact ⟨_, r, hr'⟩
  rcases sp2 fuel t p hm with ⟨e, _, hno⟩ | ⟨_, o, ho, hf, hmin, e, _⟩
  · have hno' : ∀ a, B a → ¬ Fits cfg s a (roundedSize cfg n) := by
      rcases hno with x | x | x
      · omega
      · omega
      · exact x
    refine ⟨⟨fun _ o hb hu => ?_, fun _ => e⟩, fun hne => absurd e hne⟩
    by_contra hc
    exact hno' o ((inv.chain.isBlock_iff hM o).mp hb)
      ((fits_capacity cfg s o hpos).mpr ⟨hu, by omega⟩)
  · have hne : p ≠ OS_NULL := by
      rw [e, inv.chain.hbegin]; unfold OS_NULL; omega
    obtain ⟨f1, f2⟩ := (fits_capacity cfg s o hpos).mp hf
    have hblk := (inv.chain.isBlock_iff hM o).mpr ho
    refine ⟨⟨fun x => absurd x hne, fun hall => ?_⟩, fun _ => ⟨o, hblk, f1, f2, e, ?_⟩⟩
    · have := hall o hblk f1
      omega
    · intro a ha hu hc
      by_contra hlt
      exact hmin a ((inv.chain.isBlock_iff hM a).mp ha) (by omega)
        ((fits_capacity cfg s a hpos).mpr ⟨hu, hc⟩)

/-- C19, witness: the default build after OSMemInit and a = OSMemMalloc(16);
request of 16 bytes. -/
theorem C19_first_fit_witness :
    defaultConfig.WF ∧
    Reachable defaultConfig (callocFits defaultConfig) runB1.1 (insert 4104 ∅) ∧
    1 ≤ 16 ∧ 16 ≤ OSMEM_SIZE defaultConfig ∧ FirstFitPost defaultConfig runB1.1 16 :=
  ⟨by decide, reachable_runB1, by decide, by decide,
    C19_first_fit defaultConfig (by decide) reachable_runB1 16 (by decide) (by decide)⟩

/-- C19, counterexample: on the default build, where uOSMemSize_t has 16
bits, after OSMemInit, a = OSMemMalloc(256), b = OSMemMalloc(16),
OSMemFree(a) and OSMemCalloc(257, 256), the chain from offset 0 is the used
block at 0 and the zeroed header at 264, whose payload capacity is 0, and
gpOSMemLFree is at offset 288, outside the chain.  No free block of the chain
holds 16 bytes, but OSMemMalloc(16) returns the payload address of offset
288, not null. -/
theorem C19_counterexample :
    Reachable defaultConfig anyCallocArgs runC4.1
      (insert 4104 ((insert 4368 (insert 4104 ∅) : Set Nat) \ {4104})) ∧
    1 ≤ 16 ∧ 16 ≤ OSMEM_SIZE defaultConfig ∧
    OSMemMalloc defaultConfig 8 runC4.1 16 = some (runC5.1, 4392) ∧
    ¬ FirstFitPost defaultConfig runC4.1 16 := by
  refine ⟨reachable_runC4, by decide, by decide, rfl, ?_⟩
  rintro ⟨_, hpost⟩
  obtain ⟨hiff, _⟩ := hpost 8 runC5.1 4392 rfl
  have : (4392 : Nat) = OS_NULL := by
    apply hiff.mpr
    intro o ho hu
    rcases inChain_runC4 ho.1 with e | e
    · subst e; revert hu; decide
    · subst e; decide
  revert this
  decide

/-- C20: in every heap state reached from OSMemInit by calls within the
contract, when OSMemMalloc(n) returns a pointer other than null, the block it
has chosen, at offset o, was a free block of the chain with a payload
capacity c of at least the rounded size s; if c >= s +
SIZEOF_OSMEM_ALIGNED + OSMIN_SIZE_ALIGNED the block ends with capacity s and
Used = 1, and the header at o + SIZEOF_OSMEM_ALIGNED + s is a free block of
the chain whose NextMem is the old NextMem of the block and whose PrevMem is
o; otherwise the blocks of the chain and every NextMem, PrevMem and Used are
as before, but for Used = 1 in the block. -/
theorem C20_split_decision (cfg : Config) (h : cfg.WF) {s : Heap} {L : Set Nat}
    (hr : Reachable cfg (callocFits cfg) s L) {fuel n : Nat} {t : Heap} {p : Nat}
    (hm : OSMemMalloc cfg fuel s n = some (t, p)) (hp : p ≠ OS_NULL) :
    IsBlock cfg s (headerOf cfg s p) ∧ usedOf s (headerOf cfg s p) = 0 ∧
    roundedSize cfg n ≤ capacityOf cfg s (headerOf cfg s p) ∧
    p = s.gpOSMemBegin + headerOf cfg s p + SIZEOF_OSMEM_ALIGNED cfg ∧
    SplitPost cfg s t (headerOf cfg s p) (roundedSize cfg n) := by
  obtain ⟨B, inv, _⟩ := hr.inv cfg h
  exact OSMemMalloc_split cfg h inv hm hp

/-- C20, witness: the default build after OSMemInit; OSMemMalloc(16) splits
the block at offset 0. -/
theorem C20_split_decision_witness :
    defaultConfig.WF ∧ Reachable defaultConfig (callocFits defaultConfig) run0 ∅ ∧
    OSMemMalloc defaultConfig 8 run0 16 = some (runB1.1, 4104) ∧ 4104 ≠ OS_NULL ∧
    SplitPost defaultConfig run0 runB1.1 (headerOf defaultConfig run0 4104)
      (roundedSize defaultConfig 16) :=
  ⟨by decide, Reachable.init startState, rfl, by decide,
    (C20_split_decision defaultConfig (by decide) (Reachable.init startState)
      (show OSMemMalloc defaultConfig 8 run0 16 = some (runB1.1, 4104) from rfl)
      (by decide)).2.2.2.2⟩

/-! ## Claims C21 to C25 -/

/-- C21 (amended): in every heap state reached from OSMemInit by OSMemMalloc,
OSMemCalloc, OSMemFree and OSMemTrim calls on live, null or out-of-range
pointers whose OSMemCalloc byte counts count * size neither overflow
uOSMemSize_t nor wrap around when rounded up, for every live pointer p, with o
the offset of its header, whose chain successor (the header that the NextMem
of the block designates) has Used = 0, and for every newsize whose rounded
value s = max(OSMEM_ALIGN_SIZE(newsize), OSMIN_SIZE_ALIGNED) is strictly less
than the payload capacity of the block, OSMemTrim(p, newsize) returns p and
leaves the block with a capacity of exactly s; the header at
o + SIZEOF_OSMEM_ALIGNED + s is then free, has the NextMem of the old free
header and is a block of the chain; the block that follows has it as PrevMem
unless the end header follows; and gpOSMemLFree points at it when it pointed
at the old free header, and is unchanged otherwise. -/
theorem C21_trim_free_successor (cfg : Config) (h : cfg.WF) {s : Heap} {L : Set Nat}
    (hr : Reachable cfg (callocFits cfg) s L) {p : Nat} (hp : p ∈ L) (newsize : Nat)
    (hfree : usedOf s (nextOf s (headerOf cfg s p)) = 0)
    (hlt : max (OSMEM_ALIGN_SIZE cfg newsize) (OSMIN_SIZE_ALIGNED cfg)
      < capacityOf cfg s (headerOf cfg s p)) :
    TrimMovePost cfg s p newsize := by
  obtain ⟨hH, hM, _⟩ := WF_facts cfg h
  obtain ⟨B, inv, hL⟩ := hr.inv cfg h
  obtain ⟨R, al⟩ := hr.alignW cfg h
  obtain ⟨o, ho, _, e⟩ := (hL p).mp hp
  have hh : headerOf cfg s p = o := by
    rw [e]; exact headerOf_block cfg h inv.chain (inv.chain.lt_end' ho)
  exact trimMovePost_live cfg h al hp newsize
    (by rw [hh]; exact (inv.chain.isBlock_iff hM o).mpr ho) hfree
    (by rw [hh]; exact inv.chain.next_le o ho) hlt

/-- C21, witness: the default build after OSMemInit and a = OSMemMalloc(256);
the block of a has a capacity of 256 and the free block at offset 264 follows
it.  OSMemTrim(a, 16) leaves a capacity of 16 and a free header at offset 24
with NextMem = 512, where gpOSMemLFree points. -/
theorem C21_trim_free_successor_witness :
    defaultConfig.WF ∧
    Reachable defaultConfig (callocFits defaultConfig) runC1.1 (insert 4104 ∅) ∧
    usedOf runC1.1 (nextOf runC1.1 (headerOf defaultConfig runC1.1 4104)) = 0 ∧
    max (OSMEM_ALIGN_SIZE defaultConfig 16) (OSMIN_SIZE_ALIGNED defaultConfig)
      < capacityOf defaultConfig runC1.1 (headerOf defaultConfig runC1.1 4104) ∧
    TrimMovePost defaultConfig runC1.1 4104 16 ∧
    nextOf (OSMemTrim defaultConfig runC1.1 4104 16).1 24 = 512 ∧
    (OSMemTrim defaultConfig runC1.1 4104 16).1.gpOSMemLFree = 4120 :=
  ⟨by decide,
    Reachable.malloc (t := runC1.1) (p := 4104) 8 256 (Reachable.init startState)
      (show OSMemMalloc defaultConfig 8 run0 256 = some (runC1.1, 4104) from rfl),
    by decide, by decide,
    C21_trim_free_successor defaultConfig (by decide)
      (Reachable.malloc (t := runC1.1) (p := 4104) 8 256
        (@Reachable.init defaultConfig (callocFits defaultConfig) startState)
        (show OSMemMalloc defaultConfig 8 run0 256 = some (runC1.1, 4104) from rfl))
      (Or.inl rfl) 16 (by decide) (by decide),
    by decide, by decide⟩

/-- C21, counterexample: on the default build, where uOSMemSize_t has 16
bits, with memory read and written as bytes, after OSMemInit,
a = OSMemMalloc(16), c = OSMemCalloc(257, 256) (which allocates 256 bytes at
offset 24 and zeroes 65792), e = OSMemMalloc(16), f = OSMemMalloc(60),
OSMemFree(a), OSMemFree(e) and g = OSMemMalloc(64), the walk of the chain goes
0, 72, 312, 380, 24, 288: the block of the live pointer c at offset 24 has a
capacity of 256 and the free block at offset 288 as its chain successor, and
the free block at offset 72 lies inside its payload.  OSMemTrim(c, 36) returns
c and writes the moved header at offset 24 + 8 + 36 = 68; its Used byte, at
offset 72, is the low byte of the NextMem of the header at offset 72, which
goes from 312 to 256.  The walk of the chain is then 0, 72, 256 and back to 0:
neither the moved header nor the block of c is a block of the chain. -/
theorem C21_counterexample :
    ¬ callocFits defaultConfig 257 256 ∧
    Bytewise.Reachable defaultConfig anyCallocArgs Bytewise.runH7.1
      (insert 4104
        ((((insert 4416 (insert 4392 (insert 4128 (insert 4104 ∅))) : Set Nat) \ {4104})
          \ {4392}))) ∧
    Bytewise.runH2.2 = 4128 ∧
    Bytewise.headerOf defaultConfig Bytewise.runH7.1 4128 = 24 ∧
    Bytewise.IsBlock defaultConfig Bytewise.runH7.1 24 ∧
    Bytewise.usedOf defaultConfig Bytewise.runH7.1 24 = 1 ∧
    Bytewise.capacityOf defaultConfig Bytewise.runH7.1 24 = 256 ∧
    Bytewise.nextOf defaultConfig Bytewise.runH7.1 24 = 288 ∧
    Bytewise.IsBlock defaultConfig Bytewise.runH7.1 288 ∧
    Bytewise.usedOf defaultConfig Bytewise.runH7.1 288 = 0 ∧
    max (OSMEM_ALIGN_SIZE defaultConfig 36) (OSMIN_SIZE_ALIGNED defaultConfig) = 36 ∧
    Bytewise.nextOf defaultConfig Bytewise.runH7.1 72 = 312 ∧
    Bytewise.runH8.2 = 4128 ∧
    Bytewise.nextOf defaultConfig Bytewise.runH8.1 24 = 68 ∧
    Bytewise.nextOf defaultConfig Bytewise.runH8.1 72 = 256 ∧
    ¬ Bytewise.IsBlock defaultConfig Bytewise.runH8.1 68 ∧
    ¬ Bytewise.IsBlock defaultConfig Bytewise.runH8.1 24 := by
  refine ⟨by unfold callocFits; decide, Bytewise.reachable_runH7, by decide, by decide,
    ⟨Bytewise.inChain_runH7.1, by decide⟩, by decide, by decide, by decide,
    ⟨Bytewise.inChain_runH7.2, by decide⟩, by decide, by decide, by decide, by decide,
    by decide, by decide, ?_, ?_⟩
  · rintro ⟨hc, _⟩
    rcases Bytewise.inChain_runH8 hc with e | e | e <;> exact absurd e (by decide)
  · rintro ⟨hc, _⟩
    rcases Bytewise.inChain_runH8 hc with e | e | e <;> exact absurd e (by decide)

/-- C22 (amended): in every heap state reached from OSMemInit by OSMemMalloc,
OSMemCalloc, OSMemFree and OSMemTrim calls on live, null or out-of-range
pointers whose OSMemCalloc byte counts count * size neither overflow
uOSMemSize_t nor wrap around when rounded up, for every live pointer p, with o
the offset of its header and c its payload capacity, whose chain successor
(the header that the NextMem of the block designates, a block or the end
header) has Used other than 0, and for every newsize whose rounded value
s = max(OSMEM_ALIGN_SIZE(newsize), OSMIN_SIZE_ALIGNED) is strictly less than
c, OSMemTrim(p, newsize) returns p.  When
c - s >= SIZEOF_OSMEM_ALIGNED + OSMIN_SIZE_ALIGNED the block is left with a
capacity of exactly s, the header at o + SIZEOF_OSMEM_ALIGNED + s is free,
ends where the block ended (it has the NextMem that the block had) and is a
block of the chain, and gpOSMemLFree becomes its address when that address is
lower than the one it held, and is unchanged otherwise.  When c - s is smaller
the state is unchanged. -/
theorem C22_trim_used_successor (cfg : Config) (h : cfg.WF) {s : Heap} {L : Set Nat}
    (hr : Reachable cfg (callocFits cfg) s L) {p : Nat} (hp : p ∈ L) (newsize : Nat)
    (hused : usedOf s (nextOf s (headerOf cfg s p)) ≠ 0)
    (hlt : max (OSMEM_ALIGN_SIZE cfg newsize) (OSMIN_SIZE_ALIGNED cfg)
      < capacityOf cfg s (headerOf cfg s p)) :
    TrimSplitPost cfg s p newsize := by
  obtain ⟨hH, hM, _⟩ := WF_facts cfg h
  obtain ⟨B, inv, hL⟩ := hr.inv cfg h
  obtain ⟨R, al⟩ := hr.alignW cfg h
  obtain ⟨o, ho, _, e⟩ := (hL p).mp hp
  have hh : headerOf cfg s p = o := by
    rw [e]; exact headerOf_block cfg h inv.chain (inv.chain.lt_end' ho)
  exact trimSplitPost_live cfg h al hp newsize
    (by rw [hh]; exact (inv.chain.isBlock_iff hM o).mpr ho) hused
    (by rw [hh]; exact inv.chain.next_le o ho) hlt

/-- C22, witness: the default build after OSMemInit, a = OSMemMalloc(256) and
b = OSMemMalloc(16); the block of a has a capacity of 256 and the used block
of b follows it.  OSMemTrim(a, 16) leaves a capacity of 16 and a free header
at offset 24 with NextMem = 264, where gpOSMemLFree then points, and
OSMemTrim(a, 240), with 256 - 240 < 8 + 16, changes nothing. -/
theorem C22_trim_used_successor_witness :
    defaultConfig.WF ∧
    Reachable defaultConfig (callocFits defaultConfig) runC2.1 (insert 4368 (insert 4104 ∅)) ∧
    usedOf runC2.1 (nextOf runC2.1 (headerOf defaultConfig runC2.1 4104)) ≠ 0 ∧
    max (OSMEM_ALIGN_SIZE defaultConfig 16) (OSMIN_SIZE_ALIGNED defaultConfig)
      < capacityOf defaultConfig runC2.1 (headerOf defaultConfig runC2.1 4104) ∧
    max (OSMEM_ALIGN_SIZE defaultConfig 240) (OSMIN_SIZE_ALIGNED defaultConfig)
      < capacityOf defaultConfig runC2.1 (headerOf defaultConfig runC2.1 4104) ∧
    TrimSplitPost defaultConfig runC2.1 4104 16 ∧
    TrimSplitPost defaultConfig runC2.1 4104 240 ∧
    nextOf (OSMemTrim defaultConfig runC2.1 4104 16).1 0 = 24 ∧
    nextOf (OSMemTrim defaultConfig runC2.1 4104 16).1 24 = 264 ∧
    (OSMemTrim defaultConfig runC2.1 4104 16).1.gpOSMemLFree = 4120 ∧
    nextOf (OSMemTrim defaultConfig runC2.1 4104 240).1 0 = 264 :=
  ⟨by decide, reachable_runC2 (callocFits defaultConfig), by decide, by decide, by decide,
    C22_trim_used_successor defaultConfig (by decide)
      (reachable_runC2 (callocFits defaultConfig)) (Or.inr (Or.inl rfl)) 16
      (by decide) (by decide),
    C22_trim_used_successor defaultConfig (by decide)
      (reachable_runC2 (callocFits defaultConfig)) (Or.inr (Or.inl rfl)) 240
      (by decide) (by decide),
    by decide, by decide, by decide, by decide⟩

/-- C22, counterexample: on the default build, where uOSMemSize_t has 16
bits, with memory read and written as bytes, after OSMemInit,
a = OSMemMalloc(16), b = OSMemMalloc(60), c = OSMemCalloc(257, 256) (which
allocates 256 bytes at offset 92 and zeroes 65792), e = OSMemMalloc(28),
OSMemFree(a), f = OSMemMalloc(24), OSMemFree(e) and g = OSMemMalloc(64), the
walk of the chain goes 0, 72, 392, 424, 24, 92, 356: the block of the live
pointer b at offset 24 has a capacity of 60 and the used block of c at offset
92 as its chain successor, and the free block at offset 72 lies inside its
payload.  OSMemTrim(b, 36), with 60 - 36 = 8 + 16, returns b and writes the
header of the new free block at offset 24 + 8 + 36 = 68; its Used byte, at
offset 72, is the low byte of the NextMem of the header at offset 72, which
goes from 392 to 256.  The walk of the chain is then 0, 72, 256 and back to 0:
neither the new header nor the block of b is a block of the chain. -/
theorem C22_counterexample :
    ¬ callocFits defaultConfig 257 256 ∧
    Bytewise.Reachable defaultConfig anyCallocArgs Bytewise.runK8.1
      (insert 4104
        ((insert 4496
          ((insert 4460 (insert 4196 (insert 4128 (insert 4104 ∅))) : Set Nat) \ {4104}))
          \ {4460})) ∧
    Bytewise.runK2.2 = 4128 ∧
    Bytewise.headerOf defaultConfig Bytewise.runK8.1 4128 = 24 ∧
    Bytewise.IsBlock defaultConfig Bytewise.runK8.1 24 ∧
    Bytewise.usedOf defaultConfig Bytewise.runK8.1 24 = 1 ∧
    Bytewise.capacityOf defaultConfig Bytewise.runK8.1 24 = 60 ∧
    Bytewise.nextOf defaultConfig Bytewise.runK8.1 24 = 92 ∧
    Bytewise.IsBlock defaultConfig Bytewise.runK8.1 92 ∧
    Bytewise.usedOf defaultConfig Bytewise.runK8.1 92 = 1 ∧
    max (OSMEM_ALIGN_SIZE defaultConfig 36) (OSMIN_SIZE_ALIGNED defaultConfig) = 36 ∧
    SIZEOF_OSMEM_ALIGNED defaultConfig + OSMIN_SIZE_ALIGNED defaultConfig ≤ 60 - 36 ∧
    Bytewise.nextOf defaultConfig Bytewise.runK8.1 72 = 392 ∧
    Bytewise.runK9.2 = 4128 ∧
    Bytewise.nextOf defaultConfig Bytewise.runK9.1 24 = 68 ∧
    Bytewise.nextOf defaultConfig Bytewise.runK9.1 72 = 256 ∧
    ¬ Bytewise.IsBlock defaultConfig Bytewise.runK9.1 68 ∧
    ¬ Bytewise.IsBlock defaultConfig Bytewise.runK9.1 24 := by
  refine ⟨by unfold callocFits; decide, Bytewise.reachable_runK8, by decide, by decide,
    ⟨Bytewise.inChain_runK8.1, by decide⟩, by decide, by decide, by decide,
    ⟨Bytewise.inChain_runK8.2, by decide⟩, by decide, by decide, by decide, by decide,
    by decide, by decide, by decide, ?_, ?_⟩
  · rintro ⟨hc, _⟩
    rcases Bytewise.inChain_runK9 hc with e | e | e <;> exact absurd e (by decide)
  · rintro ⟨hc, _⟩
    rcases Bytewise.inChain_runK9 hc with e | e | e <;> exact absurd e (by decide)

/-- C23 (amended): on every heap state whose links satisfy the chain
invariant (the blocks tile the heap from offset 0 to the end header, each with
room for a header and a minimum payload, NextMem strictly increasing up to the
self-linked end header, PrevMem its inverse) and in which gpOSMemLFree is the
address of a header met on the walk of the chain, a block or the end header,
both loops of OSMemMalloc end: for every request, OSMemMalloc returns within
OSMEM_SIZE_ALIGNED + 2 loop iterations, and what it returns does not depend
on the fuel, so that OSMemMalloc is a total function of the state and the
request.  Nothing is asked of the Used flags. -/
theorem C23_malloc_terminates (cfg : Config) (h : cfg.WF) {s : Heap} {B : Nat → Prop}
    (c : ChainW cfg s B) {lf : Nat} (hl : s.gpOSMemLFree = s.gpOSMemBegin + lf)
    (hlf : InChain cfg s lf) (n : Nat) : MallocTotal cfg s n :=
  OSMemMalloc_total cfg h c hl hlf n

/-- C23, witness: the default build after OSMemInit, where gpOSMemLFree points
at the block at offset 0, and the request OSMemMalloc(16). -/
theorem C23_malloc_terminates_witness :
    defaultConfig.WF ∧
    ChainW defaultConfig run0 (fun o => o = 0) ∧
    run0.gpOSMemLFree = run0.gpOSMemBegin + 0 ∧
    InChain defaultConfig run0 0 ∧
    MallocTotal defaultConfig run0 16 :=
  ⟨by decide, (Inv_init defaultConfig (by decide) startState).chain, rfl, InChain.first,
    C23_malloc_terminates defaultConfig (by decide)
      (Inv_init defaultConfig (by decide) startState).chain
      (show run0.gpOSMemLFree = run0.gpOSMemBegin + 0 from rfl) InChain.first 16⟩

/-- C23, counterexample: the default build after OSMemInit, with the bytes at
address 4104 (offset 8, inside the payload of the free block) reading as a
header with NextMem = 8 and Used = 1, and with gpOSMemLFree = 4104.  The chain
is the one that OSMemInit wrote, so the chain invariant holds and the end
header is linked to itself, but offset 8 is not on the walk of the chain: the
scan loop of OSMemMalloc(16) starts at offset 8, finds a used header there and
goes on to its NextMem, offset 8 again, for ever. -/
theorem C23_counterexample :
    ChainInvariant defaultConfig loopState ∧
    ChainW defaultConfig loopState (fun o => o = 0) ∧
    nextOf loopState (OSMEM_SIZE_ALIGNED defaultConfig) = OSMEM_SIZE_ALIGNED defaultConfig ∧
    loopState.gpOSMemLFree = loopState.gpOSMemBegin + 8 ∧
    ¬ InChain defaultConfig loopState 8 ∧
    (∀ fuel, OSMemMalloc defaultConfig fuel loopState 16 = none) ∧
    ¬ MallocTotal defaultConfig loopState 16 := by
  have hnone : ∀ fuel, OSMemMalloc defaultConfig fuel loopState 16 = none := fun fuel =>
    (show OSMemMalloc defaultConfig fuel loopState 16
      = OSMemMalloc_scan defaultConfig 16 fuel loopState 8 from rfl).trans (scan_loopState fuel)
  refine ⟨⟨[0], rfl, by decide, by decide, by decide, by decide, ?_⟩, chainW_loopState,
    by decide, by decide, ?_, hnone, ?_⟩
  · show nextOf loopState 0 = OSMEM_SIZE_ALIGNED defaultConfig
    decide
  · intro hc
    rcases inChain_loopState hc with e | e <;> exact absurd e (by decide)
  · rintro ⟨r, hr⟩
    have := hr (OSMEM_SIZE_ALIGNED defaultConfig + 2) le_rfl
    rw [hnone] at this
    exact absurd this (by simp)

/-- C24 (amended): for every heap state that satisfies the invariants (the
blocks tile the heap from offset 0 to the end header and are linked both ways,
Used is 0 or 1, the end header is used, a free block is followed by a used
header, and gpOSMemLFree points at the lowest free block or at the end header)
and every call OSMemTrim(p, newsize) in which p is the payload address of a
block of the chain that is in use (Used = 1, as for a live pointer), the
resulting state is structurally valid: the chain invariant holds, no two
adjacent blocks of the chain are both free, and gpOSMemLFree points at the
lowest free block. -/
theorem C24_trim_of_used_block (cfg : Config) (h : cfg.WF) {s : Heap} {B : Nat → Prop}
    (inv : Inv cfg s B) {o : Nat} (ho : IsBlock cfg s o) (hu : usedOf s o = 1)
    (newsize : Nat) :
    ChainInvariant cfg
        (OSMemTrim cfg s (s.gpOSMemBegin + o + SIZEOF_OSMEM_ALIGNED cfg) newsize).1 ∧
      NoAdjacentFree cfg
        (OSMemTrim cfg s (s.gpOSMemBegin + o + SIZEOF_OSMEM_ALIGNED cfg) newsize).1 ∧
      LowestFree cfg
        (OSMemTrim cfg s (s.gpOSMemBegin + o + SIZEOF_OSMEM_ALIGNED cfg) newsize).1 := by
  obtain ⟨hH, hM, _⟩ := WF_facts cfg h
  obtain ⟨inv', _, _⟩ :=
    OSMemTrim_inv cfg h inv ((inv.chain.isBlock_iff hM o).mp ho) hu newsize
  exact ⟨inv'.chainInvariant cfg h, inv'.noAdjacentFree cfg h, inv'.lowestFree cfg h⟩

/-- C24, witness: the default build after OSMemInit and a = OSMemMalloc(256),
with the used block of a at offset 0 and the free block at offset 264.
OSMemTrim(a, 16) returns a and leaves the used block at offset 0 followed by
one free block at offset 24 that ends at the end header. -/
theorem C24_trim_of_used_block_witness :
    defaultConfig.WF ∧
    Inv defaultConfig runC1.1 (fun o => o = 0 ∨ o = 264) ∧
    IsBlock defaultConfig runC1.1 0 ∧ usedOf runC1.1 0 = 1 ∧
    runC1.2 = runC1.1.gpOSMemBegin + 0 + SIZEOF_OSMEM_ALIGNED defaultConfig ∧
    (ChainInvariant defaultConfig (OSMemTrim defaultConfig runC1.1 runC1.2 16).1 ∧
      NoAdjacentFree defaultConfig (OSMemTrim defaultConfig runC1.1 runC1.2 16).1 ∧
      LowestFree defaultConfig (OSMemTrim defaultConfig runC1.1 runC1.2 16).1) ∧
    (OSMemTrim defaultConfig runC1.1 runC1.2 16).2 = runC1.2 ∧
    nextOf (OSMemTrim defaultConfig runC1.1 runC1.2 16).1 0 = 24 ∧
    usedOf (OSMemTrim defaultConfig runC1.1 runC1.2 16).1 24 = 0 ∧
    nextOf (OSMemTrim defaultConfig runC1.1 runC1.2 16).1 24 = 512 :=
  ⟨by decide, inv_runC1, ⟨InChain.first, by decide⟩, by decide, by decide,
    C24_trim_of_used_block defaultConfig (by decide) inv_runC1
      ⟨InChain.first, by decide⟩ (by decide) 16,
    by decide, by decide, by decide, by decide⟩

/-- C24, counterexample: the default build after OSMemInit,
a = OSMemMalloc(64) and OSMemFree(a), followed by OSMemTrim(a, 16).  Before
the last call the heap is reached within the contract and satisfies the three
invariants, and a is the payload address of the block at offset 0, a block of
the chain that is free.  OSMemTrim does not look at the Used flag: it returns
a and cuts the free block at a payload of 16 bytes, so that the free block at
offset 0 is followed by a free block at offset 24. -/
theorem C24_counterexample :
    Reachable defaultConfig (callocFits defaultConfig) runU2
      ((insert 4104 ∅ : Set Nat) \ {4104}) ∧
    ChainInvariant defaultConfig runU2 ∧ NoAdjacentFree defaultConfig runU2 ∧
    LowestFree defaultConfig runU2 ∧
    IsBlock defaultConfig runU2 0 ∧ usedOf runU2 0 = 0 ∧
    runU1.2 = runU2.gpOSMemBegin + 0 + SIZEOF_OSMEM_ALIGNED defaultConfig ∧
    runU3.2 = runU1.2 ∧
    IsBlock defaultConfig runU3.1 0 ∧ usedOf runU3.1 0 = 0 ∧ nextOf runU3.1 0 = 24 ∧
    IsBlock defaultConfig runU3.1 24 ∧ usedOf runU3.1 24 = 0 ∧
    ¬ NoAdjacentFree defaultConfig runU3.1 := by
  have hr : Reachable defaultConfig (callocFits defaultConfig) runU2
      ((insert 4104 ∅ : Set Nat) \ {4104}) :=
    Reachable.free 4104
      (Reachable.malloc (t := runU1.1) (p := 4104) 8 64 (Reachable.init startState)
        (show OSMemMalloc defaultConfig 8 run0 64 = some (runU1.1, 4104) from rfl))
      (Or.inl rfl)
  obtain ⟨B, inv, _⟩ := hr.inv defaultConfig (by decide)
  have h24 : IsBlock defaultConfig runU3.1 24 := by
    have c1 := @InChain.step defaultConfig runU3.1 0 InChain.first (by decide)
    rw [show nextOf runU3.1 0 = 24 by decide] at c1
    exact ⟨c1, by decide⟩
  exact ⟨hr, inv.chainInvariant defaultConfig (by decide),
    inv.noAdjacentFree defaultConfig (by decide), inv.lowestFree defaultConfig (by decide),
    ⟨InChain.first, by decide⟩, by decide, by decide, by decide,
    ⟨InChain.first, by decide⟩, by decide, by decide, h24, by decide,
    fun hn => hn 0 ⟨InChain.first, by decide⟩ (by decide) (by decide)⟩

/-- C25 (amended): in every heap state reached from OSMemInit by OSMemMalloc,
OSMemCalloc, OSMemFree and OSMemTrim calls on live, null or out-of-range
pointers whose OSMemCalloc byte counts count * size neither overflow
uOSMemSize_t nor wrap around when rounded up, and for every used block of the
chain, a call OSMemMalloc(n), and a call OSMemFree(q) or OSMemTrim(q, m) on a
live pointer q of another block, leave the block at its header offset, a block
of the chain with the NextMem it had and with Used = 1, and the payload of a
block that OSMemMalloc returns shares no byte with the payload of the
block. -/
theorem C25_frame (cfg : Config) (h : cfg.WF) {s : Heap} {L : Set Nat}
    (hr : Reachable cfg (callocFits cfg) s L) {o : Nat} (hb : IsBlock cfg s o)
    (hu : usedOf s o = 1) : FramePost cfg s L o := by
  obtain ⟨hH, hM, _⟩ := WF_facts cfg h
  obtain ⟨B, inv, hL⟩ := hr.inv cfg h
  exact framePost_of_inv cfg h inv hL ((inv.chain.isBlock_iff hM o).mp hb) hu

/-- C25, witness: the default build after OSMemInit, a = OSMemMalloc(256) and
b = OSMemMalloc(16), and the used block of a at offset 0. -/
theorem C25_frame_witness :
    defaultConfig.WF ∧
    Reachable defaultConfig (callocFits defaultConfig) runC2.1
      (insert 4368 (insert 4104 ∅)) ∧
    IsBlock defaultConfig runC2.1 0 ∧ usedOf runC2.1 0 = 1 ∧
    FramePost defaultConfig runC2.1 (insert 4368 (insert 4104 ∅)) 0 :=
  ⟨by decide, reachable_runC2 (callocFits defaultConfig), ⟨InChain.first, by decide⟩,
    by decide,
    C25_frame defaultConfig (by decide) (reachable_runC2 (callocFits defaultConfig))
      ⟨InChain.first, by decide⟩ (by decide)⟩

/-- C25, counterexample: on the default build, where uOSMemSize_t has 16
bits, after OSMemInit, a = OSMemMalloc(16), c = OSMemCalloc(257, 256) (which
allocates 256 bytes at offset 24 and zeroes 65792), e = OSMemMalloc(16),
f = OSMemMalloc(16), OSMemFree(a) and OSMemFree(e), the block of the live
pointer c at offset 24 is a used block of the chain with NextMem = 288, and
the free block at offset 0 has NextMem = 312, so that it covers the block of c.
OSMemMalloc(16) then takes the block at offset 0 and puts the header of the
remainder at offset 24: the block of c is left with Used = 0 and
NextMem = 312. -/
theorem C25_counterexample :
    Reachable defaultConfig anyCallocArgs runF6
      (((insert 4416 (insert 4392 (insert 4128 (insert 4104 ∅))) : Set Nat) \ {4104})
        \ {4392}) ∧
    runF2.2 = 4128 ∧
    headerOf defaultConfig runF6 4128 = 24 ∧
    IsBlock defaultConfig runF6 24 ∧ usedOf runF6 24 = 1 ∧ nextOf runF6 24 = 288 ∧
    OSMemMalloc defaultConfig 8 runF6 16 = some (runF7.1, 4104) ∧
    usedOf runF7.1 24 = 0 ∧ nextOf runF7.1 24 = 312 ∧
    ¬ FramePost defaultConfig runF6
      (((insert 4416 (insert 4392 (insert 4128 (insert 4104 ∅))) : Set Nat) \ {4104})
        \ {4392}) 24 :=
  ⟨reachable_runF6, by decide, by decide, isBlock_runF6, by decide, by decide, rfl,
    by decide, by decide,
    fun hf => absurd (hf.1 8 16 runF7.1 4104 rfl).1.2.2.2 (by decide)⟩

end AIOS
